import Mathlib

/-!
# Verification of `util::list` and the red-black tree containers

Shallow embedding of `include/core/list.h`, `include/core/map.h`, `include/core/set.h`,
`include/core/rbtree_multi.h` and `include/core/rbtree_node_handle.h`.

A doubly-linked list with sentinel `head_` is represented by the sequence of payloads met when
walking `head_.next, head_.next->next, ...` until the sentinel is reached again, together with the
cached element counter `size_`.  A node pointer into a list is the index of the node in that walk;
the sentinel (the `end()` iterator) is the index `nodes.length`.

A red-black tree is represented by its nodes with their colours; a pointer to a node or to a free
link is the chain of parent links that leads from it up to the sentinel `head_`.  An iterator of a
tree container is the position of its node in the in-order traversal, which rebalancing leaves
as it is.  The headers `util_dllist.h`, `util_rbtree.h`, `rbtree_base.h` and `rbtree.h` are not
among the sources; what the embedded functions use from them is modelled from the specification
and marked as such.
-/

namespace util

/-! ## Comparators -/

/-- A comparator `comp` is a strict weak ordering. -/
structure strict_weak_order {α : Type} (comp : α → α → Bool) : Prop where
  irrefl : ∀ a, comp a a = false
  trans : ∀ a b c, comp a b = true → comp b c = true → comp a c = true
  incomp_trans : ∀ a b c, comp a b = false → comp b a = false → comp b c = false →
    comp c b = false → comp a c = false ∧ comp c a = false

/-- Two values are equivalent under `comp` when neither compares less than the other. -/
def equiv {α : Type} (comp : α → α → Bool) (a b : α) : Bool :=
  !comp a b && !comp b a

/-- A sequence is ordered under `comp` when no element compares less than an element that
precedes it. -/
def ordered {α : Type} (comp : α → α → Bool) (l : List α) : Prop :=
  l.Pairwise (fun a b => comp b a = false)

/-! ## Errors -/

/-- The exceptions thrown by the containers: `std::logic_error` and `std::out_of_range`. -/
inductive error where
  | logic_error
  | out_of_range
deriving DecidableEq, Repr

/-! ## `util::list` -/

/-- The container `util::list<Ty>`: the nodes linked between `head_.next` and the sentinel, the
counter `size_`, and the allocator base sub-object (allocators compare equal when their
identities are equal). -/
structure list (α : Type) where
  nodes : List α
  size_ : Nat
  alloc : Nat
deriving DecidableEq, Repr

/-- Class invariant of `list`: `size_` counts the linked nodes. -/
def list.wf {α : Type} (l : list α) : Prop :=
  l.size_ = l.nodes.length

/-- `list::size()`. -/
def list.size {α : Type} (l : list α) : Nat :=
  l.size_

/-- Modelled from the spec: `dllist_is_empty(head)` of `util_dllist.h` (not in the sources), true
when the sentinel is linked to itself. -/
def dllist_is_empty {α : Type} (head : List α) : Bool :=
  head.isEmpty

/-- Modelled from the spec: `dllist_make_cycle(head)` of `util_dllist.h` (not in the sources),
which links the sentinel to itself, leaving an empty chain. -/
def dllist_make_cycle {α : Type} (_head : List α) : List α :=
  []

/-- Modelled from the spec: `dllist_remove(first, last)` of `util_dllist.h` (not in the sources):
unlinks the nodes `[first, last)` from the chain `head`; the result is the unlinked run and the
remaining chain. -/
def dllist_remove {α : Type} (head : List α) (first last : Nat) : List α × List α :=
  ((head.take last).drop first, head.take first ++ head.drop last)

/-- Modelled from the spec: `dllist_insert_before(pos, first, pre_last)` of `util_dllist.h` (not in
the sources): links the run `first .. pre_last` in front of the node `pos` of the chain `head`. -/
def dllist_insert_before {α : Type} (head : List α) (pos : Nat) (run : List α) : List α :=
  head.take pos ++ run ++ head.drop pos

/-- Modelled from the spec: `dllist_insert_after(pos, first, last)` of `util_dllist.h` (not in the
sources) applied to the sentinel: links the run right after the sentinel. -/
def dllist_insert_after {α : Type} (head : List α) (run : List α) : List α :=
  run ++ head

/-- The loop of `list::merge_impl(dllist_node_t*, dllist_node_t*, Comp)`.  The first list is the
part of the target chain from `p` on, the second the source chain from `p_first` on
(`p_first == p_last` at the top of every iteration).  The result is the target chain from the
entry value of `p` on and what is left of the source chain when the loop is left. -/
def merge_loop {α : Type} (comp : α → α → Bool) : List α → List α → List α × List α
  | [], src => ([], src)
  | p :: tgt, src =>
    if dllist_is_empty src then (p :: tgt, src)
    else
      let run := src.takeWhile (fun x => comp x p)
      let rest := src.dropWhile (fun x => comp x p)
      let r := merge_loop comp tgt rest
      (run ++ p :: r.1, r.2)

/-- `list::merge_impl(dllist_node_t* head_tgt, dllist_node_t* head_src, Comp comp)`: the result
is the pair of the target chain and the source chain after the call. -/
def merge_impl {α : Type} (comp : α → α → Bool) (head_tgt head_src : List α) :
    List α × List α :=
  let r := merge_loop comp head_tgt head_src
  if dllist_is_empty r.2 then (r.1, r.2)
  else (dllist_insert_before r.1 r.1.length r.2, dllist_make_cycle r.2)

/-- Capacity of the bin array of `list::sort`. -/
def max_bins : Nat := 25

/-- The loop `for (bin = 0; (bin < maxbin) && !dllist_is_empty(&bin_lists[bin]); ++bin)` of
`list::sort`, started at the bin that heads the given list of bins: the result is the number of
bins passed, `tmp_list` and the bins after the loop. -/
def sort_carry {α : Type} (comp : α → α → Bool) (tmp_list : List α) :
    List (List α) → Nat × List α × List (List α)
  | [] => (0, tmp_list, [])
  | b :: bin_lists =>
    if dllist_is_empty b then (0, tmp_list, b :: bin_lists)
    else
      let m := merge_impl comp tmp_list b
      let r := sort_carry comp m.1 bin_lists
      (r.1 + 1, r.2.1, m.2 :: r.2.2)

/-- One iteration of the `while (!dllist_is_empty(&head_))` loop of `list::sort` for the node `p`
taken from the front of the list; `maxbin` is the length of `bin_lists`. -/
def sort_step {α : Type} (comp : α → α → Bool) (p : α) (bin_lists : List (List α)) :
    List (List α) :=
  let tmp_list := dllist_insert_before [] 0 [p]
  let r := sort_carry comp tmp_list bin_lists
  let bin := r.1
  if bin = max_bins then
    r.2.2.set (bin - 1) (merge_impl comp (r.2.2.getD (bin - 1) []) r.2.1).1
  else
    let bins := if bin = r.2.2.length then r.2.2 ++ [dllist_make_cycle []] else r.2.2
    bins.set bin (dllist_insert_after (bins.getD bin []) r.2.1)

/-- The `while (!dllist_is_empty(&head_))` loop of `list::sort`. -/
def sort_loop {α : Type} (comp : α → α → Bool) : List α → List (List α) → List (List α)
  | [], bin_lists => bin_lists
  | p :: head, bin_lists => sort_loop comp head (sort_step comp p bin_lists)

/-- The loop `for (bin = 1; bin < maxbin; ++bin)` of `list::sort` ("merge up"): `prev` is
`bin_lists[bin - 1]`, the list holds the bins from `bin` on; the result is the last bin. -/
def sort_merge_up {α : Type} (comp : α → α → Bool) (prev : List α) : List (List α) → List α
  | [] => prev
  | b :: bin_lists => sort_merge_up comp (merge_impl comp b prev).1 bin_lists

/-- `list::sort(Comp comp)` when no comparison throws. -/
def list.sort {α : Type} (l : list α) (comp : α → α → Bool) : list α :=
  if l.size_ < 2 then l
  else
    match sort_loop comp l.nodes [] with
    | [] => ⟨[], l.size_, l.alloc⟩
    | b :: bin_lists =>
      ⟨dllist_insert_before [] 0 (sort_merge_up comp b bin_lists), l.size_, l.alloc⟩

/-- `list::splice_impl(const_iterator pos, list&& other, const_iterator first, const_iterator
last)` called on `self` for a list `other` that is a different object
(`std::addressof(other) != this`).  `always_equal` is `is_alloc_always_equal<alloc_type>::value`;
the iterators are node indices, `first` and `last` into `other` and `pos` into `self`.  The loop
that walks `p` from `p_first` to `p_last` counts the nodes of `[first, last)`.  The result is
`(self, other)` after the call, or the exception thrown. -/
def list.splice_impl {α : Type} (always_equal : Bool) (self other : list α)
    (pos first last : Nat) : Except error (list α × list α) :=
  if first = last then .ok (self, other)
  else if !always_equal && !(self.alloc == other.alloc) then .error error.logic_error
  else
    let count := ((other.nodes.take last).drop first).length
    let r := dllist_remove other.nodes first last
    .ok (⟨dllist_insert_before self.nodes pos r.1, self.size_ + count, self.alloc⟩,
         ⟨r.2, other.size_ - count, other.alloc⟩)

/-- The comparator of the stability check of the specification: pairs compared by their first
component. -/
def less_first (a b : Nat × String) : Bool :=
  decide (a.1 < b.1)

/-- Every bin of the bin array is ordered. -/
def bins_ordered {α : Type} (comp : α → α → Bool) (bins : List (List α)) : Prop :=
  ∀ b ∈ bins, ordered comp b

/-! ## Red-black tree links (`util_rbtree.h`) -/

/-- Modelled from the spec: the colour of a tree node (`util_rbtree.h` is not in the sources). -/
inductive rbtree_color where
  | red
  | black
deriving DecidableEq, Repr

/-- Modelled from the spec: a child link of `rbtree_node_t` (`util_rbtree.h` is not in the
sources): the null link, or a node with its colour, left subtree, payload and right subtree. -/
inductive rbtree_node (α : Type) where
  | nil : rbtree_node α
  | node (color : rbtree_color) (left : rbtree_node α) (value : α) (right : rbtree_node α) :
      rbtree_node α
deriving DecidableEq, Repr

/-- Modelled from the spec: the chain of parent links that leads from a link of the tree up to
the sentinel `head_` (`util_rbtree.h` is not in the sources).  `left c up v r` says that the link
is the left link of a parent with colour `c`, payload `v` and right subtree `r`, whose own chain
is `up`; `right c l v up` says that it is the right link of a parent with left subtree `l`. -/
inductive rbtree_path (α : Type) where
  | head : rbtree_path α
  | left (color : rbtree_color) (up : rbtree_path α) (value : α) (right : rbtree_node α) :
      rbtree_path α
  | right (color : rbtree_color) (left : rbtree_node α) (value : α) (up : rbtree_path α) :
      rbtree_path α
deriving DecidableEq, Repr

/-- Modelled from the spec: a pointer to an `rbtree_node_t` of a tree (`util_rbtree.h` is not in
the sources): the node's parent chain and the node's own fields. -/
structure rbtree_cursor (α : Type) where
  path : rbtree_path α
  color : rbtree_color
  left : rbtree_node α
  value : α
  right : rbtree_node α
deriving DecidableEq, Repr

/-- The full in-order traversal of a subtree (from the leftmost node, following successors). -/
def rbtree_node.in_order {α : Type} : rbtree_node α → List α
  | .nil => []
  | .node _ l v r => l.in_order ++ v :: r.in_order

/-- The number of nodes on the longest way from a link down to a null link. -/
def rbtree_node.depth {α : Type} : rbtree_node α → Nat
  | .nil => 0
  | .node _ l _ r => max l.depth r.depth + 1

/-- The colour of a link; a null link counts as black. -/
def rbtree_node.color_of {α : Type} : rbtree_node α → rbtree_color
  | .nil => .black
  | .node c _ _ _ => c

/-- Colours the node at a link black. -/
def rbtree_node.set_black {α : Type} : rbtree_node α → rbtree_node α
  | .nil => .nil
  | .node _ l v r => .node .black l v r

/-- The whole tree (the link held by `head_`) when the subtree `t` hangs at the link whose
parent chain is given. -/
def rbtree_path.fill {α : Type} : rbtree_path α → rbtree_node α → rbtree_node α
  | .head, t => t
  | .left c up v r, t => up.fill (.node c t v r)
  | .right c l v up, t => up.fill (.node c l v t)

/-- The payloads that precede, in the in-order traversal of the whole tree, the subtree hanging
at the link with the given parent chain. -/
def rbtree_path.before {α : Type} : rbtree_path α → List α
  | .head => []
  | .left _ up _ _ => up.before
  | .right _ l v up => up.before ++ l.in_order ++ [v]

/-- The payloads that follow, in the in-order traversal of the whole tree, the subtree hanging at
the link with the given parent chain. -/
def rbtree_path.after {α : Type} : rbtree_path α → List α
  | .head => []
  | .left _ up v r => v :: r.in_order ++ up.after
  | .right _ _ _ up => up.after

/-- The iterator that refers to the node under a cursor: the position of the node in the in-order
traversal of its tree. -/
def rbtree_cursor.iterator {α : Type} (p : rbtree_cursor α) : Nat :=
  p.path.before.length + p.left.in_order.length

/-- The cursor of the node an iterator refers to: the node at position `it` of the in-order
traversal of the subtree `t` that hangs at `path`; `none` for the `end()` iterator. -/
def rbtree_node.cursor_at {α : Type} : rbtree_node α → Nat → rbtree_path α →
    Option (rbtree_cursor α)
  | .nil, _, _ => none
  | .node c l v r, it, path =>
    if it < l.in_order.length then l.cursor_at it (.left c path v r)
    else if it = l.in_order.length then some ⟨path, c, l, v, r⟩
    else r.cursor_at (it - l.in_order.length - 1) (.right c l v path)

/-- The null link that lies, in the in-order traversal of the subtree `t` hanging at `path`,
right in front of position `it`. -/
def rbtree_node.slot_at {α : Type} : rbtree_node α → Nat → rbtree_path α → rbtree_path α
  | .nil, _, path => path
  | .node c l v r, it, path =>
    if it ≤ l.in_order.length then l.slot_at it (.left c path v r)
    else r.slot_at (it - l.in_order.length - 1) (.right c l v path)

/-- Modelled from the spec: `rbtree_find_insert_pos(head, key, comp)` of `util_rbtree.h` (not in
the sources), the descent for the multi-key tree: it goes left where `key` compares less than the
node's key and right otherwise, so that the free link found lies after the last node with an
equivalent key.  The result is the parent chain of that free link. -/
def rbtree_find_insert_pos {α κ : Type} (get_key : α → κ) (comp : κ → κ → Bool) (key : κ) :
    rbtree_node α → rbtree_path α → rbtree_path α
  | .nil, path => path
  | .node c l v r, path =>
    if comp key (get_key v) then rbtree_find_insert_pos get_key comp key l (.left c path v r)
    else rbtree_find_insert_pos get_key comp key r (.right c l v path)

/-- Modelled from the spec: `rbtree_find_insert_pos(head, hint, key, comp)` of `util_rbtree.h`
(not in the sources): when the hint is adjacent to a correct location, that is no key compares
less than the key of the node in front of `hint` and the key of the node at `hint` does not
compare less than `key`, the free link right in front of `hint` is taken; otherwise the full
descent is made. -/
def rbtree_find_insert_pos_hint {α κ : Type} (get_key : α → κ) (comp : κ → κ → Bool)
    (root : rbtree_node α) (hint : Nat) (key : κ) : rbtree_path α :=
  let fits_next :=
    match root.in_order[hint]? with
    | none => true
    | some x => !comp (get_key x) key
  let fits_prev :=
    match hint with
    | 0 => true
    | h + 1 =>
      match root.in_order[h]? with
      | none => false
      | some x => !comp key (get_key x)
  if fits_prev && fits_next then root.slot_at hint .head
  else rbtree_find_insert_pos get_key comp key root .head

/-- Modelled from the spec: the pair returned by `rbtree_find_insert_unique_pos` (`util_rbtree.h`
is not in the sources): `second == 0` when a node with an equivalent key exists, and then
`first` with `node` is that node; otherwise `first` is the free link where a node with the key
belongs (the left link of its parent when `second < 0`, the right link when `second > 0`) and
`node` is null. -/
structure rbtree_unique_pos (α : Type) where
  first : rbtree_path α
  node : rbtree_node α
  second : Int
deriving DecidableEq, Repr

/-- Modelled from the spec: `rbtree_find_insert_unique_pos(head, key, comp)` of `util_rbtree.h`
(not in the sources): the descent that stops at the first node with an equivalent key. -/
def rbtree_find_insert_unique_pos {α κ : Type} (get_key : α → κ) (comp : κ → κ → Bool)
    (key : κ) : rbtree_node α → rbtree_path α → Int → rbtree_unique_pos α
  | .nil, path, side => ⟨path, .nil, side⟩
  | .node c l v r, path, _ =>
    if comp key (get_key v) then
      rbtree_find_insert_unique_pos get_key comp key l (.left c path v r) (-1)
    else if comp (get_key v) key then
      rbtree_find_insert_unique_pos get_key comp key r (.right c l v path) 1
    else ⟨path, .node c l v r, 0⟩

/-- Modelled from the spec: the rebalancing loop of `rbtree_insert` of `util_rbtree.h` (not in the
sources) for the red node with subtrees `zl`, `zr` and payload `zv` that hangs at `path`:
a red uncle is recoloured together with the parent and the loop goes on at the grandparent,
a black uncle ends it with one or two rotations, and at the end the root is black. -/
def rbtree_insert_fixup {α : Type} :
    rbtree_path α → rbtree_node α → α → rbtree_node α → rbtree_node α
  | .head, zl, zv, zr => .node .black zl zv zr
  | .left .black up pv s, zl, zv, zr => up.fill (.node .black (.node .red zl zv zr) pv s)
  | .right .black s pv up, zl, zv, zr => up.fill (.node .black s pv (.node .red zl zv zr))
  | .left .red .head pv s, zl, zv, zr => .node .black (.node .red zl zv zr) pv s
  | .right .red s pv .head, zl, zv, zr => .node .black s pv (.node .red zl zv zr)
  | .left .red (.left _ up gv u) pv s, zl, zv, zr =>
    match u with
    | .node .red ul uv ur =>
      rbtree_insert_fixup up (.node .black (.node .red zl zv zr) pv s) gv (.node .black ul uv ur)
    | _ => up.fill (.node .black (.node .red zl zv zr) pv (.node .red s gv u))
  | .right .red s pv (.left _ up gv u), zl, zv, zr =>
    match u with
    | .node .red ul uv ur =>
      rbtree_insert_fixup up (.node .black s pv (.node .red zl zv zr)) gv (.node .black ul uv ur)
    | _ => up.fill (.node .black (.node .red s pv zl) zv (.node .red zr gv u))
  | .left .red (.right _ u gv up) pv s, zl, zv, zr =>
    match u with
    | .node .red ul uv ur =>
      rbtree_insert_fixup up (.node .black ul uv ur) gv (.node .black (.node .red zl zv zr) pv s)
    | _ => up.fill (.node .black (.node .red u gv zl) zv (.node .red zr pv s))
  | .right .red s pv (.right _ u gv up), zl, zv, zr =>
    match u with
    | .node .red ul uv ur =>
      rbtree_insert_fixup up (.node .black ul uv ur) gv (.node .black s pv (.node .red zl zv zr))
    | _ => up.fill (.node .black (.node .red u gv s) pv (.node .red zl zv zr))

/-- Modelled from the spec: `rbtree_insert(head, node, parent, is_left)` of `util_rbtree.h` (not
in the sources): links the node as a leaf at the free link (given by its parent chain), colours
it red and rebalances.  The result is the tree linked to `head_`. -/
def rbtree_insert {α : Type} (pos : rbtree_path α) (node : α) : rbtree_node α :=
  rbtree_insert_fixup pos .nil node .nil

/-- Modelled from the spec: the walk of `rbtree_remove` (`util_rbtree.h` is not in the sources)
to the in-order successor: the leftmost node of the subtree whose root has the given fields and
hangs at `path`. -/
def rbtree_leftmost {α : Type} :
    rbtree_color → rbtree_node α → α → rbtree_node α → rbtree_path α → rbtree_cursor α
  | c, .nil, v, r, path => ⟨path, c, .nil, v, r⟩
  | c, .node lc ll lv lr, v, r, path => rbtree_leftmost lc ll lv lr (.left c path v r)

/-- Modelled from the spec: the steps of the deletion fix-up of `rbtree_remove` (`util_rbtree.h`
is not in the sources) for a node `x` that is the left child of a parent with colour `pc` and
payload `pv` and has the black sibling `w`: a red far nephew or a red near nephew ends the loop
with rotations, otherwise the sibling is coloured red.  The result is the subtree at the parent's
place and whether the black deficit is now at the parent. -/
def rbtree_remove_fix_left {α : Type} (pc : rbtree_color) (x : rbtree_node α) (pv : α)
    (w : rbtree_node α) : rbtree_node α × Bool :=
  match w with
  | .node .black wl wv (.node .red a b c) =>
    (.node pc (.node .black x pv wl) wv (.node .black a b c), false)
  | .node .black (.node .red a b c) wv wr =>
    (.node pc (.node .black x pv a) b (.node .black c wv wr), false)
  | .node _ wl wv wr => (.node pc x pv (.node .red wl wv wr), true)
  | .nil => (.node pc x pv .nil, true)

/-- Modelled from the spec: the mirror image of `rbtree_remove_fix_left` for a node `x` that is
the right child of its parent and has the black sibling `w` on the left. -/
def rbtree_remove_fix_right {α : Type} (pc : rbtree_color) (w : rbtree_node α) (pv : α)
    (x : rbtree_node α) : rbtree_node α × Bool :=
  match w with
  | .node .black (.node .red a b c) wv wr =>
    (.node pc (.node .black a b c) wv (.node .black wr pv x), false)
  | .node .black wl wv (.node .red a b c) =>
    (.node pc (.node .black wl wv a) b (.node .black c pv x), false)
  | .node _ wl wv wr => (.node pc (.node .red wl wv wr) pv x, true)
  | .nil => (.node pc .nil pv x, true)

/-- Modelled from the spec: the end of the deletion fix-up of `rbtree_remove` (`util_rbtree.h` is
not in the sources): the node at which the loop stops is coloured black. -/
def rbtree_remove_finish {α : Type} (r : rbtree_node α × Bool) : rbtree_node α :=
  if r.2 then r.1.set_black else r.1

/-- Modelled from the spec: the loop of the deletion fix-up of `rbtree_remove` (`util_rbtree.h` is
not in the sources) for a black or null `x` hanging at `path` whose subtree lacks one black node:
a red sibling is first rotated above the parent, then the steps for a black sibling are made, and
the loop goes on at the parent while the deficit stays and the parent is black. -/
def rbtree_remove_fixup {α : Type} : rbtree_path α → rbtree_node α → rbtree_node α
  | .head, x => x
  | .left pc up pv w, x =>
    match w with
    | .node .red wl wv wr =>
      up.fill (.node .black (rbtree_remove_finish (rbtree_remove_fix_left .red x pv wl)) wv wr)
    | _ =>
      if (rbtree_remove_fix_left pc x pv w).2 && pc = .black then
        rbtree_remove_fixup up (rbtree_remove_fix_left pc x pv w).1
      else up.fill (rbtree_remove_finish (rbtree_remove_fix_left pc x pv w))
  | .right pc w pv up, x =>
    match w with
    | .node .red wl wv wr =>
      up.fill (.node .black wl wv (rbtree_remove_finish (rbtree_remove_fix_right .red wr pv x)))
    | _ =>
      if (rbtree_remove_fix_right pc w pv x).2 && pc = .black then
        rbtree_remove_fixup up (rbtree_remove_fix_right pc w pv x).1
      else up.fill (rbtree_remove_finish (rbtree_remove_fix_right pc w pv x))

/-- Modelled from the spec: the unlinking step of `rbtree_remove` (`util_rbtree.h` is not in the
sources): a node of colour `c` with at most one child is replaced at `path` by its child; when
the node was black, a red child is coloured black and otherwise the fix-up loop runs. -/
def rbtree_unlink {α : Type} (path : rbtree_path α) (c : rbtree_color)
    (child : rbtree_node α) : rbtree_node α :=
  match c, child with
  | .red, _ => path.fill child
  | .black, .node .red l v r => path.fill (.node .black l v r)
  | .black, _ => rbtree_remove_fixup path child

/-- Modelled from the spec: `rbtree_remove(head, node)` of `util_rbtree.h` (not in the sources):
a node with at most one child is unlinked; a node with two children first changes places with
its in-order successor, which takes over its colour, and is unlinked from there.  The result is
the tree linked to `head_`; the node that follows the removed one keeps the position the removed
node had in the in-order traversal. -/
def rbtree_remove {α : Type} (p : rbtree_cursor α) : rbtree_node α :=
  match p.left, p.right with
  | .nil, r => rbtree_unlink p.path p.color r
  | .node lc ll lv lr, .nil => rbtree_unlink p.path p.color (.node lc ll lv lr)
  | .node lc ll lv lr, .node rc rl rv rr =>
    let succ := (rbtree_leftmost rc rl rv rr .head).value
    let y := rbtree_leftmost rc rl rv rr (.right p.color (.node lc ll lv lr) succ p.path)
    rbtree_unlink y.path y.color y.right

/-- No red node has a red child. -/
def rbtree_node.no_red_red {α : Type} : rbtree_node α → Bool
  | .nil => true
  | .node c l _ r =>
    (c = .black || (l.color_of = .black && r.color_of = .black)) && l.no_red_red && r.no_red_red

/-- The number of black nodes on the ways from a link down to a null link, when it is the same
on every way. -/
def rbtree_node.black_height {α : Type} : rbtree_node α → Option Nat
  | .nil => some 0
  | .node c l _ r =>
    match l.black_height, r.black_height with
    | some a, some b => if a = b then some (if c = .black then a + 1 else a) else none
    | _, _ => none

/-- The red-black invariants of a subtree: `t.balanced c n` says that the root of `t` has colour
`c` (black for the null link), that no red node of `t` has a red child and that every way from
the root of `t` down to a null link passes exactly `n` black nodes. -/
inductive rbtree_node.balanced {α : Type} : rbtree_node α → rbtree_color → Nat → Prop where
  | nil : rbtree_node.balanced .nil .black 0
  | red {l r : rbtree_node α} {v : α} {n : Nat} :
      l.balanced .black n → r.balanced .black n →
      rbtree_node.balanced (.node .red l v r) .red n
  | black {l r : rbtree_node α} {v : α} {n : Nat} {cl cr : rbtree_color} :
      l.balanced cl n → r.balanced cr n →
      rbtree_node.balanced (.node .black l v r) .black (n + 1)

/-- The red-black invariants of the rest of a tree around a link: `path.balanced c n` says that
the whole tree has a black root and keeps the invariants whenever a subtree with
`balanced c n` hangs at the link. -/
inductive rbtree_path.balanced {α : Type} : rbtree_path α → rbtree_color → Nat → Prop where
  | head {n : Nat} : rbtree_path.balanced .head .black n
  | left_red {up : rbtree_path α} {v : α} {r : rbtree_node α} {n : Nat} :
      up.balanced .red n → r.balanced .black n →
      rbtree_path.balanced (.left .red up v r) .black n
  | right_red {up : rbtree_path α} {v : α} {l : rbtree_node α} {n : Nat} :
      l.balanced .black n → up.balanced .red n →
      rbtree_path.balanced (.right .red l v up) .black n
  | left_black {up : rbtree_path α} {v : α} {r : rbtree_node α} {n : Nat}
      {c cr : rbtree_color} :
      up.balanced .black (n + 1) → r.balanced cr n →
      rbtree_path.balanced (.left .black up v r) c n
  | right_black {up : rbtree_path α} {v : α} {l : rbtree_node α} {n : Nat}
      {c cl : rbtree_color} :
      l.balanced cl n → up.balanced .black (n + 1) →
      rbtree_path.balanced (.right .black l v up) c n

/-! ## Tree containers (`rbtree_base`, `rbtree`, `rbtree_multi`, `map`) -/

/-- Modelled from the spec: the state of a tree container, `rbtree_base<NodeTy, Alloc, Comp>`
(`rbtree_base.h` is not in the sources; `head_` and `size_` are the members the sources use): the
tree linked to the sentinel `head_`, the counter `size_` and the allocator base sub-object.  An
iterator of the container is the position of its node in the in-order traversal; `end()` is the
number of nodes. -/
structure rbtree_base (α : Type) where
  root : rbtree_node α
  size_ : Nat
  alloc : Nat
deriving DecidableEq, Repr

/-- Class invariant of the tree containers: `size_` counts the nodes of the tree. -/
def rbtree_base.wf {α : Type} (t : rbtree_base α) : Prop :=
  t.size_ = t.root.in_order.length

/-- Modelled from the spec: `rbtree_base::size()` (`rbtree_base.h` is not in the sources). -/
def rbtree_base.size {α : Type} (t : rbtree_base α) : Nat :=
  t.size_

/-- Modelled from the spec: `rbtree_base::end()` (`rbtree_base.h` is not in the sources): the
iterator of the sentinel `head_`. -/
def rbtree_base.end_ {α : Type} (t : rbtree_base α) : Nat :=
  t.root.in_order.length

/-- The keys of a sequence of payloads never decrease under `comp`. -/
def keys_ordered {α κ : Type} (get_key : α → κ) (comp : κ → κ → Bool) (l : List α) : Prop :=
  l.Pairwise (fun a b => comp (get_key b) (get_key a) = false)

/-- The keys of a sequence of payloads strictly increase under `comp`. -/
def keys_increasing {α κ : Type} (get_key : α → κ) (comp : κ → κ → Bool) (l : List α) : Prop :=
  l.Pairwise (fun a b => comp (get_key a) (get_key b) = true)

/-- Modelled from the spec: the walk of `rbtree_base::find(key)` (`rbtree_base.h` is not in the
sources) from the root, descending left or right by the comparator; `none` on a miss. -/
def rbtree_find {α κ : Type} (get_key : α → κ) (comp : κ → κ → Bool) (key : κ) :
    rbtree_node α → rbtree_path α → Option (rbtree_cursor α)
  | .nil, _ => none
  | .node c l v r, path =>
    if comp key (get_key v) then rbtree_find get_key comp key l (.left c path v r)
    else if comp (get_key v) key then rbtree_find get_key comp key r (.right c l v path)
    else some ⟨path, c, l, v, r⟩

/-- Modelled from the spec: `rbtree_base::find(key)` (`rbtree_base.h` is not in the sources): the
iterator of a node with an equivalent key, `end()` on a miss. -/
def rbtree_base.find {α κ : Type} (get_key : α → κ) (comp : κ → κ → Bool) (t : rbtree_base α)
    (key : κ) : Nat :=
  match rbtree_find get_key comp key t.root .head with
  | some p => p.iterator
  | none => t.end_

/-- Modelled from the spec: `rbtree_base::erase(const_iterator pos)` (`rbtree_base.h` is not in
the sources): unlinks the node at `pos`, decrements `size_`, destroys the node; erasing `end()`
is outside the contract and leaves the container as it is. -/
def rbtree_base.erase {α : Type} (t : rbtree_base α) (pos : Nat) : rbtree_base α :=
  match t.root.cursor_at pos .head with
  | none => t
  | some p => ⟨rbtree_remove p, t.size_ - 1, t.alloc⟩

/-- Modelled from the spec: `rbtree::erase(const key_type& key)` of the unique-key tree
(`rbtree.h` is not in the sources): erases the node found for `key`, if any; the result is the
container and the number of erased nodes. -/
def rbtree.erase_key {α κ : Type} (get_key : α → κ) (comp : κ → κ → Bool) (t : rbtree_base α)
    (key : κ) : rbtree_base α × Nat :=
  let it := t.find get_key comp key
  if it = t.end_ then (t, 0) else (t.erase it, 1)

/-- The iterator made from the node a search result points at (`iterator(result.first)`). -/
def rbtree_unique_pos.iterator {α : Type} (result : rbtree_unique_pos α) : Nat :=
  match result.node with
  | .nil => result.first.before.length
  | .node _ l _ _ => result.first.before.length + l.in_order.length

/-- Modelled from the spec: `rbtree::insert(const value_type& val)` of the unique-key tree
(`rbtree.h` is not in the sources): looks the key up in "stop at first equal" mode; an
equivalent key gives the existing iterator and `false`, otherwise a node is made for the value
and linked.  The result is the container and the returned pair. -/
def rbtree.insert {α κ : Type} (get_key : α → κ) (comp : κ → κ → Bool) (t : rbtree_base α)
    (val : α) : rbtree_base α × (Nat × Bool) :=
  let result := rbtree_find_insert_unique_pos get_key comp (get_key val) t.root .head (-1)
  if result.second = 0 then (t, (result.iterator, false))
  else
    (⟨rbtree_insert result.first val, t.size_ + 1, t.alloc⟩, (result.first.before.length, true))

/-- Modelled from the spec: the loop of the unique-key `rbtree::merge_impl` (`rbtree.h` is not in
the sources), see `rbtree.merge_impl`: `node` is the iterator of the current node of `other`; the
loop is left when `node` is `other.end()`.  `none` when the fuel is used up. -/
def rbtree.merge_loop {α κ : Type} (get_key : α → κ) (comp : κ → κ → Bool) :
    Nat → rbtree_base α → rbtree_base α → Nat → Option (rbtree_base α × rbtree_base α)
  | 0, _, _, _ => none
  | fuel + 1, self, other, node =>
    match other.root.cursor_at node .head with
    | none => some (self, other)
    | some p =>
      let result :=
        rbtree_find_insert_unique_pos get_key comp (get_key p.value) self.root .head (-1)
      if result.second = 0 then
        if node + 1 = other.end_ then some (self, other)
        else rbtree.merge_loop get_key comp fuel self other (node + 1)
      else
        let other' : rbtree_base α := ⟨rbtree_remove p, other.size_ - 1, other.alloc⟩
        let self' : rbtree_base α :=
          ⟨rbtree_insert result.first p.value, self.size_ + 1, self.alloc⟩
        if node = other'.end_ then some (self', other')
        else rbtree.merge_loop get_key comp fuel self' other' node

/-- Modelled from the spec: `rbtree::merge_impl(rbtree_base&& other)` of the unique-key tree
(`rbtree.h` is not in the sources) for a tree `other` that is a different object: starting at
the first node of `other`, every node whose key has no equivalent in `self` is removed from
`other` and linked into `self`; a node with a colliding key is left untouched in `other`.
Incompatible allocators give a logic error.  The result is `(self, other)` after the call;
`none` stands for a loop that does not end within as many rounds as `other` has nodes. -/
def rbtree.merge_impl {α κ : Type} (always_equal : Bool) (get_key : α → κ)
    (comp : κ → κ → Bool) (self other : rbtree_base α) :
    Option (Except error (rbtree_base α × rbtree_base α)) :=
  if other.size_ = 0 then some (.ok (self, other))
  else if !always_equal && !(self.alloc == other.alloc) then some (.error .logic_error)
  else
    match rbtree.merge_loop get_key comp other.root.in_order.length self other 0 with
    | none => none
    | some r => some (.ok r)

/-- `rbtree_multi::emplace(Args&&... args)`, where `val` is the payload constructed from the
arguments: the result is the container and the returned iterator. -/
def rbtree_multi.emplace {α κ : Type} (get_key : α → κ) (comp : κ → κ → Bool)
    (t : rbtree_base α) (val : α) : rbtree_base α × Nat :=
  let result := rbtree_find_insert_pos get_key comp (get_key val) t.root .head
  (⟨rbtree_insert result val, t.size_ + 1, t.alloc⟩, result.before.length)

/-- `rbtree_multi::emplace_hint(const_iterator hint, Args&&... args)`. -/
def rbtree_multi.emplace_hint {α κ : Type} (get_key : α → κ) (comp : κ → κ → Bool)
    (t : rbtree_base α) (hint : Nat) (val : α) : rbtree_base α × Nat :=
  let result := rbtree_find_insert_pos_hint get_key comp t.root hint (get_key val)
  (⟨rbtree_insert result val, t.size_ + 1, t.alloc⟩, result.before.length)

/-- `rbtree_multi::insert_impl(InputIt first, InputIt last)`: every value of the range is
emplaced with the hint `end()`. -/
def rbtree_multi.insert_impl {α κ : Type} (get_key : α → κ) (comp : κ → κ → Bool) :
    rbtree_base α → List α → rbtree_base α
  | t, [] => t
  | t, val :: rest =>
    rbtree_multi.insert_impl get_key comp (rbtree_multi.emplace_hint get_key comp t t.end_ val).1
      rest

/-- A node handle (`rbtree_node_handle`): the payload of the owned node, if any, and the
allocator. -/
structure rbtree_node_handle (α : Type) where
  node_ : Option α
  alloc : Nat
deriving DecidableEq, Repr

/-- `rbtree_node_handle::empty()`. -/
def rbtree_node_handle.empty {α : Type} (nh : rbtree_node_handle α) : Bool :=
  nh.node_.isNone

/-- `rbtree_multi::insert(node_type&& nh)`: the result is the container, the node handle and the
returned iterator, or the exception thrown. -/
def rbtree_multi.insert_node {α κ : Type} (always_equal : Bool) (get_key : α → κ)
    (comp : κ → κ → Bool) (t : rbtree_base α) (nh : rbtree_node_handle α) :
    Except error (rbtree_base α × rbtree_node_handle α × Nat) :=
  match nh.node_ with
  | none => .ok (t, nh, t.end_)
  | some node =>
    if !always_equal && !(t.alloc == nh.alloc) then .error .logic_error
    else
      let result := rbtree_find_insert_pos get_key comp (get_key node) t.root .head
      .ok (⟨rbtree_insert result node, t.size_ + 1, t.alloc⟩, ⟨none, nh.alloc⟩,
        result.before.length)

/-- The loop of `rbtree_multi::merge_impl`: the current node is the first node of `other` (the
successor returned by `rbtree_remove` is first again); the loop is left when `other` has no
node left.  `none` when the fuel is used up. -/
def rbtree_multi.merge_loop {α κ : Type} (get_key : α → κ) (comp : κ → κ → Bool) :
    Nat → rbtree_base α → rbtree_base α → Option (rbtree_base α × rbtree_base α)
  | 0, _, _ => none
  | fuel + 1, self, other =>
    match other.root.cursor_at 0 .head with
    | none => some (self, other)
    | some p =>
      let result := rbtree_find_insert_pos get_key comp (get_key p.value) self.root .head
      let other' : rbtree_base α := ⟨rbtree_remove p, other.size_ - 1, other.alloc⟩
      let self' : rbtree_base α := ⟨rbtree_insert result p.value, self.size_ + 1, self.alloc⟩
      if 0 = other'.end_ then some (self', other')
      else rbtree_multi.merge_loop get_key comp fuel self' other'

/-- `rbtree_multi::merge_impl(rbtree_base&& other)` for a tree `other` that is a different
object; `other.head_.parent` is the first node of `other` (its `begin()`).  The result is
`(self, other)` after the call or the exception thrown; `none` stands for a loop that does not
end within as many rounds as `other` has nodes. -/
def rbtree_multi.merge_impl {α κ : Type} (always_equal : Bool) (get_key : α → κ)
    (comp : κ → κ → Bool) (self other : rbtree_base α) :
    Option (Except error (rbtree_base α × rbtree_base α)) :=
  if other.size_ = 0 then some (.ok (self, other))
  else if !always_equal && !(self.alloc == other.alloc) then some (.error .logic_error)
  else
    match rbtree_multi.merge_loop get_key comp other.root.in_order.length self other with
    | none => none
    | some r => some (.ok r)

/-- The loop of `rbtree_multi::assign_impl` that reuses the nodes of the old tree: `tmp` holds
the old nodes still in the temporary chain, the second list the input values not yet read; the
result is the container and the input values left. -/
def rbtree_multi.assign_loop {α κ : Type} (get_key : α → κ) (comp : κ → κ → Bool) :
    rbtree_base α → List α → List α → rbtree_base α × List α
  | t, [], input => (t, input)
  | t, _ :: _, [] => (t, [])
  | t, _ :: tmp, val :: input =>
    let result := rbtree_find_insert_pos_hint get_key comp t.root t.end_ (get_key val)
    rbtree_multi.assign_loop get_key comp ⟨rbtree_insert result val, t.size_ + 1, t.alloc⟩ tmp
      input

/-- `rbtree_multi::assign_impl(InputIt first, InputIt last, ...)` (both overloads: a reused node
takes the input value by assignment or by reconstruction).  `temp_chain_t tmp(std::move(*this))`
(`rbtree_base.h` is not in the sources, the list container has the same helper) takes all nodes
out of the container, which is then empty with `size_ == 0`; nodes left in `tmp` are
destroyed. -/
def rbtree_multi.assign_impl {α κ : Type} (get_key : α → κ) (comp : κ → κ → Bool)
    (t : rbtree_base α) (input : List α) : rbtree_base α :=
  if t.size_ ≠ 0 then
    let r := rbtree_multi.assign_loop get_key comp ⟨.nil, 0, t.alloc⟩ t.root.in_order input
    rbtree_multi.insert_impl get_key comp r.1 r.2
  else rbtree_multi.insert_impl get_key comp t input

/-- `map::try_emplace_impl(Key2&& key, Args&&... args)`, where `mapped` is the mapped value
constructed from `args`: the result is the map and the returned pair. -/
def map.try_emplace_impl {κ τ : Type} (comp : κ → κ → Bool) (m : rbtree_base (κ × τ))
    (key : κ) (mapped : τ) : rbtree_base (κ × τ) × (Nat × Bool) :=
  let result := rbtree_find_insert_unique_pos Prod.fst comp key m.root .head (-1)
  if result.second = 0 then (m, (result.iterator, false))
  else
    (⟨rbtree_insert result.first (key, mapped), m.size_ + 1, m.alloc⟩,
      (result.first.before.length, true))

/-- `map::try_emplace(const key_type& key, Args&&... args)`. -/
def map.try_emplace {κ τ : Type} (comp : κ → κ → Bool) (m : rbtree_base (κ × τ))
    (key : κ) (mapped : τ) : rbtree_base (κ × τ) × (Nat × Bool) :=
  map.try_emplace_impl comp m key mapped

/-- `map::at(const key_type& key)`: the result is the map after the call and either the
reference returned, given as the iterator of the entry whose mapped value it refers to, or the
exception thrown. -/
def map.at_ {κ τ : Type} (comp : κ → κ → Bool) (m : rbtree_base (κ × τ)) (key : κ) :
    rbtree_base (κ × τ) × Except error Nat :=
  let it := m.find Prod.fst comp key
  if it = m.end_ then (m, .error .out_of_range) else (m, .ok it)

/-- Applies `f` to the payload of the node at position `it` of the in-order traversal and leaves
the links and colours as they are. -/
def rbtree_node.modify_at {α : Type} (f : α → α) : rbtree_node α → Nat → rbtree_node α
  | .nil, _ => .nil
  | .node c l v r, it =>
    if it < l.in_order.length then .node c (l.modify_at f it) v r
    else if it = l.in_order.length then .node c l (f v) r
    else .node c l v (r.modify_at f (it - l.in_order.length - 1))

/-- Reading through a reference returned by `map::at`. -/
def map.read {κ τ : Type} (m : rbtree_base (κ × τ)) (ref : Nat) : Option τ :=
  (m.root.in_order[ref]?).map Prod.snd

/-- Writing `mapped` through a reference returned by `map::at`. -/
def map.write {κ τ : Type} (m : rbtree_base (κ × τ)) (ref : Nat) (mapped : τ) :
    rbtree_base (κ × τ) :=
  ⟨m.root.modify_at (fun e => (e.1, mapped)) ref, m.size_, m.alloc⟩

/-- The operations of the sequences on a map: `insert(value)`, `try_emplace(key, args)`,
`erase(key)` and `erase(pos)`. -/
inductive map_op (κ τ : Type) where
  | insert (val : κ × τ)
  | try_emplace (key : κ) (mapped : τ)
  | erase_key (key : κ)
  | erase (pos : Nat)
deriving Repr

/-- The map after one operation. -/
def map_op.apply {κ τ : Type} (comp : κ → κ → Bool) (m : rbtree_base (κ × τ)) :
    map_op κ τ → rbtree_base (κ × τ)
  | .insert val => (rbtree.insert Prod.fst comp m val).1
  | .try_emplace key mapped => (map.try_emplace comp m key mapped).1
  | .erase_key key => (rbtree.erase_key Prod.fst comp m key).1
  | .erase pos => m.erase pos

/-- The operations of the sequences on a set: `insert(value)`, `erase(key)` and `erase(pos)`. -/
inductive set_op (κ : Type) where
  | insert (val : κ)
  | erase_key (key : κ)
  | erase (pos : Nat)
deriving Repr

/-- The set after one operation. -/
def set_op.apply {κ : Type} (comp : κ → κ → Bool) (s : rbtree_base κ) :
    set_op κ → rbtree_base κ
  | .insert val => (rbtree.insert id comp s val).1
  | .erase_key key => (rbtree.erase_key id comp s key).1
  | .erase pos => s.erase pos

/-- The operations of the sequences on a multi-key tree: `insert(value)` or `emplace`,
`insert(hint, value)`, the range `insert(first, last)` and `erase(pos)`. -/
inductive multi_op (α : Type) where
  | insert (val : α)
  | insert_hint (hint : Nat) (val : α)
  | insert_range (vals : List α)
  | erase (pos : Nat)
deriving Repr

/-- The multi-key tree after one operation. -/
def multi_op.apply {α κ : Type} (get_key : α → κ) (comp : κ → κ → Bool) (t : rbtree_base α) :
    multi_op α → rbtree_base α
  | .insert val => (rbtree_multi.emplace get_key comp t val).1
  | .insert_hint hint val => (rbtree_multi.emplace_hint get_key comp t hint val).1
  | .insert_range vals => rbtree_multi.insert_impl get_key comp t vals
  | .erase pos => t.erase pos

/-- The insertions of the sequences on a multi-key tree: a single `insert(value)` or `emplace`,
or the range `insert(first, last)`. -/
inductive multi_insertion (α : Type) where
  | single (val : α)
  | range (vals : List α)
deriving Repr

/-- The multi-key tree after one insertion. -/
def multi_insertion.apply {α κ : Type} (get_key : α → κ) (comp : κ → κ → Bool)
    (t : rbtree_base α) : multi_insertion α → rbtree_base α
  | .single val => (rbtree_multi.emplace get_key comp t val).1
  | .range vals => rbtree_multi.insert_impl get_key comp t vals

/-- The values an insertion brings, in the order in which they are inserted. -/
def multi_insertion.values {α : Type} : multi_insertion α → List α
  | .single val => [val]
  | .range vals => vals

/-- The result of the unique-key merge as the specification words it: going through the source
in order, an element whose key is equivalent to a key of the destination or of an element moved
earlier remains in the source, every other element moves.  `dest` holds the elements of the
destination and those moved so far; the result is the list of moved elements and the list of
remaining elements. -/
def merge_outcome {α κ : Type} (get_key : α → κ) (comp : κ → κ → Bool) :
    List α → List α → List α × List α
  | _, [] => ([], [])
  | dest, s :: source =>
    if dest.any (fun d => equiv comp (get_key d) (get_key s)) then
      ((merge_outcome get_key comp dest source).1, s :: (merge_outcome get_key comp dest source).2)
    else
      (s :: (merge_outcome get_key comp (s :: dest) source).1,
        (merge_outcome get_key comp (s :: dest) source).2)

/-- The invariants every tree container keeps: `size_` counts the nodes, the root is black, no
red node has a red child and all ways from the root to a null link pass the same number of black
nodes. -/
def rbtree_base.rb_inv {α : Type} (t : rbtree_base α) : Prop :=
  t.wf ∧ ∃ n, t.root.balanced .black n

/-- Two subtrees have the same links and colours and, node by node, the same keys. -/
def rbtree_node.similar {α κ : Type} (get_key : α → κ) : rbtree_node α → rbtree_node α → Prop
  | .nil, .nil => True
  | .node c l v r, .node c' l' v' r' =>
    c = c' ∧ get_key v = get_key v' ∧ l.similar get_key l' ∧ r.similar get_key r'
  | _, _ => False

/-- `rbtree_multi::insert(const value_type& val)` and `insert(value_type&& val)`: both return
`emplace(val)`. -/
def rbtree_multi.insert {α κ : Type} (get_key : α → κ) (comp : κ → κ → Bool)
    (t : rbtree_base α) (val : α) : rbtree_base α × Nat :=
  rbtree_multi.emplace get_key comp t val

/-- `rbtree_multi::insert(const_iterator hint, const value_type& val)` and its rvalue overload:
both return `emplace_hint(hint, val)`. -/
def rbtree_multi.insert_hint {α κ : Type} (get_key : α → κ) (comp : κ → κ → Bool)
    (t : rbtree_base α) (hint : Nat) (val : α) : rbtree_base α × Nat :=
  rbtree_multi.emplace_hint get_key comp t hint val

/-! ## Exceptions of allocators, constructors and comparators -/

/-- What a call of a container can throw: an exception of the container itself, or an exception
of an allocator, a constructor or a comparator, which the containers let through. -/
inductive thrown where
  | container (e : error)
  | foreign
deriving DecidableEq, Repr

/-- A comparator that never throws, as a comparator that can throw: such a comparator is called
in a state `s`, which stands for all it depends on besides its arguments (the number of calls
made so far, say), and gives the next state together with its answer, `none` when it throws. -/
def nothrow {σ α : Type} (comp : α → α → Bool) : σ → α → α → σ × Option Bool :=
  fun s a b => (s, some (comp a b))

/-! ## `util::list` with exceptions -/

/-- `list::splice_impl(const_iterator pos, list&& other)` called on `self` for a list `other`
that is a different object; `pos` is a node index into `self`.  The result is `(self, other)`
as they are when the call returns or throws, and the exception thrown, if any. -/
def list.splice_impl_list {α : Type} (always_equal : Bool) (self other : list α) (pos : Nat) :
    list α × list α × Option thrown :=
  if other.size_ = 0 then (self, other, none)
  else if !always_equal && !(self.alloc == other.alloc) then
    (self, other, some (.container .logic_error))
  else
    (⟨dllist_insert_before self.nodes pos other.nodes, self.size_ + other.size_, self.alloc⟩,
      ⟨dllist_make_cycle other.nodes, 0, other.alloc⟩, none)

/-- `list::splice_impl(const_iterator pos, list&& other, const_iterator it)` called on `self` for
a list `other` that is a different object; `it` is the index of a node of `other`.  The result is
`(self, other)` as they are when the call returns or throws, and the exception thrown, if
any. -/
def list.splice_impl_node {α : Type} (always_equal : Bool) (self other : list α)
    (pos it : Nat) : list α × list α × Option thrown :=
  if !always_equal && !(self.alloc == other.alloc) then
    (self, other, some (.container .logic_error))
  else
    let r := dllist_remove other.nodes it (it + 1)
    (⟨dllist_insert_before self.nodes pos r.1, self.size_ + 1, self.alloc⟩,
      ⟨r.2, other.size_ - 1, other.alloc⟩, none)

/-- `list::splice_impl(const_iterator pos, list&& other, const_iterator first, const_iterator
last)` as `list.splice_impl` has it, with the lists given also when the call throws: the result
is `(self, other)` as they are when the call returns or throws, and the exception thrown, if
any. -/
def list.splice_impl_range {α : Type} (always_equal : Bool) (self other : list α)
    (pos first last : Nat) : list α × list α × Option thrown :=
  if first = last then (self, other, none)
  else if !always_equal && !(self.alloc == other.alloc) then
    (self, other, some (.container .logic_error))
  else
    let count := ((other.nodes.take last).drop first).length
    let r := dllist_remove other.nodes first last
    (⟨dllist_insert_before self.nodes pos r.1, self.size_ + count, self.alloc⟩,
      ⟨r.2, other.size_ - count, other.alloc⟩, none)

/-- The loop `while ((p_last != head_src) && comp(value(p_last), value(p)))` of
`list::merge_impl(dllist_node_t*, dllist_node_t*, Comp)` with a comparator that can throw.  The
list is the source chain from `p_first` on; the result is the state of the comparator and the
nodes passed together with the chain from `p_last` on, or `none` when a comparison throws. -/
def merge_advance {σ α : Type} (comp : σ → α → α → σ × Option Bool) (p : α) :
    σ → List α → σ × Option (List α × List α)
  | s, [] => (s, some ([], []))
  | s, x :: src =>
    match comp s x p with
    | (s', none) => (s', none)
    | (s', some false) => (s', some ([], x :: src))
    | (s', some true) =>
      match merge_advance comp p s' src with
      | (s'', none) => (s'', none)
      | (s'', some r) => (s'', some (x :: r.1, r.2))

/-- How a merge of two chains ends: the state of the comparator, the target chain, the source
chain, and whether a comparison threw. -/
structure merge_result (σ α : Type) where
  state : σ
  tgt : List α
  src : List α
  thrown : Bool
deriving DecidableEq, Repr

/-- The loop of `list::merge_impl(dllist_node_t*, dllist_node_t*, Comp)` with a comparator that
can throw, see `merge_loop`.  When a comparison throws, the nodes between `p_first` and `p_last`
have not been unlinked: the source chain is the one from `p_first` on. -/
def merge_loop_exc {σ α : Type} (comp : σ → α → α → σ × Option Bool) :
    σ → List α → List α → merge_result σ α
  | s, [], src => ⟨s, [], src, false⟩
  | s, p :: tgt, src =>
    if dllist_is_empty src then ⟨s, p :: tgt, src, false⟩
    else
      match merge_advance comp p s src with
      | (s', none) => ⟨s', p :: tgt, src, true⟩
      | (s', some r) =>
        let m := merge_loop_exc comp s' tgt r.2
        ⟨m.state, r.1 ++ p :: m.tgt, m.src, m.thrown⟩

/-- `list::merge_impl(dllist_node_t* head_tgt, dllist_node_t* head_src, Comp comp)` with a
comparator that can throw: the two chains when the call returns or throws. -/
def merge_impl_exc {σ α : Type} (comp : σ → α → α → σ × Option Bool) (s : σ)
    (head_tgt head_src : List α) : merge_result σ α :=
  let r := merge_loop_exc comp s head_tgt head_src
  if r.thrown then r
  else if dllist_is_empty r.src then r
  else ⟨r.state, dllist_insert_before r.tgt r.tgt.length r.src, dllist_make_cycle r.src, false⟩

/-- `list::merge_impl(list&& other, Comp comp)` called on `self` for a list `other` that is a
different object, with a comparator that can throw.  The counters are set before the chains are
merged; the handler of an exception walks the source chain and moves one count back for every
node still linked there.  The result is the state of the comparator, `(self, other)` as they are
when the call returns or throws, and the exception thrown, if any. -/
def list.merge_impl {σ α : Type} (always_equal : Bool)
    (comp : σ → α → α → σ × Option Bool) (s : σ) (self other : list α) :
    σ × list α × list α × Option thrown :=
  if other.size_ = 0 then (s, self, other, none)
  else if !always_equal && !(self.alloc == other.alloc) then
    (s, self, other, some (.container .logic_error))
  else
    let r := merge_impl_exc comp s self.nodes other.nodes
    if r.thrown then
      (r.state, ⟨r.tgt, self.size_ + other.size_ - r.src.length, self.alloc⟩,
        ⟨r.src, 0 + r.src.length, other.alloc⟩, some .foreign)
    else (r.state, ⟨r.tgt, self.size_ + other.size_, self.alloc⟩, ⟨r.src, 0, other.alloc⟩, none)

/-- `list::new_node(Args&&... args)`: `helpers::new_node` allocates the node and constructs the
payload `v` from the arguments, either of which can throw (the guard then frees the node); only
after that is `size_` incremented.  `new_ok` tells in state `s` whether both succeed.  The result
is the next state and the list with its new counter, or `none` when the call throws. -/
def list.new_node {σ α : Type} (new_ok : σ → α → σ × Bool) (s : σ) (l : list α) (v : α) :
    σ × Option (list α) :=
  match new_ok s v with
  | (s', true) => (s', some ⟨l.nodes, l.size_ + 1, l.alloc⟩)
  | (s', false) => (s', none)

/-- `list::emplace(const_iterator pos, Args&&... args)`, which `insert(pos, val)` returns: the
result is the next state, the list when the call returns or throws, and the returned iterator or
the exception thrown. -/
def list.emplace {σ α : Type} (new_ok : σ → α → σ × Bool) (s : σ) (l : list α) (pos : Nat)
    (v : α) : σ × list α × Except thrown Nat :=
  match list.new_node new_ok s l v with
  | (s', none) => (s', l, .error .foreign)
  | (s', some l') => (s', ⟨dllist_insert_before l'.nodes pos [v], l'.size_, l'.alloc⟩, .ok pos)

/-- `list::emplace_front(Args&&... args)`, which `push_front(val)` calls: the result is the next
state, the list when the call returns or throws, and the exception thrown, if any. -/
def list.emplace_front {σ α : Type} (new_ok : σ → α → σ × Bool) (s : σ) (l : list α) (v : α) :
    σ × list α × Option thrown :=
  match list.new_node new_ok s l v with
  | (s', none) => (s', l, some .foreign)
  | (s', some l') => (s', ⟨dllist_insert_after l'.nodes [v], l'.size_, l'.alloc⟩, none)

/-- `list::emplace_back(Args&&... args)`, which `push_back(val)` calls: the result is the next
state, the list when the call returns or throws, and the exception thrown, if any. -/
def list.emplace_back {σ α : Type} (new_ok : σ → α → σ × Bool) (s : σ) (l : list α) (v : α) :
    σ × list α × Option thrown :=
  match list.new_node new_ok s l v with
  | (s', none) => (s', l, some .foreign)
  | (s', some l') =>
    (s', ⟨dllist_insert_before l'.nodes l'.nodes.length [v], l'.size_, l'.alloc⟩, none)

/-- The loop of `list::insert_impl(dllist_node_t* pos, InputIt first, InputIt last)`: every value
of the range gets a node that is linked in front of `pos`, after which `pos` is one index
further.  The result is the next state, the list when the loop is left or throws, and the
exception thrown, if any. -/
def list.insert_loop {σ α : Type} (new_ok : σ → α → σ × Bool) :
    σ → list α → Nat → List α → σ × list α × Option thrown
  | s, l, _, [] => (s, l, none)
  | s, l, pos, v :: input =>
    match list.new_node new_ok s l v with
    | (s', none) => (s', l, some .foreign)
    | (s', some l') =>
      list.insert_loop new_ok s' ⟨dllist_insert_before l'.nodes pos [v], l'.size_, l'.alloc⟩
        (pos + 1) input

/-- `list::insert_impl(dllist_node_t* pos, InputIt first, InputIt last)`: the result is the next
state, the list when the call returns or throws, and the returned node `pre_first->next`, the
first node linked, or the exception thrown. -/
def list.insert_impl {σ α : Type} (new_ok : σ → α → σ × Bool) (s : σ) (l : list α) (pos : Nat)
    (input : List α) : σ × list α × Except thrown Nat :=
  match list.insert_loop new_ok s l pos input with
  | (s', l', none) => (s', l', .ok pos)
  | (s', l', some e) => (s', l', .error e)

/-- `list::insert_const(dllist_node_t* pos, size_type sz, const value_type& val)`: the same loop
for `sz` copies of `val`. -/
def list.insert_const {σ α : Type} (new_ok : σ → α → σ × Bool) (s : σ) (l : list α) (pos : Nat)
    (sz : Nat) (val : α) : σ × list α × Except thrown Nat :=
  match list.insert_loop new_ok s l pos (List.replicate sz val) with
  | (s', l', none) => (s', l', .ok pos)
  | (s', l', some e) => (s', l', .error e)

/-- `list::insert(const_iterator pos, size_type count, const value_type& val)`. -/
def list.insert_count {σ α : Type} (new_ok : σ → α → σ × Bool) (s : σ) (l : list α) (pos : Nat)
    (count : Nat) (val : α) : σ × list α × Except thrown Nat :=
  list.insert_const new_ok s l pos count val

/-- `list::insert(const_iterator pos, InputIt first, InputIt last)`. -/
def list.insert_range {σ α : Type} (new_ok : σ → α → σ × Bool) (s : σ) (l : list α) (pos : Nat)
    (input : List α) : σ × list α × Except thrown Nat :=
  list.insert_impl new_ok s l pos input

/-- The values of a batch for which `new_node` succeeds before it throws for the first time (all
of them when it never throws). -/
def batch_made {σ α : Type} (new_ok : σ → α → σ × Bool) : σ → List α → List α
  | _, [] => []
  | s, v :: input =>
    match new_ok s v with
    | (s', true) => v :: batch_made new_ok s' input
    | (_, false) => []

/-- Modelled from the spec: a node that can be linked into a chain, `dllist_node_t` of
`util_dllist.h` (not in the sources): a node of a list, which has a payload, or one of the
sentinels that `list::sort` keeps on the stack, `tmp_list` and `bin_lists[bin]`, which have
none. -/
inductive dllist_node (α : Type) where
  | value (v : α)
  | tmp_list
  | bin_lists (bin : Nat)
deriving DecidableEq, Repr

/-- Modelled from the spec: the nodes from `head->next` to `head->prev`, the closed range that
`dllist_insert_before(pos, first, last)` of `util_dllist.h` (not in the sources) links when it is
called with `head.next` and `head.prev`.  In a chain without nodes the sentinel is linked to
itself, so both ends of the range are the sentinel `head`. -/
def dllist_closed_range {α : Type} (head : dllist_node α) (chain : List α) :
    List (dllist_node α) :=
  if dllist_is_empty chain then [head] else chain.map .value

/-- How the bin loop of `list::sort` ends: the state of the comparator, the number of bins
passed, `tmp_list`, the bins, and whether a comparison threw. -/
structure sort_carry_result (σ α : Type) where
  state : σ
  bin : Nat
  tmp_list : List α
  bin_lists : List (List α)
  thrown : Bool
deriving DecidableEq, Repr

/-- The chains of `list::sort` while it runs: the state of the comparator, the nodes still
linked to `head_`, `tmp_list`, the bins below `maxbin`, and whether a comparison threw. -/
structure sort_state (σ α : Type) where
  state : σ
  head : List α
  tmp_list : List α
  bin_lists : List (List α)
  thrown : Bool
deriving DecidableEq, Repr

/-- The bin loop of `list::sort` with a comparator that can throw, see `sort_carry`. -/
def sort_carry_exc {σ α : Type} (comp : σ → α → α → σ × Option Bool) :
    σ → List α → List (List α) → sort_carry_result σ α
  | s, tmp_list, [] => ⟨s, 0, tmp_list, [], false⟩
  | s, tmp_list, b :: bin_lists =>
    if dllist_is_empty b then ⟨s, 0, tmp_list, b :: bin_lists, false⟩
    else
      let m := merge_impl_exc comp s tmp_list b
      if m.thrown then ⟨m.state, 0, m.tgt, m.src :: bin_lists, true⟩
      else
        let r := sort_carry_exc comp m.state m.tgt bin_lists
        ⟨r.state, r.bin + 1, r.tmp_list, m.src :: r.bin_lists, r.thrown⟩

/-- One iteration of the `while (!dllist_is_empty(&head_))` loop of `list::sort` with a
comparator that can throw, for the node `p` taken from the front of the list, whose other nodes
are `head`; see `sort_step`. -/
def sort_step_exc {σ α : Type} (comp : σ → α → α → σ × Option Bool) (s : σ) (p : α)
    (head tmp_list : List α) (bin_lists : List (List α)) : sort_state σ α :=
  let tmp := dllist_insert_before tmp_list tmp_list.length [p]
  let r := sort_carry_exc comp s tmp bin_lists
  if r.thrown then ⟨r.state, head, r.tmp_list, r.bin_lists, true⟩
  else if r.bin = max_bins then
    let m := merge_impl_exc comp r.state (r.bin_lists.getD (r.bin - 1) []) r.tmp_list
    ⟨m.state, head, m.src, r.bin_lists.set (r.bin - 1) m.tgt, m.thrown⟩
  else
    let bins :=
      if r.bin = r.bin_lists.length then r.bin_lists ++ [dllist_make_cycle []] else r.bin_lists
    ⟨r.state, head, dllist_make_cycle r.tmp_list,
      bins.set r.bin (dllist_insert_after (bins.getD r.bin []) r.tmp_list), false⟩

/-- The `while (!dllist_is_empty(&head_))` loop of `list::sort` with a comparator that can
throw. -/
def sort_loop_exc {σ α : Type} (comp : σ → α → α → σ × Option Bool) :
    σ → List α → List α → List (List α) → sort_state σ α
  | s, [], tmp_list, bin_lists => ⟨s, [], tmp_list, bin_lists, false⟩
  | s, p :: head, tmp_list, bin_lists =>
    let r := sort_step_exc comp s p head tmp_list bin_lists
    if r.thrown then r
    else sort_loop_exc comp r.state head r.tmp_list r.bin_lists

/-- The "merge up" loop of `list::sort` with a comparator that can throw: `below` holds the bins
under `bin - 1`, `prev` is `bin_lists[bin - 1]`, the list holds the bins from `bin` on.  The
result is the state of the comparator, the bins when the loop is left or throws, and whether a
comparison threw. -/
def sort_merge_up_exc {σ α : Type} (comp : σ → α → α → σ × Option Bool) :
    σ → List (List α) → List α → List (List α) → σ × List (List α) × Bool
  | s, below, prev, [] => (s, below ++ [prev], false)
  | s, below, prev, b :: bin_lists =>
    let m := merge_impl_exc comp s b prev
    if m.thrown then (m.state, below ++ m.src :: m.tgt :: bin_lists, true)
    else sort_merge_up_exc comp m.state (below ++ [m.src]) m.tgt bin_lists

/-- The loop `for (bin = 0; bin < maxbin; ++bin)` of the handler of `list::sort`: the closed
range `bin_lists[bin].next .. bin_lists[bin].prev` of every bin is linked in front of the
sentinel `head_`; the list holds the bins from `bin` on. -/
def sort_collect_bins {α : Type} :
    Nat → List (dllist_node α) → List (List α) → List (dllist_node α)
  | _, head, [] => head
  | bin, head, b :: bin_lists =>
    sort_collect_bins (bin + 1)
      (dllist_insert_before head head.length (dllist_closed_range (.bin_lists bin) b)) bin_lists

/-- The handler `catch (...)` of `list::sort` ("collect all stuff"): the closed range
`tmp_list.next .. tmp_list.prev` and then that of every bin below `maxbin` are linked in front of
the sentinel `head_`. -/
def sort_collect {α : Type} (head tmp_list : List α) (bin_lists : List (List α)) :
    List (dllist_node α) :=
  sort_collect_bins 0
    (dllist_insert_before (head.map .value) head.length (dllist_closed_range .tmp_list tmp_list))
    bin_lists

/-- How `list::sort` ends: the state of the comparator, the nodes linked to `head_`, the counter
`size_`, and whether the exception of a comparison came out. -/
structure sort_result (σ α : Type) where
  state : σ
  nodes : List (dllist_node α)
  size_ : Nat
  thrown : Bool
deriving DecidableEq, Repr

/-- `list::sort(Comp comp)` with a comparator that can throw.  No statement of it assigns
`size_`. -/
def list.sort_exc {σ α : Type} (l : list α) (comp : σ → α → α → σ × Option Bool) (s : σ) :
    sort_result σ α :=
  if l.size_ < 2 then ⟨s, l.nodes.map .value, l.size_, false⟩
  else
    let r := sort_loop_exc comp s l.nodes (dllist_make_cycle []) []
    if r.thrown then ⟨r.state, sort_collect r.head r.tmp_list r.bin_lists, l.size_, true⟩
    else
      match r.bin_lists with
      | [] => ⟨r.state, [], l.size_, false⟩
      | b :: bin_lists =>
        let u := sort_merge_up_exc comp r.state [] b bin_lists
        if u.2.2 then ⟨u.1, sort_collect r.head r.tmp_list u.2.1, l.size_, true⟩
        else
          ⟨u.1, dllist_insert_before [] 0
            (dllist_closed_range (.bin_lists (u.2.1.length - 1)) (u.2.1.getLastD [])),
            l.size_, false⟩

/-- The payloads of the list nodes among the nodes of a chain. -/
def dllist_values {α : Type} : List (dllist_node α) → List α
  | [] => []
  | .value v :: nodes => v :: dllist_values nodes
  | _ :: nodes => dllist_values nodes

/-! ## Tree containers with exceptions -/

/-- Modelled from the spec: `rbtree_find_insert_pos(head, key, comp)` of `util_rbtree.h` (not in
the sources) with a comparator that can throw, see `rbtree_find_insert_pos`: the result is the
state of the comparator and the free link found, or `none` when a comparison throws.  The search
changes no link. -/
def rbtree_find_insert_pos_exc {σ α κ : Type} (get_key : α → κ)
    (comp : σ → κ → κ → σ × Option Bool) (key : κ) :
    σ → rbtree_node α → rbtree_path α → σ × Option (rbtree_path α)
  | s, .nil, path => (s, some path)
  | s, .node c l v r, path =>
    match comp s key (get_key v) with
    | (s', none) => (s', none)
    | (s', some true) => rbtree_find_insert_pos_exc get_key comp key s' l (.left c path v r)
    | (s', some false) => rbtree_find_insert_pos_exc get_key comp key s' r (.right c l v path)

/-- One comparison of the hinted search: the state of the comparator and whether `a` does not
compare less than `b`, or `none` when the comparison throws. -/
def not_less_exc {σ κ : Type} (comp : σ → κ → κ → σ × Option Bool) (s : σ) (a b : κ) :
    σ × Option Bool :=
  match comp s a b with
  | (s', none) => (s', none)
  | (s', some c) => (s', some !c)

/-- Modelled from the spec: `rbtree_find_insert_pos(head, hint, key, comp)` of `util_rbtree.h`
(not in the sources) with a comparator that can throw, see `rbtree_find_insert_pos_hint`: the
key is compared with that of the node in front of `hint`, then with that of the node at `hint`,
and the full descent is made when the hint does not fit. -/
def rbtree_find_insert_pos_hint_exc {σ α κ : Type} (get_key : α → κ)
    (comp : σ → κ → κ → σ × Option Bool) (s : σ) (root : rbtree_node α) (hint : Nat)
    (key : κ) : σ × Option (rbtree_path α) :=
  let prev : σ × Option Bool :=
    match hint with
    | 0 => (s, some true)
    | h + 1 =>
      match root.in_order[h]? with
      | none => (s, some false)
      | some x => not_less_exc comp s key (get_key x)
  match prev with
  | (s1, none) => (s1, none)
  | (s1, some fits_prev) =>
    let next : σ × Option Bool :=
      match root.in_order[hint]? with
      | none => (s1, some true)
      | some x => not_less_exc comp s1 (get_key x) key
    match next with
    | (s2, none) => (s2, none)
    | (s2, some fits_next) =>
      if fits_prev && fits_next then (s2, some (root.slot_at hint .head))
      else rbtree_find_insert_pos_exc get_key comp key s2 root .head

/-- Modelled from the spec: `rbtree_find_insert_unique_pos(head, key, comp)` of `util_rbtree.h`
(not in the sources) with a comparator that can throw, see `rbtree_find_insert_unique_pos`. -/
def rbtree_find_insert_unique_pos_exc {σ α κ : Type} (get_key : α → κ)
    (comp : σ → κ → κ → σ × Option Bool) (key : κ) :
    σ → rbtree_node α → rbtree_path α → Int → σ × Option (rbtree_unique_pos α)
  | s, .nil, path, side => (s, some ⟨path, .nil, side⟩)
  | s, .node c l v r, path, _ =>
    match comp s key (get_key v) with
    | (s1, none) => (s1, none)
    | (s1, some true) =>
      rbtree_find_insert_unique_pos_exc get_key comp key s1 l (.left c path v r) (-1)
    | (s1, some false) =>
      match comp s1 (get_key v) key with
      | (s2, none) => (s2, none)
      | (s2, some true) =>
        rbtree_find_insert_unique_pos_exc get_key comp key s2 r (.right c l v path) 1
      | (s2, some false) => (s2, some ⟨path, .node c l v r, 0⟩)

/-- `rbtree_multi::emplace(Args&&... args)` with an allocator, a constructor and a comparator
that can throw.  `helpers::new_node` (`rbtree_base.h` is not in the sources; the list container
has the same helper) allocates the node and constructs the payload `val`, and `new_ok` tells
whether both succeed; `delete_guard_t` deletes the node when the search throws.  The result is
the next state, the container when the call returns or throws, and the returned iterator or the
exception thrown. -/
def rbtree_multi.emplace_exc {σ α κ : Type} (get_key : α → κ) (new_ok : σ → α → σ × Bool)
    (comp : σ → κ → κ → σ × Option Bool) (s : σ) (t : rbtree_base α) (val : α) :
    σ × rbtree_base α × Except thrown Nat :=
  match new_ok s val with
  | (s1, false) => (s1, t, .error .foreign)
  | (s1, true) =>
    match rbtree_find_insert_pos_exc get_key comp (get_key val) s1 t.root .head with
    | (s2, none) => (s2, t, .error .foreign)
    | (s2, some result) =>
      (s2, ⟨rbtree_insert result val, t.size_ + 1, t.alloc⟩, .ok result.before.length)

/-- `rbtree_multi::emplace_hint(const_iterator hint, Args&&... args)` with an allocator, a
constructor and a comparator that can throw, see `rbtree_multi.emplace_exc`. -/
def rbtree_multi.emplace_hint_exc {σ α κ : Type} (get_key : α → κ)
    (new_ok : σ → α → σ × Bool) (comp : σ → κ → κ → σ × Option Bool) (s : σ)
    (t : rbtree_base α) (hint : Nat) (val : α) : σ × rbtree_base α × Except thrown Nat :=
  match new_ok s val with
  | (s1, false) => (s1, t, .error .foreign)
  | (s1, true) =>
    match rbtree_find_insert_pos_hint_exc get_key comp s1 t.root hint (get_key val) with
    | (s2, none) => (s2, t, .error .foreign)
    | (s2, some result) =>
      (s2, ⟨rbtree_insert result val, t.size_ + 1, t.alloc⟩, .ok result.before.length)

/-- `rbtree_multi::insert(node_type&& nh)` with a comparator that can throw: the result is the
state of the comparator, the container and the node handle when the call returns or throws, and
the returned iterator or the exception thrown. -/
def rbtree_multi.insert_node_exc {σ α κ : Type} (always_equal : Bool) (get_key : α → κ)
    (comp : σ → κ → κ → σ × Option Bool) (s : σ) (t : rbtree_base α)
    (nh : rbtree_node_handle α) :
    σ × rbtree_base α × rbtree_node_handle α × Except thrown Nat :=
  match nh.node_ with
  | none => (s, t, nh, .ok t.end_)
  | some node =>
    if !always_equal && !(t.alloc == nh.alloc) then (s, t, nh, .error (.container .logic_error))
    else
      match rbtree_find_insert_pos_exc get_key comp (get_key node) s t.root .head with
      | (s', none) => (s', t, nh, .error .foreign)
      | (s', some result) =>
        (s', ⟨rbtree_insert result node, t.size_ + 1, t.alloc⟩, ⟨none, nh.alloc⟩,
          .ok result.before.length)

/-- The loop of `rbtree_multi::merge_impl` with a comparator that can throw, see
`rbtree_multi.merge_loop`: a comparison throws before the current node is unlinked.  `none` when
the fuel is used up. -/
def rbtree_multi.merge_loop_exc {σ α κ : Type} (get_key : α → κ)
    (comp : σ → κ → κ → σ × Option Bool) :
    Nat → σ → rbtree_base α → rbtree_base α →
      Option (σ × rbtree_base α × rbtree_base α × Option thrown)
  | 0, _, _, _ => none
  | fuel + 1, s, self, other =>
    match other.root.cursor_at 0 .head with
    | none => some (s, self, other, none)
    | some p =>
      match rbtree_find_insert_pos_exc get_key comp (get_key p.value) s self.root .head with
      | (s', none) => some (s', self, other, some .foreign)
      | (s', some result) =>
        let other' : rbtree_base α := ⟨rbtree_remove p, other.size_ - 1, other.alloc⟩
        let self' : rbtree_base α := ⟨rbtree_insert result p.value, self.size_ + 1, self.alloc⟩
        if 0 = other'.end_ then some (s', self', other', none)
        else rbtree_multi.merge_loop_exc get_key comp fuel s' self' other'

/-- `rbtree_multi::merge_impl(rbtree_base&& other)` for a tree `other` that is a different
object, with a comparator that can throw, see `rbtree_multi.merge_impl`: the result is the state
of the comparator, `(self, other)` as they are when the call returns or throws, and the
exception thrown, if any; `none` stands for a loop that does not end within as many rounds as
`other` has nodes. -/
def rbtree_multi.merge_impl_exc {σ α κ : Type} (always_equal : Bool) (get_key : α → κ)
    (comp : σ → κ → κ → σ × Option Bool) (s : σ) (self other : rbtree_base α) :
    Option (σ × rbtree_base α × rbtree_base α × Option thrown) :=
  if other.size_ = 0 then some (s, self, other, none)
  else if !always_equal && !(self.alloc == other.alloc) then
    some (s, self, other, some (.container .logic_error))
  else rbtree_multi.merge_loop_exc get_key comp other.root.in_order.length s self other

/-- `map::try_emplace_impl(Key2&& key, Args&&... args)` with an allocator, a constructor and a
comparator that can throw: the key is searched first, and only when no equivalent key is found
is the node made and linked.  The result is the next state, the map when the call returns or
throws, and the returned pair or the exception thrown. -/
def map.try_emplace_impl_exc {σ κ τ : Type} (new_ok : σ → κ × τ → σ × Bool)
    (comp : σ → κ → κ → σ × Option Bool) (s : σ) (m : rbtree_base (κ × τ)) (key : κ)
    (mapped : τ) : σ × rbtree_base (κ × τ) × Except thrown (Nat × Bool) :=
  match rbtree_find_insert_unique_pos_exc Prod.fst comp key s m.root .head (-1) with
  | (s1, none) => (s1, m, .error .foreign)
  | (s1, some result) =>
    if result.second = 0 then (s1, m, .ok (result.iterator, false))
    else
      match new_ok s1 (key, mapped) with
      | (s2, false) => (s2, m, .error .foreign)
      | (s2, true) =>
        (s2, ⟨rbtree_insert result.first (key, mapped), m.size_ + 1, m.alloc⟩,
          .ok (result.first.before.length, true))

/-- `map::try_emplace(const key_type& key, Args&&... args)` with an allocator, a constructor and
a comparator that can throw. -/
def map.try_emplace_exc {σ κ τ : Type} (new_ok : σ → κ × τ → σ × Bool)
    (comp : σ → κ → κ → σ × Option Bool) (s : σ) (m : rbtree_base (κ × τ)) (key : κ)
    (mapped : τ) : σ × rbtree_base (κ × τ) × Except thrown (Nat × Bool) :=
  map.try_emplace_impl_exc new_ok comp s m key mapped

/-! ## Node handles -/

/-- `rbtree_multi::insert(const_iterator hint, node_type&& nh)`: the result is the container, the
node handle and the returned iterator, or the exception thrown. -/
def rbtree_multi.insert_node_hint {α κ : Type} (always_equal : Bool) (get_key : α → κ)
    (comp : κ → κ → Bool) (t : rbtree_base α) (hint : Nat) (nh : rbtree_node_handle α) :
    Except error (rbtree_base α × rbtree_node_handle α × Nat) :=
  match nh.node_ with
  | none => .ok (t, nh, t.end_)
  | some node =>
    if !always_equal && !(t.alloc == nh.alloc) then .error .logic_error
    else
      let result := rbtree_find_insert_pos_hint get_key comp t.root hint (get_key node)
      .ok (⟨rbtree_insert result node, t.size_ + 1, t.alloc⟩, ⟨none, nh.alloc⟩,
        result.before.length)

/-- `rbtree_node_handle()`: the default member initializer makes `node_` null; `alloc` is the
default-constructed allocator. -/
def rbtree_node_handle.default_ctor {α : Type} (alloc : Nat) : rbtree_node_handle α :=
  ⟨none, alloc⟩

/-- `rbtree_node_handle(rbtree_node_handle&& nh)`: the result is the new handle and `nh` after
the call. -/
def rbtree_node_handle.move_ctor {α : Type} (nh : rbtree_node_handle α) :
    rbtree_node_handle α × rbtree_node_handle α :=
  (⟨nh.node_, nh.alloc⟩, ⟨none, nh.alloc⟩)

/-- `rbtree_node_handle::operator=(rbtree_node_handle&& nh)` for a handle `nh` that is a
different object (the function asserts so): the node the target owned is deleted.  The result is
the target and `nh` after the call, and the node deleted, if any. -/
def rbtree_node_handle.move_assign {α : Type} (self nh : rbtree_node_handle α) :
    rbtree_node_handle α × rbtree_node_handle α × Option α :=
  (⟨nh.node_, nh.alloc⟩, ⟨none, nh.alloc⟩, self.node_)

/-- `rbtree_node_handle::operator bool()`. -/
def rbtree_node_handle.operator_bool {α : Type} (nh : rbtree_node_handle α) : Bool :=
  nh.node_.isSome

/-- `rbtree_node_handle::swap(rbtree_node_handle& nh)`: the result is the two handles after the
call. -/
def rbtree_node_handle.swap {α : Type} (self nh : rbtree_node_handle α) :
    rbtree_node_handle α × rbtree_node_handle α :=
  (⟨nh.node_, nh.alloc⟩, ⟨self.node_, self.alloc⟩)

/-! ## `remove`, `remove_if`, `unique` -/

/-- The loop of `list::remove_if`: the list is the chain from `p` on, `size_` the counter; a
node whose payload satisfies `pred` is unlinked and deleted and the counter decremented, any
other node is passed.  The result is the chain from the entry value of `p` on and the counter
when the loop is left. -/
def list.remove_if_loop {α : Type} (pred : α → Bool) : List α → Nat → List α × Nat
  | [], size_ => ([], size_)
  | x :: rest, size_ =>
    if pred x then list.remove_if_loop pred rest (size_ - 1)
    else ((x :: (list.remove_if_loop pred rest size_).1),
      (list.remove_if_loop pred rest size_).2)

/-- `list::remove_if(Pred pred)`: the result is the list and the returned count
`old_sz - size_`. -/
def list.remove_if {α : Type} (l : list α) (pred : α → Bool) : list α × Nat :=
  let r := list.remove_if_loop pred l.nodes l.size_
  (⟨r.1, r.2, l.alloc⟩, l.size_ - r.2)

/-- What the parameter `const value_type& val` of `list::remove` refers to: an object that is
not an element of the list, or the payload of the node of the list with the index `p`, as in
`l.remove(l.front())`. -/
inductive value_ref (α : Type) where
  | object (v : α)
  | element (p : Nat)
deriving DecidableEq, Repr

/-- The value of the object that `val` refers to, at the call; an index that is not the index
of a node refers to nothing. -/
def value_ref.read {α : Type} (val : value_ref α) (nodes : List α) : Option α :=
  match val with
  | .object v => some v
  | .element p => nodes[p]?

/-- The node of the list in which the object that `val` refers to lives, if it is an element
of the list. -/
def value_ref.node {α : Type} (val : value_ref α) : Option Nat :=
  match val with
  | .object _ => none
  | .element p => some p

/-- The loop of `list::remove(const value_type& val)`: the list is the chain from `p` on, the
first number the index that `p` had in the list at the call, `size_` the counter.  `v` is the
value of the object `val` refers to and `node` the node it lives in, if any; `deleted` tells
whether `helpers::delete_node` has destroyed that node.  Every round evaluates
`node_t::get_value(p) == val`, which reads through `val`: once the node of `val` has been
deleted this is a read of a destroyed object in freed storage, the behaviour is undefined and
the result is `none`.  Otherwise a node equal to `val` is unlinked and deleted and the counter
decremented, and any other node is passed.  The result is the chain from the entry value of `p`
on and the counter when the loop is left. -/
def list.remove_loop {α : Type} [BEq α] (v : α) (node : Option Nat) :
    List α → Nat → Bool → Nat → Option (List α × Nat)
  | [], _, _, size_ => some ([], size_)
  | x :: rest, p, deleted, size_ =>
    if deleted then none
    else if x == v then
      list.remove_loop v node rest (p + 1) (decide (node = some p)) (size_ - 1)
    else (list.remove_loop v node rest (p + 1) false size_).map (fun r => (x :: r.1, r.2))

/-- `list::remove(const value_type& val)`, where `==` is `operator==` of the payloads: the
result is the list and the returned count `old_sz - size_`, and `none` when the call reads
`val` after the node it refers to has been deleted (undefined behaviour). -/
def list.remove {α : Type} [BEq α] (l : list α) (val : value_ref α) : Option (list α × Nat) :=
  match val.read l.nodes with
  | none => none
  | some v =>
    (list.remove_loop v val.node l.nodes 0 false l.size_).map
      (fun r => (⟨r.1, r.2, l.alloc⟩, l.size_ - r.2))

/-- The loop of `list::unique(Pred pred)`: `v0` is the payload of `p0`, the list the chain from
`p` on.  A node for which `pred(value(p0), value(p))` holds is unlinked and deleted and the
counter decremented; otherwise it becomes `p0`.  The result is the chain from the entry value of
`p` on and the counter when the loop is left. -/
def list.unique_loop {α : Type} (pred : α → α → Bool) : α → List α → Nat → List α × Nat
  | _, [], size_ => ([], size_)
  | v0, x :: rest, size_ =>
    if pred v0 x then list.unique_loop pred v0 rest (size_ - 1)
    else ((x :: (list.unique_loop pred x rest size_).1), (list.unique_loop pred x rest size_).2)

/-- `list::unique(Pred pred)`: the result is the list and the returned count.  With a counter
that is not zero and no node, `p` is the sentinel at once and nothing happens. -/
def list.unique_if {α : Type} (l : list α) (pred : α → α → Bool) : list α × Nat :=
  if l.size_ = 0 then (l, 0)
  else
    match l.nodes with
    | [] => (l, 0)
    | x0 :: rest =>
      let r := list.unique_loop pred x0 rest l.size_
      (⟨x0 :: r.1, r.2, l.alloc⟩, l.size_ - r.2)

/-- `list::unique()`, which is `unique(std::equal_to<value_type>())`. -/
def list.unique {α : Type} [BEq α] (l : list α) : list α × Nat :=
  l.unique_if (fun a b => a == b)

/-! ## The indices into `bin_lists` -/

/-- The indices at which the bin loop of `list::sort` reads `bin_lists`, see `sort_carry`: the
list holds the bins from `bin` on.  With `bin < maxbin` the test `dllist_is_empty(&bin_lists[bin])`
reads `bin_lists[bin]`, and so does the call of `merge_impl` in the body; with `bin == maxbin`
the test is not evaluated. -/
def sort_carry_indices {α : Type} (comp : α → α → Bool) (tmp_list : List α) :
    List (List α) → Nat → List Int
  | [], _ => []
  | b :: bin_lists, bin =>
    if dllist_is_empty b then [(bin : Int)]
    else
      (bin : Int) :: (bin : Int) ::
        sort_carry_indices comp (merge_impl comp tmp_list b).1 bin_lists (bin + 1)

/-- The indices at which one iteration of the `while` loop of `list::sort` accesses `bin_lists`,
see `sort_step`: those of the bin loop, then `bin - 1` on the overflow path, and otherwise
`maxbin` (in `bin_lists[maxbin++]`, when `bin == maxbin`) and `bin`.  The indices are computed
in the integers, so that an index below zero shows. -/
def sort_step_indices {α : Type} (comp : α → α → Bool) (p : α) (bin_lists : List (List α)) :
    List Int :=
  let tmp_list := dllist_insert_before [] 0 [p]
  let r := sort_carry comp tmp_list bin_lists
  let bin := r.1
  sort_carry_indices comp tmp_list bin_lists 0 ++
    (if bin = max_bins then [(bin : Int) - 1]
     else (if bin = r.2.2.length then [(r.2.2.length : Int)] else []) ++ [(bin : Int)])

/-- The indices at which the `while` loop of `list::sort` accesses `bin_lists`. -/
def sort_loop_indices {α : Type} (comp : α → α → Bool) : List α → List (List α) → List Int
  | [], _ => []
  | p :: head, bin_lists =>
    sort_step_indices comp p bin_lists ++
      sort_loop_indices comp head (sort_step comp p bin_lists)

/-- The indices at which the "merge up" loop of `list::sort` accesses `bin_lists`, from `bin`
on: `bin` and `bin - 1` in every round; `rounds` is the number of rounds left,
`maxbin - bin`. -/
def sort_merge_up_indices : Nat → Nat → List Int
  | 0, _ => []
  | rounds + 1, bin => (bin : Int) :: ((bin : Int) - 1) :: sort_merge_up_indices rounds (bin + 1)

/-- The indices at which `list::sort(Comp comp)` accesses `bin_lists` when no comparison throws:
those of the `while` loop, those of "merge up" for `bin` from 1 to `maxbin - 1`, and
`maxbin - 1` for the result. -/
def list.sort_indices {α : Type} (l : list α) (comp : α → α → Bool) : List Int :=
  if l.size_ < 2 then []
  else
    let maxbin := (sort_loop comp l.nodes []).length
    sort_loop_indices comp l.nodes [] ++ sort_merge_up_indices (maxbin - 1) 1 ++
      [(maxbin : Int) - 1]

/-! ## `util::variant` -/

/-- `variant_id::kInvalid`. -/
def variant_id.kInvalid : Nat := 0

/-- What `variant` is told about the types it can hold, each named by its `variant_id`:
`payload id` is the type `Ty` with `variant_type_impl<Ty>::type_id == id`, `dflt id` the value
`Ty()`, `moved id x` the state in which the move constructor of `Ty` leaves an object holding
`x`, `on_heap id` tells which definition of `variant_type_base_impl` the type takes (the one
that keeps the value behind a pointer, for a type larger than `kStorageSize` or without
non-throwing moves), `registered id` whether the constructor of `variant_type_impl<Ty>` has
filled the vtable of the type, and `cvt tgt src` is the entry `cvt[src]` of the vtable of
`tgt`. -/
structure variant_types where
  payload : Nat → Type
  dflt : (id : Nat) → payload id
  moved : (id : Nat) → payload id → payload id
  on_heap : Nat → Bool
  registered : Nat → Bool
  cvt : (tgt src : Nat) → Option (payload src → payload tgt)

/-- The field `type` of the vtable `get_impl(id)`.  `variant::get_impl` is defined in
`variant.cpp`, which is not in the sources: it is taken to give one vtable for every type
identifier, whose field `type` is `kInvalid` until the constructor of
`variant_type_base_impl` sets it to the identifier. -/
def variant_types.vtable_type (T : variant_types) (id : Nat) : Nat :=
  if T.registered id then id else variant_id.kInvalid

/-- The class `variant`: `vtable_` is given by the type identifier of the vtable it points to,
`data_` by the object the storage holds; `none` stands for a storage in which nothing has been
constructed and, for a type kept behind a pointer, for the null pointer. -/
structure variant (T : variant_types) where
  vtable_ : Nat
  data_ : Option (T.payload vtable_)

/-- `variant::valid()`. -/
def variant.valid {T : variant_types} (v : variant T) : Bool :=
  T.vtable_type v.vtable_ != variant_id.kInvalid

/-- `variant::type()`. -/
def variant.type {T : variant_types} (v : variant T) : Nat :=
  T.vtable_type v.vtable_

/-- `variant::variant()`. -/
def variant.default_ctor (T : variant_types) : variant T :=
  ⟨variant_id.kInvalid, none⟩

/-- `variant::variant(const Ty& val)` and `variant(Ty&& val)` for the type `Ty` with the
identifier `id`: `construct` builds the value in the storage or, for a type kept behind a
pointer, in a new object the storage points to. -/
def variant.of_value (T : variant_types) (id : Nat) (val : T.payload id) : variant T :=
  ⟨id, if T.vtable_type id != variant_id.kInvalid then some val else none⟩

/-- `variant::variant(const variant& v)`: `construct_copy` copies the value or, for a type kept
behind a pointer, makes a new object from the one pointed to, and a null pointer from a null
pointer. -/
def variant.copy_ctor {T : variant_types} (v : variant T) : variant T :=
  ⟨v.vtable_, if T.vtable_type v.vtable_ != variant_id.kInvalid then v.data_ else none⟩

/-- `variant::variant(variant&& v)`: `construct_move` moves the value or, for a type kept behind
a pointer, takes the pointer and leaves a null pointer.  The result is the new variant and `v`
after the call. -/
def variant.move_ctor {T : variant_types} (v : variant T) : variant T × variant T :=
  if T.vtable_type v.vtable_ != variant_id.kInvalid then
    (⟨v.vtable_, v.data_⟩,
      ⟨v.vtable_, if T.on_heap v.vtable_ then none else v.data_.map (T.moved v.vtable_)⟩)
  else (⟨v.vtable_, none⟩, v)

/-- `variant::value<Ty>()` for the type `Ty` with the identifier `id`; `value_ptr` gives the
address of the value, null for a null pointer in the storage. -/
def variant.value {T : variant_types} (v : variant T) (id : Nat) : T.payload id :=
  if T.vtable_type v.vtable_ != variant_id.kInvalid then
    match v.data_ with
    | some pval =>
      if h : v.vtable_ = id then h ▸ pval
      else
        match T.cvt id v.vtable_ with
        | some cvt_func => cvt_func pval
        | none => T.dflt id
    | none => T.dflt id
  else T.dflt id

/-- A table of types for the examples: the identifiers of `variant_id` with `bool`, `int` and
`std::string` as payloads, all registered, `std::string` moved from being left empty. -/
def example_types : variant_types where
  payload := fun id => match id with
    | 1 => Bool
    | 2 => Int
    | 5 => String
    | _ => Unit
  dflt := fun id => match id with
    | 1 => false
    | 2 => (0 : Int)
    | 5 => ""
    | 0 | 3 | 4 | _ + 6 => ()
  moved := fun id => match id with
    | 1 => fun x => x
    | 2 => fun x => x
    | 5 => fun _ => ""
    | 0 | 3 | 4 | _ + 6 => fun x => x
  on_heap := fun _ => false
  registered := fun id => decide (0 < id ∧ id < 6)
  cvt := fun _ _ => none

/-! ## `util::list` at the level of the links -/

/-- Modelled from the spec: the links of the nodes, the fields `next` and `prev` of
`dllist_node_t` (`util_dllist.h` is not in the sources); a node, the sentinel of a list
included, is given by its address. -/
structure dllist_links where
  next : Nat → Nat
  prev : Nat → Nat

/-- The assignment `p->next = v`. -/
def dllist_links.set_next (h : dllist_links) (p v : Nat) : dllist_links :=
  ⟨Function.update h.next p v, h.prev⟩

/-- The assignment `p->prev = v`. -/
def dllist_links.set_prev (h : dllist_links) (p v : Nat) : dllist_links :=
  ⟨h.next, Function.update h.prev p v⟩

/-- `std::swap(p->next, p->prev)`. -/
def dllist_links.swap_links (h : dllist_links) (p : Nat) : dllist_links :=
  (h.set_next p (h.prev p)).set_prev p (h.next p)

/-- `std::swap(p->next, q->next)`. -/
def dllist_links.swap_next (h : dllist_links) (p q : Nat) : dllist_links :=
  (h.set_next p (h.next q)).set_next q (h.next p)

/-- `std::swap(p->prev, q->prev)`. -/
def dllist_links.swap_prev (h : dllist_links) (p q : Nat) : dllist_links :=
  (h.set_prev p (h.prev q)).set_prev q (h.prev p)

/-- Modelled from the spec: `dllist_make_cycle(head)` of `util_dllist.h` (not in the sources) on
the links: the sentinel is linked to itself. -/
def dllist_links.make_cycle (h : dllist_links) (head : Nat) : dllist_links :=
  (h.set_next head head).set_prev head head

/-- Modelled from the spec: `dllist_insert_after(pos, first, last)` of `util_dllist.h` (not in
the sources) on the links: the closed range `first .. last` is linked between `pos` and the node
that followed it. -/
def dllist_links.insert_after (h : dllist_links) (pos first last : Nat) : dllist_links :=
  let h1 := h.set_prev first pos
  let h2 := h1.set_next last (h1.next pos)
  let h3 := h2.set_prev (h2.next pos) last
  h3.set_next pos first

/-- The nodes `a`, then `ns` in this order, then `b` are linked in a row: each is the `next` of
the one before and has it as its `prev`. -/
def dllist_links.linked (h : dllist_links) : Nat → List Nat → Nat → Prop
  | a, [], b => h.next a = b ∧ h.prev b = a
  | a, n :: ns, b => h.next a = n ∧ h.prev n = a ∧ h.linked n ns b

/-- The invariant of a list node by node: the sentinel `head` and the nodes `ns`, all different,
form a cycle, `ns` being the nodes from `head.next` to `head.prev` in this order. -/
def dllist_links.is_cycle (h : dllist_links) (head : Nat) (ns : List Nat) : Prop :=
  (head :: ns).Nodup ∧ h.linked head ns head

/-- The forward traversal `for (p = head.next; p != head; p = p->next)`, given the first node
`p`, for at most `fuel` nodes. -/
def dllist_links.traverse (h : dllist_links) (head : Nat) : Nat → Nat → List Nat
  | 0, _ => []
  | fuel + 1, p => if p = head then [] else p :: h.traverse head fuel (h.next p)

/-- The members of `util::list` at the level of the links: the address of the sentinel `head_`,
the counter `size_` and the allocator; the links of the nodes of all lists are in one
`dllist_links`. -/
structure list_obj where
  head_ : Nat
  size_ : Nat
  alloc : Nat
deriving DecidableEq, Repr

/-- Well-formedness of a list whose nodes are `ns`: the sentinel and the nodes form a cycle and
`size_` is the number of nodes. -/
def list_obj.wf (l : list_obj) (h : dllist_links) (ns : List Nat) : Prop :=
  h.is_cycle l.head_ ns ∧ l.size_ = ns.length

/-- The loop `do { std::swap(p->next, p->prev); p = p->prev; } while (p != &head_)` of
`list::reverse`.  `none` when the fuel is used up. -/
def list_obj.reverse_loop (head : Nat) : Nat → dllist_links → Nat → Option dllist_links
  | 0, _, _ => none
  | fuel + 1, h, p =>
    let h' := h.swap_links p
    let p' := h'.prev p
    if p' = head then some h' else list_obj.reverse_loop head fuel h' p'

/-- `list::reverse()`: the result is the links after the call (no statement of it assigns
`size_`); `none` stands for a loop that does not come back to the sentinel within `size_ + 1`
rounds. -/
def list_obj.reverse (l : list_obj) (h : dllist_links) : Option dllist_links :=
  if l.size_ = 0 then some h else list_obj.reverse_loop l.head_ (l.size_ + 1) h l.head_

/-- `list::steal_data(list& other)`: the result is the links and `(self, other)` after the
call. -/
def list_obj.steal_data (self other : list_obj) (h : dllist_links) :
    dllist_links × list_obj × list_obj :=
  if other.size_ = 0 then (h, self, other)
  else
    let h1 := h.set_next self.head_ (h.next other.head_)
    let h2 := h1.set_prev (h1.next self.head_) self.head_
    let h3 := h2.set_prev self.head_ (h2.prev other.head_)
    let h4 := h3.set_next (h3.prev self.head_) self.head_
    (h4.make_cycle other.head_, ⟨self.head_, other.size_, self.alloc⟩,
      ⟨other.head_, 0, other.alloc⟩)

/-- `list::swap_impl(list& other, std::false_type)`: the result is the links and
`(self, other)` after the call. -/
def list_obj.swap_impl (self other : list_obj) (h : dllist_links) :
    dllist_links × list_obj × list_obj :=
  if self.size_ = 0 then self.steal_data other h
  else if other.size_ ≠ 0 then
    let h1 := h.swap_next self.head_ other.head_
    let h2 := h1.swap_prev self.head_ other.head_
    let h3 := h2.swap_prev (h2.next self.head_) (h2.next other.head_)
    let h4 := h3.swap_next (h3.prev self.head_) (h3.prev other.head_)
    (h4, ⟨self.head_, other.size_, self.alloc⟩, ⟨other.head_, self.size_, other.alloc⟩)
  else
    let h1 := h.insert_after other.head_ (h.next self.head_) (h.prev self.head_)
    (h1.make_cycle self.head_, ⟨self.head_, 0, self.alloc⟩,
      ⟨other.head_, self.size_, other.alloc⟩)

/-- `list::swap_impl(list& other, std::true_type)`: the allocators are swapped first. -/
def list_obj.swap_impl_propagate (self other : list_obj) (h : dllist_links) :
    dllist_links × list_obj × list_obj :=
  list_obj.swap_impl ⟨self.head_, self.size_, other.alloc⟩
    ⟨other.head_, other.size_, self.alloc⟩ h

/-- `list::swap(list& other)` for a list `other` that is a different object; `propagate` is
`alloc_traits::propagate_on_container_swap`. -/
def list_obj.swap (propagate : Bool) (self other : list_obj) (h : dllist_links) :
    dllist_links × list_obj × list_obj :=
  if propagate then self.swap_impl_propagate other h else self.swap_impl other h

/-- The nodes `a`, then `ns` in this order, then `b` follow one another by their `next`
links. -/
def dllist_links.next_chain (h : dllist_links) : Nat → List Nat → Nat → Prop
  | a, [], b => h.next a = b
  | a, n :: ns, b => h.next a = n ∧ h.next_chain n ns b

/-- Modelled from the spec: `dllist_insert_before(pos, first, last)` of `util_dllist.h` (not in
the sources) on the links: the closed range `first .. last` is linked between the node in front
of `pos` and `pos`; `dllist_insert_before(pos, node)` is the case `first == last`. -/
def dllist_links.insert_before (h : dllist_links) (pos first last : Nat) : dllist_links :=
  let h1 := h.set_next last pos
  let h2 := h1.set_prev first (h1.prev pos)
  let h3 := h2.set_next (h2.prev pos) first
  h3.set_prev pos last

/-- Modelled from the spec: `dllist_remove(first, last)` of `util_dllist.h` (not in the sources)
on the links: the nodes `[first, last)` are unlinked, the node in front of `first` and `last`
becoming neighbours; the links between the unlinked nodes, and from the last of them to `last`,
stay.  The result is the links and the returned node, the one that was in front of `last`. -/
def dllist_links.remove_range (h : dllist_links) (first last : Nat) : dllist_links × Nat :=
  let h1 := h.set_next (h.prev first) last
  (h1.set_prev last (h1.prev first), h.prev last)

/-- Modelled from the spec: `dllist_remove(node)` of `util_dllist.h` (not in the sources) on the
links: the neighbours of `node` become neighbours; the result is the links and the returned
node, `node->next`. -/
def dllist_links.remove (h : dllist_links) (node : Nat) : dllist_links × Nat :=
  let h1 := h.set_prev (h.next node) (h.prev node)
  (h1.set_next (h1.prev node) (h1.next node), h.next node)

/-- The nodes `a`, then `ns` in this order, are linked in a row: each is the `next` of the one
before and has it as its `prev`; nothing is said of the links that leave the row. -/
def dllist_links.chain (h : dllist_links) : Nat → List Nat → Prop
  | _, [] => True
  | a, n :: ns => h.next a = n ∧ h.prev n = a ∧ h.chain n ns

/-- The loop `do { p = p->next; ++count; } while (p != last)`, which walks the nodes of a range
one by one, for at most `fuel` rounds: the number of rounds, `none` when the fuel is used up. -/
def dllist_links.count_until (h : dllist_links) (last : Nat) : Nat → Nat → Option Nat
  | 0, _ => none
  | fuel + 1, p =>
    if h.next p = last then some 1
    else (h.count_until last fuel (h.next p)).map (· + 1)

/-! ## The operations of `util::list` at the level of the links -/

/-- Two lists that are different objects are well-formed together: each has its nodes (`nsA`,
`nsB`) in a cycle with its sentinel, counted by its `size_`, and no node or sentinel of the one
is in the cycle of the other. -/
def list_obj.wf_pair (self other : list_obj) (h : dllist_links) (nsA nsB : List Nat) : Prop :=
  self.wf h nsA ∧ other.wf h nsB ∧ ∀ x ∈ self.head_ :: nsA, x ∉ other.head_ :: nsB

/-- `list::splice_impl(const_iterator pos, list&& other)` at the level of the links, called on
`self` for a list `other` that is a different object; an iterator is the address of its node.
The result is the links and `(self, other)` as they are when the call returns or throws, and the
exception thrown, if any. -/
def list_obj.splice_impl_list (always_equal : Bool) (self other : list_obj) (h : dllist_links)
    (pos : Nat) : dllist_links × list_obj × list_obj × Option thrown :=
  if other.size_ = 0 then (h, self, other, none)
  else if !always_equal && !(self.alloc == other.alloc) then
    (h, self, other, some (.container .logic_error))
  else
    let h1 := h.insert_before pos (h.next other.head_) (h.prev other.head_)
    (h1.make_cycle other.head_, ⟨self.head_, self.size_ + other.size_, self.alloc⟩,
      ⟨other.head_, 0, other.alloc⟩, none)

/-- `list::splice_impl(const_iterator pos, list&& other, const_iterator it)` at the level of the
links, for a list `other` that is a different object. -/
def list_obj.splice_impl_node (always_equal : Bool) (self other : list_obj) (h : dllist_links)
    (pos it : Nat) : dllist_links × list_obj × list_obj × Option thrown :=
  if !always_equal && !(self.alloc == other.alloc) then
    (h, self, other, some (.container .logic_error))
  else
    ((h.remove it).1.insert_before pos it it, ⟨self.head_, self.size_ + 1, self.alloc⟩,
      ⟨other.head_, other.size_ - 1, other.alloc⟩, none)

/-- `list::splice_impl(const_iterator pos, list&& other, const_iterator it)` at the level of the
links when `other` is the list itself (`std::addressof(other) == this`): no counter is
assigned. -/
def list_obj.splice_impl_node_self (self : list_obj) (h : dllist_links) (pos it : Nat) :
    dllist_links × list_obj :=
  if it = pos then (h, self) else ((h.remove it).1.insert_before pos it it, self)

/-- `list::splice_impl(const_iterator pos, list&& other, const_iterator first, const_iterator
last)` at the level of the links, for a list `other` that is a different object.  The loop that
counts the nodes of the range gets `other.size_` rounds; `none` stands for a loop that does not
reach `last` within them. -/
def list_obj.splice_impl_range (always_equal : Bool) (self other : list_obj)
    (h : dllist_links) (pos first last : Nat) :
    Option (dllist_links × list_obj × list_obj × Option thrown) :=
  if first = last then some (h, self, other, none)
  else if !always_equal && !(self.alloc == other.alloc) then
    some (h, self, other, some (.container .logic_error))
  else
    match h.count_until last other.size_ first with
    | none => none
    | some count =>
      let r := h.remove_range first last
      some (r.1.insert_before pos first r.2, ⟨self.head_, self.size_ + count, self.alloc⟩,
        ⟨other.head_, other.size_ - count, other.alloc⟩, none)

/-- `list::splice_impl(const_iterator pos, list&& other, const_iterator first, const_iterator
last)` at the level of the links when `other` is the list itself. -/
def list_obj.splice_impl_range_self (self : list_obj) (h : dllist_links)
    (pos first last : Nat) : dllist_links × list_obj :=
  if first = last then (h, self)
  else if last = pos then (h, self)
  else
    let r := h.remove_range first last
    (r.1.insert_before pos first r.2, self)

/-- `list::emplace(const_iterator pos, Args&&... args)`, which `insert(pos, val)` returns, at the
level of the links, when `new_node` returns the node `node` (after `++size_`): the result is the
links, the list and the returned iterator. -/
def list_obj.emplace (l : list_obj) (h : dllist_links) (pos node : Nat) :
    dllist_links × list_obj × Nat :=
  (h.insert_before pos node node, ⟨l.head_, l.size_ + 1, l.alloc⟩, node)

/-- `list::emplace_front(Args&&... args)`, which `push_front(val)` calls, at the level of the
links, when `new_node` returns the node `node`. -/
def list_obj.emplace_front (l : list_obj) (h : dllist_links) (node : Nat) :
    dllist_links × list_obj :=
  (h.insert_after l.head_ node node, ⟨l.head_, l.size_ + 1, l.alloc⟩)

/-- `list::emplace_back(Args&&... args)`, which `push_back(val)` calls, at the level of the
links, when `new_node` returns the node `node`. -/
def list_obj.emplace_back (l : list_obj) (h : dllist_links) (node : Nat) :
    dllist_links × list_obj :=
  (h.insert_before l.head_ node node, ⟨l.head_, l.size_ + 1, l.alloc⟩)

/-- `list::pop_front()` at the level of the links (the function asserts `size_`). -/
def list_obj.pop_front (l : list_obj) (h : dllist_links) : dllist_links × list_obj :=
  ((h.remove (h.next l.head_)).1, ⟨l.head_, l.size_ - 1, l.alloc⟩)

/-- `list::pop_back()` at the level of the links (the function asserts `size_`). -/
def list_obj.pop_back (l : list_obj) (h : dllist_links) : dllist_links × list_obj :=
  ((h.remove (h.prev l.head_)).1, ⟨l.head_, l.size_ - 1, l.alloc⟩)

/-- `list::erase(const_iterator pos)` at the level of the links: the result is the links, the
list and the returned iterator. -/
def list_obj.erase (l : list_obj) (h : dllist_links) (pos : Nat) :
    dllist_links × list_obj × Nat :=
  ((h.remove pos).1, ⟨l.head_, l.size_ - 1, l.alloc⟩, (h.remove pos).2)

/-- `list::erase_impl(dllist_node_t* first, dllist_node_t* last)` at the level of the links: the
range is unlinked, then the loop deletes its nodes one by one, with `--size_` for each.  The
loop gets `size_` rounds; `none` stands for a loop that does not reach `last` within them. -/
def list_obj.erase_impl (l : list_obj) (h : dllist_links) (first last : Nat) :
    Option (dllist_links × list_obj) :=
  let r := h.remove_range first last
  match r.1.count_until last l.size_ first with
  | none => none
  | some count => some (r.1, ⟨l.head_, l.size_ - count, l.alloc⟩)

/-- `list::erase(const_iterator first, const_iterator last)` at the level of the links. -/
def list_obj.erase_range (l : list_obj) (h : dllist_links) (first last : Nat) :
    Option (dllist_links × list_obj × Nat) :=
  if first ≠ last then (l.erase_impl h first last).map (fun r => (r.1, r.2, last))
  else some (h, l, last)

/-- `list::tidy()`, which `clear()` calls, at the level of the links: the temporary chain sets
`size_` to zero and links the sentinel to itself, and deletes the nodes when it goes out of
scope. -/
def list_obj.tidy (l : list_obj) (h : dllist_links) : dllist_links × list_obj :=
  (h.make_cycle l.head_, ⟨l.head_, 0, l.alloc⟩)

/-- `list::clear()` at the level of the links. -/
def list_obj.clear (l : list_obj) (h : dllist_links) : dllist_links × list_obj :=
  l.tidy h

/-- The calls of member functions of `list` that change the links of a list `self` (and of a
second list `other`, a different object, for `swap` and `splice`): an iterator is the address of
its node, and `node` is the node that `new_node` has made for a call that inserts. -/
inductive list_link_op where
  | swap (propagate : Bool)
  | reverse
  | splice (always_equal : Bool) (pos : Nat)
  | splice_node (always_equal : Bool) (pos it : Nat)
  | splice_range (always_equal : Bool) (pos first last : Nat)
  | splice_node_self (pos it : Nat)
  | splice_range_self (pos first last : Nat)
  | emplace (pos node : Nat)
  | emplace_front (node : Nat)
  | emplace_back (node : Nat)
  | pop_front
  | pop_back
  | erase (pos : Nat)
  | erase_range (first last : Nat)
  | clear
deriving DecidableEq, Repr

/-- The call `op` made on `self`: the links and `(self, other)` as they are when the call
returns or throws, and the exception thrown, if any; `none` stands for a loop that does not
end. -/
def list_link_op.apply (op : list_link_op) (self other : list_obj) (h : dllist_links) :
    Option (dllist_links × list_obj × list_obj × Option thrown) :=
  match op with
  | .swap propagate => some ((self.swap propagate other h).1, (self.swap propagate other h).2.1,
      (self.swap propagate other h).2.2, none)
  | .reverse => (self.reverse h).map (fun h' => (h', self, other, none))
  | .splice always_equal pos => some (self.splice_impl_list always_equal other h pos)
  | .splice_node always_equal pos it => some (self.splice_impl_node always_equal other h pos it)
  | .splice_range always_equal pos first last =>
    self.splice_impl_range always_equal other h pos first last
  | .splice_node_self pos it =>
    some ((self.splice_impl_node_self h pos it).1, (self.splice_impl_node_self h pos it).2,
      other, none)
  | .splice_range_self pos first last =>
    some ((self.splice_impl_range_self h pos first last).1,
      (self.splice_impl_range_self h pos first last).2, other, none)
  | .emplace pos node => some ((self.emplace h pos node).1, (self.emplace h pos node).2.1,
      other, none)
  | .emplace_front node => some ((self.emplace_front h node).1, (self.emplace_front h node).2,
      other, none)
  | .emplace_back node => some ((self.emplace_back h node).1, (self.emplace_back h node).2,
      other, none)
  | .pop_front => some ((self.pop_front h).1, (self.pop_front h).2, other, none)
  | .pop_back => some ((self.pop_back h).1, (self.pop_back h).2, other, none)
  | .erase pos => some ((self.erase h pos).1, (self.erase h pos).2.1, other, none)
  | .erase_range first last =>
    (self.erase_range h first last).map (fun r => (r.1, r.2.1, other, none))
  | .clear => some ((self.clear h).1, (self.clear h).2, other, none)

/-- What the call `op` requires of its arguments: an iterator of a list is the address of one
of its nodes or of its sentinel (`end()`), an iterator that is dereferenced that of a node, a
range `[first, last)` is empty or a row of nodes of the list followed by `last`, a self-splice
has `pos` outside the range, a node just made is a node of no list, and `pop_front` and
`pop_back` assert `size_`. -/
def list_link_op.pre (op : list_link_op) (self other : list_obj) (nsA nsB : List Nat) : Prop :=
  match op with
  | .swap _ => True
  | .reverse => True
  | .splice _ pos => pos ∈ self.head_ :: nsA
  | .splice_node _ pos it => pos ∈ self.head_ :: nsA ∧ it ∈ nsB
  | .splice_range _ pos first last =>
    pos ∈ self.head_ :: nsA ∧
      (first = last ∨ ∃ xs t ys, nsB = xs ++ first :: t ++ ys ∧ last = ys.headD other.head_)
  | .splice_node_self pos it => pos ∈ self.head_ :: nsA ∧ it ∈ nsA
  | .splice_range_self pos first last =>
    first = last ∨ ∃ xs t ys, nsA = xs ++ first :: t ++ ys ∧ last = ys.headD self.head_ ∧
      pos ∈ self.head_ :: (xs ++ ys)
  | .emplace pos node =>
    pos ∈ self.head_ :: nsA ∧ node ∉ self.head_ :: nsA ∧ node ∉ other.head_ :: nsB
  | .emplace_front node => node ∉ self.head_ :: nsA ∧ node ∉ other.head_ :: nsB
  | .emplace_back node => node ∉ self.head_ :: nsA ∧ node ∉ other.head_ :: nsB
  | .pop_front => self.size_ ≠ 0
  | .pop_back => self.size_ ≠ 0
  | .erase pos => pos ∈ nsA
  | .erase_range first last =>
    first = last ∨ ∃ xs t ys, nsA = xs ++ first :: t ++ ys ∧ last = ys.headD self.head_
  | .clear => True

/-! ## The loops of `util::list` that erase, resize and assign -/

/-- `list::tidy()`, which `clear()` calls: the temporary chain takes the nodes, sets `size_` to
zero and links the sentinel to itself; the nodes are deleted when it goes out of scope. -/
def list.tidy {α : Type} (l : list α) : list α :=
  ⟨dllist_make_cycle l.nodes, 0, l.alloc⟩

/-- `list::erase_impl(dllist_node_t* first, dllist_node_t* last)` (the function asserts
`first != last`): the nodes `[first, last)` are unlinked, then the loop deletes them one by one,
with `--size_` for each. -/
def list.erase_impl {α : Type} (l : list α) (first last : Nat) : list α :=
  let r := dllist_remove l.nodes first last
  ⟨r.2, r.1.foldl (fun size_ _ => size_ - 1) l.size_, l.alloc⟩

/-- The loop `while (++sz < size_) { p = p->prev; }` of `list::resize`, for at most `fuel`
tests; `p` is the index of a node, and `none` stands for fuel that is used up. -/
def list.resize_seek (size_ : Nat) : Nat → Nat → Nat → Option Nat
  | 0, _, _ => none
  | fuel + 1, sz, p =>
    if sz + 1 < size_ then list.resize_seek size_ fuel (sz + 1) (p - 1) else some p

/-- `list::insert_default(dllist_node_t* pos, size_type sz)`: the loop of `insert_const` for
`sz` nodes whose payload is value-initialised, `dflt`. -/
def list.insert_default {σ α : Type} (new_ok : σ → α → σ × Bool) (s : σ) (l : list α)
    (pos : Nat) (sz : Nat) (dflt : α) : σ × list α × Except thrown Nat :=
  match list.insert_loop new_ok s l pos (List.replicate sz dflt) with
  | (s', l', none) => (s', l', .ok pos)
  | (s', l', some e) => (s', l', .error e)

/-- `list::resize(size_type sz)`; `dflt` is the value-initialised payload.  The result is the
next state, the list when the call returns or throws, and the exception thrown, if any; `none`
stands for a loop `while (++sz < size_)` that does not end within `size_` tests. -/
def list.resize {σ α : Type} (new_ok : σ → α → σ × Bool) (s : σ) (l : list α) (sz : Nat)
    (dflt : α) : Option (σ × list α × Option thrown) :=
  if sz < l.size_ then
    match list.resize_seek l.size_ l.size_ sz (l.nodes.length - 1) with
    | none => none
    | some p => some (s, l.erase_impl p l.nodes.length, none)
  else
    match list.insert_default new_ok s l l.nodes.length (sz - l.size_) dflt with
    | (s', l', .ok _) => some (s', l', none)
    | (s', l', .error e) => some (s', l', some e)

/-- `list::resize(size_type sz, const value_type& val)`. -/
def list.resize_val {σ α : Type} (new_ok : σ → α → σ × Bool) (s : σ) (l : list α) (sz : Nat)
    (val : α) : Option (σ × list α × Option thrown) :=
  if sz < l.size_ then
    match list.resize_seek l.size_ l.size_ sz (l.nodes.length - 1) with
    | none => none
    | some p => some (s, l.erase_impl p l.nodes.length, none)
  else
    match list.insert_const new_ok s l l.nodes.length (sz - l.size_) val with
    | (s', l', .ok _) => some (s', l', none)
    | (s', l', .error e) => some (s', l', some e)

/-- The loop `for (; (p != &head_) && (first != last); ++first)` of `list::assign_impl(InputIt,
InputIt, std::true_type)`, which assigns the values of the range to the payloads of the nodes
from `head_.next` on; `sz` counts down in the same way in `assign_const`.  The first list is the
chain from `p` on, the second the values left; the result is the payloads assigned, the chain
from `p` on when the loop is left, and the values left then. -/
def list.assign_walk {α : Type} : List α → List α → List α × List α × List α
  | [], input => ([], [], input)
  | n :: ns, [] => ([], n :: ns, [])
  | _ :: ns, v :: input =>
    ((v :: (list.assign_walk ns input).1), (list.assign_walk ns input).2.1,
      (list.assign_walk ns input).2.2)

/-- `list::assign_impl(InputIt first, InputIt last, std::true_type)` for the values `input` of
the range: when the loop leaves nodes (`p != &head_`) they are erased, otherwise the values left
are inserted at the end. -/
def list.assign_impl_true {σ α : Type} (new_ok : σ → α → σ × Bool) (s : σ) (l : list α)
    (input : List α) : σ × list α × Option thrown :=
  let r := list.assign_walk l.nodes input
  let l1 : list α := ⟨r.1 ++ r.2.1, l.size_, l.alloc⟩
  if !r.2.1.isEmpty then (s, l1.erase_impl r.1.length l1.nodes.length, none)
  else
    match list.insert_impl new_ok s l1 l1.nodes.length r.2.2 with
    | (s', l', .ok _) => (s', l', none)
    | (s', l', .error e) => (s', l', some e)

/-- The loop `for (temp_chain_t tmp(std::move(*this)); !tmp.empty() && (first != last);
++first)` of `list::assign_impl(InputIt, InputIt, std::false_type)`: a node of the temporary
chain gets its payload constructed anew from the value (`new_ok` tells whether the construction
succeeds; the guard frees the node when it throws), then `++size_` and the node is linked at the
end.  The second list is the temporary chain, the third the values left; the result is the next
state, the list, the values left and the exception thrown, if any (the nodes left in the chain
are deleted when it goes out of scope). -/
def list.assign_reconstruct {σ α : Type} (new_ok : σ → α → σ × Bool) :
    σ → list α → List α → List α → σ × list α × List α × Option thrown
  | s, l, [], input => (s, l, input, none)
  | s, l, _ :: _, [] => (s, l, [], none)
  | s, l, _ :: tmp, v :: input =>
    match new_ok s v with
    | (s', true) =>
      list.assign_reconstruct new_ok s'
        ⟨dllist_insert_before l.nodes l.nodes.length [v], l.size_ + 1, l.alloc⟩ tmp input
    | (s', false) => (s', l, v :: input, some .foreign)

/-- `list::assign_impl(InputIt first, InputIt last, std::false_type)` for the values `input` of
the range. -/
def list.assign_impl_false {σ α : Type} (new_ok : σ → α → σ × Bool) (s : σ) (l : list α)
    (input : List α) : σ × list α × Option thrown :=
  match list.assign_reconstruct new_ok s l.tidy l.nodes input with
  | (s', l', rest, none) =>
    match list.insert_impl new_ok s' l' l'.nodes.length rest with
    | (s'', l'', .ok _) => (s'', l'', none)
    | (s'', l'', .error e) => (s'', l'', some e)
  | (s', l', _, some e) => (s', l', some e)

/-- `list::assign(InputIt first, InputIt last)` and `assign(std::initializer_list)`;
`assignable` is the tag `std::is_assignable<Ty&, decltype(*first)>` (`is_copy_assignable<Ty>`
for the initializer list). -/
def list.assign_range {σ α : Type} (assignable : Bool) (new_ok : σ → α → σ × Bool) (s : σ)
    (l : list α) (input : List α) : σ × list α × Option thrown :=
  if assignable then l.assign_impl_true new_ok s input else l.assign_impl_false new_ok s input

/-- `list::assign(size_type sz, const value_type& val)`, that is `assign_const` with the tag
`std::is_copy_assignable<Ty>`: its two overloads are the loops of `assign_impl` with `sz`
counted down instead of a range walked, and `insert_const` for the values left. -/
def list.assign_count {σ α : Type} (assignable : Bool) (new_ok : σ → α → σ × Bool) (s : σ)
    (l : list α) (sz : Nat) (val : α) : σ × list α × Option thrown :=
  if assignable then l.assign_impl_true new_ok s (List.replicate sz val)
  else l.assign_impl_false new_ok s (List.replicate sz val)

/-- The calls of member functions of `list` that work in a loop, on a list `self` (and a second
list `other`, a different object, for `merge`): iterators are node indices, `dflt` is the
value-initialised payload, a comparator or predicate is one that does not throw, and a `val` is
an object that is not an element of the list. -/
inductive list_op (α : Type) where
  | insert_count (pos count : Nat) (val : α)
  | insert_range (pos : Nat) (input : List α)
  | resize (sz : Nat) (dflt : α)
  | resize_val (sz : Nat) (val : α)
  | assign_count (assignable : Bool) (sz : Nat) (val : α)
  | assign_range (assignable : Bool) (input : List α)
  | remove (val : α)
  | remove_if (pred : α → Bool)
  | unique
  | unique_if (pred : α → α → Bool)
  | merge (always_equal : Bool) (comp : α → α → Bool)
  | sort (comp : α → α → Bool)

/-- The call `op` made on `self`: the next state of the allocator and the constructors,
`(self, other)` as they are when the call returns or throws, and the exception thrown, if any;
`none` stands for a loop that does not end. -/
def list_op.apply {σ α : Type} [BEq α] (op : list_op α) (new_ok : σ → α → σ × Bool) (s : σ)
    (self other : list α) : Option (σ × list α × list α × Option thrown) :=
  match op with
  | .insert_count pos count val =>
    match list.insert_count new_ok s self pos count val with
    | (s', l', .ok _) => some (s', l', other, none)
    | (s', l', .error e) => some (s', l', other, some e)
  | .insert_range pos input =>
    match list.insert_range new_ok s self pos input with
    | (s', l', .ok _) => some (s', l', other, none)
    | (s', l', .error e) => some (s', l', other, some e)
  | .resize sz dflt => (list.resize new_ok s self sz dflt).map (fun r => (r.1, r.2.1, other, r.2.2))
  | .resize_val sz val =>
    (list.resize_val new_ok s self sz val).map (fun r => (r.1, r.2.1, other, r.2.2))
  | .assign_count assignable sz val =>
    some ((list.assign_count assignable new_ok s self sz val).1,
      (list.assign_count assignable new_ok s self sz val).2.1, other,
      (list.assign_count assignable new_ok s self sz val).2.2)
  | .assign_range assignable input =>
    some ((list.assign_range assignable new_ok s self input).1,
      (list.assign_range assignable new_ok s self input).2.1, other,
      (list.assign_range assignable new_ok s self input).2.2)
  | .remove val => (self.remove (.object val)).map (fun r => (s, r.1, other, none))
  | .remove_if pred => some (s, (self.remove_if pred).1, other, none)
  | .unique => some (s, self.unique.1, other, none)
  | .unique_if pred => some (s, (self.unique_if pred).1, other, none)
  | .merge always_equal comp =>
    some ((list.merge_impl always_equal (nothrow comp) s self other).1,
      (list.merge_impl always_equal (nothrow comp) s self other).2.1,
      (list.merge_impl always_equal (nothrow comp) s self other).2.2.1,
      (list.merge_impl always_equal (nothrow comp) s self other).2.2.2)
  | .sort comp => some (s, self.sort comp, other, none)

/-- What the call `op` requires of its arguments: the iterator `pos` of an insertion is the
index of a node or `end()`. -/
def list_op.pre {α : Type} (op : list_op α) (self : list α) : Prop :=
  match op with
  | .insert_count pos _ _ => pos ≤ self.nodes.length
  | .insert_range pos _ => pos ≤ self.nodes.length
  | _ => True

/-! ## `util::xml_parser`

The member functions of the class `xml_parser` are declared under `xml_parser_t`. -/

/-- The stream `std::istream& input_` as the parser uses it: the bytes not yet read and whether
the stream is `good()`. -/
structure istream where
  rest : List Nat
  good : Bool
deriving DecidableEq, Repr

/-- `std::char_traits<char>::eof()`, which `get()` returns at the end of the input. -/
def istream.eof : Int := -1

/-- `input_.get()`: the next byte, or `eof()` with the stream no longer good; the result is the
value returned and the stream after the call. -/
def istream.get (ins : istream) : Int × istream :=
  if ins.good then
    match ins.rest with
    | c :: rest => ((c : Int), ⟨rest, true⟩)
    | [] => (istream.eof, ⟨[], false⟩)
  else (istream.eof, ins)

/-- The bytes of a string literal of the source. -/
def bytes (s : String) : List Nat :=
  s.toList.map Char.toNat

/-- The constructor `symb_table_t(std::string_view symbols)` of `xml_parser.h`, from the
iterator `it` on: `tbl` is the table so far (all `false` at the start), `prev_ch` the last byte
that was not a `'-'` (`'\0'` at the start).  A byte other than `'-'` is entered and becomes
`prev_ch`; a `'-'` takes the byte after it as the upper end of a range that starts at
`prev_ch`, and all bytes of the range are entered.  (For a `'-'` at the very end the source
steps past the end of the string, and for an upper end of 255 its inner loop does not end; the
model leaves the table as it is, respectively enters the range.) -/
def symb_table_t.fill : List Nat → Nat → (Nat → Bool) → Nat → Bool
  | [], _, tbl => tbl
  | [c], _, tbl => if c ≠ 45 then fun ch => decide (ch = c) || tbl ch else tbl
  | c :: hi :: symbols, prev_ch, tbl =>
    if c ≠ 45 then symb_table_t.fill (hi :: symbols) c (fun ch => decide (ch = c) || tbl ch)
    else symb_table_t.fill symbols prev_ch (fun ch => decide (prev_ch ≤ ch ∧ ch ≤ hi) || tbl ch)

/-- The table `symb_table_t{symbols}`. -/
def symb_table_t (symbols : String) : Nat → Bool :=
  symb_table_t.fill (bytes symbols) 0 (fun _ => false)

/-- `_is_name_first_char` of `xml_parser::try_parse_name`. -/
def is_name_first_char : Nat → Bool :=
  symb_table_t ":_a-zA-Z"

/-- `_is_name_char` of `xml_parser::try_parse_name`. -/
def is_name_char : Nat → Bool :=
  symb_table_t "---.:_0-9a-zA-Z"

/-- The loop `while (true)` of `xml_parser::try_parse_name` on a stream that is good, given by
its unread bytes: a byte of `_is_name_char` is appended to `name`; another byte is put back
(`input_.unget()`) and ends the loop, as does the end of the input.  The result is `name` and
the stream. -/
def xml_parser_t.try_parse_name_loop : List Nat → List Nat → List Nat × istream
  | [], name => (name, ⟨[], false⟩)
  | ch :: rest, name =>
    if !is_name_char ch then (name, ⟨ch :: rest, true⟩)
    else xml_parser_t.try_parse_name_loop rest (name ++ [ch])

/-- `xml_parser::try_parse_name(char first, std::string& name)`: the result is the value
returned, `name` and the stream `input_` after the call.  `first` is the value that the caller
got from `input_.get()` or `skip_spaces()`, cast to `uint8_t` for the table. -/
def xml_parser_t.try_parse_name (input_ : istream) (first : Int) (name : List Nat) :
    Bool × List Nat × istream :=
  if !is_name_first_char (first % 256).toNat then (false, name, input_)
  else if input_.good then
    (true, (xml_parser_t.try_parse_name_loop input_.rest (name ++ [(first % 256).toNat])).1,
      (xml_parser_t.try_parse_name_loop input_.rest (name ++ [(first % 256).toNat])).2)
  else (true, name ++ [(first % 256).toNat], input_)

/-- The loop of `xml_parser::skip_up_to(std::string_view sub)` on a stream that is good, given
by its unread bytes: the second list is `sub` from the iterator `it` on.  A line feed is
counted in `current_line_`; a byte equal to `*it` advances `it`; any other byte is dropped and
`it` stays where it is.  The result is the value returned, the stream and `current_line_`. -/
def xml_parser_t.skip_up_to_loop : List Nat → List Nat → Nat → Bool × istream × Nat
  | rest, [], current_line_ => (true, ⟨rest, true⟩, current_line_)
  | [], _ :: _, current_line_ => (false, ⟨[], false⟩, current_line_)
  | ch :: rest, c :: sub, current_line_ =>
    if ch = 10 then xml_parser_t.skip_up_to_loop rest (c :: sub) (current_line_ + 1)
    else if ch = c then xml_parser_t.skip_up_to_loop rest sub current_line_
    else xml_parser_t.skip_up_to_loop rest (c :: sub) current_line_

/-- `xml_parser::skip_up_to(std::string_view sub)`: the result is the value returned, the
stream `input_` and `current_line_` after the call. -/
def xml_parser_t.skip_up_to (input_ : istream) (current_line_ : Nat) (sub : List Nat) :
    Bool × istream × Nat :=
  if input_.good then xml_parser_t.skip_up_to_loop input_.rest sub current_line_
  else
    match sub with
    | [] => (true, input_, current_line_)
    | _ :: _ => (false, input_, current_line_)

/-- How a loop of `xml_parser::parse_special_character` is left: `left_at_semicolon` tells
whether it was left by `break` at a `';'` (otherwise the function returns `false` from within
the loop); `code` and `count` are the variables and `input_` the stream at that point. -/
structure xml_parser_t.code_loop where
  left_at_semicolon : Bool
  code : Nat
  count : Nat
  input_ : istream
deriving DecidableEq, Repr

/-- The loop `while (true)` under "hex code" of `xml_parser::parse_special_character` on a
stream that is good, given by its unread bytes; `code` is a `uint32_t`.  Every round starts
with `code <<= 4`, before the byte is read and looked at. -/
def xml_parser_t.hex_loop : List Nat → Nat → Nat → xml_parser_t.code_loop
  | [], code, count => ⟨false, (code <<< 4) % 2 ^ 32, count, ⟨[], false⟩⟩
  | ch :: rest, code, count =>
    if 48 ≤ ch ∧ ch ≤ 57 then
      xml_parser_t.hex_loop rest (((code <<< 4) % 2 ^ 32) ||| (ch - 48)) (count + 1)
    else if 65 ≤ ch ∧ ch ≤ 70 then
      xml_parser_t.hex_loop rest (((code <<< 4) % 2 ^ 32) ||| (ch - 65 + 10)) (count + 1)
    else if 97 ≤ ch ∧ ch ≤ 102 then
      xml_parser_t.hex_loop rest (((code <<< 4) % 2 ^ 32) ||| (ch - 97 + 10)) (count + 1)
    else if ch = 59 then ⟨true, (code <<< 4) % 2 ^ 32, count, ⟨rest, true⟩⟩
    else ⟨false, (code <<< 4) % 2 ^ 32, count, ⟨rest, true⟩⟩

/-- The loop `while (true)` under "decimal code" of `xml_parser::parse_special_character` on a
stream that is good, given by its unread bytes.  Every round starts with `code *= 10`, before
the byte is read and looked at. -/
def xml_parser_t.decimal_loop : List Nat → Nat → Nat → xml_parser_t.code_loop
  | [], code, count => ⟨false, code * 10 % 2 ^ 32, count, ⟨[], false⟩⟩
  | ch :: rest, code, count =>
    if 48 ≤ ch ∧ ch ≤ 57 then
      xml_parser_t.decimal_loop rest ((code * 10 % 2 ^ 32 + (ch - 48)) % 2 ^ 32) (count + 1)
    else if ch = 59 then ⟨true, code * 10 % 2 ^ 32, count, ⟨rest, true⟩⟩
    else ⟨false, code * 10 % 2 ^ 32, count, ⟨rest, true⟩⟩

/-- The part "decimal code" of `xml_parser::parse_special_character` with the statement
`return count != 0` after it: the result is the value returned, `code` and the stream.  On a
stream that is not good `get()` gives `eof()`, which is neither a digit nor `';'`. -/
def xml_parser_t.decimal_code (input_ : istream) (code count : Nat) : Bool × Nat × istream :=
  if input_.good then
    ((xml_parser_t.decimal_loop input_.rest code count).left_at_semicolon &&
        decide ((xml_parser_t.decimal_loop input_.rest code count).count ≠ 0),
      (xml_parser_t.decimal_loop input_.rest code count).code,
      (xml_parser_t.decimal_loop input_.rest code count).input_)
  else (false, code * 10 % 2 ^ 32, input_)

/-- The loop `for (size_t n = 0; n < name.size(); ch = input_.get(), ++n)` of
`xml_parser::parse_special_character`, which reads the name of a reference such as `lt`: the
first argument is `name.size() - n`, `name` the bytes stored so far.  The result is the value
returned, `code` and the stream. -/
def xml_parser_t.named_code : Nat → Int → istream → List Nat → Nat → Bool × Nat × istream
  | 0, _, input_, _, code => (false, code, input_)
  | k + 1, ch, input_, name, code =>
    if 97 ≤ ch ∧ ch ≤ 122 then
      xml_parser_t.named_code k (input_.get).1 (input_.get).2 (name ++ [ch.toNat]) code
    else if ch = 59 then
      if name = bytes "lt" then (true, 60, input_)
      else if name = bytes "gt" then (true, 62, input_)
      else if name = bytes "amp" then (true, 38, input_)
      else if name = bytes "apos" then (true, 39, input_)
      else if name = bytes "quot" then (true, 34, input_)
      else (false, code, input_)
    else (false, code, input_)

/-- `xml_parser::parse_special_character(uint32_t& code)`, called after the `'&'` has been
read: the result is the value returned, `code` and the stream `input_` after the call.  After
`'#'` one byte is read and compared with `'x'` and `'X'`; the hex loop, when it is entered and
left at a `';'`, is followed by the decimal loop, as it is when it is not entered. -/
def xml_parser_t.parse_special_character (input_ : istream) (code : Nat) :
    Bool × Nat × istream :=
  if !(input_.get).2.good then (false, code, (input_.get).2)
  else if (input_.get).1 = 35 then
    if ((input_.get).2.get).1 = 120 ∨ ((input_.get).2.get).1 = 88 then
      if ((input_.get).2.get).2.good then
        if (xml_parser_t.hex_loop ((input_.get).2.get).2.rest 0 0).left_at_semicolon then
          xml_parser_t.decimal_code (xml_parser_t.hex_loop ((input_.get).2.get).2.rest 0 0).input_
            (xml_parser_t.hex_loop ((input_.get).2.get).2.rest 0 0).code
            (xml_parser_t.hex_loop ((input_.get).2.get).2.rest 0 0).count
        else
          (false, (xml_parser_t.hex_loop ((input_.get).2.get).2.rest 0 0).code,
            (xml_parser_t.hex_loop ((input_.get).2.get).2.rest 0 0).input_)
      else (false, 0, ((input_.get).2.get).2)
    else xml_parser_t.decimal_code ((input_.get).2.get).2 0 0
  else xml_parser_t.named_code 5 (input_.get).1 (input_.get).2 [] code

/-! ## The comparison operators of `util::variant` -/

/-- The comparisons of the types a `variant` can hold: `equals id` is `operator==` and
`less id` is `operator<` of the type `Ty` with the identifier `id`. -/
structure variant_order (T : variant_types) where
  equals : (id : Nat) → T.payload id → T.payload id → Bool
  less : (id : Nat) → T.payload id → T.payload id → Bool

/-- The entry `equals` of the vtable of the type `id`, applied to two storages: the values are
compared; for a type kept behind a pointer the result is `false` when one of the pointers is
null (a storage of a valid variant of any other type always holds a value). -/
def variant_order.vtable_equals {T : variant_types} (O : variant_order T) (id : Nat)
    (lh rh : Option (T.payload id)) : Bool :=
  match lh, rh with
  | some x, some y => O.equals id x y
  | _, _ => false

/-- The entry `less` of the vtable of the type `id`, applied to two storages, with `false` for a
null pointer as in `vtable_equals`. -/
def variant_order.vtable_less {T : variant_types} (O : variant_order T) (id : Nat)
    (lh rh : Option (T.payload id)) : Bool :=
  match lh, rh with
  | some x, some y => O.less id x y
  | _, _ => false

/-- `variant::operator==(const variant& v)`. -/
def variant.operator_eq {T : variant_types} (O : variant_order T) (a v : variant T) : Bool :=
  if h : a.vtable_ = v.vtable_ then
    T.vtable_type a.vtable_ == variant_id.kInvalid ||
      O.vtable_equals a.vtable_ a.data_ (h ▸ v.data_)
  else false

/-- `variant::operator!=(const variant& v)`. -/
def variant.operator_ne {T : variant_types} (O : variant_order T) (a v : variant T) : Bool :=
  !a.operator_eq O v

/-- `variant::operator<(const variant& v)`. -/
def variant.operator_lt {T : variant_types} (O : variant_order T) (a v : variant T) : Bool :=
  if h : a.vtable_ = v.vtable_ then
    T.vtable_type a.vtable_ != variant_id.kInvalid &&
      O.vtable_less a.vtable_ a.data_ (h ▸ v.data_)
  else false

/-- `variant::operator>=(const variant& v)`, which is `!(*this < v)`. -/
def variant.operator_ge {T : variant_types} (O : variant_order T) (a v : variant T) : Bool :=
  !a.operator_lt O v

/-- `variant::operator>(const variant& v)`, which is `v < *this`. -/
def variant.operator_gt {T : variant_types} (O : variant_order T) (a v : variant T) : Bool :=
  v.operator_lt O a

/-- `variant::operator<=(const variant& v)`, which is `!(v < *this)`. -/
def variant.operator_le {T : variant_types} (O : variant_order T) (a v : variant T) : Bool :=
  !v.operator_lt O a

/-- The comparisons of the types of `example_types`: `bool`, `int` and `std::string` with their
own `==` and `<`. -/
def example_order : variant_order example_types where
  equals := fun id => match id with
    | 1 => fun (x y : Bool) => x == y
    | 2 => fun (x y : Int) => decide (x = y)
    | 5 => fun (x y : String) => decide (x = y)
    | 0 | 3 | 4 | _ + 6 => fun _ _ => true
  less := fun id => match id with
    | 1 => fun (x y : Bool) => !x && y
    | 2 => fun (x y : Int) => decide (x < y)
    | 5 => fun (x y : String) => decide (x < y)
    | 0 | 3 | 4 | _ + 6 => fun _ _ => false

/-! ## Searches in sorted ranges (`util_algorithm.h`) -/

/-- The loop `while (count > 0)` of `util::lower_bound`, for at most `fuel` tests of its
condition; the range `r` is random-access, an iterator is an index, `fn` the key function and
`lt` the `<` of the keys.  `none` stands for fuel that is used up or for `*mid` outside the
range. -/
def lower_bound_loop {α κ : Type} (fn : α → κ) (lt : κ → κ → Bool) (r : List α) (k : κ) :
    Nat → Nat → Nat → Option Nat
  | 0, _, _ => none
  | fuel + 1, first, count =>
    if 0 < count then
      match r[first + count / 2]? with
      | none => none
      | some mid =>
        if lt (fn mid) k then
          lower_bound_loop fn lt r k fuel (first + count / 2 + 1) (count - (count / 2 + 1))
        else lower_bound_loop fn lt r k fuel first (count / 2)
    else some first

/-- `util::lower_bound(r, k, fn)`: `count` is at least halved in every round, so `size + 1`
tests are enough fuel. -/
def lower_bound {α κ : Type} (fn : α → κ) (lt : κ → κ → Bool) (r : List α) (k : κ) :
    Option Nat :=
  lower_bound_loop fn lt r k (r.length + 1) 0 r.length

/-- The loop `while (count > 0)` of `util::upper_bound`, as `lower_bound_loop` with the test
`!(k < fn(*mid))`. -/
def upper_bound_loop {α κ : Type} (fn : α → κ) (lt : κ → κ → Bool) (r : List α) (k : κ) :
    Nat → Nat → Nat → Option Nat
  | 0, _, _ => none
  | fuel + 1, first, count =>
    if 0 < count then
      match r[first + count / 2]? with
      | none => none
      | some mid =>
        if !lt k (fn mid) then
          upper_bound_loop fn lt r k fuel (first + count / 2 + 1) (count - (count / 2 + 1))
        else upper_bound_loop fn lt r k fuel first (count / 2)
    else some first

/-- `util::upper_bound(r, k, fn)`. -/
def upper_bound {α κ : Type} (fn : α → κ) (lt : κ → κ → Bool) (r : List α) (k : κ) :
    Option Nat :=
  upper_bound_loop fn lt r k (r.length + 1) 0 r.length

/-- The outer loop of `util::equal_range`.  When `*mid` is neither less nor greater than `k`,
the two inner loops run, which are the loop of `lower_bound` on `[first, mid)` and the loop of
`upper_bound` on `[mid + 1, first + count)`, and the function returns
`make_range(lower, first)`. -/
def equal_range_loop {α κ : Type} (fn : α → κ) (lt : κ → κ → Bool) (r : List α) (k : κ) :
    Nat → Nat → Nat → Option (Nat × Nat)
  | 0, _, _ => none
  | fuel + 1, first, count =>
    if 0 < count then
      match r[first + count / 2]? with
      | none => none
      | some mid =>
        if lt (fn mid) k then
          equal_range_loop fn lt r k fuel (first + count / 2 + 1) (count - (count / 2 + 1))
        else if lt k (fn mid) then equal_range_loop fn lt r k fuel first (count / 2)
        else
          match lower_bound_loop fn lt r k (count / 2 + 1) first (count / 2),
            upper_bound_loop fn lt r k (count - (count / 2 + 1) + 1) (first + count / 2 + 1)
              (count - (count / 2 + 1)) with
          | some lower, some upper => some (lower, upper)
          | _, _ => none
    else some (first, first)

/-- `util::equal_range(r, k, fn)`: the result is the pair of the iterators of the range
returned. -/
def equal_range {α κ : Type} (fn : α → κ) (lt : κ → κ → Bool) (r : List α) (k : κ) :
    Option (Nat × Nat) :=
  equal_range_loop fn lt r k (r.length + 1) 0 r.length

/-- `util::binary_find(r, k, fn)`: the iterator of `lower_bound` and the flag
`(it != std::end(r)) && !(k < fn(*it))`. -/
def binary_find {α κ : Type} (fn : α → κ) (lt : κ → κ → Bool) (r : List α) (k : κ) :
    Option (Nat × Bool) :=
  match lower_bound fn lt r k with
  | none => none
  | some it =>
    if it ≠ r.length then
      match r[it]? with
      | none => none
      | some x => some (it, !lt k (fn x))
    else some (it, false)

/-- `util::binary_contains(r, k, fn)`. -/
def binary_contains {α κ : Type} (fn : α → κ) (lt : κ → κ → Bool) (r : List α) (k : κ) :
    Option Bool :=
  (binary_find fn lt r k).map (fun result => result.2)

/-- `util::binary_emplace_unique(c, k, fn, args...)` for a sequence container `c` such as a
vector, where `c.emplace(pos, args...)` constructs the value `v` from the arguments in front of
`pos` and returns the iterator of the new element: the result is the container after the call
and the pair returned. -/
def binary_emplace_unique {α κ : Type} (fn : α → κ) (lt : κ → κ → Bool) (c : List α) (k : κ)
    (v : α) : Option (List α × Nat × Bool) :=
  match binary_find fn lt c k with
  | none => none
  | some result =>
    if result.2 then some (c, result.1, false)
    else some (c.take result.1 ++ v :: c.drop result.1, result.1, true)

/-- `util::binary_insert_unique(c, v, fn)`. -/
def binary_insert_unique {α κ : Type} (fn : α → κ) (lt : κ → κ → Bool) (c : List α) (v : α) :
    Option (List α × Nat × Bool) :=
  binary_emplace_unique fn lt c (fn v) v

/-- The index `n` divides the range `r` by `p`: `p` holds for the elements in front of `n` and
for no element from `n` on. -/
def partition_point {α : Type} (p : α → Bool) (r : List α) (n : Nat) : Prop :=
  n ≤ r.length ∧ ∀ i x, r[i]? = some x → (p x = true ↔ i < n)

/-! ## `map::insert_or_assign` -/

/-- `map::insert_or_assign(const key_type& key, Ty2&& obj)` and the overload for `key_type&&`:
`try_emplace_impl` is called with `obj`, and when it has not inserted, `obj` is assigned to the
mapped value of the entry it found (`result.first->second`).  The result is the map and the
returned pair. -/
def map.insert_or_assign {κ τ : Type} (comp : κ → κ → Bool) (m : rbtree_base (κ × τ))
    (key : κ) (obj : τ) : rbtree_base (κ × τ) × (Nat × Bool) :=
  let result := map.try_emplace_impl comp m key obj
  if !result.2.2 then (map.write result.1 result.2.1 obj, result.2) else result

/-! ## The bins of `list::sort` as a binary counter -/

/-- The first `k` iterations of the `while (!dllist_is_empty(&head_))` loop of `list::sort`
(fewer when the list runs out before), see `sort_loop`: the result is the chain of `head_` that
is left and the bins. -/
def sort_rounds {α : Type} (comp : α → α → Bool) :
    Nat → List α → List (List α) → List α × List (List α)
  | 0, head, bin_lists => (head, bin_lists)
  | _ + 1, [], bin_lists => ([], bin_lists)
  | k + 1, p :: head, bin_lists => sort_rounds comp k head (sort_step comp p bin_lists)

/-- The bins from bin `j` on hold the binary digits of `k`: a bin is empty when its digit is 0
and holds `2 ^ j` elements when it is 1, and there are no digits beyond the bins in use. -/
def bin_counter {α : Type} : Nat → Nat → List (List α) → Prop
  | _, k, [] => k = 0
  | j, k, b :: bin_lists => b.length = (k % 2) * 2 ^ j ∧ bin_counter (j + 1) (k / 2) bin_lists

/-! # Theorems -/

/-! ## Strict weak orderings -/

theorem strict_weak_order.asymm {α : Type} {comp : α → α → Bool} (h : strict_weak_order comp)
    {a b : α} (hab : comp a b = true) : comp b a = false := by
  cases hba : comp b a with
  | false => rfl
  | true =>
    have := h.trans a b a hab hba
    rw [h.irrefl a] at this
    exact absurd this (by simp)

theorem strict_weak_order.le_trans {α : Type} {comp : α → α → Bool} (h : strict_weak_order comp)
    {a b c : α} (hab : comp b a = false) (hbc : comp c b = false) : comp c a = false := by
  cases hca : comp c a with
  | false => rfl
  | true =>
    -- `c < a`, `¬ b < a`, `¬ c < b`
    cases hbc2 : comp b c with
    | true =>
      have := h.trans b c a hbc2 hca
      rw [hab] at this
      exact absurd this (by simp)
    | false =>
      cases hab2 : comp a b with
      | true =>
        have := h.trans c a b hca hab2
        rw [hbc] at this
        exact absurd this (by simp)
      | false =>
        have := (h.incomp_trans a b c hab2 hab hbc2 hbc).2
        rw [hca] at this
        exact absurd this (by simp)

theorem nat_lt_strict_weak_order : strict_weak_order (fun a b : Nat => decide (a < b)) where
  irrefl := by intro a; simp
  trans := by
    intro a b c h1 h2
    simp only [decide_eq_true_eq] at *
    omega
  incomp_trans := by
    intro a b c h1 h2 h3 h4
    simp only [decide_eq_false_iff_not, decide_eq_true_eq] at *
    omega

/-! ## `merge_impl` -/

theorem merge_impl_snd {α : Type} (comp : α → α → Bool) (t s : List α) :
    (merge_impl comp t s).2 = [] := by
  unfold merge_impl
  simp only [dllist_is_empty, dllist_make_cycle]
  split
  · rename_i h
    simpa using h
  · rfl

theorem merge_impl_fst {α : Type} (comp : α → α → Bool) (t s : List α) :
    (merge_impl comp t s).1 = (merge_loop comp t s).1 ++ (merge_loop comp t s).2 := by
  unfold merge_impl
  simp only [dllist_is_empty, dllist_insert_before]
  split
  · rename_i h
    simp only [List.isEmpty_iff] at h
    simp [h]
  · simp

theorem merge_impl_nil_left {α : Type} (comp : α → α → Bool) (s : List α) :
    (merge_impl comp [] s).1 = s := by
  rw [merge_impl_fst]
  simp [merge_loop]

theorem merge_impl_cons_nil {α : Type} (comp : α → α → Bool) (p : α) (t : List α) :
    (merge_impl comp (p :: t) []).1 = p :: t := by
  rw [merge_impl_fst]
  simp [merge_loop, dllist_is_empty]

theorem merge_impl_cons {α : Type} (comp : α → α → Bool) (p : α) (t s : List α) (hs : s ≠ []) :
    (merge_impl comp (p :: t) s).1 =
      s.takeWhile (fun x => comp x p) ++
        p :: (merge_impl comp t (s.dropWhile (fun x => comp x p))).1 := by
  rw [merge_impl_fst, merge_impl_fst]
  have : dllist_is_empty s = false := by
    cases s with
    | nil => exact absurd rfl hs
    | cons a s => rfl
  simp [merge_loop, this]

theorem merge_impl_perm {α : Type} (comp : α → α → Bool) (t s : List α) :
    ((merge_impl comp t s).1).Perm (t ++ s) := by
  induction t generalizing s with
  | nil => rw [merge_impl_nil_left]; simp
  | cons p t ih =>
    by_cases hs : s = []
    · subst hs
      rw [merge_impl_cons_nil]; simp
    · rw [merge_impl_cons comp p t s hs]
      have h1 := ih (s.dropWhile (fun x => comp x p))
      have h2 : s.takeWhile (fun x => comp x p) ++ s.dropWhile (fun x => comp x p) = s :=
        List.takeWhile_append_dropWhile _ s
      calc s.takeWhile (fun x => comp x p) ++
              p :: (merge_impl comp t (s.dropWhile (fun x => comp x p))).1
          _ |>.Perm (s.takeWhile (fun x => comp x p) ++
              p :: (t ++ s.dropWhile (fun x => comp x p))) :=
            List.Perm.append_left _ (List.Perm.cons p h1)
          _ |>.Perm (p :: (t ++ (s.takeWhile (fun x => comp x p) ++
              s.dropWhile (fun x => comp x p)))) := by
            refine List.perm_middle.trans (List.Perm.cons p ?_)
            rw [← List.append_assoc, ← List.append_assoc]
            exact List.Perm.append_right _ List.perm_append_comm
          _ |>.Perm (p :: t ++ s) := by rw [h2]; simp

theorem dropWhile_lower_bound {α : Type} {comp : α → α → Bool} (h : strict_weak_order comp)
    (p : α) (s : List α) (hs : ordered comp s) :
    ∀ x ∈ s.dropWhile (fun x => comp x p), comp x p = false := by
  induction s with
  | nil => simp
  | cons a s ih =>
    intro x hx
    rw [List.dropWhile_cons] at hx
    split at hx
    · exact ih (List.Pairwise.of_cons hs) x hx
    · rename_i ha
      have ha2 : comp a p = false := by simpa using ha
      rcases List.mem_cons.mp hx with rfl | hx
      · exact ha2
      · exact h.le_trans ha2 (List.rel_of_pairwise_cons hs hx)

theorem merge_impl_ordered {α : Type} {comp : α → α → Bool} (h : strict_weak_order comp)
    (t s : List α) (ht : ordered comp t) (hs : ordered comp s) :
    ordered comp (merge_impl comp t s).1 := by
  induction t generalizing s with
  | nil => rw [merge_impl_nil_left]; exact hs
  | cons p t ih =>
    by_cases hne : s = []
    · subst hne
      rw [merge_impl_cons_nil]; exact ht
    · rw [merge_impl_cons comp p t s hne]
      have hrest : ordered comp (s.dropWhile (fun x => comp x p)) :=
        List.Pairwise.sublist (List.dropWhile_sublist _) hs
      have hrun : ordered comp (s.takeWhile (fun x => comp x p)) :=
        List.Pairwise.sublist (List.takeWhile_sublist _) hs
      have hM := ih _ (List.Pairwise.of_cons ht) hrest
      have hmem : ∀ b ∈ (merge_impl comp t (s.dropWhile (fun x => comp x p))).1,
          comp b p = false := by
        intro b hb
        have := (merge_impl_perm comp t (s.dropWhile (fun x => comp x p))).mem_iff.mp hb
        rcases List.mem_append.mp this with hb | hb
        · exact List.rel_of_pairwise_cons ht hb
        · exact dropWhile_lower_bound h p s hs b hb
      unfold ordered
      rw [List.pairwise_append]
      refine ⟨hrun, List.Pairwise.cons hmem hM, ?_⟩
      intro a ha b hb
      have hap : comp a p = true := @List.mem_takeWhile_imp _ (fun x => comp x p) _ _ ha
      have hpa : comp p a = false := h.asymm hap
      rcases List.mem_cons.mp hb with rfl | hb
      · exact hpa
      · exact h.le_trans hpa (hmem b hb)

/-! ## `list::sort` -/

theorem flatten_set_perm {α : Type} (bins : List (List α)) (i : Nat) (hi : i < bins.length)
    (y t : List α) (hy : y.Perm (bins.getD i [] ++ t)) :
    (bins.set i y).flatten.Perm (t ++ bins.flatten) := by
  induction bins generalizing i with
  | nil => simp at hi
  | cons b bins ih =>
    cases i with
    | zero =>
      simp only [List.set_cons_zero, List.flatten_cons, List.getD_cons_zero] at *
      calc (y ++ bins.flatten).Perm ((b ++ t) ++ bins.flatten) := List.Perm.append_right _ hy
        _ |>.Perm ((t ++ b) ++ bins.flatten) := List.Perm.append_right _ List.perm_append_comm
        _ |>.Perm (t ++ (b ++ bins.flatten)) := by rw [List.append_assoc]
    | succ i =>
      simp only [List.set_cons_succ, List.flatten_cons, List.getD_cons_succ,
        List.length_cons] at *
      have := ih i (by omega) hy
      calc (b ++ (bins.set i y).flatten).Perm (b ++ (t ++ bins.flatten)) :=
            List.Perm.append_left _ this
        _ |>.Perm (t ++ (b ++ bins.flatten)) := by
            rw [← List.append_assoc, ← List.append_assoc]
            exact List.Perm.append_right _ List.perm_append_comm

theorem bins_ordered_set {α : Type} {comp : α → α → Bool} (bins : List (List α)) (i : Nat)
    (y : List α) (hb : bins_ordered comp bins) (hy : ordered comp y) :
    bins_ordered comp (bins.set i y) := by
  intro b hb2
  rcases List.mem_or_eq_of_mem_set hb2 with h | h
  · exact hb b h
  · rw [h]; exact hy

theorem sort_carry_length {α : Type} (comp : α → α → Bool) (tmp : List α)
    (bins : List (List α)) :
    (sort_carry comp tmp bins).2.2.length = bins.length ∧
      (sort_carry comp tmp bins).1 ≤ bins.length := by
  induction bins generalizing tmp with
  | nil => simp [sort_carry]
  | cons b bins ih =>
    unfold sort_carry
    split
    · simp
    · have := ih (merge_impl comp tmp b).1
      simp only [List.length_cons]
      omega

theorem sort_carry_stop {α : Type} (comp : α → α → Bool) (tmp : List α)
    (bins : List (List α)) :
    (sort_carry comp tmp bins).2.2.getD (sort_carry comp tmp bins).1 [] = [] ∧
      ∀ i, i < (sort_carry comp tmp bins).1 → (sort_carry comp tmp bins).2.2.getD i [] = [] := by
  induction bins generalizing tmp with
  | nil => simp [sort_carry]
  | cons b bins ih =>
    unfold sort_carry
    split
    · rename_i h
      simp only [dllist_is_empty, List.isEmpty_iff] at h
      simp [h]
    · have := ih (merge_impl comp tmp b).1
      refine ⟨by simpa using this.1, ?_⟩
      intro i hi
      cases i with
      | zero => simp [merge_impl_snd]
      | succ i =>
        simp only [List.getD_cons_succ]
        exact this.2 i (by simpa using hi)

theorem sort_carry_perm {α : Type} (comp : α → α → Bool) (tmp : List α)
    (bins : List (List α)) :
    ((sort_carry comp tmp bins).2.1 ++ (sort_carry comp tmp bins).2.2.flatten).Perm
      (tmp ++ bins.flatten) := by
  induction bins generalizing tmp with
  | nil => simp [sort_carry]
  | cons b bins ih =>
    unfold sort_carry
    split
    · simp
    · have h1 := ih (merge_impl comp tmp b).1
      simp only [List.flatten_cons, merge_impl_snd, List.nil_append]
      refine h1.trans ?_
      refine (List.Perm.append_right _ (merge_impl_perm comp tmp b)).trans ?_
      rw [List.append_assoc]

theorem sort_carry_ordered {α : Type} {comp : α → α → Bool} (h : strict_weak_order comp)
    (tmp : List α) (bins : List (List α)) (ht : ordered comp tmp)
    (hb : bins_ordered comp bins) :
    ordered comp (sort_carry comp tmp bins).2.1 ∧
      bins_ordered comp (sort_carry comp tmp bins).2.2 := by
  induction bins generalizing tmp with
  | nil => exact ⟨by simpa [sort_carry] using ht, by simp [sort_carry, bins_ordered]⟩
  | cons b bins ih =>
    unfold sort_carry
    split
    · exact ⟨ht, hb⟩
    · have hb1 : ordered comp b := hb b (List.mem_cons_self _ _)
      have hb2 : bins_ordered comp bins := fun x hx => hb x (List.mem_cons_of_mem _ hx)
      have := ih (merge_impl comp tmp b).1 (merge_impl_ordered h tmp b ht hb1) hb2
      refine ⟨this.1, ?_⟩
      intro x hx
      rcases List.mem_cons.mp hx with rfl | hx
      · rw [merge_impl_snd]; exact List.Pairwise.nil
      · exact this.2 x hx

theorem sort_step_perm {α : Type} (comp : α → α → Bool) (p : α) (bins : List (List α)) :
    (sort_step comp p bins).flatten.Perm (p :: bins.flatten) := by
  have hlen := sort_carry_length comp [p] bins
  have hperm := sort_carry_perm comp [p] bins
  have hstop := sort_carry_stop comp [p] bins
  unfold sort_step
  simp only [dllist_insert_before, dllist_insert_after, dllist_make_cycle, List.take_nil,
    List.drop_nil, List.nil_append, List.append_nil]
  split
  · rename_i hbin
    have hmax : max_bins = 25 := rfl
    refine (flatten_set_perm _ _ (by omega) _ (sort_carry comp [p] bins).2.1
      (merge_impl_perm comp _ _)).trans ?_
    simpa using hperm
  · split
    · rename_i hbin
      rw [hbin]
      have h1 : ((sort_carry comp [p] bins).2.2 ++ [[]]).getD
          (sort_carry comp [p] bins).2.2.length [] = [] := by
        simp [List.getD_eq_getElem?_getD]
      rw [h1, List.append_nil]
      refine (flatten_set_perm _ _ (by simp) _ (sort_carry comp [p] bins).2.1 ?_).trans ?_
      · rw [h1]; simp
      · simpa using hperm
    · rename_i hbin
      rw [hstop.1, List.append_nil]
      refine (flatten_set_perm _ _ (by omega) _ (sort_carry comp [p] bins).2.1 ?_).trans ?_
      · rw [hstop.1]; simp
      · simpa using hperm

theorem sort_step_ordered {α : Type} {comp : α → α → Bool} (h : strict_weak_order comp)
    (p : α) (bins : List (List α)) (hb : bins_ordered comp bins) :
    bins_ordered comp (sort_step comp p bins) := by
  have hord := sort_carry_ordered h [p] bins (List.pairwise_singleton _ _) hb
  have hstop := sort_carry_stop comp [p] bins
  unfold sort_step
  simp only [dllist_insert_before, dllist_insert_after, dllist_make_cycle, List.take_nil,
    List.drop_nil, List.nil_append, List.append_nil]
  split
  · apply bins_ordered_set _ _ _ hord.2
    apply merge_impl_ordered h _ _ _ hord.1
    rw [List.getD_eq_getElem?_getD]
    cases hg : (sort_carry comp [p] bins).2.2[(sort_carry comp [p] bins).1 - 1]? with
    | none => exact List.Pairwise.nil
    | some x => exact hord.2 x (List.getElem?_mem hg)
  · split
    · rename_i hbin
      rw [hbin]
      have h1 : ((sort_carry comp [p] bins).2.2 ++ [[]]).getD
          (sort_carry comp [p] bins).2.2.length [] = [] := by
        simp [List.getD_eq_getElem?_getD]
      rw [h1, List.append_nil]
      apply bins_ordered_set _ _ _ _ hord.1
      intro b hb2
      rcases List.mem_append.mp hb2 with hb2 | hb2
      · exact hord.2 b hb2
      · simp only [List.mem_singleton] at hb2
        rw [hb2]; exact List.Pairwise.nil
    · rw [hstop.1, List.append_nil]
      exact bins_ordered_set _ _ _ hord.2 hord.1

theorem sort_loop_perm {α : Type} (comp : α → α → Bool) (head : List α)
    (bins : List (List α)) :
    (sort_loop comp head bins).flatten.Perm (head ++ bins.flatten) := by
  induction head generalizing bins with
  | nil => simp [sort_loop]
  | cons p head ih =>
    simp only [sort_loop]
    refine (ih _).trans ?_
    refine (List.Perm.append_left head (sort_step_perm comp p bins)).trans ?_
    simpa using List.perm_middle

theorem sort_loop_ordered {α : Type} {comp : α → α → Bool} (h : strict_weak_order comp)
    (head : List α) (bins : List (List α)) (hb : bins_ordered comp bins) :
    bins_ordered comp (sort_loop comp head bins) := by
  induction head generalizing bins with
  | nil => simpa [sort_loop] using hb
  | cons p head ih =>
    simp only [sort_loop]
    exact ih _ (sort_step_ordered h p bins hb)

theorem sort_merge_up_perm {α : Type} (comp : α → α → Bool) (prev : List α)
    (bins : List (List α)) :
    (sort_merge_up comp prev bins).Perm (prev ++ bins.flatten) := by
  induction bins generalizing prev with
  | nil => simp [sort_merge_up]
  | cons b bins ih =>
    simp only [sort_merge_up, List.flatten_cons]
    refine (ih _).trans ?_
    refine (List.Perm.append_right _ (merge_impl_perm comp b prev)).trans ?_
    rw [← List.append_assoc]
    exact List.Perm.append_right _ List.perm_append_comm

theorem sort_merge_up_ordered {α : Type} {comp : α → α → Bool} (h : strict_weak_order comp)
    (prev : List α) (bins : List (List α)) (hp : ordered comp prev)
    (hb : bins_ordered comp bins) : ordered comp (sort_merge_up comp prev bins) := by
  induction bins generalizing prev with
  | nil => simpa [sort_merge_up] using hp
  | cons b bins ih =>
    simp only [sort_merge_up]
    exact ih _ (merge_impl_ordered h b prev (hb b (List.mem_cons_self _ _)) hp)
      (fun x hx => hb x (List.mem_cons_of_mem _ hx))

theorem list_sort_nodes_perm {α : Type} (comp : α → α → Bool) (l : list α) :
    (l.sort comp).nodes.Perm l.nodes := by
  unfold list.sort
  split
  · exact List.Perm.refl _
  · have hp := sort_loop_perm comp l.nodes []
    split
    · rename_i hnil
      rw [hnil] at hp
      simpa using hp.symm
    · rename_i b bins hcons
      rw [hcons] at hp
      simp only [dllist_insert_before, List.take_nil, List.drop_nil, List.nil_append,
        List.append_nil]
      refine (sort_merge_up_perm comp b bins).trans ?_
      simpa using hp

theorem list_sort_nodes_ordered {α : Type} {comp : α → α → Bool} (h : strict_weak_order comp)
    (l : list α) (hwf : l.wf) : ordered comp (l.sort comp).nodes := by
  unfold list.sort
  split
  · rename_i hlt
    unfold list.wf at hwf
    rw [hwf] at hlt
    match hn : l.nodes with
    | [] => exact List.Pairwise.nil
    | [a] => exact List.pairwise_singleton _ _
    | a :: b :: t => rw [hn] at hlt; simp only [List.length_cons] at hlt; omega
  · have hb := sort_loop_ordered h l.nodes [] (by intro b hb; simp at hb)
    split
    · exact List.Pairwise.nil
    · rename_i b bins hcons
      rw [hcons] at hb
      simp only [dllist_insert_before, List.take_nil, List.drop_nil, List.nil_append,
        List.append_nil]
      exact sort_merge_up_ordered h b bins (hb b (List.mem_cons_self _ _))
        (fun x hx => hb x (List.mem_cons_of_mem _ hx))

/-- C1: for a list whose `size_` counts its nodes and a strict weak ordering `comp`,
`list::sort(comp)` leaves `size()` unchanged and rearranges the nodes into a permutation of the
original nodes in which no element compares less than an element that precedes it; the list
`[5,3,8,1,9,2]` with the default ordering becomes `[1,2,3,5,8,9]`. -/
theorem list_sort_sorted_permutation {α : Type} (comp : α → α → Bool)
    (h : strict_weak_order comp) (l : list α) (hwf : l.wf) :
    (l.sort comp).size = l.size ∧ (l.sort comp).wf ∧ (l.sort comp).nodes.Perm l.nodes ∧
      ordered comp (l.sort comp).nodes ∧
      (list.sort ⟨[5, 3, 8, 1, 9, 2], 6, 0⟩ (fun a b : Nat => decide (a < b))).nodes =
        [1, 2, 3, 5, 8, 9] := by
  have hsize : (l.sort comp).size_ = l.size_ := by
    unfold list.sort
    split
    · rfl
    · split <;> rfl
  have hperm := list_sort_nodes_perm comp l
  refine ⟨hsize, ?_, hperm, list_sort_nodes_ordered h l hwf, by decide⟩
  unfold list.wf at *
  rw [hsize, hwf, hperm.length_eq]

theorem list_sort_sorted_permutation_witness :
    (list.sort ⟨[3, 1, 2, 1], 4, 0⟩ (fun a b : Nat => decide (a < b))).size = 4 ∧
      (list.sort ⟨[3, 1, 2, 1], 4, 0⟩ (fun a b : Nat => decide (a < b))).nodes.Perm [3, 1, 2, 1] ∧
      ordered (fun a b : Nat => decide (a < b))
        (list.sort ⟨[3, 1, 2, 1], 4, 0⟩ (fun a b : Nat => decide (a < b))).nodes :=
  have h := list_sort_sorted_permutation (fun a b : Nat => decide (a < b))
    nat_lt_strict_weak_order ⟨[3, 1, 2, 1], 4, 0⟩ rfl
  ⟨h.1, h.2.2.1, h.2.2.2.1⟩

/-- C2: `list::sort` is not stable on `[(1,"a"),(1,"b"),(0,"c")]` sorted by first element: the
result is `[(0,"c"),(1,"b"),(1,"a")]`, so the two elements with the equivalent key `1` have
changed their relative order. -/
theorem list_sort_reverses_equivalent_elements :
    (list.sort ⟨[(1, "a"), (1, "b"), (0, "c")], 3, 0⟩ less_first).nodes =
        [(0, "c"), (1, "b"), (1, "a")] ∧
      (list.sort ⟨[(1, "a"), (1, "b"), (0, "c")], 3, 0⟩ less_first).nodes.filter
          (fun x => equiv less_first (1, "a") x) ≠
        [(1, "a"), (1, "b"), (0, "c")].filter (fun x => equiv less_first (1, "a") x) := by
  decide

/-! ## `list::splice` -/

/-- C7: for two distinct lists with compatible allocators whose `size_` counts their nodes, a
range `[first, last)` of `A` holding the `k` nodes `mid` and a position `pos` of `B`,
`B.splice(pos, A, first, last)` succeeds, `A.size()` decreases by `k`, `B.size()` increases by
`k`, `B` becomes its old prefix before `pos`, then `mid` in its original order, then its old
suffix, and `A` keeps its old nodes without `mid`. -/
theorem list_splice_range {α : Type} (always_equal : Bool) (A B : list α)
    (a₁ mid a₂ b₁ b₂ : List α) (hA : A.wf) (hB : B.wf)
    (halloc : always_equal = true ∨ B.alloc = A.alloc)
    (hAn : A.nodes = a₁ ++ mid ++ a₂) (hBn : B.nodes = b₁ ++ b₂) :
    ∃ A' B', list.splice_impl always_equal B A b₁.length a₁.length (a₁.length + mid.length) =
        .ok (B', A') ∧
      A'.size + mid.length = A.size ∧ B'.size = B.size + mid.length ∧
      B'.nodes = b₁ ++ mid ++ b₂ ∧ A'.nodes = a₁ ++ a₂ ∧ A'.wf ∧ B'.wf := by
  unfold list.wf at hA hB
  have hAlen : A.size_ = a₁.length + mid.length + a₂.length := by
    rw [hA, hAn]; simp only [List.length_append]
  by_cases hmid : mid = []
  · subst hmid
    refine ⟨A, B, ?_, ?_, ?_, ?_, ?_, hA, hB⟩
    · simp [list.splice_impl]
    · simp
    · simp
    · simpa using hBn
    · simpa using hAn
  · have hlen : 0 < mid.length := List.length_pos.mpr hmid
    have hne : ¬ a₁.length = a₁.length + mid.length := by omega
    have hal : (!always_equal && !(B.alloc == A.alloc)) = false := by
      rcases halloc with h | h
      · simp [h]
      · simp [h]
    have htake : (A.nodes.take (a₁.length + mid.length)).drop a₁.length = mid := by
      rw [hAn, List.append_assoc, List.take_append]
      simp
    have hrest : A.nodes.take a₁.length ++ A.nodes.drop (a₁.length + mid.length) = a₁ ++ a₂ := by
      rw [hAn, List.append_assoc, List.take_left, ← List.append_assoc,
        show a₁.length + mid.length = (a₁ ++ mid).length by simp, List.drop_left]
    have hins : B.nodes.take b₁.length ++ mid ++ B.nodes.drop b₁.length = b₁ ++ mid ++ b₂ := by
      rw [hBn, List.take_left, List.drop_left]
    refine ⟨⟨a₁ ++ a₂, A.size_ - mid.length, A.alloc⟩,
      ⟨b₁ ++ mid ++ b₂, B.size_ + mid.length, B.alloc⟩, ?_, ?_, rfl, rfl, rfl, ?_, ?_⟩
    · simp only [list.splice_impl, hne, if_false, hal, dllist_remove, dllist_insert_before,
        htake, hrest, hins]
      simp
    · simp only [list.size]; omega
    · simp only [list.wf, List.length_append]; omega
    · simp only [list.wf, List.length_append, hB, hBn]; omega

theorem list_splice_range_witness :
    ∃ A' B', list.splice_impl false (⟨[7, 8], 2, 1⟩ : list Nat) ⟨[1, 2, 3, 4], 4, 1⟩ 1 1 3 =
        .ok (B', A') ∧
      A'.size + 2 = 4 ∧ B'.size = 2 + 2 ∧
      B'.nodes = [7] ++ [2, 3] ++ [8] ∧ A'.nodes = [1] ++ [4] ∧ A'.wf ∧ B'.wf :=
  list_splice_range false ⟨[1, 2, 3, 4], 4, 1⟩ ⟨[7, 8], 2, 1⟩ [1] [2, 3] [4] [7] [8] rfl rfl
    (Or.inr rfl) rfl rfl

/-! ## In-order traversal of the tree primitives -/

theorem rbtree_path.fill_in_order {α : Type} (path : rbtree_path α) (t : rbtree_node α) :
    (path.fill t).in_order = path.before ++ t.in_order ++ path.after := by
  induction path generalizing t with
  | head => simp [rbtree_path.fill, rbtree_path.before, rbtree_path.after]
  | left c up v r ih =>
    simp [rbtree_path.fill, rbtree_path.before, rbtree_path.after, ih, rbtree_node.in_order]
  | right c l v up ih =>
    simp [rbtree_path.fill, rbtree_path.before, rbtree_path.after, ih, rbtree_node.in_order]

theorem rbtree_insert_fixup_in_order {α : Type} (path : rbtree_path α) (zl : rbtree_node α)
    (zv : α) (zr : rbtree_node α) :
    (rbtree_insert_fixup path zl zv zr).in_order =
      path.before ++ (zl.in_order ++ zv :: zr.in_order) ++ path.after := by
  induction path, zl, zv, zr using rbtree_insert_fixup.induct <;>
    simp_all [rbtree_insert_fixup, rbtree_path.fill_in_order, rbtree_path.before,
      rbtree_path.after, rbtree_node.in_order]

theorem rbtree_insert_in_order {α : Type} (pos : rbtree_path α) (v : α) :
    (rbtree_insert pos v).in_order = pos.before ++ v :: pos.after := by
  simp [rbtree_insert, rbtree_insert_fixup_in_order, rbtree_node.in_order]

theorem rbtree_node.set_black_in_order {α : Type} (t : rbtree_node α) :
    t.set_black.in_order = t.in_order := by
  cases t <;> simp [rbtree_node.set_black, rbtree_node.in_order]

theorem rbtree_remove_fix_left_in_order {α : Type} (pc : rbtree_color) (x : rbtree_node α)
    (pv : α) (w : rbtree_node α) :
    (rbtree_remove_fix_left pc x pv w).1.in_order = x.in_order ++ pv :: w.in_order := by
  unfold rbtree_remove_fix_left
  split <;> simp [rbtree_node.in_order]

theorem rbtree_remove_fix_right_in_order {α : Type} (pc : rbtree_color) (w : rbtree_node α)
    (pv : α) (x : rbtree_node α) :
    (rbtree_remove_fix_right pc w pv x).1.in_order = w.in_order ++ pv :: x.in_order := by
  unfold rbtree_remove_fix_right
  split <;> simp [rbtree_node.in_order]

theorem rbtree_remove_finish_in_order {α : Type} (r : rbtree_node α × Bool) :
    (rbtree_remove_finish r).in_order = r.1.in_order := by
  unfold rbtree_remove_finish
  split <;> simp [rbtree_node.set_black_in_order]

theorem rbtree_remove_fixup_in_order {α : Type} (path : rbtree_path α) (x : rbtree_node α) :
    (rbtree_remove_fixup path x).in_order = path.before ++ x.in_order ++ path.after := by
  induction path generalizing x with
  | head => simp [rbtree_remove_fixup, rbtree_path.before, rbtree_path.after]
  | left pc up pv w ih =>
    unfold rbtree_remove_fixup
    split
    · simp [rbtree_path.fill_in_order, rbtree_node.in_order, rbtree_remove_finish_in_order,
        rbtree_remove_fix_left_in_order, rbtree_path.before, rbtree_path.after]
    · split
      · simp [ih, rbtree_remove_fix_left_in_order, rbtree_path.before, rbtree_path.after]
      · simp [rbtree_path.fill_in_order, rbtree_remove_finish_in_order,
          rbtree_remove_fix_left_in_order, rbtree_path.before, rbtree_path.after]
  | right pc w pv up ih =>
    unfold rbtree_remove_fixup
    split
    · simp [rbtree_path.fill_in_order, rbtree_node.in_order, rbtree_remove_finish_in_order,
        rbtree_remove_fix_right_in_order, rbtree_path.before, rbtree_path.after]
    · split
      · simp [ih, rbtree_remove_fix_right_in_order, rbtree_path.before, rbtree_path.after]
      · simp [rbtree_path.fill_in_order, rbtree_remove_finish_in_order,
          rbtree_remove_fix_right_in_order, rbtree_path.before, rbtree_path.after]

theorem rbtree_unlink_in_order {α : Type} (path : rbtree_path α) (c : rbtree_color)
    (child : rbtree_node α) :
    (rbtree_unlink path c child).in_order = path.before ++ child.in_order ++ path.after := by
  unfold rbtree_unlink
  split <;>
    simp [rbtree_path.fill_in_order, rbtree_remove_fixup_in_order, rbtree_node.in_order]

theorem rbtree_leftmost_spec {α : Type} (c : rbtree_color) (l : rbtree_node α) (v : α)
    (r : rbtree_node α) (path : rbtree_path α) :
    (rbtree_leftmost c l v r path).left = .nil ∧
      (rbtree_leftmost c l v r path).path.before = path.before ∧
      (rbtree_leftmost c l v r path).value :: (rbtree_leftmost c l v r path).right.in_order ++
        (rbtree_leftmost c l v r path).path.after =
        (rbtree_node.node c l v r).in_order ++ path.after := by
  induction l generalizing c v r path with
  | nil => simp [rbtree_leftmost, rbtree_node.in_order]
  | node lc ll lv lr ihl _ =>
    have := ihl lc lv lr (.left c path v r)
    simp only [rbtree_leftmost]
    refine ⟨this.1, by simpa [rbtree_path.before] using this.2.1, ?_⟩
    rw [this.2.2]
    simp [rbtree_node.in_order, rbtree_path.after]

theorem rbtree_leftmost_value {α : Type} (c : rbtree_color) (l : rbtree_node α) (v : α)
    (r : rbtree_node α) (path path2 : rbtree_path α) :
    (rbtree_leftmost c l v r path).value = (rbtree_leftmost c l v r path2).value := by
  induction l generalizing c v r path path2 with
  | nil => simp [rbtree_leftmost]
  | node lc ll lv lr ihl _ =>
    simp only [rbtree_leftmost]
    exact ihl lc lv lr _ _

theorem rbtree_remove_in_order {α : Type} (p : rbtree_cursor α) :
    (rbtree_remove p).in_order =
      p.path.before ++ p.left.in_order ++ p.right.in_order ++ p.path.after := by
  unfold rbtree_remove
  split
  · rename_i hl
    simp [rbtree_unlink_in_order, hl, rbtree_node.in_order]
  · rename_i hl hr
    simp [rbtree_unlink_in_order, hl, hr, rbtree_node.in_order]
  · rename_i lc ll lv lr rc rl rv rr hl hr
    simp only [rbtree_unlink_in_order, hl, hr]
    generalize hs : (rbtree_leftmost rc rl rv rr .head).value = s
    have h := rbtree_leftmost_spec rc rl rv rr (.right p.color (.node lc ll lv lr) s p.path)
    have hv := rbtree_leftmost_value rc rl rv rr (.right p.color (.node lc ll lv lr) s p.path)
      .head
    rw [hs] at hv
    generalize rbtree_leftmost rc rl rv rr (.right p.color (.node lc ll lv lr) s p.path) = y
      at h hv
    obtain ⟨_, h2, h3⟩ := h
    rw [h2]
    simp only [rbtree_path.before, rbtree_path.after] at h3 ⊢
    rw [← hv]
    simp only [List.append_assoc, List.singleton_append]
    rw [h3]

/-! ## Red-black invariants of the tree primitives -/

theorem rbtree_node.balanced.checks {α : Type} {t : rbtree_node α} {c : rbtree_color} {n : Nat}
    (h : t.balanced c n) :
    t.no_red_red = true ∧ t.black_height = some n ∧ t.color_of = c := by
  induction h with
  | nil => simp [rbtree_node.no_red_red, rbtree_node.black_height, rbtree_node.color_of]
  | red hl hr ihl ihr =>
    obtain ⟨a1, a2, a3⟩ := ihl
    obtain ⟨b1, b2, b3⟩ := ihr
    refine ⟨?_, ?_, rfl⟩
    · simp [rbtree_node.no_red_red, a1, a3, b1, b3]
    · simp [rbtree_node.black_height, a2, b2]
  | black hl hr ihl ihr =>
    obtain ⟨a1, a2, _⟩ := ihl
    obtain ⟨b1, b2, _⟩ := ihr
    refine ⟨?_, ?_, rfl⟩
    · simp [rbtree_node.no_red_red, a1, b1]
    · simp [rbtree_node.black_height, a2, b2]

theorem rbtree_path.balanced.recolor {α : Type} {path : rbtree_path α} {n : Nat}
    (h : path.balanced .red n) (c : rbtree_color) : path.balanced c n := by
  cases h with
  | left_black hup hr => exact .left_black hup hr
  | right_black hl hup => exact .right_black hl hup

theorem rbtree_path.balanced.fill {α : Type} {path : rbtree_path α} {t : rbtree_node α}
    {c : rbtree_color} {n : Nat} (hp : path.balanced c n) (ht : t.balanced c n) :
    ∃ m, (path.fill t).balanced .black m := by
  induction path generalizing t c n with
  | head =>
    cases hp
    exact ⟨n, ht⟩
  | left pc up v r ih =>
    cases hp with
    | left_red hup hr => exact ih hup (.red ht hr)
    | left_black hup hr => exact ih hup (.black ht hr)
  | right pc l v up ih =>
    cases hp with
    | right_red hl hup => exact ih hup (.red hl ht)
    | right_black hl hup => exact ih hup (.black hl ht)

theorem rbtree_node.balanced.not_red {α : Type} {u : rbtree_node α} {c : rbtree_color}
    {n : Nat} (h : u.balanced c n)
    (hu : ∀ ul uv ur, u = rbtree_node.node .red ul uv ur → False) : u.balanced .black n := by
  cases h with
  | nil => exact .nil
  | red hl hr => exact absurd rfl (hu _ _ _)
  | black hl hr => exact .black hl hr

theorem rbtree_insert_fixup_balanced {α : Type} (path : rbtree_path α) (zl : rbtree_node α)
    (zv : α) (zr : rbtree_node α) (n : Nat) (hp : path.balanced .black n)
    (hl : zl.balanced .black n) (hr : zr.balanced .black n) :
    ∃ m, (rbtree_insert_fixup path zl zv zr).balanced .black m := by
  induction path, zl, zv, zr using rbtree_insert_fixup.induct generalizing n with
  | case1 zl zv zr => exact ⟨n + 1, .black hl hr⟩
  | case2 up pv s zl zv zr =>
    cases hp with
    | left_black hup hs => exact hup.fill (.black (.red hl hr) hs)
  | case3 s pv up zl zv zr =>
    cases hp with
    | right_black hs hup => exact hup.fill (.black hs (.red hl hr))
  | case4 pv s zl zv zr =>
    cases hp with
    | left_red hup hs => cases hup
  | case5 s pv zl zv zr =>
    cases hp with
    | right_red hs hup => cases hup
  | case6 gc up gv pv s zl zv zr ul uv ur ih =>
    cases hp with
    | left_red hup hs =>
      cases hup with
      | left_black hup hu =>
        cases hu with
        | red hul hur =>
          simp only [rbtree_insert_fixup]
          exact ih (n + 1) hup (.black (.red hl hr) hs) (.black hul hur)
  | case7 gc up gv u pv s zl zv zr hu =>
    cases hp with
    | left_red hup hs =>
      cases hup with
      | left_black hup hub =>
        simp only [rbtree_insert_fixup]
        exact hup.fill (.black (.red hl hr) (.red hs (hub.not_red hu)))
  | case8 s pv gc up gv zl zv zr ul uv ur ih =>
    cases hp with
    | right_red hs hup =>
      cases hup with
      | left_black hup hu =>
        cases hu with
        | red hul hur =>
          simp only [rbtree_insert_fixup]
          exact ih (n + 1) hup (.black hs (.red hl hr)) (.black hul hur)
  | case9 s pv gc up gv u zl zv zr hu =>
    cases hp with
    | right_red hs hup =>
      cases hup with
      | left_black hup hub =>
        simp only [rbtree_insert_fixup]
        exact hup.fill (.black (.red hs hl) (.red hr (hub.not_red hu)))
  | case10 gc gv up pv s zl zv zr ul uv ur ih =>
    cases hp with
    | left_red hup hs =>
      cases hup with
      | right_black hu hup =>
        cases hu with
        | red hul hur =>
          simp only [rbtree_insert_fixup]
          exact ih (n + 1) hup (.black hul hur) (.black (.red hl hr) hs)
  | case11 gc u gv up pv s zl zv zr hu =>
    cases hp with
    | left_red hup hs =>
      cases hup with
      | right_black hub hup =>
        simp only [rbtree_insert_fixup]
        exact hup.fill (.black (.red (hub.not_red hu) hl) (.red hr hs))
  | case12 s pv gc gv up zl zv zr ul uv ur ih =>
    cases hp with
    | right_red hs hup =>
      cases hup with
      | right_black hu hup =>
        cases hu with
        | red hul hur =>
          simp only [rbtree_insert_fixup]
          exact ih (n + 1) hup (.black hul hur) (.black hs (.red hl hr))
  | case13 s pv gc u gv up zl zv zr hu =>
    cases hp with
    | right_red hs hup =>
      cases hup with
      | right_black hub hup =>
        simp only [rbtree_insert_fixup]
        exact hup.fill (.black (.red (hub.not_red hu) hs) (.red hl hr))

theorem rbtree_insert_balanced {α : Type} (pos : rbtree_path α) (v : α)
    (hp : pos.balanced .black 0) : ∃ m, (rbtree_insert pos v).balanced .black m :=
  rbtree_insert_fixup_balanced pos .nil v .nil 0 hp .nil .nil

theorem rbtree_remove_fix_left_balanced {α : Type} (pc : rbtree_color) (x : rbtree_node α)
    (pv : α) (w : rbtree_node α) (n : Nat) (hx : x.balanced .black n)
    (hw : w.balanced .black (n + 1)) :
    ((rbtree_remove_fix_left pc x pv w).2 = false ∧
        ((pc = .red ∧ (rbtree_remove_fix_left pc x pv w).1.balanced .red (n + 1)) ∨
          (pc = .black ∧ (rbtree_remove_fix_left pc x pv w).1.balanced .black (n + 2)))) ∨
      ((rbtree_remove_fix_left pc x pv w).2 = true ∧
        (rbtree_remove_fix_left pc x pv w).1.set_black.balanced .black (n + 1) ∧
        (pc = .black → (rbtree_remove_fix_left pc x pv w).1.balanced .black (n + 1))) := by
  cases hw with
  | black hwl hwr =>
    cases hwr with
    | red ha hc =>
      refine Or.inl ⟨by simp only [rbtree_remove_fix_left, rbtree_node.set_black], ?_⟩
      cases pc
      · exact Or.inl ⟨rfl, by
          simp only [rbtree_remove_fix_left, rbtree_node.set_black]
          exact .red (.black hx hwl) (.black ha hc)⟩
      · exact Or.inr ⟨rfl, by
          simp only [rbtree_remove_fix_left, rbtree_node.set_black]
          exact .black (.black hx hwl) (.black ha hc)⟩
    | nil =>
      cases hwl with
      | red ha hc =>
        refine Or.inl ⟨by simp only [rbtree_remove_fix_left, rbtree_node.set_black], ?_⟩
        cases pc
        · exact Or.inl ⟨rfl, by
          simp only [rbtree_remove_fix_left, rbtree_node.set_black]
          exact .red (.black hx ha) (.black hc .nil)⟩
        · exact Or.inr ⟨rfl, by
          simp only [rbtree_remove_fix_left, rbtree_node.set_black]
          exact .black (.black hx ha) (.black hc .nil)⟩
      | nil =>
        refine Or.inr ⟨by simp only [rbtree_remove_fix_left, rbtree_node.set_black], by
          simp only [rbtree_remove_fix_left, rbtree_node.set_black]
          exact .black hx (.red .nil .nil), ?_⟩
        intro h; subst h
        simp only [rbtree_remove_fix_left, rbtree_node.set_black]
        exact .black hx (.red .nil .nil)
    | black hrl hrr =>
      cases hwl with
      | red ha hc =>
        refine Or.inl ⟨by simp only [rbtree_remove_fix_left, rbtree_node.set_black], ?_⟩
        cases pc
        · exact Or.inl ⟨rfl, by
          simp only [rbtree_remove_fix_left, rbtree_node.set_black]
          exact .red (.black hx ha) (.black hc (.black hrl hrr))⟩
        · exact Or.inr ⟨rfl, by
          simp only [rbtree_remove_fix_left, rbtree_node.set_black]
          exact .black (.black hx ha) (.black hc (.black hrl hrr))⟩
      | black hll hlr =>
        refine Or.inr ⟨by simp only [rbtree_remove_fix_left, rbtree_node.set_black], by
          simp only [rbtree_remove_fix_left, rbtree_node.set_black]
          exact .black hx (.red (.black hll hlr) (.black hrl hrr)), ?_⟩
        intro h; subst h
        simp only [rbtree_remove_fix_left, rbtree_node.set_black]
        exact .black hx (.red (.black hll hlr) (.black hrl hrr))

theorem rbtree_remove_fix_right_balanced {α : Type} (pc : rbtree_color) (w : rbtree_node α)
    (pv : α) (x : rbtree_node α) (n : Nat) (hx : x.balanced .black n)
    (hw : w.balanced .black (n + 1)) :
    ((rbtree_remove_fix_right pc w pv x).2 = false ∧
        ((pc = .red ∧ (rbtree_remove_fix_right pc w pv x).1.balanced .red (n + 1)) ∨
          (pc = .black ∧ (rbtree_remove_fix_right pc w pv x).1.balanced .black (n + 2)))) ∨
      ((rbtree_remove_fix_right pc w pv x).2 = true ∧
        (rbtree_remove_fix_right pc w pv x).1.set_black.balanced .black (n + 1) ∧
        (pc = .black → (rbtree_remove_fix_right pc w pv x).1.balanced .black (n + 1))) := by
  cases hw with
  | black hwl hwr =>
    cases hwl with
    | red ha hc =>
      refine Or.inl ⟨by simp only [rbtree_remove_fix_right, rbtree_node.set_black], ?_⟩
      cases pc
      · exact Or.inl ⟨rfl, by
          simp only [rbtree_remove_fix_right, rbtree_node.set_black]
          exact .red (.black ha hc) (.black hwr hx)⟩
      · exact Or.inr ⟨rfl, by
          simp only [rbtree_remove_fix_right, rbtree_node.set_black]
          exact .black (.black ha hc) (.black hwr hx)⟩
    | nil =>
      cases hwr with
      | red ha hc =>
        refine Or.inl ⟨by simp only [rbtree_remove_fix_right, rbtree_node.set_black], ?_⟩
        cases pc
        · exact Or.inl ⟨rfl, by
          simp only [rbtree_remove_fix_right, rbtree_node.set_black]
          exact .red (.black .nil ha) (.black hc hx)⟩
        · exact Or.inr ⟨rfl, by
          simp only [rbtree_remove_fix_right, rbtree_node.set_black]
          exact .black (.black .nil ha) (.black hc hx)⟩
      | nil =>
        refine Or.inr ⟨by simp only [rbtree_remove_fix_right, rbtree_node.set_black], by
          simp only [rbtree_remove_fix_right, rbtree_node.set_black]
          exact .black (.red .nil .nil) hx, ?_⟩
        intro h; subst h
        simp only [rbtree_remove_fix_right, rbtree_node.set_black]
        exact .black (.red .nil .nil) hx
    | black hll hlr =>
      cases hwr with
      | red ha hc =>
        refine Or.inl ⟨by simp only [rbtree_remove_fix_right, rbtree_node.set_black], ?_⟩
        cases pc
        · exact Or.inl ⟨rfl, by
          simp only [rbtree_remove_fix_right, rbtree_node.set_black]
          exact .red (.black (.black hll hlr) ha) (.black hc hx)⟩
        · exact Or.inr ⟨rfl, by
          simp only [rbtree_remove_fix_right, rbtree_node.set_black]
          exact .black (.black (.black hll hlr) ha) (.black hc hx)⟩
      | black hrl hrr =>
        refine Or.inr ⟨by simp only [rbtree_remove_fix_right, rbtree_node.set_black], by
          simp only [rbtree_remove_fix_right, rbtree_node.set_black]
          exact .black (.red (.black hll hlr) (.black hrl hrr)) hx, ?_⟩
        intro h; subst h
        simp only [rbtree_remove_fix_right, rbtree_node.set_black]
        exact .black (.red (.black hll hlr) (.black hrl hrr)) hx

theorem rbtree_remove_finish_balanced {α : Type} (r : rbtree_node α × Bool) (n : Nat)
    (h : (r.2 = false ∧ r.1.balanced .red (n + 1)) ∨
      (r.2 = true ∧ r.1.set_black.balanced .black (n + 1))) :
    ∃ c, (rbtree_remove_finish r).balanced c (n + 1) := by
  unfold rbtree_remove_finish
  rcases h with ⟨h1, h2⟩ | ⟨h1, h2⟩
  · exact ⟨.red, by simpa [h1] using h2⟩
  · exact ⟨.black, by simpa [h1] using h2⟩

theorem rbtree_remove_fixup_balanced {α : Type} (path : rbtree_path α) (x : rbtree_node α)
    (c : rbtree_color) (n : Nat) (hp : path.balanced c (n + 1)) (hx : x.balanced .black n) :
    ∃ m, (rbtree_remove_fixup path x).balanced .black m := by
  induction path generalizing x c n with
  | head =>
    cases hp
    exact ⟨n, hx⟩
  | left pc up pv w ih =>
    cases hp with
    | left_red hup hw =>
      have hfix := rbtree_remove_fix_left_balanced .red x pv w n hx hw
      cases hw with
      | black hwl hwr =>
        simp only [rbtree_remove_fixup]
        rcases hfix with ⟨h1, h2⟩ | ⟨h1, h2, _⟩
        · rcases h2 with ⟨_, h2⟩ | ⟨h2, _⟩
          · simp only [h1, rbtree_remove_finish]
            exact hup.fill h2
          · exact absurd h2 (by decide)
        · simp only [h1, rbtree_remove_finish]
          exact (hup.recolor .black).fill h2
    | left_black hup hw =>
      cases hw with
      | red hwl hwr =>
        rename_i wl wr wv
        simp only [rbtree_remove_fixup]
        have hfix := rbtree_remove_fix_left_balanced .red x pv wl n hx hwl
        have : ∃ c, (rbtree_remove_finish (rbtree_remove_fix_left .red x pv wl)).balanced c
            (n + 1) := by
          apply rbtree_remove_finish_balanced
          rcases hfix with ⟨h1, h2⟩ | ⟨h1, h2, _⟩
          · rcases h2 with ⟨_, h2⟩ | ⟨h2, _⟩
            · exact Or.inl ⟨h1, h2⟩
            · exact absurd h2 (by decide)
          · exact Or.inr ⟨h1, h2⟩
        obtain ⟨c', hc'⟩ := this
        exact hup.fill (.black hc' hwr)
      | black hwl hwr =>
        rename_i wl wr wv _ _
        have hfix := rbtree_remove_fix_left_balanced .black x pv (.node .black wl wv wr) n hx
          (.black hwl hwr)
        simp only [rbtree_remove_fixup]
        rcases hfix with ⟨h1, h2⟩ | ⟨h1, _, h3⟩
        · rcases h2 with ⟨h2, _⟩ | ⟨_, h2⟩
          · exact absurd h2 (by decide)
          · simp only [h1, rbtree_remove_finish]
            exact hup.fill h2
        · simp only [h1]
          exact ih _ _ _ hup (h3 rfl)
  | right pc w pv up ih =>
    cases hp with
    | right_red hw hup =>
      have hfix := rbtree_remove_fix_right_balanced .red w pv x n hx hw
      cases hw with
      | black hwl hwr =>
        simp only [rbtree_remove_fixup]
        rcases hfix with ⟨h1, h2⟩ | ⟨h1, h2, _⟩
        · rcases h2 with ⟨_, h2⟩ | ⟨h2, _⟩
          · simp only [h1, rbtree_remove_finish]
            exact hup.fill h2
          · exact absurd h2 (by decide)
        · simp only [h1, rbtree_remove_finish]
          exact (hup.recolor .black).fill h2
    | right_black hw hup =>
      cases hw with
      | red hwl hwr =>
        rename_i wl wr wv
        simp only [rbtree_remove_fixup]
        have hfix := rbtree_remove_fix_right_balanced .red wr pv x n hx hwr
        have : ∃ c, (rbtree_remove_finish (rbtree_remove_fix_right .red wr pv x)).balanced c
            (n + 1) := by
          apply rbtree_remove_finish_balanced
          rcases hfix with ⟨h1, h2⟩ | ⟨h1, h2, _⟩
          · rcases h2 with ⟨_, h2⟩ | ⟨h2, _⟩
            · exact Or.inl ⟨h1, h2⟩
            · exact absurd h2 (by decide)
          · exact Or.inr ⟨h1, h2⟩
        obtain ⟨c', hc'⟩ := this
        exact hup.fill (.black hwl hc')
      | black hwl hwr =>
        rename_i wl wr wv _ _
        have hfix := rbtree_remove_fix_right_balanced .black (.node .black wl wv wr) pv x n hx
          (.black hwl hwr)
        simp only [rbtree_remove_fixup]
        rcases hfix with ⟨h1, h2⟩ | ⟨h1, _, h3⟩
        · rcases h2 with ⟨h2, _⟩ | ⟨_, h2⟩
          · exact absurd h2 (by decide)
          · simp only [h1, rbtree_remove_finish]
            exact hup.fill h2
        · simp only [h1]
          exact ih _ _ _ hup (h3 rfl)

theorem rbtree_unlink_balanced {α : Type} (path : rbtree_path α) (c : rbtree_color)
    (child : rbtree_node α) (v : α) (n : Nat) (hp : path.balanced c n)
    (hz : (rbtree_node.node c .nil v child).balanced c n ∨
      (rbtree_node.node c child v .nil).balanced c n) :
    ∃ m, (rbtree_unlink path c child).balanced .black m := by
  have key : ∀ cn, (rbtree_node.nil : rbtree_node α).balanced cn n → child.balanced .black n →
      c = .red → ∃ m, (rbtree_unlink path c child).balanced .black m := by
    intro cn hn hc hred
    subst hred
    cases hn
    cases hc
    exact (hp.recolor .black).fill .nil
  have key2 : ∀ cn cc k, (rbtree_node.nil : rbtree_node α).balanced cn k →
      child.balanced cc k → c = .black → n = k + 1 →
      ∃ m, (rbtree_unlink path c child).balanced .black m := by
    intro cn cc k hn hc hblack hk
    subst hblack hk
    cases hn
    cases hc with
    | nil => exact rbtree_remove_fixup_balanced path .nil .black 0 hp .nil
    | red hl hr => exact hp.fill (.black hl hr)
  rcases hz with hz | hz
  · cases hz with
    | red hl hr => exact key _ hl hr rfl
    | black hl hr => exact key2 _ _ _ hl hr rfl rfl
  · cases hz with
    | red hl hr => exact key _ hr hl rfl
    | black hl hr => exact key2 _ _ _ hr hl rfl rfl

theorem rbtree_leftmost_balanced {α : Type} (c : rbtree_color) (l : rbtree_node α) (v : α)
    (r : rbtree_node α) (path : rbtree_path α) (n : Nat) (hp : path.balanced c n)
    (ht : (rbtree_node.node c l v r).balanced c n) :
    ∃ m, (rbtree_leftmost c l v r path).path.balanced (rbtree_leftmost c l v r path).color m ∧
      (rbtree_node.node (rbtree_leftmost c l v r path).color .nil
        (rbtree_leftmost c l v r path).value (rbtree_leftmost c l v r path).right).balanced
        (rbtree_leftmost c l v r path).color m := by
  induction l generalizing c v r path n with
  | nil => exact ⟨n, hp, ht⟩
  | node lc ll lv lr ihl _ =>
    simp only [rbtree_leftmost]
    cases ht with
    | red hl hr =>
      cases hl with
      | black hll hlr => exact ihl _ _ _ _ _ (.left_red hp hr) (.black hll hlr)
    | black hl hr =>
      cases hl with
      | red hll hlr => exact ihl _ _ _ _ _ (.left_black hp hr) (.red hll hlr)
      | black hll hlr => exact ihl _ _ _ _ _ (.left_black hp hr) (.black hll hlr)

theorem rbtree_remove_balanced {α : Type} (p : rbtree_cursor α) (n : Nat)
    (hp : p.path.balanced p.color n)
    (ht : (rbtree_node.node p.color p.left p.value p.right).balanced p.color n) :
    ∃ m, (rbtree_remove p).balanced .black m := by
  obtain ⟨path, c, l, v, r⟩ := p
  simp only at hp ht
  unfold rbtree_remove
  simp only
  split
  · exact rbtree_unlink_balanced path c r v n hp (Or.inl ht)
  · exact rbtree_unlink_balanced path c _ v n hp (Or.inr ht)
  · rename_i lc ll lv lr rc rl rv rr
    generalize (rbtree_leftmost rc rl rv rr rbtree_path.head).value = s
    have hy : ∃ m, (rbtree_path.right c (.node lc ll lv lr) s path).balanced rc m ∧
        (rbtree_node.node rc rl rv rr).balanced rc m := by
      cases ht with
      | red hl hr =>
        cases hr with
        | black hrl hrr => exact ⟨_, .right_red hl hp, .black hrl hrr⟩
      | black hl hr =>
        cases hr with
        | red hrl hrr => exact ⟨_, .right_black hl hp, .red hrl hrr⟩
        | black hrl hrr => exact ⟨_, .right_black hl hp, .black hrl hrr⟩
    obtain ⟨m, h1, h2⟩ := hy
    obtain ⟨k, h3, h4⟩ := rbtree_leftmost_balanced rc rl rv rr _ m h1 h2
    exact rbtree_unlink_balanced _ _ _ _ k h3 (Or.inl h4)

theorem rbtree_node.cursor_at_balanced {α : Type} (t : rbtree_node α) (it : Nat)
    (path : rbtree_path α) (c : rbtree_color) (n : Nat) (hp : path.balanced c n)
    (ht : t.balanced c n) (p : rbtree_cursor α) (h : t.cursor_at it path = some p) :
    ∃ m, p.path.balanced p.color m ∧
      (rbtree_node.node p.color p.left p.value p.right).balanced p.color m := by
  induction t generalizing it path c n with
  | nil => simp [rbtree_node.cursor_at] at h
  | node tc l v r ihl ihr =>
    simp only [rbtree_node.cursor_at] at h
    split at h
    · cases ht with
      | red hl hr => exact ihl _ _ _ _ (.left_red hp hr) hl h
      | black hl hr => exact ihl _ _ _ _ (.left_black hp hr) hl h
    · split at h
      · simp only [Option.some.injEq] at h
        subst h
        cases ht with
        | red hl hr => exact ⟨_, hp, .red hl hr⟩
        | black hl hr => exact ⟨_, hp, .black hl hr⟩
      · cases ht with
        | red hl hr => exact ihr _ _ _ _ (.right_red hl hp) hr h
        | black hl hr => exact ihr _ _ _ _ (.right_black hl hp) hr h

theorem rbtree_node.slot_at_balanced {α : Type} (t : rbtree_node α) (it : Nat)
    (path : rbtree_path α) (c : rbtree_color) (n : Nat) (hp : path.balanced c n)
    (ht : t.balanced c n) : (t.slot_at it path).balanced .black 0 := by
  induction t generalizing it path c n with
  | nil => cases ht; exact hp
  | node tc l v r ihl ihr =>
    simp only [rbtree_node.slot_at]
    split
    · cases ht with
      | red hl hr => exact ihl _ _ _ _ (.left_red hp hr) hl
      | black hl hr => exact ihl _ _ _ _ (.left_black hp hr) hl
    · cases ht with
      | red hl hr => exact ihr _ _ _ _ (.right_red hl hp) hr
      | black hl hr => exact ihr _ _ _ _ (.right_black hl hp) hr

theorem rbtree_find_insert_pos_balanced {α κ : Type} (get_key : α → κ) (comp : κ → κ → Bool)
    (key : κ) (t : rbtree_node α) (path : rbtree_path α) (c : rbtree_color) (n : Nat)
    (hp : path.balanced c n) (ht : t.balanced c n) :
    (rbtree_find_insert_pos get_key comp key t path).balanced .black 0 := by
  induction t generalizing path c n with
  | nil => cases ht; exact hp
  | node tc l v r ihl ihr =>
    simp only [rbtree_find_insert_pos]
    split
    · cases ht with
      | red hl hr => exact ihl _ _ _ (.left_red hp hr) hl
      | black hl hr => exact ihl _ _ _ (.left_black hp hr) hl
    · cases ht with
      | red hl hr => exact ihr _ _ _ (.right_red hl hp) hr
      | black hl hr => exact ihr _ _ _ (.right_black hl hp) hr

theorem rbtree_find_insert_pos_hint_balanced {α κ : Type} (get_key : α → κ)
    (comp : κ → κ → Bool) (root : rbtree_node α) (hint : Nat) (key : κ) (n : Nat)
    (ht : root.balanced .black n) :
    (rbtree_find_insert_pos_hint get_key comp root hint key).balanced .black 0 := by
  unfold rbtree_find_insert_pos_hint
  simp only
  split
  · exact rbtree_node.slot_at_balanced root hint .head .black n .head ht
  · exact rbtree_find_insert_pos_balanced get_key comp key root .head .black n .head ht

theorem rbtree_find_insert_unique_pos_balanced {α κ : Type} (get_key : α → κ)
    (comp : κ → κ → Bool) (key : κ) (t : rbtree_node α) (path : rbtree_path α) (side : Int)
    (c : rbtree_color) (n : Nat) (hp : path.balanced c n) (ht : t.balanced c n)
    (hnil : (rbtree_find_insert_unique_pos get_key comp key t path side).node = .nil) :
    (rbtree_find_insert_unique_pos get_key comp key t path side).first.balanced .black 0 := by
  induction t generalizing path side c n with
  | nil => cases ht; exact hp
  | node tc l v r ihl ihr =>
    simp only [rbtree_find_insert_unique_pos] at hnil ⊢
    split
    · rename_i h1
      simp only [h1, if_true] at hnil
      cases ht with
      | red hl hr => exact ihl _ _ _ _ (.left_red hp hr) hl hnil
      | black hl hr => exact ihl _ _ _ _ (.left_black hp hr) hl hnil
    · rename_i h1
      simp only [h1] at hnil
      split
      · rename_i h2
        simp only [h2, if_true] at hnil
        cases ht with
        | red hl hr => exact ihr _ _ _ _ (.right_red hl hp) hr hnil
        | black hl hr => exact ihr _ _ _ _ (.right_black hl hp) hr hnil
      · rename_i h2
        simp [h2] at hnil

/-! ## Where the searches end -/

theorem rbtree_find_insert_pos_in_order {α κ : Type} (get_key : α → κ) (comp : κ → κ → Bool)
    (key : κ) (t : rbtree_node α) (path : rbtree_path α) :
    (rbtree_find_insert_pos get_key comp key t path).before ++
        (rbtree_find_insert_pos get_key comp key t path).after =
      path.before ++ t.in_order ++ path.after := by
  induction t generalizing path with
  | nil => simp [rbtree_find_insert_pos, rbtree_node.in_order]
  | node c l v r ihl ihr =>
    simp only [rbtree_find_insert_pos]
    split
    · rw [ihl]; simp [rbtree_path.before, rbtree_path.after, rbtree_node.in_order]
    · rw [ihr]; simp [rbtree_path.before, rbtree_path.after, rbtree_node.in_order]

theorem rbtree_node.slot_at_before_after {α : Type} (t : rbtree_node α) (it : Nat)
    (path : rbtree_path α) :
    (t.slot_at it path).before = path.before ++ t.in_order.take it ∧
      (t.slot_at it path).after = t.in_order.drop it ++ path.after := by
  induction t generalizing it path with
  | nil => simp [rbtree_node.slot_at, rbtree_node.in_order]
  | node c l v r ihl ihr =>
    simp only [rbtree_node.slot_at]
    split
    · rename_i h
      rw [(ihl it _).1, (ihl it _).2]
      simp only [rbtree_path.before, rbtree_path.after, rbtree_node.in_order]
      rw [List.take_append_of_le_length h, List.drop_append_of_le_length h]
      simp
    · rename_i h
      rw [(ihr _ _).1, (ihr _ _).2]
      simp only [rbtree_path.before, rbtree_path.after, rbtree_node.in_order]
      have h1 : it = l.in_order.length + (it - l.in_order.length - 1 + 1) := by omega
      constructor
      · conv => rhs; rw [h1, List.take_append]
        simp
      · conv => rhs; rw [h1, List.drop_append]
        simp

theorem rbtree_find_insert_unique_pos_in_order {α κ : Type} (get_key : α → κ)
    (comp : κ → κ → Bool) (key : κ) (t : rbtree_node α) (path : rbtree_path α) (side : Int) :
    (rbtree_find_insert_unique_pos get_key comp key t path side).first.before ++
        (rbtree_find_insert_unique_pos get_key comp key t path side).node.in_order ++
        (rbtree_find_insert_unique_pos get_key comp key t path side).first.after =
      path.before ++ t.in_order ++ path.after := by
  induction t generalizing path side with
  | nil => simp [rbtree_find_insert_unique_pos]
  | node c l v r ihl ihr =>
    simp only [rbtree_find_insert_unique_pos]
    split
    · rw [ihl]; simp [rbtree_path.before, rbtree_path.after, rbtree_node.in_order]
    · split
      · rw [ihr]; simp [rbtree_path.before, rbtree_path.after, rbtree_node.in_order]
      · rfl

theorem rbtree_node.cursor_at_spec {α : Type} (t : rbtree_node α) (it : Nat)
    (path : rbtree_path α) (p : rbtree_cursor α) (h : t.cursor_at it path = some p) :
    p.path.before ++ p.left.in_order ++ p.value :: p.right.in_order ++ p.path.after =
        path.before ++ t.in_order ++ path.after ∧
      p.path.before.length + p.left.in_order.length = path.before.length + it := by
  induction t generalizing it path with
  | nil => simp [rbtree_node.cursor_at] at h
  | node c l v r ihl ihr =>
    simp only [rbtree_node.cursor_at] at h
    split at h
    · have := ihl _ _ h
      refine ⟨?_, ?_⟩
      · rw [this.1]; simp [rbtree_path.before, rbtree_path.after, rbtree_node.in_order]
      · rw [this.2]; simp [rbtree_path.before]
    · split at h
      · rename_i h2
        simp only [Option.some.injEq] at h
        subst h
        simp [rbtree_node.in_order, h2]
      · have := ihr _ _ h
        refine ⟨?_, ?_⟩
        · rw [this.1]; simp [rbtree_path.before, rbtree_path.after, rbtree_node.in_order]
        · rw [this.2]; simp [rbtree_path.before]; omega

theorem rbtree_node.cursor_at_some {α : Type} (t : rbtree_node α) (it : Nat)
    (path : rbtree_path α) (h : it < t.in_order.length) : ∃ p, t.cursor_at it path = some p := by
  induction t generalizing it path with
  | nil => simp [rbtree_node.in_order] at h
  | node c l v r ihl ihr =>
    simp only [rbtree_node.cursor_at]
    split
    · rename_i h1; exact ihl _ _ h1
    · split
      · exact ⟨_, rfl⟩
      · apply ihr
        simp only [rbtree_node.in_order, List.length_append, List.length_cons] at h
        omega

theorem rbtree_node.cursor_at_none {α : Type} (t : rbtree_node α) (it : Nat)
    (path : rbtree_path α) (h : t.in_order.length ≤ it) : t.cursor_at it path = none := by
  induction t generalizing it path with
  | nil => rfl
  | node c l v r ihl ihr =>
    simp only [rbtree_node.in_order, List.length_append, List.length_cons] at h
    simp only [rbtree_node.cursor_at]
    rw [if_neg (by omega), if_neg (by omega)]
    apply ihr
    omega

theorem rbtree_find_spec {α κ : Type} (get_key : α → κ) (comp : κ → κ → Bool) (key : κ)
    (t : rbtree_node α) (path : rbtree_path α) (p : rbtree_cursor α)
    (h : rbtree_find get_key comp key t path = some p) :
    p.path.before ++ p.left.in_order ++ p.value :: p.right.in_order ++ p.path.after =
        path.before ++ t.in_order ++ path.after ∧
      comp key (get_key p.value) = false ∧ comp (get_key p.value) key = false := by
  induction t generalizing path with
  | nil => simp [rbtree_find] at h
  | node c l v r ihl ihr =>
    simp only [rbtree_find] at h
    split at h
    · have := ihl _ h
      refine ⟨?_, this.2⟩
      rw [this.1]; simp [rbtree_path.before, rbtree_path.after, rbtree_node.in_order]
    · split at h
      · have := ihr _ h
        refine ⟨?_, this.2⟩
        rw [this.1]; simp [rbtree_path.before, rbtree_path.after, rbtree_node.in_order]
      · rename_i h1 h2
        simp only [Option.some.injEq] at h
        subst h
        simp only [Bool.not_eq_true] at h1 h2
        simp [rbtree_node.in_order, h1, h2]

theorem strict_weak_order.lt_of_lt_of_le {α : Type} {comp : α → α → Bool}
    (h : strict_weak_order comp) {a b c : α} (hab : comp a b = true) (hcb : comp c b = false) :
    comp a c = true := by
  cases hac : comp a c with
  | true => rfl
  | false =>
    have := h.le_trans hcb hac
    rw [hab] at this
    exact absurd this (by simp)

theorem strict_weak_order.lt_of_le_of_lt {α : Type} {comp : α → α → Bool}
    (h : strict_weak_order comp) {a b c : α} (hba : comp b a = false) (hbc : comp b c = true) :
    comp a c = true := by
  cases hac : comp a c with
  | true => rfl
  | false =>
    have := h.le_trans hac hba
    rw [hbc] at this
    exact absurd this (by simp)

theorem rbtree_find_insert_pos_bounds {α κ : Type} (get_key : α → κ) {comp : κ → κ → Bool}
    (h : strict_weak_order comp) (key : κ) (t : rbtree_node α) (path : rbtree_path α)
    (ht : keys_ordered get_key comp t.in_order)
    (hb : ∀ x ∈ path.before, comp key (get_key x) = false)
    (ha : ∀ x ∈ path.after, comp key (get_key x) = true) :
    (∀ x ∈ (rbtree_find_insert_pos get_key comp key t path).before,
        comp key (get_key x) = false) ∧
      (∀ x ∈ (rbtree_find_insert_pos get_key comp key t path).after,
        comp key (get_key x) = true) := by
  induction t generalizing path with
  | nil => exact ⟨hb, ha⟩
  | node c l v r ihl ihr =>
    simp only [rbtree_node.in_order, keys_ordered, List.pairwise_append, List.pairwise_cons,
      List.mem_cons] at ht
    obtain ⟨hl, ⟨hvr, hr⟩, hlr⟩ := ht
    simp only [rbtree_find_insert_pos]
    split
    · rename_i hk
      refine ihl (.left c path v r) hl hb ?_
      intro x hx
      simp only [rbtree_path.after, List.mem_cons, List.mem_append] at hx
      rcases hx with (rfl | hx) | hx
      · exact hk
      · exact h.lt_of_lt_of_le hk (hvr x hx)
      · exact ha x hx
    · rename_i hk
      simp only [Bool.not_eq_true] at hk
      refine ihr (.right c l v path) hr ?_ ha
      intro x hx
      simp only [rbtree_path.before, List.mem_append, List.mem_singleton] at hx
      rcases hx with (hx | hx) | rfl
      · exact hb x hx
      · exact h.le_trans (hlr x hx v (Or.inl rfl)) hk
      · exact hk

theorem rbtree_find_insert_unique_pos_bounds {α κ : Type} (get_key : α → κ)
    {comp : κ → κ → Bool} (h : strict_weak_order comp) (key : κ) (t : rbtree_node α)
    (path : rbtree_path α) (side : Int) (ht : keys_increasing get_key comp t.in_order)
    (hside : side ≠ 0) (hb : ∀ x ∈ path.before, comp (get_key x) key = true)
    (ha : ∀ x ∈ path.after, comp key (get_key x) = true) :
    ((rbtree_find_insert_unique_pos get_key comp key t path side).second = 0 ∧
        ∃ c l v r, (rbtree_find_insert_unique_pos get_key comp key t path side).node =
            .node c l v r ∧
          comp key (get_key v) = false ∧ comp (get_key v) key = false) ∨
      ((rbtree_find_insert_unique_pos get_key comp key t path side).second ≠ 0 ∧
        (rbtree_find_insert_unique_pos get_key comp key t path side).node = .nil ∧
        (∀ x ∈ (rbtree_find_insert_unique_pos get_key comp key t path side).first.before,
          comp (get_key x) key = true) ∧
        (∀ x ∈ (rbtree_find_insert_unique_pos get_key comp key t path side).first.after,
          comp key (get_key x) = true)) := by
  induction t generalizing path side with
  | nil => exact Or.inr ⟨hside, rfl, hb, ha⟩
  | node c l v r ihl ihr =>
    simp only [rbtree_node.in_order, keys_increasing, List.pairwise_append, List.pairwise_cons,
      List.mem_cons] at ht
    obtain ⟨hl, ⟨hvr, hr⟩, hlr⟩ := ht
    simp only [rbtree_find_insert_unique_pos]
    split
    · rename_i hk
      refine ihl (.left c path v r) (-1) hl (by decide) hb ?_
      intro x hx
      simp only [rbtree_path.after, List.mem_cons, List.mem_append] at hx
      rcases hx with (rfl | hx) | hx
      · exact hk
      · exact h.trans _ _ _ hk (hvr x hx)
      · exact ha x hx
    · rename_i hk
      simp only [Bool.not_eq_true] at hk
      split
      · rename_i hk2
        refine ihr (.right c l v path) 1 hr (by decide) ?_ ha
        intro x hx
        simp only [rbtree_path.before, List.mem_append, List.mem_singleton] at hx
        rcases hx with (hx | hx) | rfl
        · exact hb x hx
        · exact h.trans _ _ _ (hlr x hx v (Or.inl rfl)) hk2
        · exact hk2
      · rename_i hk2
        simp only [Bool.not_eq_true] at hk2
        exact Or.inl ⟨rfl, c, l, v, r, rfl, hk, hk2⟩

theorem rbtree_find_eq_unique_pos {α κ : Type} (get_key : α → κ) (comp : κ → κ → Bool)
    (key : κ) (t : rbtree_node α) (path : rbtree_path α) (side : Int) :
    rbtree_find get_key comp key t path =
      match (rbtree_find_insert_unique_pos get_key comp key t path side).node with
      | .nil => none
      | .node c l v r =>
        some ⟨(rbtree_find_insert_unique_pos get_key comp key t path side).first, c, l, v, r⟩ := by
  induction t generalizing path side with
  | nil => rfl
  | node c l v r ihl ihr =>
    simp only [rbtree_find, rbtree_find_insert_unique_pos]
    split
    · exact ihl _ _
    · split
      · exact ihr _ _
      · rfl

theorem keys_increasing_insert {α κ : Type} (get_key : α → κ) {comp : κ → κ → Bool}
    (B A : List α) (v : α) (hBA : keys_increasing get_key comp (B ++ A))
    (hb : ∀ x ∈ B, comp (get_key x) (get_key v) = true)
    (ha : ∀ x ∈ A, comp (get_key v) (get_key x) = true) :
    keys_increasing get_key comp (B ++ v :: A) := by
  simp only [keys_increasing, List.pairwise_append, List.pairwise_cons, List.mem_cons] at hBA ⊢
  refine ⟨hBA.1, ⟨ha, hBA.2.1⟩, ?_⟩
  intro a ha' b hb'
  rcases hb' with rfl | hb'
  · exact hb a ha'
  · exact hBA.2.2 a ha' b hb'

theorem keys_ordered_insert {α κ : Type} (get_key : α → κ) {comp : κ → κ → Bool}
    (h : strict_weak_order comp) (B A : List α) (v : α)
    (hBA : keys_ordered get_key comp (B ++ A))
    (hb : ∀ x ∈ B, comp (get_key v) (get_key x) = false)
    (ha : ∀ x ∈ A, comp (get_key v) (get_key x) = true) :
    keys_ordered get_key comp (B ++ v :: A) := by
  simp only [keys_ordered, List.pairwise_append, List.pairwise_cons, List.mem_cons] at hBA ⊢
  refine ⟨hBA.1, ⟨fun x hx => h.asymm (ha x hx), hBA.2.1⟩, ?_⟩
  intro a ha' b hb'
  rcases hb' with rfl | hb'
  · exact hb a ha'
  · exact hBA.2.2 a ha' b hb'

theorem keys_increasing_ordered {α κ : Type} (get_key : α → κ) {comp : κ → κ → Bool}
    (h : strict_weak_order comp) (l : List α) (hl : keys_increasing get_key comp l) :
    keys_ordered get_key comp l :=
  List.Pairwise.imp (fun hab => h.asymm hab) hl

theorem rbtree_find_insert_unique_pos_second {α κ : Type} (get_key : α → κ)
    (comp : κ → κ → Bool) (key : κ) (t : rbtree_node α) (path : rbtree_path α) (side : Int)
    (hside : side ≠ 0) :
    ((rbtree_find_insert_unique_pos get_key comp key t path side).second = 0 ∧
        ∃ c l v r, (rbtree_find_insert_unique_pos get_key comp key t path side).node =
          .node c l v r) ∨
      ((rbtree_find_insert_unique_pos get_key comp key t path side).second ≠ 0 ∧
        (rbtree_find_insert_unique_pos get_key comp key t path side).node = .nil) := by
  induction t generalizing path side with
  | nil => exact Or.inr ⟨hside, rfl⟩
  | node c l v r ihl ihr =>
    simp only [rbtree_find_insert_unique_pos]
    split
    · exact ihl _ _ (by decide)
    · split
      · exact ihr _ _ (by decide)
      · exact Or.inl ⟨rfl, c, l, v, r, rfl⟩

/-! ## Depth of a balanced tree -/

theorem rbtree_node.balanced.depth_and_count {α : Type} {t : rbtree_node α} {c : rbtree_color}
    {n : Nat} (h : t.balanced c n) :
    t.depth ≤ 2 * n + (if c = .red then 1 else 0) ∧
      2 ^ (n + (if c = .red then 1 else 0)) ≤ t.in_order.length + 1 := by
  induction h with
  | nil => simp [rbtree_node.depth, rbtree_node.in_order]
  | red hl hr ihl ihr =>
    simp only [rbtree_node.depth, rbtree_node.in_order, List.length_append, List.length_cons,
      if_true] at *
    simp only [show (rbtree_color.black = rbtree_color.red) = False by simp, if_false,
      Nat.add_zero] at ihl ihr
    refine ⟨by omega, ?_⟩
    rw [Nat.pow_succ]
    omega
  | @black l r v n cl cr hl hr ihl ihr =>
    simp only [rbtree_node.depth, rbtree_node.in_order, List.length_append, List.length_cons]
    simp only [show (rbtree_color.black = rbtree_color.red) = False by simp, if_false,
      Nat.add_zero]
    have h1 : 2 ^ n ≤ l.in_order.length + 1 :=
      Nat.le_trans (Nat.pow_le_pow_right (by decide) (Nat.le_add_right _ _)) ihl.2
    have h2 : 2 ^ n ≤ r.in_order.length + 1 :=
      Nat.le_trans (Nat.pow_le_pow_right (by decide) (Nat.le_add_right _ _)) ihr.2
    have h3 : l.depth ≤ 2 * n + 1 := by
      have := ihl.1
      split at this <;> omega
    have h4 : r.depth ≤ 2 * n + 1 := by
      have := ihr.1
      split at this <;> omega
    refine ⟨by omega, ?_⟩
    rw [Nat.pow_succ]
    omega

theorem rbtree_node.balanced.depth_bound {α : Type} {t : rbtree_node α} {n : Nat}
    (h : t.balanced .black n) : t.depth ≤ 2 * Nat.log2 (t.in_order.length + 1) := by
  have := h.depth_and_count
  simp only [show (rbtree_color.black = rbtree_color.red) = False by simp, if_false,
    Nat.add_zero] at this
  have h2 : n ≤ Nat.log2 (t.in_order.length + 1) :=
    (Nat.le_log2 (Nat.succ_ne_zero _)).mpr this.2
  omega

/-! ## The invariants under the container operations -/

theorem rbtree_base.link_rb_inv {α : Type} (t : rbtree_base α) (pos : rbtree_path α) (v : α)
    (h1 : pos.before ++ pos.after = t.root.in_order) (h2 : pos.balanced .black 0)
    (ht : t.wf) : (⟨rbtree_insert pos v, t.size_ + 1, t.alloc⟩ : rbtree_base α).rb_inv := by
  refine ⟨?_, rbtree_insert_balanced pos v h2⟩
  unfold rbtree_base.wf at *
  simp only [rbtree_insert_in_order, List.length_append, List.length_cons]
  rw [ht, ← h1, List.length_append]
  omega

theorem rbtree_base.erase_in_order {α : Type} (t : rbtree_base α) (pos : Nat) :
    (t.erase pos).root.in_order = t.root.in_order.eraseIdx pos := by
  unfold rbtree_base.erase
  split
  · rename_i h
    have hge : t.root.in_order.length ≤ pos := by
      by_contra hlt
      obtain ⟨p, hp⟩ := rbtree_node.cursor_at_some t.root pos .head (by omega)
      rw [hp] at h
      exact absurd h (by simp)
    rw [List.eraseIdx_of_length_le hge]
  · rename_i p h
    have := rbtree_node.cursor_at_spec t.root pos .head p h
    simp only [rbtree_path.before, rbtree_path.after, List.nil_append, List.append_nil,
      List.length_nil, Nat.zero_add] at this
    simp only [rbtree_remove_in_order]
    rw [← this.1, ← this.2]
    rw [show p.path.before ++ p.left.in_order ++ p.value :: p.right.in_order ++ p.path.after =
      (p.path.before ++ p.left.in_order) ++ p.value :: (p.right.in_order ++ p.path.after) by simp,
      ← List.length_append, List.eraseIdx_append_of_length_le (Nat.le_refl _)]
    simp

theorem rbtree_base.erase_rb_inv {α : Type} (t : rbtree_base α) (pos : Nat) (ht : t.rb_inv) :
    (t.erase pos).rb_inv := by
  have hio := rbtree_base.erase_in_order t pos
  unfold rbtree_base.erase at hio ⊢
  split
  · exact ht
  · rename_i p h
    rw [h] at hio
    simp only at hio
    obtain ⟨hwf, n, hb⟩ := ht
    obtain ⟨m, hm1, hm2⟩ := rbtree_node.cursor_at_balanced t.root pos .head .black n .head hb p h
    refine ⟨?_, rbtree_remove_balanced p m hm1 hm2⟩
    have hlt : pos < t.root.in_order.length := by
      by_contra hge
      rw [rbtree_node.cursor_at_none t.root pos .head (by omega)] at h
      exact absurd h (by simp)
    unfold rbtree_base.wf at *
    simp only [hio, List.length_eraseIdx, hlt, if_true, hwf]

theorem rbtree.insert_rb_inv {α κ : Type} (get_key : α → κ) (comp : κ → κ → Bool)
    (t : rbtree_base α) (val : α) (ht : t.rb_inv) :
    (rbtree.insert get_key comp t val).1.rb_inv := by
  unfold rbtree.insert
  simp only
  split
  · exact ht
  · rename_i hs
    obtain ⟨hwf, n, hb⟩ := ht
    have hnil : (rbtree_find_insert_unique_pos get_key comp (get_key val) t.root .head
        (-1)).node = .nil := by
      have := rbtree_find_insert_unique_pos_second get_key comp (get_key val) t.root .head (-1)
        (by decide)
      rcases this with ⟨h0, _⟩ | ⟨_, h1⟩
      · exact absurd h0 hs
      · exact h1
    have hio := rbtree_find_insert_unique_pos_in_order get_key comp (get_key val) t.root
      .head (-1)
    rw [hnil] at hio
    apply rbtree_base.link_rb_inv t _ val _ _ hwf
    · simpa [rbtree_node.in_order, rbtree_path.before, rbtree_path.after] using hio
    · exact rbtree_find_insert_unique_pos_balanced get_key comp _ t.root .head (-1) .black n
        .head hb hnil

theorem map.try_emplace_rb_inv {κ τ : Type} (comp : κ → κ → Bool) (m : rbtree_base (κ × τ))
    (key : κ) (mapped : τ) (hm : m.rb_inv) : (map.try_emplace comp m key mapped).1.rb_inv := by
  unfold map.try_emplace map.try_emplace_impl
  simp only
  split
  · exact hm
  · rename_i hs
    obtain ⟨hwf, n, hb⟩ := hm
    have hnil : (rbtree_find_insert_unique_pos Prod.fst comp key m.root .head (-1)).node =
        .nil := by
      rcases rbtree_find_insert_unique_pos_second Prod.fst comp key m.root .head (-1)
        (by decide) with ⟨h0, _⟩ | ⟨_, h1⟩
      · exact absurd h0 hs
      · exact h1
    have hio := rbtree_find_insert_unique_pos_in_order Prod.fst comp key m.root .head (-1)
    rw [hnil] at hio
    apply rbtree_base.link_rb_inv m _ (key, mapped) _ _ hwf
    · simpa [rbtree_node.in_order, rbtree_path.before, rbtree_path.after] using hio
    · exact rbtree_find_insert_unique_pos_balanced Prod.fst comp _ m.root .head (-1) .black n
        .head hb hnil

theorem rbtree.erase_key_rb_inv {α κ : Type} (get_key : α → κ) (comp : κ → κ → Bool)
    (t : rbtree_base α) (key : κ) (ht : t.rb_inv) :
    (rbtree.erase_key get_key comp t key).1.rb_inv := by
  unfold rbtree.erase_key
  simp only
  split
  · exact ht
  · exact rbtree_base.erase_rb_inv t _ ht

theorem rbtree_multi.emplace_rb_inv {α κ : Type} (get_key : α → κ) (comp : κ → κ → Bool)
    (t : rbtree_base α) (val : α) (ht : t.rb_inv) :
    (rbtree_multi.emplace get_key comp t val).1.rb_inv := by
  obtain ⟨hwf, n, hb⟩ := ht
  apply rbtree_base.link_rb_inv t _ val _ _ hwf
  · simpa [rbtree_path.before, rbtree_path.after] using
      rbtree_find_insert_pos_in_order get_key comp (get_key val) t.root .head
  · exact rbtree_find_insert_pos_balanced get_key comp _ t.root .head .black n .head hb

theorem rbtree_find_insert_pos_hint_in_order {α κ : Type} (get_key : α → κ)
    (comp : κ → κ → Bool) (root : rbtree_node α) (hint : Nat) (key : κ) :
    (rbtree_find_insert_pos_hint get_key comp root hint key).before ++
        (rbtree_find_insert_pos_hint get_key comp root hint key).after = root.in_order := by
  unfold rbtree_find_insert_pos_hint
  simp only
  split
  · rw [(rbtree_node.slot_at_before_after root hint .head).1,
      (rbtree_node.slot_at_before_after root hint .head).2]
    simp [rbtree_path.before, rbtree_path.after]
  · simpa [rbtree_path.before, rbtree_path.after] using
      rbtree_find_insert_pos_in_order get_key comp key root .head

theorem rbtree_multi.emplace_hint_rb_inv {α κ : Type} (get_key : α → κ) (comp : κ → κ → Bool)
    (t : rbtree_base α) (hint : Nat) (val : α) (ht : t.rb_inv) :
    (rbtree_multi.emplace_hint get_key comp t hint val).1.rb_inv := by
  obtain ⟨hwf, n, hb⟩ := ht
  apply rbtree_base.link_rb_inv t _ val _ _ hwf
  · exact rbtree_find_insert_pos_hint_in_order get_key comp t.root hint (get_key val)
  · exact rbtree_find_insert_pos_hint_balanced get_key comp t.root hint _ n hb

theorem rbtree_multi.insert_impl_rb_inv {α κ : Type} (get_key : α → κ) (comp : κ → κ → Bool)
    (t : rbtree_base α) (vals : List α) (ht : t.rb_inv) :
    (rbtree_multi.insert_impl get_key comp t vals).rb_inv := by
  induction vals generalizing t with
  | nil => exact ht
  | cons v vals ih =>
    simp only [rbtree_multi.insert_impl]
    exact ih _ (rbtree_multi.emplace_hint_rb_inv get_key comp t _ v ht)

theorem rbtree_base.empty_rb_inv {α : Type} (alloc : Nat) :
    (⟨.nil, 0, alloc⟩ : rbtree_base α).rb_inv :=
  ⟨rfl, 0, .nil⟩

theorem map_op_apply_rb_inv {κ τ : Type} (comp : κ → κ → Bool) (m : rbtree_base (κ × τ))
    (op : map_op κ τ) (hm : m.rb_inv) : (op.apply comp m).rb_inv := by
  cases op with
  | insert val => exact rbtree.insert_rb_inv Prod.fst comp m val hm
  | try_emplace key mapped => exact map.try_emplace_rb_inv comp m key mapped hm
  | erase_key key => exact rbtree.erase_key_rb_inv Prod.fst comp m key hm
  | erase pos => exact rbtree_base.erase_rb_inv m pos hm

theorem set_op_apply_rb_inv {κ : Type} (comp : κ → κ → Bool) (s : rbtree_base κ)
    (op : set_op κ) (hs : s.rb_inv) : (op.apply comp s).rb_inv := by
  cases op with
  | insert val => exact rbtree.insert_rb_inv id comp s val hs
  | erase_key key => exact rbtree.erase_key_rb_inv id comp s key hs
  | erase pos => exact rbtree_base.erase_rb_inv s pos hs

theorem multi_op_apply_rb_inv {α κ : Type} (get_key : α → κ) (comp : κ → κ → Bool)
    (t : rbtree_base α) (op : multi_op α) (ht : t.rb_inv) :
    (op.apply get_key comp t).rb_inv := by
  cases op with
  | insert val => exact rbtree_multi.emplace_rb_inv get_key comp t val ht
  | insert_hint hint val => exact rbtree_multi.emplace_hint_rb_inv get_key comp t hint val ht
  | insert_range vals => exact rbtree_multi.insert_impl_rb_inv get_key comp t vals ht
  | erase pos => exact rbtree_base.erase_rb_inv t pos ht

theorem foldl_rb_inv {α β : Type} (f : rbtree_base α → β → rbtree_base α)
    (hf : ∀ t op, t.rb_inv → (f t op).rb_inv) (ops : List β) (t : rbtree_base α)
    (ht : t.rb_inv) : (ops.foldl f t).rb_inv := by
  induction ops generalizing t with
  | nil => exact ht
  | cons op ops ih => exact ih _ (hf t op ht)

theorem rbtree_base.rb_inv.tree_checks {α : Type} {t : rbtree_base α} (ht : t.rb_inv) :
    t.root.no_red_red = true ∧ t.root.black_height.isSome = true ∧
      t.root.depth ≤ 2 * Nat.log2 (t.size + 1) := by
  obtain ⟨hwf, n, hb⟩ := ht
  have h := hb.checks
  refine ⟨h.1, by simp [h.2.1], ?_⟩
  unfold rbtree_base.size
  rw [hwf]
  exact hb.depth_bound

/-- C4: after every sequence of insert and erase operations on an initially empty map, set or
multi-key tree, the tree keeps the red-black invariants (no red node has a red child, every way
from the root down to a null link passes the same number of black nodes), and with `size()`
elements its depth is at most `2 * log2 (size() + 1)`. -/
theorem rbtree_operations_keep_red_black_invariants {α κ τ : Type} (get_key : α → κ)
    (comp : κ → κ → Bool) (alloc : Nat) (map_ops : List (map_op κ τ))
    (set_ops : List (set_op κ)) (multi_ops : List (multi_op α)) :
    ((map_ops.foldl (map_op.apply comp) ⟨.nil, 0, alloc⟩).root.no_red_red = true ∧
      (map_ops.foldl (map_op.apply comp) ⟨.nil, 0, alloc⟩).root.black_height.isSome = true ∧
      (map_ops.foldl (map_op.apply comp) ⟨.nil, 0, alloc⟩).root.depth ≤
        2 * Nat.log2 ((map_ops.foldl (map_op.apply comp) ⟨.nil, 0, alloc⟩).size + 1)) ∧
    ((set_ops.foldl (set_op.apply comp) ⟨.nil, 0, alloc⟩).root.no_red_red = true ∧
      (set_ops.foldl (set_op.apply comp) ⟨.nil, 0, alloc⟩).root.black_height.isSome = true ∧
      (set_ops.foldl (set_op.apply comp) ⟨.nil, 0, alloc⟩).root.depth ≤
        2 * Nat.log2 ((set_ops.foldl (set_op.apply comp) ⟨.nil, 0, alloc⟩).size + 1)) ∧
    ((multi_ops.foldl (multi_op.apply get_key comp) ⟨.nil, 0, alloc⟩).root.no_red_red = true ∧
      (multi_ops.foldl (multi_op.apply get_key comp) ⟨.nil, 0,
        alloc⟩).root.black_height.isSome = true ∧
      (multi_ops.foldl (multi_op.apply get_key comp) ⟨.nil, 0, alloc⟩).root.depth ≤
        2 * Nat.log2 ((multi_ops.foldl (multi_op.apply get_key comp) ⟨.nil, 0, alloc⟩).size +
          1)) :=
  ⟨(foldl_rb_inv _ (fun t op => map_op_apply_rb_inv comp t op) map_ops _
      (rbtree_base.empty_rb_inv alloc)).tree_checks,
    (foldl_rb_inv _ (fun t op => set_op_apply_rb_inv comp t op) set_ops _
      (rbtree_base.empty_rb_inv alloc)).tree_checks,
    (foldl_rb_inv _ (fun t op => multi_op_apply_rb_inv get_key comp t op) multi_ops _
      (rbtree_base.empty_rb_inv alloc)).tree_checks⟩

/-! ## Key order of the unique-key containers -/

theorem rbtree_unique_link_increasing {α κ : Type} (get_key : α → κ) {comp : κ → κ → Bool}
    (h : strict_weak_order comp) (root : rbtree_node α) (val : α)
    (hr : keys_increasing get_key comp root.in_order)
    (hs : (rbtree_find_insert_unique_pos get_key comp (get_key val) root .head (-1)).second ≠ 0) :
    keys_increasing get_key comp (rbtree_insert
      (rbtree_find_insert_unique_pos get_key comp (get_key val) root .head (-1)).first
      val).in_order := by
  have hio := rbtree_find_insert_unique_pos_in_order get_key comp (get_key val) root .head (-1)
  rcases rbtree_find_insert_unique_pos_bounds get_key h (get_key val) root .head (-1) hr
    (by decide) (by simp [rbtree_path.before]) (by simp [rbtree_path.after]) with
    ⟨h0, _⟩ | ⟨_, hnil, hb, ha⟩
  · exact absurd h0 hs
  · rw [hnil] at hio
    simp only [rbtree_node.in_order, List.append_nil, rbtree_path.before, rbtree_path.after,
      List.nil_append] at hio
    rw [rbtree_insert_in_order]
    apply keys_increasing_insert get_key _ _ val _ hb ha
    rw [hio]
    exact hr

theorem rbtree.insert_increasing {α κ : Type} (get_key : α → κ) {comp : κ → κ → Bool}
    (h : strict_weak_order comp) (t : rbtree_base α) (val : α)
    (ht : keys_increasing get_key comp t.root.in_order) :
    keys_increasing get_key comp (rbtree.insert get_key comp t val).1.root.in_order := by
  unfold rbtree.insert
  simp only
  split
  · exact ht
  · rename_i hs
    exact rbtree_unique_link_increasing get_key h t.root val ht hs

theorem map.try_emplace_increasing {κ τ : Type} {comp : κ → κ → Bool}
    (h : strict_weak_order comp) (m : rbtree_base (κ × τ)) (key : κ) (mapped : τ)
    (hm : keys_increasing Prod.fst comp m.root.in_order) :
    keys_increasing Prod.fst comp (map.try_emplace comp m key mapped).1.root.in_order := by
  unfold map.try_emplace map.try_emplace_impl
  simp only
  split
  · exact hm
  · rename_i hs
    exact rbtree_unique_link_increasing Prod.fst h m.root (key, mapped) hm hs

theorem rbtree_base.erase_increasing {α κ : Type} (get_key : α → κ) (comp : κ → κ → Bool)
    (t : rbtree_base α) (pos : Nat) (ht : keys_increasing get_key comp t.root.in_order) :
    keys_increasing get_key comp (t.erase pos).root.in_order := by
  rw [rbtree_base.erase_in_order]
  exact List.Pairwise.sublist (List.eraseIdx_sublist _ _) ht

theorem rbtree.erase_key_increasing {α κ : Type} (get_key : α → κ) (comp : κ → κ → Bool)
    (t : rbtree_base α) (key : κ) (ht : keys_increasing get_key comp t.root.in_order) :
    keys_increasing get_key comp (rbtree.erase_key get_key comp t key).1.root.in_order := by
  unfold rbtree.erase_key
  simp only
  split
  · exact ht
  · exact rbtree_base.erase_increasing get_key comp t _ ht

theorem map_op_apply_increasing {κ τ : Type} {comp : κ → κ → Bool}
    (h : strict_weak_order comp) (m : rbtree_base (κ × τ)) (op : map_op κ τ)
    (hm : keys_increasing Prod.fst comp m.root.in_order) :
    keys_increasing Prod.fst comp (op.apply comp m).root.in_order := by
  cases op with
  | insert val => exact rbtree.insert_increasing Prod.fst h m val hm
  | try_emplace key mapped => exact map.try_emplace_increasing h m key mapped hm
  | erase_key key => exact rbtree.erase_key_increasing Prod.fst comp m key hm
  | erase pos => exact rbtree_base.erase_increasing Prod.fst comp m pos hm

theorem set_op_apply_increasing {κ : Type} {comp : κ → κ → Bool}
    (h : strict_weak_order comp) (s : rbtree_base κ) (op : set_op κ)
    (hs : keys_increasing id comp s.root.in_order) :
    keys_increasing id comp (op.apply comp s).root.in_order := by
  cases op with
  | insert val => exact rbtree.insert_increasing id h s val hs
  | erase_key key => exact rbtree.erase_key_increasing id comp s key hs
  | erase pos => exact rbtree_base.erase_increasing id comp s pos hs

theorem foldl_increasing {α κ β : Type} (get_key : α → κ) (comp : κ → κ → Bool)
    (f : rbtree_base α → β → rbtree_base α)
    (hf : ∀ t op, keys_increasing get_key comp t.root.in_order →
      keys_increasing get_key comp (f t op).root.in_order)
    (ops : List β) (t : rbtree_base α) (ht : keys_increasing get_key comp t.root.in_order) :
    keys_increasing get_key comp (ops.foldl f t).root.in_order := by
  induction ops generalizing t with
  | nil => exact ht
  | cons op ops ih => exact ih _ (hf t op ht)

/-- C3: for a strict weak ordering `comp`, after every sequence of `insert`, `try_emplace` and
`erase` operations on an initially empty map, and after every sequence of `insert` and `erase`
operations on an initially empty set, the in-order traversal has strictly increasing keys, so no
two entries have equivalent keys. -/
theorem unique_tree_keys_strictly_increasing {κ τ : Type} (comp : κ → κ → Bool)
    (h : strict_weak_order comp) (alloc : Nat) (map_ops : List (map_op κ τ))
    (set_ops : List (set_op κ)) :
    keys_increasing Prod.fst comp
        (map_ops.foldl (map_op.apply comp) ⟨.nil, 0, alloc⟩).root.in_order ∧
      keys_increasing id comp
        (set_ops.foldl (set_op.apply comp) ⟨.nil, 0, alloc⟩).root.in_order :=
  ⟨foldl_increasing Prod.fst comp _ (fun t op => map_op_apply_increasing h t op) map_ops _
      List.Pairwise.nil,
    foldl_increasing id comp _ (fun t op => set_op_apply_increasing h t op) set_ops _
      List.Pairwise.nil⟩

theorem unique_tree_keys_strictly_increasing_witness :
    keys_increasing Prod.fst (fun a b : Nat => decide (a < b))
        ([map_op.insert (3, "c"), .try_emplace 1 "a", .insert (3, "x"), .erase_key 1,
          .try_emplace 2 "b", .erase 0].foldl
          (map_op.apply (fun a b : Nat => decide (a < b))) ⟨.nil, 0, 0⟩).root.in_order ∧
      keys_increasing id (fun a b : Nat => decide (a < b))
        ([set_op.insert 2, .insert 1, .insert 2, .erase_key 2, .insert 5].foldl
          (set_op.apply (fun a b : Nat => decide (a < b))) ⟨.nil, 0, 0⟩).root.in_order :=
  unique_tree_keys_strictly_increasing (fun a b : Nat => decide (a < b))
    nat_lt_strict_weak_order 0 _ _

/-! ## Key order and stability of the multi-key containers -/

theorem rbtree_find_insert_pos_hint_end_bounds {α κ : Type} (get_key : α → κ)
    {comp : κ → κ → Bool} (h : strict_weak_order comp) (root : rbtree_node α) (key : κ)
    (hr : keys_ordered get_key comp root.in_order) :
    (∀ x ∈ (rbtree_find_insert_pos_hint get_key comp root root.in_order.length key).before,
        comp key (get_key x) = false) ∧
      (∀ x ∈ (rbtree_find_insert_pos_hint get_key comp root root.in_order.length key).after,
        comp key (get_key x) = true) := by
  unfold rbtree_find_insert_pos_hint
  simp only
  split
  · rename_i hfit
    rw [(rbtree_node.slot_at_before_after root _ .head).1,
      (rbtree_node.slot_at_before_after root _ .head).2]
    simp only [rbtree_path.before, rbtree_path.after, List.nil_append, List.append_nil,
      List.take_length, List.drop_length, List.not_mem_nil, false_implies, implies_true,
      and_true]
    intro x hx
    simp only [Bool.and_eq_true] at hfit
    have hprev := hfit.1
    obtain ⟨i, hi, rfl⟩ := List.mem_iff_getElem.mp hx
    cases hlen : root.in_order.length with
    | zero => omega
    | succ n =>
      rw [hlen] at hprev
      simp only at hprev
      have hn : n < root.in_order.length := by omega
      rw [List.getElem?_eq_getElem hn] at hprev
      simp only [Bool.not_eq_true'] at hprev
      by_cases hin : i = n
      · subst hin; exact hprev
      · have hlt : i < n := by omega
        have := (List.pairwise_iff_getElem.mp hr) i n hi hn hlt
        exact h.le_trans this hprev
  · exact rbtree_find_insert_pos_bounds get_key h key root .head hr
      (by simp [rbtree_path.before]) (by simp [rbtree_path.after])

theorem filter_equiv_insert {α κ : Type} (get_key : α → κ) {comp : κ → κ → Bool}
    (h : strict_weak_order comp) (B A : List α) (v : α)
    (ha : ∀ x ∈ A, comp (get_key v) (get_key x) = true) (k : κ) :
    (B ++ v :: A).filter (fun x => equiv comp k (get_key x)) =
      ((B ++ A) ++ [v]).filter (fun x => equiv comp k (get_key x)) := by
  simp only [List.filter_append, List.filter_cons, List.filter_nil]
  by_cases hv : equiv comp k (get_key v) = true
  · have hA : A.filter (fun x => equiv comp k (get_key x)) = [] := by
      rw [List.filter_eq_nil_iff]
      intro x hx
      simp only [equiv, Bool.and_eq_true, Bool.not_eq_true'] at hv ⊢
      have := h.lt_of_le_of_lt hv.2 (ha x hx)
      simp [this]
    simp [hv, hA]
  · simp [hv]

theorem rbtree_multi_link_step {α κ : Type} (get_key : α → κ) {comp : κ → κ → Bool}
    (h : strict_weak_order comp) (root : rbtree_node α) (pos : rbtree_path α) (val : α)
    (hio : pos.before ++ pos.after = root.in_order)
    (hb : ∀ x ∈ pos.before, comp (get_key val) (get_key x) = false)
    (ha : ∀ x ∈ pos.after, comp (get_key val) (get_key x) = true)
    (hr : keys_ordered get_key comp root.in_order) :
    keys_ordered get_key comp (rbtree_insert pos val).in_order ∧
      (rbtree_insert pos val).in_order.Perm (root.in_order ++ [val]) ∧
      ∀ k, (rbtree_insert pos val).in_order.filter (fun x => equiv comp k (get_key x)) =
        (root.in_order ++ [val]).filter (fun x => equiv comp k (get_key x)) := by
  rw [rbtree_insert_in_order, ← hio]
  refine ⟨keys_ordered_insert get_key h _ _ val (by rw [hio]; exact hr) hb ha, ?_,
    fun k => filter_equiv_insert get_key h _ _ val ha k⟩
  refine List.perm_middle.trans ?_
  exact (List.perm_append_singleton val _).symm

theorem rbtree_multi.emplace_step {α κ : Type} (get_key : α → κ) {comp : κ → κ → Bool}
    (h : strict_weak_order comp) (t : rbtree_base α) (val : α)
    (ht : keys_ordered get_key comp t.root.in_order) :
    keys_ordered get_key comp (rbtree_multi.emplace get_key comp t val).1.root.in_order ∧
      (rbtree_multi.emplace get_key comp t val).1.root.in_order.Perm
        (t.root.in_order ++ [val]) ∧
      ∀ k, (rbtree_multi.emplace get_key comp t val).1.root.in_order.filter
          (fun x => equiv comp k (get_key x)) =
        (t.root.in_order ++ [val]).filter (fun x => equiv comp k (get_key x)) := by
  have hb := rbtree_find_insert_pos_bounds get_key h (get_key val) t.root .head ht
    (by simp [rbtree_path.before]) (by simp [rbtree_path.after])
  exact rbtree_multi_link_step get_key h t.root _ val
    (by simpa [rbtree_path.before, rbtree_path.after] using
      rbtree_find_insert_pos_in_order get_key comp (get_key val) t.root .head) hb.1 hb.2 ht

theorem rbtree_multi.emplace_hint_end_step {α κ : Type} (get_key : α → κ)
    {comp : κ → κ → Bool} (h : strict_weak_order comp) (t : rbtree_base α) (val : α)
    (ht : keys_ordered get_key comp t.root.in_order) :
    keys_ordered get_key comp
        (rbtree_multi.emplace_hint get_key comp t t.end_ val).1.root.in_order ∧
      (rbtree_multi.emplace_hint get_key comp t t.end_ val).1.root.in_order.Perm
        (t.root.in_order ++ [val]) ∧
      ∀ k, (rbtree_multi.emplace_hint get_key comp t t.end_ val).1.root.in_order.filter
          (fun x => equiv comp k (get_key x)) =
        (t.root.in_order ++ [val]).filter (fun x => equiv comp k (get_key x)) := by
  have hb := rbtree_find_insert_pos_hint_end_bounds get_key h t.root (get_key val) ht
  exact rbtree_multi_link_step get_key h t.root _ val
    (rbtree_find_insert_pos_hint_in_order get_key comp t.root _ (get_key val)) hb.1 hb.2 ht

theorem rbtree_multi.insert_impl_step {α κ : Type} (get_key : α → κ) {comp : κ → κ → Bool}
    (h : strict_weak_order comp) (t : rbtree_base α) (vals : List α)
    (ht : keys_ordered get_key comp t.root.in_order) :
    keys_ordered get_key comp (rbtree_multi.insert_impl get_key comp t vals).root.in_order ∧
      (rbtree_multi.insert_impl get_key comp t vals).root.in_order.Perm
        (t.root.in_order ++ vals) ∧
      ∀ k, (rbtree_multi.insert_impl get_key comp t vals).root.in_order.filter
          (fun x => equiv comp k (get_key x)) =
        (t.root.in_order ++ vals).filter (fun x => equiv comp k (get_key x)) := by
  induction vals generalizing t with
  | nil => simp [rbtree_multi.insert_impl, ht]
  | cons v vals ih =>
    simp only [rbtree_multi.insert_impl]
    have h1 := rbtree_multi.emplace_hint_end_step get_key h t v ht
    have h2 := ih _ h1.1
    refine ⟨h2.1, ?_, ?_⟩
    · refine h2.2.1.trans ?_
      simpa using List.Perm.append_right vals h1.2.1
    · intro k
      rw [h2.2.2 k, List.filter_append, h1.2.2 k, ← List.filter_append, List.append_assoc,
        List.singleton_append]

theorem multi_insertion.apply_step {α κ : Type} (get_key : α → κ) {comp : κ → κ → Bool}
    (h : strict_weak_order comp) (t : rbtree_base α) (i : multi_insertion α)
    (ht : keys_ordered get_key comp t.root.in_order) :
    keys_ordered get_key comp (i.apply get_key comp t).root.in_order ∧
      (i.apply get_key comp t).root.in_order.Perm (t.root.in_order ++ i.values) ∧
      ∀ k, (i.apply get_key comp t).root.in_order.filter (fun x => equiv comp k (get_key x)) =
        (t.root.in_order ++ i.values).filter (fun x => equiv comp k (get_key x)) := by
  cases i with
  | single val => exact rbtree_multi.emplace_step get_key h t val ht
  | range vals => exact rbtree_multi.insert_impl_step get_key h t vals ht

theorem multi_insertion.foldl_step {α κ : Type} (get_key : α → κ) {comp : κ → κ → Bool}
    (h : strict_weak_order comp) (t : rbtree_base α) (is : List (multi_insertion α))
    (ht : keys_ordered get_key comp t.root.in_order) :
    keys_ordered get_key comp
        (is.foldl (multi_insertion.apply get_key comp) t).root.in_order ∧
      (is.foldl (multi_insertion.apply get_key comp) t).root.in_order.Perm
        (t.root.in_order ++ (is.map multi_insertion.values).flatten) ∧
      ∀ k, (is.foldl (multi_insertion.apply get_key comp) t).root.in_order.filter
          (fun x => equiv comp k (get_key x)) =
        (t.root.in_order ++ (is.map multi_insertion.values).flatten).filter
          (fun x => equiv comp k (get_key x)) := by
  induction is generalizing t with
  | nil => simp [ht]
  | cons i is ih =>
    simp only [List.foldl_cons, List.map_cons, List.flatten_cons]
    have h1 := multi_insertion.apply_step get_key h t i ht
    have h2 := ih _ h1.1
    refine ⟨h2.1, ?_, ?_⟩
    · refine h2.2.1.trans ?_
      simpa using List.Perm.append_right _ h1.2.1
    · intro k
      rw [h2.2.2 k, List.filter_append, h1.2.2 k, ← List.filter_append, List.append_assoc]

/-- C5: for a strict weak ordering `comp`, after every sequence of insertions into an initially
empty multi-key tree, single-element `insert`/`emplace` and range `insert` alike, the in-order
traversal holds exactly the inserted values, its keys never decrease, and the elements with keys
equivalent to any given key appear in the order in which they were inserted. -/
theorem multi_tree_insertions_ordered_and_stable {α κ : Type} (get_key : α → κ)
    (comp : κ → κ → Bool) (h : strict_weak_order comp) (alloc : Nat)
    (insertions : List (multi_insertion α)) :
    keys_ordered get_key comp
        (insertions.foldl (multi_insertion.apply get_key comp) ⟨.nil, 0, alloc⟩).root.in_order ∧
      (insertions.foldl (multi_insertion.apply get_key comp) ⟨.nil, 0, alloc⟩).root.in_order.Perm
        (insertions.map multi_insertion.values).flatten ∧
      ∀ k, (insertions.foldl (multi_insertion.apply get_key comp)
          ⟨.nil, 0, alloc⟩).root.in_order.filter (fun x => equiv comp k (get_key x)) =
        (insertions.map multi_insertion.values).flatten.filter
          (fun x => equiv comp k (get_key x)) := by
  have := multi_insertion.foldl_step get_key h ⟨.nil, 0, alloc⟩ insertions List.Pairwise.nil
  simpa [rbtree_node.in_order] using this

theorem multi_tree_insertions_ordered_and_stable_witness :
    keys_ordered Prod.fst (fun a b : Nat => decide (a < b))
        ([multi_insertion.single (1, "a"), .range [(0, "b"), (1, "c"), (0, "d")],
          .single (1, "e")].foldl
          (multi_insertion.apply Prod.fst (fun a b : Nat => decide (a < b)))
          ⟨.nil, 0, 0⟩).root.in_order ∧
      ([multi_insertion.single (1, "a"), .range [(0, "b"), (1, "c"), (0, "d")],
          .single (1, "e")].foldl
          (multi_insertion.apply Prod.fst (fun a b : Nat => decide (a < b)))
          ⟨.nil, 0, 0⟩).root.in_order.filter
          (fun x => equiv (fun a b : Nat => decide (a < b)) 1 x.1) =
        [(1, "a"), (1, "c"), (1, "e")] :=
  have h := multi_tree_insertions_ordered_and_stable Prod.fst (fun a b : Nat => decide (a < b))
    nat_lt_strict_weak_order 0
    [multi_insertion.single (1, "a"), .range [(0, "b"), (1, "c"), (0, "d")], .single (1, "e")]
  ⟨h.1, (h.2.2 1).trans (by decide)⟩

/-! ## `size()` counts the nodes -/

theorem rbtree_base.link_wf {α : Type} (t : rbtree_base α) (pos : rbtree_path α) (v : α)
    (h1 : pos.before ++ pos.after = t.root.in_order) (ht : t.wf) :
    (⟨rbtree_insert pos v, t.size_ + 1, t.alloc⟩ : rbtree_base α).wf := by
  unfold rbtree_base.wf at *
  simp only [rbtree_insert_in_order, List.length_append, List.length_cons]
  rw [ht, ← h1, List.length_append]
  omega

theorem rbtree_base.unlink_wf {α : Type} (t : rbtree_base α) (pos : Nat) (p : rbtree_cursor α)
    (h : t.root.cursor_at pos .head = some p) (ht : t.wf) :
    (⟨rbtree_remove p, t.size_ - 1, t.alloc⟩ : rbtree_base α).wf ∧
      (rbtree_remove p).in_order.length + 1 = t.root.in_order.length := by
  have := (rbtree_node.cursor_at_spec t.root pos .head p h).1
  simp only [rbtree_path.before, rbtree_path.after, List.nil_append, List.append_nil] at this
  unfold rbtree_base.wf at *
  simp only [rbtree_remove_in_order]
  rw [ht, ← this]
  simp only [List.length_append, List.length_cons]
  omega

theorem rbtree_multi.emplace_wf {α κ : Type} (get_key : α → κ) (comp : κ → κ → Bool)
    (t : rbtree_base α) (val : α) (ht : t.wf) :
    (rbtree_multi.emplace get_key comp t val).1.wf :=
  rbtree_base.link_wf t _ val
    (by simpa [rbtree_path.before, rbtree_path.after] using
      rbtree_find_insert_pos_in_order get_key comp (get_key val) t.root .head) ht

theorem rbtree_multi.emplace_hint_wf {α κ : Type} (get_key : α → κ) (comp : κ → κ → Bool)
    (t : rbtree_base α) (hint : Nat) (val : α) (ht : t.wf) :
    (rbtree_multi.emplace_hint get_key comp t hint val).1.wf :=
  rbtree_base.link_wf t _ val
    (rbtree_find_insert_pos_hint_in_order get_key comp t.root hint (get_key val)) ht

theorem rbtree_multi.insert_impl_wf {α κ : Type} (get_key : α → κ) (comp : κ → κ → Bool)
    (t : rbtree_base α) (vals : List α) (ht : t.wf) :
    (rbtree_multi.insert_impl get_key comp t vals).wf := by
  induction vals generalizing t with
  | nil => exact ht
  | cons v vals ih =>
    simp only [rbtree_multi.insert_impl]
    exact ih _ (rbtree_multi.emplace_hint_wf get_key comp t _ v ht)

theorem map.try_emplace_wf {κ τ : Type} (comp : κ → κ → Bool) (m : rbtree_base (κ × τ))
    (key : κ) (mapped : τ) (hm : m.wf) : (map.try_emplace comp m key mapped).1.wf := by
  unfold map.try_emplace map.try_emplace_impl
  simp only
  split
  · exact hm
  · rename_i hs
    have hnil : (rbtree_find_insert_unique_pos Prod.fst comp key m.root .head (-1)).node =
        .nil := by
      rcases rbtree_find_insert_unique_pos_second Prod.fst comp key m.root .head (-1)
        (by decide) with ⟨h0, _⟩ | ⟨_, h1⟩
      · exact absurd h0 hs
      · exact h1
    have hio := rbtree_find_insert_unique_pos_in_order Prod.fst comp key m.root .head (-1)
    rw [hnil] at hio
    exact rbtree_base.link_wf m _ (key, mapped)
      (by simpa [rbtree_node.in_order, rbtree_path.before, rbtree_path.after] using hio) hm

theorem rbtree_multi.insert_node_wf {α κ : Type} (always_equal : Bool) (get_key : α → κ)
    (comp : κ → κ → Bool) (t : rbtree_base α) (nh : rbtree_node_handle α) (ht : t.wf)
    (r : rbtree_base α × rbtree_node_handle α × Nat)
    (h : rbtree_multi.insert_node always_equal get_key comp t nh = .ok r) : r.1.wf := by
  unfold rbtree_multi.insert_node at h
  split at h
  · simp only [Except.ok.injEq] at h
    rw [← h]; exact ht
  · rename_i node _
    split at h
    · exact absurd h (by simp)
    · simp only [Except.ok.injEq] at h
      rw [← h]
      exact rbtree_base.link_wf t _ node
        (by simpa [rbtree_path.before, rbtree_path.after] using
          rbtree_find_insert_pos_in_order get_key comp (get_key node) t.root .head) ht

theorem rbtree_multi.merge_loop_wf {α κ : Type} (get_key : α → κ) (comp : κ → κ → Bool)
    (fuel : Nat) (self other : rbtree_base α) (hfuel : 0 < fuel)
    (hlen : other.root.in_order.length ≤ fuel) (hs : self.wf) (ho : other.wf) :
    ∃ a b, rbtree_multi.merge_loop get_key comp fuel self other = some (a, b) ∧
      a.wf ∧ b.wf := by
  induction fuel generalizing self other with
  | zero => omega
  | succ fuel ih =>
    simp only [rbtree_multi.merge_loop]
    split
    · exact ⟨self, other, rfl, hs, ho⟩
    · rename_i p hp
      have hu := rbtree_base.unlink_wf other 0 p hp ho
      have hl := rbtree_base.link_wf self
        (rbtree_find_insert_pos get_key comp (get_key p.value) self.root .head) p.value
        (by simpa [rbtree_path.before, rbtree_path.after] using
          rbtree_find_insert_pos_in_order get_key comp (get_key p.value) self.root .head) hs
      split
      · exact ⟨_, _, rfl, hl, hu.1⟩
      · rename_i hne
        simp only [rbtree_base.end_] at hne
        apply ih _ _ _ _ hl hu.1
        · have := hu.2
          omega
        · have := hu.2
          simp only
          omega

theorem rbtree_multi.merge_impl_wf {α κ : Type} (always_equal : Bool) (get_key : α → κ)
    (comp : κ → κ → Bool) (self other : rbtree_base α) (hs : self.wf) (ho : other.wf) :
    ∃ res, rbtree_multi.merge_impl always_equal get_key comp self other = some res ∧
      ∀ a b, res = .ok (a, b) → a.wf ∧ b.wf := by
  unfold rbtree_multi.merge_impl
  split
  · refine ⟨_, rfl, ?_⟩
    intro a b hab
    simp only [Except.ok.injEq, Prod.mk.injEq] at hab
    rw [← hab.1, ← hab.2]; exact ⟨hs, ho⟩
  · rename_i hsz
    split
    · refine ⟨_, rfl, ?_⟩
      intro a b hab
      exact absurd hab (by simp)
    · have hpos : 0 < other.root.in_order.length := by
        unfold rbtree_base.wf at ho
        omega
      obtain ⟨a, b, hab, ha, hb⟩ := rbtree_multi.merge_loop_wf get_key comp
        other.root.in_order.length self other hpos (Nat.le_refl _) hs ho
      rw [hab]
      refine ⟨_, rfl, ?_⟩
      intro a' b' h'
      simp only [Except.ok.injEq, Prod.mk.injEq] at h'
      rw [← h'.1, ← h'.2]; exact ⟨ha, hb⟩

theorem rbtree_multi.assign_loop_wf {α κ : Type} (get_key : α → κ) (comp : κ → κ → Bool)
    (t : rbtree_base α) (tmp input : List α) (ht : t.wf) :
    (rbtree_multi.assign_loop get_key comp t tmp input).1.wf := by
  induction tmp generalizing t input with
  | nil => simpa [rbtree_multi.assign_loop] using ht
  | cons x tmp ih =>
    cases input with
    | nil => simpa [rbtree_multi.assign_loop] using ht
    | cons v input =>
      simp only [rbtree_multi.assign_loop]
      exact ih _ _ (rbtree_base.link_wf t _ v
        (rbtree_find_insert_pos_hint_in_order get_key comp t.root _ (get_key v)) ht)

theorem rbtree_multi.assign_impl_wf {α κ : Type} (get_key : α → κ) (comp : κ → κ → Bool)
    (t : rbtree_base α) (input : List α) (ht : t.wf) :
    (rbtree_multi.assign_impl get_key comp t input).wf := by
  unfold rbtree_multi.assign_impl
  split
  · exact rbtree_multi.insert_impl_wf get_key comp _ _
      (rbtree_multi.assign_loop_wf get_key comp _ _ _ rfl)
  · exact rbtree_multi.insert_impl_wf get_key comp t input ht

/-- C6: for tree containers whose `size_` counts their nodes, after `emplace`, `emplace_hint`,
the range `insert`, `map::try_emplace`, `insert` of a node handle, `merge` and `assign` have
completed, `size()` equals the number of elements of the full in-order traversal; `merge`
completes and this holds for its destination and its source. -/
theorem tree_size_equals_in_order_count {α κ τ : Type} (always_equal : Bool) (get_key : α → κ)
    (comp : κ → κ → Bool) (t other : rbtree_base α) (m : rbtree_base (κ × τ)) (val : α)
    (hint : Nat) (vals : List α) (key : κ) (mapped : τ) (nh : rbtree_node_handle α)
    (ht : t.wf) (ho : other.wf) (hm : m.wf) :
    (rbtree_multi.emplace get_key comp t val).1.size =
        (rbtree_multi.emplace get_key comp t val).1.root.in_order.length ∧
      (rbtree_multi.emplace_hint get_key comp t hint val).1.size =
        (rbtree_multi.emplace_hint get_key comp t hint val).1.root.in_order.length ∧
      (rbtree_multi.insert_impl get_key comp t vals).size =
        (rbtree_multi.insert_impl get_key comp t vals).root.in_order.length ∧
      (map.try_emplace comp m key mapped).1.size =
        (map.try_emplace comp m key mapped).1.root.in_order.length ∧
      (∀ r, rbtree_multi.insert_node always_equal get_key comp t nh = .ok r →
        r.1.size = r.1.root.in_order.length) ∧
      (∃ res, rbtree_multi.merge_impl always_equal get_key comp t other = some res ∧
        ∀ a b, res = .ok (a, b) →
          a.size = a.root.in_order.length ∧ b.size = b.root.in_order.length) ∧
      (rbtree_multi.assign_impl get_key comp t vals).size =
        (rbtree_multi.assign_impl get_key comp t vals).root.in_order.length :=
  ⟨rbtree_multi.emplace_wf get_key comp t val ht,
    rbtree_multi.emplace_hint_wf get_key comp t hint val ht,
    rbtree_multi.insert_impl_wf get_key comp t vals ht,
    map.try_emplace_wf comp m key mapped hm,
    fun r hr => rbtree_multi.insert_node_wf always_equal get_key comp t nh ht r hr,
    rbtree_multi.merge_impl_wf always_equal get_key comp t other ht ho,
    rbtree_multi.assign_impl_wf get_key comp t vals ht⟩

/-! ## `map::at` -/

theorem rbtree_node.similar_length {α κ : Type} (get_key : α → κ) (t t' : rbtree_node α)
    (h : t.similar get_key t') : t'.in_order.length = t.in_order.length := by
  induction t generalizing t' with
  | nil =>
    cases t' with
    | nil => rfl
    | node c' l' v' r' => simp [rbtree_node.similar] at h
  | node c l v r ihl ihr =>
    cases t' with
    | nil => simp [rbtree_node.similar] at h
    | node c' l' v' r' =>
      simp only [rbtree_node.similar] at h
      simp [rbtree_node.in_order, ihl l' h.2.2.1, ihr r' h.2.2.2]

theorem rbtree_node.modify_at_similar {α κ : Type} (get_key : α → κ) (f : α → α)
    (hf : ∀ x, get_key (f x) = get_key x) (t : rbtree_node α) (it : Nat) :
    t.similar get_key (t.modify_at f it) := by
  have hrefl : ∀ s : rbtree_node α, s.similar get_key s := by
    intro s
    induction s with
    | nil => trivial
    | node c l v r ihl ihr => exact ⟨rfl, rfl, ihl, ihr⟩
  induction t generalizing it with
  | nil => trivial
  | node c l v r ihl ihr =>
    simp only [rbtree_node.modify_at]
    split
    · exact ⟨rfl, rfl, ihl _, hrefl r⟩
    · split
      · exact ⟨rfl, (hf v).symm, hrefl l, hrefl r⟩
      · exact ⟨rfl, rfl, hrefl l, ihr _⟩

theorem rbtree_node.modify_at_in_order {α : Type} (f : α → α) (t : rbtree_node α) (it : Nat)
    (h : it < t.in_order.length) :
    ∃ A x B, t.in_order = A ++ x :: B ∧ A.length = it ∧
      (t.modify_at f it).in_order = A ++ f x :: B := by
  induction t generalizing it with
  | nil => simp [rbtree_node.in_order] at h
  | node c l v r ihl ihr =>
    simp only [rbtree_node.modify_at]
    split
    · rename_i h1
      obtain ⟨A, x, B, e1, e2, e3⟩ := ihl it h1
      refine ⟨A, x, B ++ v :: r.in_order, ?_, e2, ?_⟩
      · simp [rbtree_node.in_order, e1]
      · simp [rbtree_node.in_order, e3]
    · split
      · rename_i h2
        exact ⟨l.in_order, v, r.in_order, rfl, h2.symm, rfl⟩
      · simp only [rbtree_node.in_order, List.length_append, List.length_cons] at h
        obtain ⟨A, x, B, e1, e2, e3⟩ := ihr (it - l.in_order.length - 1) (by omega)
        refine ⟨l.in_order ++ v :: A, x, B, ?_, ?_, ?_⟩
        · simp [rbtree_node.in_order, e1]
        · simp only [List.length_append, List.length_cons]; omega
        · simp [rbtree_node.in_order, e3]

theorem rbtree_find_similar {α κ : Type} (get_key : α → κ) (comp : κ → κ → Bool) (key : κ)
    (t t' : rbtree_node α) (path path' : rbtree_path α) (h : t.similar get_key t')
    (hp : path'.before.length = path.before.length) :
    (rbtree_find get_key comp key t' path').map rbtree_cursor.iterator =
      (rbtree_find get_key comp key t path).map rbtree_cursor.iterator := by
  induction t generalizing t' path path' with
  | nil =>
    cases t' with
    | nil => rfl
    | node c' l' v' r' => simp [rbtree_node.similar] at h
  | node c l v r ihl ihr =>
    cases t' with
    | nil => simp [rbtree_node.similar] at h
    | node c' l' v' r' =>
      simp only [rbtree_node.similar] at h
      obtain ⟨hc, hk, hl, hr⟩ := h
      simp only [rbtree_find, ← hk]
      split
      · exact ihl l' _ _ hl (by simpa [rbtree_path.before] using hp)
      · split
        · refine ihr r' _ _ hr ?_
          simp [rbtree_path.before, hp, rbtree_node.similar_length get_key l l' hl]
        · simp [rbtree_cursor.iterator, hp, rbtree_node.similar_length get_key l l' hl]

theorem rbtree_find_absent {α κ : Type} (get_key : α → κ) (comp : κ → κ → Bool) (key : κ)
    (t : rbtree_node α) (h : ∀ e ∈ t.in_order, equiv comp key (get_key e) = false) :
    rbtree_find get_key comp key t .head = none := by
  cases hf : rbtree_find get_key comp key t .head with
  | none => rfl
  | some p =>
    have hs := rbtree_find_spec get_key comp key t .head p hf
    have hmem : p.value ∈ t.in_order := by
      have := hs.1
      simp only [rbtree_path.before, rbtree_path.after, List.nil_append, List.append_nil] at this
      rw [← this]
      simp
    have := h p.value hmem
    simp [equiv, hs.2.1, hs.2.2] at this

theorem rbtree_find_present {α κ : Type} (get_key : α → κ) {comp : κ → κ → Bool}
    (h : strict_weak_order comp) (key : κ) (t : rbtree_node α)
    (ht : keys_increasing get_key comp t.in_order)
    (hex : ∃ e ∈ t.in_order, equiv comp key (get_key e) = true) :
    ∃ p, rbtree_find get_key comp key t .head = some p := by
  rw [rbtree_find_eq_unique_pos get_key comp key t .head (-1)]
  rcases rbtree_find_insert_unique_pos_bounds get_key h key t .head (-1) ht (by decide)
    (by simp [rbtree_path.before]) (by simp [rbtree_path.after]) with
    ⟨_, c, l, v, r, hn, _⟩ | ⟨_, hnil, hb, ha⟩
  · rw [hn]; exact ⟨_, rfl⟩
  · exfalso
    have hio := rbtree_find_insert_unique_pos_in_order get_key comp key t .head (-1)
    rw [hnil] at hio
    simp only [rbtree_node.in_order, List.append_nil, rbtree_path.before, rbtree_path.after,
      List.nil_append] at hio
    obtain ⟨e, he, heq⟩ := hex
    rw [← hio] at he
    simp only [equiv, Bool.and_eq_true, Bool.not_eq_true'] at heq
    rcases List.mem_append.mp he with he | he
    · have := hb e he
      rw [heq.2] at this
      exact absurd this (by simp)
    · have := ha e he
      rw [heq.1] at this
      exact absurd this (by simp)

theorem getElem?_append_cons_length {α : Type} (A B : List α) (e : α) :
    (A ++ e :: B)[A.length]? = some e := by
  rw [List.getElem?_append_right (Nat.le_refl _)]
  simp

/-- C8: when no entry of a map has a key equivalent to `key`, `at(key)` fails with the
out-of-range error and the map is left as it was. -/
theorem map_at_absent_key_out_of_range {κ τ : Type} (comp : κ → κ → Bool)
    (m : rbtree_base (κ × τ)) (key : κ)
    (habs : ∀ e ∈ m.root.in_order, equiv comp key e.1 = false) :
    map.at_ comp m key = (m, .error .out_of_range) := by
  unfold map.at_ rbtree_base.find
  rw [rbtree_find_absent Prod.fst comp key m.root habs]
  simp

theorem map_at_absent_key_out_of_range_witness :
    map.at_ (fun a b : Nat => decide (a < b))
        (⟨.node .black (.node .red .nil (1, "a") .nil) (3, "c") .nil, 2, 0⟩ :
          rbtree_base (Nat × String)) 2 =
      (⟨.node .black (.node .red .nil (1, "a") .nil) (3, "c") .nil, 2, 0⟩,
        .error .out_of_range) :=
  map_at_absent_key_out_of_range (fun a b : Nat => decide (a < b))
    ⟨.node .black (.node .red .nil (1, "a") .nil) (3, "c") .nil, 2, 0⟩ 2 (by decide)

/-- C9: for a strict weak ordering `comp` and a map with strictly increasing keys that holds an
entry with a key equivalent to `key`, `at(key)` does not fail and leaves the map as it is; the
reference it returns is to the mapped value of the entry that `find(key)` gives, and after
writing `mapped` through it `find(key)` gives the same entry, whose mapped value is now
`mapped`, while the key of that entry, all other entries and `size()` are unchanged. -/
theorem map_at_present_key_reference {κ τ : Type} (comp : κ → κ → Bool)
    (h : strict_weak_order comp) (m : rbtree_base (κ × τ)) (key : κ)
    (hm : keys_increasing Prod.fst comp m.root.in_order)
    (hex : ∃ e ∈ m.root.in_order, equiv comp key e.1 = true) :
    ∃ ref A e B, map.at_ comp m key = (m, .ok ref) ∧ ref = m.find Prod.fst comp key ∧
      m.root.in_order = A ++ e :: B ∧ A.length = ref ∧ equiv comp key e.1 = true ∧
      map.read m ref = some e.2 ∧
      ∀ mapped, (map.write m ref mapped).find Prod.fst comp key = ref ∧
        map.at_ comp (map.write m ref mapped) key = (map.write m ref mapped, .ok ref) ∧
        map.read (map.write m ref mapped) ref = some mapped ∧
        (map.write m ref mapped).root.in_order = A ++ (e.1, mapped) :: B ∧
        (map.write m ref mapped).size = m.size := by
  obtain ⟨p, hp⟩ := rbtree_find_present Prod.fst h key m.root hm hex
  have hs := rbtree_find_spec Prod.fst comp key m.root .head p hp
  simp only [rbtree_path.before, rbtree_path.after, List.nil_append, List.append_nil] at hs
  have hfind : m.find Prod.fst comp key = p.iterator := by
    simp [rbtree_base.find, hp]
  have hdec : m.root.in_order =
      (p.path.before ++ p.left.in_order) ++ p.value :: (p.right.in_order ++ p.path.after) := by
    rw [← hs.1]; simp
  have hlt : p.iterator < m.root.in_order.length := by
    rw [hdec]
    simp only [rbtree_cursor.iterator, List.length_append, List.length_cons]
    omega
  have hAlen : (p.path.before ++ p.left.in_order).length = p.iterator := by
    simp [rbtree_cursor.iterator]
  have hat : ∀ m' : rbtree_base (κ × τ), m'.find Prod.fst comp key = p.iterator →
      m'.root.in_order.length = m.root.in_order.length →
      map.at_ comp m' key = (m', .ok p.iterator) := by
    intro m' h1 h2
    unfold map.at_
    simp only [h1, rbtree_base.end_, h2]
    rw [if_neg (by omega)]
  refine ⟨p.iterator, p.path.before ++ p.left.in_order, p.value,
    p.right.in_order ++ p.path.after, hat m hfind rfl, hfind.symm, hdec, hAlen, ?_, ?_, ?_⟩
  · simp [equiv, hs.2.1, hs.2.2]
  · unfold map.read
    rw [hdec, ← hAlen, getElem?_append_cons_length]
    rfl
  · intro mapped
    obtain ⟨A, x, B, e1, e2, e3⟩ := rbtree_node.modify_at_in_order
      (fun e : κ × τ => (e.1, mapped)) m.root p.iterator hlt
    have hinj := List.append_inj (hdec.symm.trans e1) (by rw [hAlen, e2])
    have hA : A = p.path.before ++ p.left.in_order := hinj.1.symm
    have hx : x = p.value := by
      have := hinj.2
      simp only [List.cons.injEq] at this
      exact this.1.symm
    have hB : B = p.right.in_order ++ p.path.after := by
      have := hinj.2
      simp only [List.cons.injEq] at this
      exact this.2.symm
    subst hA hx hB
    have hsim := rbtree_node.modify_at_similar Prod.fst (fun e : κ × τ => (e.1, mapped))
      (fun _ => rfl) m.root p.iterator
    have hfind' : (map.write m p.iterator mapped).find Prod.fst comp key = p.iterator := by
      have := rbtree_find_similar Prod.fst comp key m.root _ .head .head hsim rfl
      rw [hp] at this
      simp only [Option.map_some', Option.map_eq_some'] at this
      obtain ⟨p', hp', hit⟩ := this
      simp only [rbtree_base.find, map.write, hp', hit]
    have hlen' : (map.write m p.iterator mapped).root.in_order.length =
        m.root.in_order.length := rbtree_node.similar_length Prod.fst _ _ hsim
    refine ⟨hfind', hat _ hfind' hlen', ?_, e3, rfl⟩
    unfold map.read
    simp only [map.write, e3]
    rw [← hAlen, getElem?_append_cons_length]
    rfl

theorem map_at_present_key_reference_witness :
    ∃ ref A e B, map.at_ (fun a b : Nat => decide (a < b))
        (⟨.node .black (.node .red .nil (1, "a") .nil) (3, "c") .nil, 2, 0⟩ :
          rbtree_base (Nat × String)) 3 =
        (⟨.node .black (.node .red .nil (1, "a") .nil) (3, "c") .nil, 2, 0⟩, .ok ref) ∧
      (rbtree_base.mk (.node .black (.node .red .nil (1, "a") .nil) (3, "c") .nil) 2
        0).root.in_order = A ++ e :: B ∧ A.length = ref ∧
      map.read (map.write (⟨.node .black (.node .red .nil (1, "a") .nil) (3, "c") .nil, 2, 0⟩ :
          rbtree_base (Nat × String)) ref "z") ref = some "z" :=
  have ⟨ref, A, e, B, h1, _, h3, h4, _, _, h7⟩ :=
    map_at_present_key_reference (fun a b : Nat => decide (a < b)) nat_lt_strict_weak_order
      (⟨.node .black (.node .red .nil (1, "a") .nil) (3, "c") .nil, 2, 0⟩ :
        rbtree_base (Nat × String)) 3 (by unfold keys_increasing; decide)
      ⟨(3, "c"), by decide, by decide⟩
  ⟨ref, A, e, B, h1, h3, h4, (h7 "z").2.2.1⟩

/-! ## Merge into a unique-key tree -/

theorem any_perm {α : Type} (p : α → Bool) {l₁ l₂ : List α} (h : l₁.Perm l₂) :
    l₁.any p = l₂.any p := by
  rw [Bool.eq_iff_iff, List.any_eq_true, List.any_eq_true]
  constructor
  · rintro ⟨x, hx, hp⟩
    exact ⟨x, h.mem_iff.mp hx, hp⟩
  · rintro ⟨x, hx, hp⟩
    exact ⟨x, h.mem_iff.mpr hx, hp⟩

theorem merge_outcome_perm {α κ : Type} (get_key : α → κ) (comp : κ → κ → Bool)
    (source : List α) {d₁ d₂ : List α} (h : d₁.Perm d₂) :
    merge_outcome get_key comp d₁ source = merge_outcome get_key comp d₂ source := by
  induction source generalizing d₁ d₂ with
  | nil => rfl
  | cons s source ih =>
    simp only [merge_outcome]
    rw [any_perm _ h, ih h, ih (List.Perm.cons s h)]

theorem rbtree_unique_pos_found_iff {α κ : Type} (get_key : α → κ) {comp : κ → κ → Bool}
    (h : strict_weak_order comp) (key : κ) (root : rbtree_node α)
    (hr : keys_increasing get_key comp root.in_order) :
    ((rbtree_find_insert_unique_pos get_key comp key root .head (-1)).second = 0 ↔
      root.in_order.any (fun d => equiv comp (get_key d) key) = true) := by
  have hio := rbtree_find_insert_unique_pos_in_order get_key comp key root .head (-1)
  simp only [rbtree_path.before, rbtree_path.after, List.nil_append, List.append_nil] at hio
  rcases rbtree_find_insert_unique_pos_bounds get_key h key root .head (-1) hr (by decide)
    (by simp [rbtree_path.before]) (by simp [rbtree_path.after]) with
    ⟨h0, c, l, v, r, hn, h1, h2⟩ | ⟨hne, hnil, hb, ha⟩
  · refine ⟨fun _ => ?_, fun _ => h0⟩
    rw [List.any_eq_true]
    refine ⟨v, ?_, by simp [equiv, h1, h2]⟩
    rw [← hio, hn]
    simp [rbtree_node.in_order]
  · refine ⟨fun h0 => absurd h0 hne, fun hany => ?_⟩
    exfalso
    rw [List.any_eq_true] at hany
    obtain ⟨x, hx, heq⟩ := hany
    rw [← hio, hnil] at hx
    simp only [rbtree_node.in_order, List.append_nil, List.mem_append] at hx
    simp only [equiv, Bool.and_eq_true, Bool.not_eq_true'] at heq
    rcases hx with hx | hx
    · have := hb x hx
      rw [heq.1] at this
      exact absurd this (by simp)
    · have := ha x hx
      rw [heq.2] at this
      exact absurd this (by simp)

theorem rbtree.merge_loop_spec {α κ : Type} (get_key : α → κ) {comp : κ → κ → Bool}
    (h : strict_weak_order comp) (fuel : Nat) (self other : rbtree_base α) (node : Nat)
    (hnode : node ≤ other.root.in_order.length)
    (hfuel : other.root.in_order.length - node ≤ fuel) (hpos : 0 < fuel)
    (hs : self.wf) (ho : other.wf) (hinc : keys_increasing get_key comp self.root.in_order) :
    ∃ D S, rbtree.merge_loop get_key comp fuel self other node = some (D, S) ∧
      keys_increasing get_key comp D.root.in_order ∧ D.wf ∧ S.wf ∧
      S.root.in_order = other.root.in_order.take node ++
        (merge_outcome get_key comp self.root.in_order (other.root.in_order.drop node)).2 ∧
      D.root.in_order.Perm (self.root.in_order ++
        (merge_outcome get_key comp self.root.in_order (other.root.in_order.drop node)).1) := by
  induction fuel generalizing self other node with
  | zero => omega
  | succ fuel ih =>
    simp only [rbtree.merge_loop]
    split
    · rename_i hnone
      have hge : other.root.in_order.length ≤ node := by
        by_contra hlt
        obtain ⟨p, hp⟩ := rbtree_node.cursor_at_some other.root node .head (by omega)
        rw [hp] at hnone
        exact absurd hnone (by simp)
      have hdrop : other.root.in_order.drop node = [] := List.drop_eq_nil_of_le hge
      have htake : other.root.in_order.take node = other.root.in_order :=
        List.take_of_length_le hge
      exact ⟨self, other, rfl, hinc, hs, ho, by simp [hdrop, htake, merge_outcome],
        by simp [hdrop, merge_outcome]⟩
    · rename_i p hp
      have hspec := rbtree_node.cursor_at_spec other.root node .head p hp
      simp only [rbtree_path.before, rbtree_path.after, List.nil_append, List.append_nil,
        List.length_nil, Nat.zero_add] at hspec
      have hdec : other.root.in_order =
          (p.path.before ++ p.left.in_order) ++ p.value :: (p.right.in_order ++ p.path.after) := by
        rw [← hspec.1]; simp
      have hAlen : (p.path.before ++ p.left.in_order).length = node := by
        rw [List.length_append]; exact hspec.2
      generalize p.path.before ++ p.left.in_order = A at hdec hAlen
      generalize hB : p.right.in_order ++ p.path.after = B at hdec
      have htake : other.root.in_order.take node = A := by
        rw [hdec, ← hAlen, List.take_left]
      have hdrop : other.root.in_order.drop node = p.value :: B := by
        rw [hdec, ← hAlen, List.drop_left]
      have hlen : other.root.in_order.length = node + 1 + B.length := by
        rw [hdec, List.length_append, List.length_cons, hAlen]; omega
      have hfound := rbtree_unique_pos_found_iff get_key h (get_key p.value) self.root hinc
      rw [hdrop, htake]
      simp only [merge_outcome]
      split
      · rename_i h0
        have hany := hfound.mp h0
        simp only [hany, if_true]
        split
        · rename_i hend
          simp only [rbtree_base.end_] at hend
          have hBnil : B = [] := by
            apply List.eq_nil_of_length_eq_zero
            omega
          subst hBnil
          refine ⟨self, other, rfl, hinc, hs, ho, ?_, ?_⟩
          · rw [hdec]; simp [merge_outcome]
          · simp [merge_outcome]
        · rename_i hend
          simp only [rbtree_base.end_] at hend
          obtain ⟨D, S, hD, h1, h2, h3, h4, h5⟩ := ih self other (node + 1) (by omega)
            (by omega) (by omega) hs ho hinc
          refine ⟨D, S, hD, h1, h2, h3, ?_, ?_⟩
          · rw [h4]
            have : other.root.in_order.take (node + 1) = A ++ [p.value] := by
              rw [hdec, ← hAlen, List.take_append]
              simp
            have hd2 : other.root.in_order.drop (node + 1) = B := by
              rw [hdec, ← hAlen, List.drop_append]
              simp
            rw [this, hd2]
            simp
          · have hd2 : other.root.in_order.drop (node + 1) = B := by
              rw [hdec, ← hAlen, List.drop_append]
              simp
            rw [hd2] at h5
            exact h5
      · rename_i h0
        have hany : self.root.in_order.any
            (fun d => equiv comp (get_key d) (get_key p.value)) = false := by
          cases hc : self.root.in_order.any
            (fun d => equiv comp (get_key d) (get_key p.value)) with
          | false => rfl
          | true => exact absurd (hfound.mpr hc) h0
        simp only [hany, Bool.false_eq_true, if_false]
        have hnil : (rbtree_find_insert_unique_pos get_key comp (get_key p.value) self.root
            .head (-1)).node = .nil := by
          rcases rbtree_find_insert_unique_pos_second get_key comp (get_key p.value) self.root
            .head (-1) (by decide) with ⟨hz, _⟩ | ⟨_, h1⟩
          · exact absurd hz h0
          · exact h1
        have hio := rbtree_find_insert_unique_pos_in_order get_key comp (get_key p.value)
          self.root .head (-1)
        rw [hnil] at hio
        simp only [rbtree_node.in_order, List.append_nil, rbtree_path.before,
          rbtree_path.after, List.nil_append] at hio
        have hu := rbtree_base.unlink_wf other node p hp ho
        have hl := rbtree_base.link_wf self _ p.value hio hs
        have hinc' := rbtree_unique_link_increasing get_key h self.root p.value hinc h0
        have hperm : (rbtree_insert (rbtree_find_insert_unique_pos get_key comp
            (get_key p.value) self.root .head (-1)).first p.value).in_order.Perm
            (p.value :: self.root.in_order) := by
          rw [rbtree_insert_in_order, ← hio]
          exact List.perm_middle
        have hrem : (rbtree_remove p).in_order = A ++ B := by
          have e1 := rbtree_base.erase_in_order other node
          unfold rbtree_base.erase at e1
          rw [hp] at e1
          simp only at e1
          rw [e1, hdec, ← hAlen, List.eraseIdx_append_of_length_le (Nat.le_refl _)]
          simp
        split
        · rename_i hend
          simp only [rbtree_base.end_, hrem, List.length_append] at hend
          have hBnil : B = [] := by
            apply List.eq_nil_of_length_eq_zero
            omega
          subst hBnil
          refine ⟨_, _, rfl, hinc', hl, hu.1, ?_, ?_⟩
          · simp [hrem, merge_outcome]
          · simp only [merge_outcome]
            exact hperm.trans (List.perm_append_singleton _ _).symm
        · rename_i hend
          simp only [rbtree_base.end_, hrem, List.length_append] at hend
          obtain ⟨D, S, hD, h1, h2, h3, h4, h5⟩ := ih
            ⟨rbtree_insert (rbtree_find_insert_unique_pos get_key comp (get_key p.value)
              self.root .head (-1)).first p.value, self.size_ + 1, self.alloc⟩
            ⟨rbtree_remove p, other.size_ - 1, other.alloc⟩ node
            (by simp only [hrem, List.length_append]; omega)
            (by simp only [hrem, List.length_append]; omega) (by omega) hl hu.1 hinc'
          simp only [hrem] at h4 h5
          rw [← hAlen, List.take_left, List.drop_left, merge_outcome_perm get_key comp B hperm]
            at h4
          rw [← hAlen, List.drop_left, merge_outcome_perm get_key comp B hperm] at h5
          refine ⟨D, S, hD, h1, h2, h3, h4, ?_⟩
          refine h5.trans ?_
          refine (List.Perm.append_right _ hperm).trans ?_
          simpa using List.perm_middle.symm

/-- C10: for a strict weak ordering `comp`, a unique-key destination `D` with strictly
increasing keys and any source tree `S` with a compatible allocator (both with `size_` counting
their nodes), `D.merge(S)` ends without an error; afterwards the keys of `D` are still strictly
increasing, so no two entries are equivalent; the source keeps, in their order, exactly the
elements whose key was equivalent to a key of `D` or of an element moved earlier, and `D` holds
its old elements and all other source elements. -/
theorem unique_merge_leaves_colliding_keys_in_source {α κ : Type} (always_equal : Bool)
    (get_key : α → κ) (comp : κ → κ → Bool) (h : strict_weak_order comp)
    (D S : rbtree_base α) (hD : D.wf) (hS : S.wf)
    (hinc : keys_increasing get_key comp D.root.in_order)
    (halloc : always_equal = true ∨ D.alloc = S.alloc) :
    ∃ D' S', rbtree.merge_impl always_equal get_key comp D S = some (.ok (D', S')) ∧
      keys_increasing get_key comp D'.root.in_order ∧
      S'.root.in_order = (merge_outcome get_key comp D.root.in_order S.root.in_order).2 ∧
      D'.root.in_order.Perm
        (D.root.in_order ++ (merge_outcome get_key comp D.root.in_order S.root.in_order).1) ∧
      D'.size = D'.root.in_order.length ∧ S'.size = S'.root.in_order.length := by
  unfold rbtree.merge_impl
  split
  · rename_i hz
    have hnil : S.root.in_order = [] := by
      apply List.eq_nil_of_length_eq_zero
      unfold rbtree_base.wf at hS
      omega
    exact ⟨D, S, rfl, hinc, by simp [hnil, merge_outcome], by simp [hnil, merge_outcome],
      hD, hS⟩
  · rename_i hz
    have hal : (!always_equal && !(D.alloc == S.alloc)) = false := by
      rcases halloc with ha | ha
      · simp [ha]
      · simp [ha]
    simp only [hal, Bool.false_eq_true, if_false]
    have hpos : 0 < S.root.in_order.length := by
      unfold rbtree_base.wf at hS
      omega
    obtain ⟨D', S', hl, h1, h2, h3, h4, h5⟩ := rbtree.merge_loop_spec get_key h
      S.root.in_order.length D S 0 (Nat.zero_le _) (by omega) hpos hD hS hinc
    rw [hl]
    refine ⟨D', S', rfl, h1, ?_, ?_, h2, h3⟩
    · simpa using h4
    · simpa using h5

theorem unique_merge_leaves_colliding_keys_in_source_witness :
    ∃ D' S', rbtree.merge_impl false id (fun a b : Nat => decide (a < b))
        (⟨.node .black (.node .red .nil 3 .nil) 4 .nil, 2, 7⟩ : rbtree_base Nat)
        ⟨.node .black (.node .red .nil 1 .nil) 3 (.node .red .nil 3 .nil), 3, 7⟩ =
        some (.ok (D', S')) ∧
      keys_increasing id (fun a b : Nat => decide (a < b)) D'.root.in_order ∧
      S'.root.in_order = [3, 3] ∧ D'.root.in_order.Perm ([3, 4] ++ [1]) :=
  have ⟨D', S', h1, h2, h3, h4, _⟩ :=
    unique_merge_leaves_colliding_keys_in_source false id (fun a b : Nat => decide (a < b))
      nat_lt_strict_weak_order
      (⟨.node .black (.node .red .nil 3 .nil) 4 .nil, 2, 7⟩ : rbtree_base Nat)
      ⟨.node .black (.node .red .nil 1 .nil) 3 (.node .red .nil 3 .nil), 3, 7⟩ rfl rfl
      (by unfold keys_increasing; decide) (Or.inr rfl)
  ⟨D', S', h1, h2, h3.trans (by decide), h4.trans (by decide)⟩

theorem tree_size_equals_in_order_count_witness :
    (rbtree_multi.emplace id (fun a b : Nat => decide (a < b))
        (⟨.node .black .nil 2 .nil, 1, 0⟩ : rbtree_base Nat) 2).1.size = 2 ∧
      (∃ res, rbtree_multi.merge_impl true id (fun a b : Nat => decide (a < b))
          (⟨.node .black .nil 2 .nil, 1, 0⟩ : rbtree_base Nat)
          ⟨.node .black (.node .red .nil 1 .nil) 2 .nil, 2, 1⟩ = some res ∧
        ∀ a b, res = .ok (a, b) →
          a.size = a.root.in_order.length ∧ b.size = b.root.in_order.length) :=
  have h := @tree_size_equals_in_order_count Nat Nat String true id
    (fun a b : Nat => decide (a < b)) (⟨.node .black .nil 2 .nil, 1, 0⟩ : rbtree_base Nat)
    ⟨.node .black (.node .red .nil 1 .nil) 2 .nil, 2, 1⟩ ⟨.nil, 0, 0⟩ 2 0 [] 5 "x" ⟨none, 0⟩
    rfl rfl rfl
  ⟨h.1.trans (by decide), h.2.2.2.2.2.1⟩

/-! ## Merge into a multi-key tree -/

theorem rbtree_multi_merge_loop_spec {α κ : Type} (get_key : α → κ) {comp : κ → κ → Bool}
    (h : strict_weak_order comp) (fuel : Nat) (self other : rbtree_base α)
    (hfuel : other.root.in_order.length ≤ fuel) (hpos : 0 < fuel)
    (hs : self.wf) (ho : other.wf) (hord : keys_ordered get_key comp self.root.in_order) :
    ∃ D S, rbtree_multi.merge_loop get_key comp fuel self other = some (D, S) ∧
      S.root.in_order = [] ∧ S.size_ = 0 ∧ D.size_ = self.size_ + other.size_ ∧
      keys_ordered get_key comp D.root.in_order ∧
      D.root.in_order.Perm (self.root.in_order ++ other.root.in_order) ∧
      ∀ k, D.root.in_order.filter (fun x => equiv comp k (get_key x)) =
        (self.root.in_order ++ other.root.in_order).filter
          (fun x => equiv comp k (get_key x)) := by
  induction fuel generalizing self other with
  | zero => omega
  | succ fuel ih =>
    simp only [rbtree_multi.merge_loop]
    split
    · rename_i hnone
      have hnil : other.root.in_order = [] := by
        apply List.eq_nil_of_length_eq_zero
        by_contra hlt
        obtain ⟨p, hp⟩ := rbtree_node.cursor_at_some other.root 0 .head (by omega)
        rw [hp] at hnone
        exact absurd hnone (by simp)
      have hz : other.size_ = 0 := by
        unfold rbtree_base.wf at ho
        rw [ho, hnil]; rfl
      exact ⟨self, other, rfl, hnil, hz, by omega, hord, by simp [hnil], by simp [hnil]⟩
    · rename_i p hp
      have hspec := rbtree_node.cursor_at_spec other.root 0 .head p hp
      simp only [rbtree_path.before, rbtree_path.after, List.nil_append, List.append_nil,
        List.length_nil, Nat.zero_add] at hspec
      have hAnil : p.path.before ++ p.left.in_order = [] := by
        apply List.eq_nil_of_length_eq_zero
        rw [List.length_append]; exact hspec.2
      have hdec : other.root.in_order = p.value :: (p.right.in_order ++ p.path.after) := by
        rw [← hspec.1, List.append_assoc, ← List.append_assoc, hAnil]; simp
      generalize hB : p.right.in_order ++ p.path.after = B at hdec
      have hu := rbtree_base.unlink_wf other 0 p hp ho
      have hio : (rbtree_find_insert_pos get_key comp (get_key p.value) self.root
          .head).before ++ (rbtree_find_insert_pos get_key comp (get_key p.value) self.root
          .head).after = self.root.in_order := by
        simpa [rbtree_path.before, rbtree_path.after] using
          rbtree_find_insert_pos_in_order get_key comp (get_key p.value) self.root .head
      have hl := rbtree_base.link_wf self _ p.value hio hs
      have hb := rbtree_find_insert_pos_bounds get_key h (get_key p.value) self.root .head hord
        (by simp [rbtree_path.before]) (by simp [rbtree_path.after])
      have hstep := rbtree_multi_link_step get_key h self.root _ p.value hio hb.1 hb.2 hord
      have hrem : (rbtree_remove p).in_order = B := by
        have e1 := rbtree_base.erase_in_order other 0
        unfold rbtree_base.erase at e1
        rw [hp] at e1
        simp only at e1
        rw [e1, hdec]
        rfl
      have hsz : other.size_ = B.length + 1 := by
        unfold rbtree_base.wf at ho
        rw [ho, hdec]; rfl
      have hfl : B.length ≤ fuel := by
        rw [hdec] at hfuel
        simp only [List.length_cons] at hfuel
        omega
      split
      · rename_i hend
        simp only [rbtree_base.end_, hrem] at hend
        have hBnil : B = [] := by
          apply List.eq_nil_of_length_eq_zero
          omega
        subst hBnil
        refine ⟨_, _, rfl, hrem, ?_, ?_, hstep.1, ?_, ?_⟩
        · simp only [hsz, List.length_nil]
        · simp only [hsz, List.length_nil]
        · rw [hdec]; exact hstep.2.1
        · rw [hdec]; exact hstep.2.2
      · rename_i hend
        simp only [rbtree_base.end_, hrem] at hend
        obtain ⟨D, S, hD, h1, h2, h3, h4, h5, h6⟩ := ih
          ⟨rbtree_insert (rbtree_find_insert_pos get_key comp (get_key p.value) self.root
            .head) p.value, self.size_ + 1, self.alloc⟩
          ⟨rbtree_remove p, other.size_ - 1, other.alloc⟩
          (by simp only [hrem]; exact hfl) (by omega) hl hu.1 hstep.1
        simp only [hrem] at h5 h6
        refine ⟨D, S, hD, h1, h2, ?_, h4, ?_, ?_⟩
        · rw [h3]; show self.size_ + 1 + (other.size_ - 1) = _; omega
        · rw [hdec]
          refine h5.trans ?_
          refine (List.Perm.append_right _ hstep.2.1).trans ?_
          simp
        · intro k
          rw [h6 k, hdec, List.filter_append, hstep.2.2 k, ← List.filter_append,
            List.append_assoc, List.singleton_append]

/-- C11: for a strict weak ordering `comp`, a multi-key tree `D` with non-decreasing keys and a
non-empty source tree `S` with a compatible allocator (both with `size_` counting their nodes),
`D.merge(S)` ends without an error and moves every node of `S` into `D`: afterwards `S` is empty
with `size()` 0, `D.size()` is the sum of the two previous sizes, the in-order sequence of `D` is
non-decreasing and a permutation of the elements of both, and for every key the elements of `D`
equivalent to it are the former ones of `D`, in their order, followed by those of `S`, in the
order of the source. -/
theorem multi_merge_moves_every_node_stably {α κ : Type} (always_equal : Bool)
    (get_key : α → κ) (comp : κ → κ → Bool) (h : strict_weak_order comp)
    (D S : rbtree_base α) (hD : D.wf) (hS : S.wf) (hne : S.size ≠ 0)
    (hord : keys_ordered get_key comp D.root.in_order)
    (halloc : always_equal = true ∨ D.alloc = S.alloc) :
    ∃ D' S', rbtree_multi.merge_impl always_equal get_key comp D S = some (.ok (D', S')) ∧
      S'.root.in_order = [] ∧ S'.size = 0 ∧ D'.size = D.size + S.size ∧
      keys_ordered get_key comp D'.root.in_order ∧
      D'.root.in_order.Perm (D.root.in_order ++ S.root.in_order) ∧
      ∀ k, D'.root.in_order.filter (fun x => equiv comp k (get_key x)) =
        D.root.in_order.filter (fun x => equiv comp k (get_key x)) ++
          S.root.in_order.filter (fun x => equiv comp k (get_key x)) := by
  unfold rbtree_multi.merge_impl
  have hz : ¬ S.size_ = 0 := hne
  simp only [hz, if_false]
  have hal : (!always_equal && !(D.alloc == S.alloc)) = false := by
    rcases halloc with ha | ha
    · simp [ha]
    · simp [ha]
  simp only [hal, Bool.false_eq_true, if_false]
  have hpos : 0 < S.root.in_order.length := by
    unfold rbtree_base.wf at hS
    omega
  obtain ⟨D', S', hl, h1, h2, h3, h4, h5, h6⟩ := rbtree_multi_merge_loop_spec get_key h
    S.root.in_order.length D S (Nat.le_refl _) hpos hD hS hord
  rw [hl]
  refine ⟨D', S', rfl, h1, h2, h3, h4, h5, ?_⟩
  intro k
  rw [h6 k, List.filter_append]

theorem multi_merge_moves_every_node_stably_witness :
    ∃ D' S', rbtree_multi.merge_impl false Prod.fst (fun a b : Nat => decide (a < b))
        (⟨.node .black (.node .red .nil (1, "a") .nil) (2, "b") .nil, 2, 7⟩ :
          rbtree_base (Nat × String))
        ⟨.node .black (.node .red .nil (1, "c") .nil) (2, "d") (.node .red .nil (2, "e") .nil),
          3, 7⟩ = some (.ok (D', S')) ∧
      S'.root.in_order = [] ∧ D'.size = 5 ∧
      D'.root.in_order.filter (fun x => equiv (fun a b : Nat => decide (a < b)) 2 x.1) =
        [(2, "b"), (2, "d"), (2, "e")] :=
  have ⟨D', S', h1, h2, _, h4, _, _, h7⟩ :=
    multi_merge_moves_every_node_stably false Prod.fst (fun a b : Nat => decide (a < b))
      nat_lt_strict_weak_order
      (⟨.node .black (.node .red .nil (1, "a") .nil) (2, "b") .nil, 2, 7⟩ :
        rbtree_base (Nat × String))
      ⟨.node .black (.node .red .nil (1, "c") .nil) (2, "d") (.node .red .nil (2, "e") .nil),
        3, 7⟩ rfl rfl (by decide) (by unfold keys_ordered; decide) (Or.inr rfl)
  ⟨D', S', h1, h2, h4, (h7 2).trans (by decide)⟩

/-! ## Single insertions into the tree containers -/

theorem eraseIdx_append_cons_length {α : Type} (A B : List α) (e : α) :
    (A ++ e :: B).eraseIdx A.length = A ++ B := by
  rw [List.eraseIdx_append_of_length_le (Nat.le_refl _)]
  simp

theorem rbtree_base.link_new_element {α : Type} (t : rbtree_base α) (pos : rbtree_path α)
    (v : α) (h1 : pos.before ++ pos.after = t.root.in_order) :
    (rbtree_insert pos v).in_order[pos.before.length]? = some v ∧
      (rbtree_insert pos v).in_order.eraseIdx pos.before.length = t.root.in_order := by
  rw [rbtree_insert_in_order, ← h1]
  exact ⟨getElem?_append_cons_length _ _ _, eraseIdx_append_cons_length _ _ _⟩

/-- C12: for a strict weak ordering `comp`, a multi-key container `C` that keeps the tree
invariants and has non-decreasing keys, and a non-empty node handle with payload `v` whose
allocator is compatible with that of `C`, `C.insert(std::move(handle))` returns without an error
an iterator to an element with payload `v`; `C.size()` has grown by exactly one, the in-order
sequence is the old one with `v` added at the iterator and is still non-decreasing, the tree
invariants hold and the handle is empty. -/
theorem multi_insert_node_handle_links_payload {α κ : Type} (always_equal : Bool)
    (get_key : α → κ) (comp : κ → κ → Bool) (h : strict_weak_order comp) (C : rbtree_base α)
    (nh : rbtree_node_handle α) (v : α) (hC : C.rb_inv)
    (hord : keys_ordered get_key comp C.root.in_order) (hv : nh.node_ = some v)
    (halloc : always_equal = true ∨ C.alloc = nh.alloc) :
    ∃ C' nh' it, rbtree_multi.insert_node always_equal get_key comp C nh = .ok (C', nh', it) ∧
      C'.root.in_order[it]? = some v ∧ C'.root.in_order.eraseIdx it = C.root.in_order ∧
      C'.size = C.size + 1 ∧ keys_ordered get_key comp C'.root.in_order ∧ C'.rb_inv ∧
      nh'.empty = true := by
  unfold rbtree_multi.insert_node
  rw [hv]
  have hal : (!always_equal && !(C.alloc == nh.alloc)) = false := by
    rcases halloc with ha | ha
    · simp [ha]
    · simp [ha]
  simp only [hal, Bool.false_eq_true, if_false]
  have hio : (rbtree_find_insert_pos get_key comp (get_key v) C.root .head).before ++
      (rbtree_find_insert_pos get_key comp (get_key v) C.root .head).after =
      C.root.in_order := by
    simpa [rbtree_path.before, rbtree_path.after] using
      rbtree_find_insert_pos_in_order get_key comp (get_key v) C.root .head
  have hb := rbtree_find_insert_pos_bounds get_key h (get_key v) C.root .head hord
    (by simp [rbtree_path.before]) (by simp [rbtree_path.after])
  have hstep := rbtree_multi_link_step get_key h C.root _ v hio hb.1 hb.2 hord
  have hnew := rbtree_base.link_new_element C _ v hio
  obtain ⟨hwf, n, hbal⟩ := hC
  have hpb := rbtree_find_insert_pos_balanced get_key comp (get_key v) C.root .head .black n
    .head hbal
  exact ⟨_, _, _, rfl, hnew.1, hnew.2, rfl, hstep.1, rbtree_base.link_rb_inv C _ v hio hpb hwf,
    rfl⟩

theorem multi_insert_node_handle_links_payload_witness :
    ∃ C' nh' it, rbtree_multi.insert_node false Prod.fst (fun a b : Nat => decide (a < b))
        (⟨.node .black (.node .red .nil (1, "a") .nil) (2, "b") .nil, 2, 7⟩ :
          rbtree_base (Nat × String)) ⟨some (1, "c"), 7⟩ = .ok (C', nh', it) ∧
      C'.root.in_order[it]? = some (1, "c") ∧ C'.size = 3 ∧ nh'.empty = true :=
  have ⟨C', nh', it, h1, h2, _, h4, _, _, h7⟩ :=
    multi_insert_node_handle_links_payload false Prod.fst (fun a b : Nat => decide (a < b))
      nat_lt_strict_weak_order
      (⟨.node .black (.node .red .nil (1, "a") .nil) (2, "b") .nil, 2, 7⟩ :
        rbtree_base (Nat × String)) ⟨some (1, "c"), 7⟩ (1, "c")
      ⟨rfl, 1, .black (.red .nil .nil) .nil⟩ (by unfold keys_ordered; decide) rfl (Or.inr rfl)
  ⟨C', nh', it, h1, h2, h4, h7⟩

/-- C14: for every multi-key tree, every value and every hint, `insert(val)`, `emplace`,
`insert(hint, val)` and `emplace_hint` whose payload is constructed always insert, whatever keys
the tree holds: `size()` grows by exactly one, the element at the returned iterator is the given
value, and it is a new element, the others being the old ones in their order. -/
theorem multi_insert_always_inserts {α κ : Type} (get_key : α → κ) (comp : κ → κ → Bool)
    (t : rbtree_base α) (hint : Nat) (val : α) :
    ((rbtree_multi.insert get_key comp t val).1.size = t.size + 1 ∧
      (rbtree_multi.insert get_key comp t val).1.root.in_order[
        (rbtree_multi.insert get_key comp t val).2]? = some val ∧
      (rbtree_multi.insert get_key comp t val).1.root.in_order.eraseIdx
        (rbtree_multi.insert get_key comp t val).2 = t.root.in_order) ∧
    ((rbtree_multi.emplace get_key comp t val).1.size = t.size + 1 ∧
      (rbtree_multi.emplace get_key comp t val).1.root.in_order[
        (rbtree_multi.emplace get_key comp t val).2]? = some val ∧
      (rbtree_multi.emplace get_key comp t val).1.root.in_order.eraseIdx
        (rbtree_multi.emplace get_key comp t val).2 = t.root.in_order) ∧
    ((rbtree_multi.insert_hint get_key comp t hint val).1.size = t.size + 1 ∧
      (rbtree_multi.insert_hint get_key comp t hint val).1.root.in_order[
        (rbtree_multi.insert_hint get_key comp t hint val).2]? = some val ∧
      (rbtree_multi.insert_hint get_key comp t hint val).1.root.in_order.eraseIdx
        (rbtree_multi.insert_hint get_key comp t hint val).2 = t.root.in_order) ∧
    ((rbtree_multi.emplace_hint get_key comp t hint val).1.size = t.size + 1 ∧
      (rbtree_multi.emplace_hint get_key comp t hint val).1.root.in_order[
        (rbtree_multi.emplace_hint get_key comp t hint val).2]? = some val ∧
      (rbtree_multi.emplace_hint get_key comp t hint val).1.root.in_order.eraseIdx
        (rbtree_multi.emplace_hint get_key comp t hint val).2 = t.root.in_order) := by
  have hio : (rbtree_find_insert_pos get_key comp (get_key val) t.root .head).before ++
      (rbtree_find_insert_pos get_key comp (get_key val) t.root .head).after =
      t.root.in_order := by
    simpa [rbtree_path.before, rbtree_path.after] using
      rbtree_find_insert_pos_in_order get_key comp (get_key val) t.root .head
  have h1 := rbtree_base.link_new_element t _ val hio
  have h2 := rbtree_base.link_new_element t _ val
    (rbtree_find_insert_pos_hint_in_order get_key comp t.root hint (get_key val))
  exact ⟨⟨rfl, h1.1, h1.2⟩, ⟨rfl, h1.1, h1.2⟩, ⟨rfl, h2.1, h2.2⟩, ⟨rfl, h2.1, h2.2⟩⟩

/-! ## Allocator compatibility of `splice` and `merge` -/

theorem list.splice_impl_range_eq {α : Type} (always_equal : Bool) (self other : list α)
    (pos first last : Nat) :
    list.splice_impl always_equal self other pos first last =
      match list.splice_impl_range always_equal self other pos first last with
      | (a, b, none) => .ok (a, b)
      | (_, _, some _) => .error .logic_error := by
  unfold list.splice_impl list.splice_impl_range
  split
  · rfl
  · split
    · rfl
    · rfl

/-- C15 (counterexample): the whole-list `splice` of an empty list whose allocator differs from
that of the destination returns without an exception. -/
theorem list_splice_empty_source_is_skipped :
    list.splice_impl_list false (⟨[1, 2], 2, 0⟩ : list Nat) ⟨[], 0, 1⟩ 0 =
      (⟨[1, 2], 2, 0⟩, ⟨[], 0, 1⟩, none) := by
  decide

/-- C15: for a source list that is a different object and whose allocator is neither always
equal nor equal to that of the destination, the single-element `splice` always fails with the
logic error; the whole-list `splice` and `merge` fail with it when the source has elements, and
the range `splice` when the range has elements (`first != last`).  For an empty source list or
an empty range the call returns without an exception and leaves both lists as they are. -/
theorem list_splice_merge_incompatible_allocator {σ α : Type}
    (comp : σ → α → α → σ × Option Bool) (s : σ) (self other : list α) (pos it first last : Nat)
    (halloc : self.alloc ≠ other.alloc) :
    list.splice_impl_node false self other pos it =
        (self, other, some (.container .logic_error)) ∧
      list.splice_impl_list false self other pos =
        (self, other, if other.size = 0 then none else some (.container .logic_error)) ∧
      list.splice_impl_range false self other pos first last =
        (self, other, if first = last then none else some (.container .logic_error)) ∧
      list.merge_impl false comp s self other =
        (s, self, other, if other.size = 0 then none else some (.container .logic_error)) := by
  have hal : (!false && !(self.alloc == other.alloc)) = true := by simp [halloc]
  refine ⟨?_, ?_, ?_, ?_⟩
  · unfold list.splice_impl_node
    simp only [hal, if_true]
  · unfold list.splice_impl_list list.size
    split
    · rfl
    · simp only [hal, if_true]
  · unfold list.splice_impl_range
    split
    · rfl
    · simp only [hal, if_true]
  · unfold list.merge_impl list.size
    split
    · rfl
    · simp only [hal, if_true]

theorem list_splice_merge_incompatible_allocator_witness :
    list.splice_impl_node false (⟨[1, 2], 2, 0⟩ : list Nat) ⟨[3], 1, 1⟩ 0 0 =
        (⟨[1, 2], 2, 0⟩, ⟨[3], 1, 1⟩, some (.container .logic_error)) ∧
      list.merge_impl false (nothrow fun a b : Nat => decide (a < b)) () (⟨[1, 2], 2, 0⟩ : list Nat)
        ⟨[3], 1, 1⟩ = ((), ⟨[1, 2], 2, 0⟩, ⟨[3], 1, 1⟩, some (.container .logic_error)) :=
  have h := list_splice_merge_incompatible_allocator
    (nothrow fun a b : Nat => decide (a < b)) () (⟨[1, 2], 2, 0⟩ : list Nat) ⟨[3], 1, 1⟩ 0 0 0 1
    (by decide)
  ⟨h.1, h.2.2.2⟩

/-! ## `list::merge` with a comparator that throws -/

theorem merge_advance_append {σ α : Type} (comp : σ → α → α → σ × Option Bool) (p : α) (s : σ)
    (src : List α) (s' : σ) (r : List α × List α)
    (h : merge_advance comp p s src = (s', some r)) : r.1 ++ r.2 = src := by
  induction src generalizing s s' r with
  | nil =>
    simp only [merge_advance, Prod.mk.injEq, Option.some.injEq] at h
    rw [← h.2]
    rfl
  | cons x src ih =>
    simp only [merge_advance] at h
    split at h
    · simp at h
    · simp only [Prod.mk.injEq, Option.some.injEq] at h
      rw [← h.2]
      rfl
    · split at h
      · simp at h
      · rename_i s2 r2 h2
        simp only [Prod.mk.injEq, Option.some.injEq] at h
        rw [← h.2]
        simp only [List.cons_append, ih _ _ _ h2]

theorem merge_loop_exc_perm {σ α : Type} (comp : σ → α → α → σ × Option Bool) (s : σ)
    (tgt src : List α) :
    ((merge_loop_exc comp s tgt src).tgt ++ (merge_loop_exc comp s tgt src).src).Perm
      (tgt ++ src) := by
  induction tgt generalizing s src with
  | nil => simp [merge_loop_exc]
  | cons p tgt ih =>
    simp only [merge_loop_exc]
    split
    · exact List.Perm.refl _
    · split
      · exact List.Perm.refl _
      · rename_i s' r hr
        have happ := merge_advance_append comp p s src s' r hr
        have := ih s' r.2
        show ((r.1 ++ p :: (merge_loop_exc comp s' tgt r.2).tgt) ++
          (merge_loop_exc comp s' tgt r.2).src).Perm (p :: (tgt ++ src))
        rw [← happ, List.append_assoc, List.cons_append]
        refine (List.Perm.append_left r.1 (List.Perm.cons p this)).trans ?_
        refine List.perm_middle.trans (List.Perm.cons p ?_)
        exact List.perm_append_comm_assoc _ _ _

theorem merge_impl_exc_perm {σ α : Type} (comp : σ → α → α → σ × Option Bool) (s : σ)
    (tgt src : List α) :
    ((merge_impl_exc comp s tgt src).tgt ++ (merge_impl_exc comp s tgt src).src).Perm
      (tgt ++ src) := by
  have h := merge_loop_exc_perm comp s tgt src
  unfold merge_impl_exc
  simp only
  split
  · exact h
  · split
    · exact h
    · simpa [dllist_insert_before, dllist_make_cycle] using h

/-- C18: for two distinct lists `A` and `B` whose `size_` counts their nodes, with compatible
allocators, and a comparator that may throw at any comparison, when `A.merge(B, comp)` returns
or lets the exception through, the nodes of the two lists together are the original nodes of
`A` and `B`, none lost and none twice, each list's `size()` is the number of nodes it holds, the
two sizes sum to the original total, and the only exception that can come out is the
comparator's. -/
theorem list_merge_throwing_comparator_keeps_elements {σ α : Type} (always_equal : Bool)
    (comp : σ → α → α → σ × Option Bool) (s : σ) (A B : list α) (hA : A.wf) (hB : B.wf)
    (halloc : always_equal = true ∨ A.alloc = B.alloc) :
    ((list.merge_impl always_equal comp s A B).2.1.nodes ++
        (list.merge_impl always_equal comp s A B).2.2.1.nodes).Perm (A.nodes ++ B.nodes) ∧
      (list.merge_impl always_equal comp s A B).2.1.size =
        (list.merge_impl always_equal comp s A B).2.1.nodes.length ∧
      (list.merge_impl always_equal comp s A B).2.2.1.size =
        (list.merge_impl always_equal comp s A B).2.2.1.nodes.length ∧
      (list.merge_impl always_equal comp s A B).2.1.size +
        (list.merge_impl always_equal comp s A B).2.2.1.size = A.size + B.size ∧
      ((list.merge_impl always_equal comp s A B).2.2.2 = none ∨
        (list.merge_impl always_equal comp s A B).2.2.2 = some .foreign) := by
  have hal : (!always_equal && !(A.alloc == B.alloc)) = false := by
    rcases halloc with ha | ha
    · simp [ha]
    · simp [ha]
  unfold list.wf at hA hB
  unfold list.merge_impl list.size
  split
  · exact ⟨List.Perm.refl _, hA, hB, rfl, Or.inl rfl⟩
  · simp only [hal, Bool.false_eq_true, if_false]
    have hp := merge_impl_exc_perm comp s A.nodes B.nodes
    have hlen := hp.length_eq
    simp only [List.length_append] at hlen
    split
    · refine ⟨hp, ?_, ?_, ?_, Or.inr rfl⟩
      · simp only; omega
      · simp only; omega
      · simp only; omega
    · rename_i hth
      have hsrc : (merge_impl_exc comp s A.nodes B.nodes).src = [] := by
        unfold merge_impl_exc at hth ⊢
        simp only at hth ⊢
        split
        · rename_i h1
          rw [if_pos h1] at hth
          exact absurd h1 hth
        · split
          · rename_i h2
            simpa [dllist_is_empty] using h2
          · rfl
      rw [hsrc] at hp hlen ⊢
      refine ⟨hp, ?_, rfl, ?_, Or.inl rfl⟩
      · simp only [List.length_nil] at hlen ⊢; omega
      · simp only [Nat.add_zero]

theorem list_merge_throwing_comparator_keeps_elements_witness :
    ((list.merge_impl false
          (fun (s : Nat) (a b : Nat) => (s + 1, if s = 2 then none else some (decide (a < b))))
          0 (⟨[1, 3, 5], 3, 0⟩ : list Nat) ⟨[0, 2, 4, 6], 4, 0⟩).2.1.nodes ++
        (list.merge_impl false
          (fun (s : Nat) (a b : Nat) => (s + 1, if s = 2 then none else some (decide (a < b))))
          0 (⟨[1, 3, 5], 3, 0⟩ : list Nat) ⟨[0, 2, 4, 6], 4, 0⟩).2.2.1.nodes).Perm
        ([1, 3, 5] ++ [0, 2, 4, 6]) ∧
      list.merge_impl false
          (fun (s : Nat) (a b : Nat) => (s + 1, if s = 2 then none else some (decide (a < b))))
          0 (⟨[1, 3, 5], 3, 0⟩ : list Nat) ⟨[0, 2, 4, 6], 4, 0⟩ =
        (3, ⟨[0, 1, 3, 5], 4, 0⟩, ⟨[2, 4, 6], 3, 0⟩, some .foreign) :=
  ⟨(list_merge_throwing_comparator_keeps_elements false
      (fun (s : Nat) (a b : Nat) => (s + 1, if s = 2 then none else some (decide (a < b))))
      0 (⟨[1, 3, 5], 3, 0⟩ : list Nat) ⟨[0, 2, 4, 6], 4, 0⟩ rfl rfl (Or.inr rfl)).1,
    by decide⟩

/-! ## Insertions into a list when making a node throws -/

theorem list.insert_loop_spec {σ α : Type} (new_ok : σ → α → σ × Bool) (s : σ) (l : list α)
    (pos : Nat) (input : List α) (hpos : pos ≤ l.nodes.length) :
    (list.insert_loop new_ok s l pos input).2.1.nodes =
        l.nodes.take pos ++ batch_made new_ok s input ++ l.nodes.drop pos ∧
      (list.insert_loop new_ok s l pos input).2.1.size_ =
        l.size_ + (batch_made new_ok s input).length ∧
      (list.insert_loop new_ok s l pos input).2.1.alloc = l.alloc ∧
      (((list.insert_loop new_ok s l pos input).2.2 = none ∧
          batch_made new_ok s input = input) ∨
        ((list.insert_loop new_ok s l pos input).2.2 = some .foreign ∧
          (batch_made new_ok s input).length < input.length)) := by
  induction input generalizing s l pos with
  | nil => simp [list.insert_loop, batch_made]
  | cons v input ih =>
    simp only [list.insert_loop, list.new_node, batch_made]
    rcases hn : new_ok s v with ⟨s', b⟩
    cases b with
    | false => simp
    | true =>
      simp only
      have hlen : pos + 1 ≤
          (dllist_insert_before l.nodes pos [v]).length := by
        simp only [dllist_insert_before, List.length_append, List.length_take,
          List.length_drop, List.length_cons, List.length_nil]
        omega
      obtain ⟨h1, h2, h3, h4⟩ := ih s'
        ⟨dllist_insert_before l.nodes pos [v], l.size_ + 1, l.alloc⟩ (pos + 1) hlen
      have htake : (dllist_insert_before l.nodes pos [v]).take (pos + 1) =
          l.nodes.take pos ++ [v] := by
        have hl : (l.nodes.take pos ++ [v]).length = pos + 1 := by
          simp only [List.length_append, List.length_take, List.length_cons, List.length_nil]
          omega
        unfold dllist_insert_before
        rw [← hl, List.take_left]
      have hdrop : (dllist_insert_before l.nodes pos [v]).drop (pos + 1) =
          l.nodes.drop pos := by
        have hl : (l.nodes.take pos ++ [v]).length = pos + 1 := by
          simp only [List.length_append, List.length_take, List.length_cons, List.length_nil]
          omega
        unfold dllist_insert_before
        rw [← hl, List.drop_left]
      refine ⟨?_, ?_, h3, ?_⟩
      · rw [h1]
        simp only [htake, hdrop, List.append_assoc, List.singleton_append, List.cons_append,
          List.nil_append]
      · rw [h2]
        simp only [List.length_cons]
        omega
      · rcases h4 with ⟨h5, h6⟩ | ⟨h5, h6⟩
        · exact Or.inl ⟨h5, by rw [h6]⟩
        · exact Or.inr ⟨h5, by simp only [List.length_cons]; omega⟩

/-- C20 (counterexample): `insert(pos, first, last)` of the values 7, 8, 9 in front of the second
node of the list 1, 2, where making the second node of the batch throws: the exception comes out
and the first value of the batch remains inserted, with `size()` 3. -/
theorem list_insert_range_keeps_constructed_part :
    list.insert_range (fun (s : Nat) (_ : Nat) => (s + 1, decide (s < 1))) 0
        (⟨[1, 2], 2, 0⟩ : list Nat) 1 [7, 8, 9] =
      (2, ⟨[1, 7, 2], 3, 0⟩, .error .foreign) := by
  rfl

/-- C20: for `insert(pos, count, value)` and `insert(pos, first, last)` on a list whose `size_`
counts its nodes: when allocation or construction fails for an element of the batch, the
exception comes out, the elements of the batch made before it remain inserted in front of `pos`
in the order of the batch, `size()` has grown by their number and still counts the nodes, and
the elements the list held before are unchanged; only when the first element fails is the list
as it was before.  When nothing fails the whole batch is inserted. -/
theorem list_insert_batch_keeps_constructed_part {σ α : Type} (new_ok : σ → α → σ × Bool)
    (s : σ) (l : list α) (pos : Nat) (input : List α) (count : Nat) (val : α) (hl : l.wf)
    (hpos : pos ≤ l.nodes.length) :
    ((list.insert_range new_ok s l pos input).2.1.nodes =
        l.nodes.take pos ++ batch_made new_ok s input ++ l.nodes.drop pos ∧
      (list.insert_range new_ok s l pos input).2.1.size =
        l.size + (batch_made new_ok s input).length ∧
      (list.insert_range new_ok s l pos input).2.1.wf ∧
      (((list.insert_range new_ok s l pos input).2.2 = .ok pos ∧
          batch_made new_ok s input = input) ∨
        ((list.insert_range new_ok s l pos input).2.2 = .error .foreign ∧
          (batch_made new_ok s input).length < input.length))) ∧
    ((list.insert_count new_ok s l pos count val).2.1.nodes =
        l.nodes.take pos ++ batch_made new_ok s (List.replicate count val) ++
          l.nodes.drop pos ∧
      (list.insert_count new_ok s l pos count val).2.1.size =
        l.size + (batch_made new_ok s (List.replicate count val)).length ∧
      (list.insert_count new_ok s l pos count val).2.1.wf ∧
      (((list.insert_count new_ok s l pos count val).2.2 = .ok pos ∧
          batch_made new_ok s (List.replicate count val) = List.replicate count val) ∨
        ((list.insert_count new_ok s l pos count val).2.2 = .error .foreign ∧
          (batch_made new_ok s (List.replicate count val)).length < count))) := by
  have key : ∀ input : List α,
      (match list.insert_loop new_ok s l pos input with
        | (s', l', none) => ((s', l', .ok pos) : σ × list α × Except thrown Nat)
        | (s', l', some e) => (s', l', .error e)).2.1.nodes =
          l.nodes.take pos ++ batch_made new_ok s input ++ l.nodes.drop pos ∧
      (match list.insert_loop new_ok s l pos input with
        | (s', l', none) => ((s', l', .ok pos) : σ × list α × Except thrown Nat)
        | (s', l', some e) => (s', l', .error e)).2.1.size =
          l.size + (batch_made new_ok s input).length ∧
      (match list.insert_loop new_ok s l pos input with
        | (s', l', none) => ((s', l', .ok pos) : σ × list α × Except thrown Nat)
        | (s', l', some e) => (s', l', .error e)).2.1.wf ∧
      (((match list.insert_loop new_ok s l pos input with
        | (s', l', none) => ((s', l', .ok pos) : σ × list α × Except thrown Nat)
        | (s', l', some e) => (s', l', .error e)).2.2 = .ok pos ∧
          batch_made new_ok s input = input) ∨
        ((match list.insert_loop new_ok s l pos input with
        | (s', l', none) => ((s', l', .ok pos) : σ × list α × Except thrown Nat)
        | (s', l', some e) => (s', l', .error e)).2.2 = .error .foreign ∧
          (batch_made new_ok s input).length < input.length)) := by
    intro input
    obtain ⟨h1, h2, _, h4⟩ := list.insert_loop_spec new_ok s l pos input hpos
    unfold list.wf at hl
    have hwf : (list.insert_loop new_ok s l pos input).2.1.size_ =
        (list.insert_loop new_ok s l pos input).2.1.nodes.length := by
      rw [h1, h2]
      simp only [List.length_append, List.length_take, List.length_drop]
      omega
    rcases hr : list.insert_loop new_ok s l pos input with ⟨s', l', o⟩
    rw [hr] at h1 h2 h4 hwf
    simp only at h1 h2 h4 hwf
    cases o with
    | none =>
      simp only [list.size, list.wf]
      refine ⟨h1, h2, hwf, ?_⟩
      rcases h4 with ⟨_, h6⟩ | ⟨h5, _⟩
      · exact Or.inl ⟨trivial, h6⟩
      · exact absurd h5 (by simp)
    | some e =>
      simp only [list.size, list.wf]
      refine ⟨h1, h2, hwf, ?_⟩
      rcases h4 with ⟨h5, _⟩ | ⟨h5, h6⟩
      · exact absurd h5 (by simp)
      · simp only [Option.some.injEq] at h5
        exact Or.inr ⟨by rw [h5], h6⟩
  refine ⟨key input, ?_⟩
  have := key (List.replicate count val)
  simp only [List.length_replicate] at this
  exact this

theorem list_insert_batch_keeps_constructed_part_witness :
    (list.insert_range (fun (s : Nat) (_ : Nat) => (s + 1, decide (s < 2))) 0
        (⟨[1, 2], 2, 0⟩ : list Nat) 1 [7, 8, 9]).2.1.nodes = [1, 7, 8, 2] ∧
      (list.insert_count (fun (s : Nat) (_ : Nat) => (s + 1, decide (s < 2))) 0
        (⟨[1, 2], 2, 0⟩ : list Nat) 1 4 5).2.1.size = 4 :=
  have h := list_insert_batch_keeps_constructed_part
    (fun (s : Nat) (_ : Nat) => (s + 1, decide (s < 2))) 0 (⟨[1, 2], 2, 0⟩ : list Nat) 1
    [7, 8, 9] 4 5 rfl (by decide)
  ⟨h.1.1.trans (by decide), h.2.2.1.trans (by decide)⟩

/-! ## `list::sort` with a comparator that throws -/

/-- C17 (code bug): `sort` of the list 3, 1, 2 with a comparator that throws at its second
comparison.  The exception comes out during "merge up", when `tmp_list` is empty; the handler
links the closed range `tmp_list.next .. tmp_list.prev`, which is the sentinel `tmp_list`
itself, in front of `head_`: the list then holds four nodes, the sentinel of the temporary chain
among them, while `size()` is 3. -/
theorem list_sort_handler_links_temporary_sentinel :
    list.sort_exc (⟨[3, 1, 2], 3, 0⟩ : list Nat)
        (fun (s : Nat) (a b : Nat) => (s + 1, if s = 1 then none else some (decide (a < b))))
        0 =
      ⟨2, [.tmp_list, .value 2, .value 1, .value 3], 3, true⟩ := by
  decide

/-! ## Single insertions when allocation, construction or a comparison throws -/

theorem list.new_node_none {σ α : Type} (new_ok : σ → α → σ × Bool) (s : σ) (l : list α)
    (v : α) : (list.new_node new_ok s l v).2 = none ↔ (new_ok s v).2 = false := by
  unfold list.new_node
  rcases new_ok s v with ⟨s', b⟩
  cases b <;> simp

theorem list.emplace_failure {σ α : Type} (new_ok : σ → α → σ × Bool) (s : σ) (l : list α)
    (pos : Nat) (v : α) :
    (∀ e, (list.emplace new_ok s l pos v).2.2 = .error e →
        e = .foreign ∧ (list.emplace new_ok s l pos v).2.1 = l) ∧
      ((new_ok s v).2 = false → (list.emplace new_ok s l pos v).2.2 = .error .foreign) := by
  unfold list.emplace list.new_node
  rcases new_ok s v with ⟨s', b⟩
  cases b <;> simp

theorem list.emplace_front_failure {σ α : Type} (new_ok : σ → α → σ × Bool) (s : σ)
    (l : list α) (v : α) :
    (∀ e, (list.emplace_front new_ok s l v).2.2 = some e →
        e = .foreign ∧ (list.emplace_front new_ok s l v).2.1 = l) ∧
      ((new_ok s v).2 = false → (list.emplace_front new_ok s l v).2.2 = some .foreign) := by
  unfold list.emplace_front list.new_node
  rcases new_ok s v with ⟨s', b⟩
  cases b <;> simp

theorem list.emplace_back_failure {σ α : Type} (new_ok : σ → α → σ × Bool) (s : σ)
    (l : list α) (v : α) :
    (∀ e, (list.emplace_back new_ok s l v).2.2 = some e →
        e = .foreign ∧ (list.emplace_back new_ok s l v).2.1 = l) ∧
      ((new_ok s v).2 = false → (list.emplace_back new_ok s l v).2.2 = some .foreign) := by
  unfold list.emplace_back list.new_node
  rcases new_ok s v with ⟨s', b⟩
  cases b <;> simp

theorem rbtree_multi.emplace_exc_failure {σ α κ : Type} (get_key : α → κ)
    (new_ok : σ → α → σ × Bool) (comp : σ → κ → κ → σ × Option Bool) (s : σ)
    (t : rbtree_base α) (val : α) :
    (∀ e, (rbtree_multi.emplace_exc get_key new_ok comp s t val).2.2 = .error e →
        e = .foreign ∧ (rbtree_multi.emplace_exc get_key new_ok comp s t val).2.1 = t) ∧
      ((new_ok s val).2 = false ∨
          (rbtree_find_insert_pos_exc get_key comp (get_key val) (new_ok s val).1 t.root
            .head).2 = none →
        (rbtree_multi.emplace_exc get_key new_ok comp s t val).2.2 = .error .foreign) := by
  unfold rbtree_multi.emplace_exc
  rcases new_ok s val with ⟨s1, b⟩
  cases b with
  | false => simp
  | true =>
    simp only
    rcases rbtree_find_insert_pos_exc get_key comp (get_key val) s1 t.root .head with ⟨s2, o⟩
    cases o <;> simp

theorem rbtree_multi.emplace_hint_exc_failure {σ α κ : Type} (get_key : α → κ)
    (new_ok : σ → α → σ × Bool) (comp : σ → κ → κ → σ × Option Bool) (s : σ)
    (t : rbtree_base α) (hint : Nat) (val : α) :
    (∀ e, (rbtree_multi.emplace_hint_exc get_key new_ok comp s t hint val).2.2 = .error e →
        e = .foreign ∧
          (rbtree_multi.emplace_hint_exc get_key new_ok comp s t hint val).2.1 = t) ∧
      ((new_ok s val).2 = false ∨
          (rbtree_find_insert_pos_hint_exc get_key comp (new_ok s val).1 t.root hint
            (get_key val)).2 = none →
        (rbtree_multi.emplace_hint_exc get_key new_ok comp s t hint val).2.2 =
          .error .foreign) := by
  unfold rbtree_multi.emplace_hint_exc
  rcases new_ok s val with ⟨s1, b⟩
  cases b with
  | false => simp
  | true =>
    simp only
    rcases rbtree_find_insert_pos_hint_exc get_key comp s1 t.root hint (get_key val) with
      ⟨s2, o⟩
    cases o <;> simp

theorem map.try_emplace_exc_failure {σ κ τ : Type} (new_ok : σ → κ × τ → σ × Bool)
    (comp : σ → κ → κ → σ × Option Bool) (s : σ) (m : rbtree_base (κ × τ)) (key : κ)
    (mapped : τ) :
    (∀ e, (map.try_emplace_exc new_ok comp s m key mapped).2.2 = .error e →
        e = .foreign ∧ (map.try_emplace_exc new_ok comp s m key mapped).2.1 = m) ∧
      ((rbtree_find_insert_unique_pos_exc Prod.fst comp key s m.root .head (-1)).2 = none →
        (map.try_emplace_exc new_ok comp s m key mapped).2.2 = .error .foreign) ∧
      (∀ result,
        (rbtree_find_insert_unique_pos_exc Prod.fst comp key s m.root .head (-1)).2 =
          some result → result.second ≠ 0 →
        (new_ok (rbtree_find_insert_unique_pos_exc Prod.fst comp key s m.root .head (-1)).1
          (key, mapped)).2 = false →
        (map.try_emplace_exc new_ok comp s m key mapped).2.2 = .error .foreign) := by
  unfold map.try_emplace_exc map.try_emplace_impl_exc
  rcases rbtree_find_insert_unique_pos_exc Prod.fst comp key s m.root .head (-1) with ⟨s1, o⟩
  cases o with
  | none => simp
  | some result =>
    simp only
    by_cases h0 : result.second = 0
    · simp [h0]
    · simp only [h0, if_false]
      rcases new_ok s1 (key, mapped) with ⟨s2, b⟩
      cases b <;> simp [h0]

/-- C19: for `emplace`, `emplace_front` and `emplace_back` of a list, `emplace` and
`emplace_hint` of a multi-key tree and `try_emplace` of a map, with an allocator, a constructor
and a comparator that may throw: when making the node (allocation or construction of the
payload) fails, or a key comparison of the search throws, the call ends with that exception;
and whenever the call ends with an exception, it is that foreign exception and the container is
the one before the call, with the same nodes in the same links and the same `size_`. -/
theorem single_insertion_failure_leaves_container_unchanged {σ α κ τ : Type}
    (get_key : α → κ) (new_ok : σ → α → σ × Bool) (new_entry_ok : σ → κ × τ → σ × Bool)
    (comp : σ → κ → κ → σ × Option Bool) (s : σ) (l : list α) (t : rbtree_base α)
    (m : rbtree_base (κ × τ)) (pos hint : Nat) (val : α) (key : κ) (mapped : τ) :
    ((∀ e, (list.emplace new_ok s l pos val).2.2 = .error e →
        e = .foreign ∧ (list.emplace new_ok s l pos val).2.1 = l) ∧
      ((new_ok s val).2 = false →
        (list.emplace new_ok s l pos val).2.2 = .error .foreign)) ∧
    ((∀ e, (list.emplace_front new_ok s l val).2.2 = some e →
        e = .foreign ∧ (list.emplace_front new_ok s l val).2.1 = l) ∧
      ((new_ok s val).2 = false → (list.emplace_front new_ok s l val).2.2 = some .foreign)) ∧
    ((∀ e, (list.emplace_back new_ok s l val).2.2 = some e →
        e = .foreign ∧ (list.emplace_back new_ok s l val).2.1 = l) ∧
      ((new_ok s val).2 = false → (list.emplace_back new_ok s l val).2.2 = some .foreign)) ∧
    ((∀ e, (rbtree_multi.emplace_exc get_key new_ok comp s t val).2.2 = .error e →
        e = .foreign ∧ (rbtree_multi.emplace_exc get_key new_ok comp s t val).2.1 = t) ∧
      ((new_ok s val).2 = false ∨
          (rbtree_find_insert_pos_exc get_key comp (get_key val) (new_ok s val).1 t.root
            .head).2 = none →
        (rbtree_multi.emplace_exc get_key new_ok comp s t val).2.2 = .error .foreign)) ∧
    ((∀ e, (rbtree_multi.emplace_hint_exc get_key new_ok comp s t hint val).2.2 = .error e →
        e = .foreign ∧
          (rbtree_multi.emplace_hint_exc get_key new_ok comp s t hint val).2.1 = t) ∧
      ((new_ok s val).2 = false ∨
          (rbtree_find_insert_pos_hint_exc get_key comp (new_ok s val).1 t.root hint
            (get_key val)).2 = none →
        (rbtree_multi.emplace_hint_exc get_key new_ok comp s t hint val).2.2 =
          .error .foreign)) ∧
    ((∀ e, (map.try_emplace_exc new_entry_ok comp s m key mapped).2.2 = .error e →
        e = .foreign ∧ (map.try_emplace_exc new_entry_ok comp s m key mapped).2.1 = m) ∧
      ((rbtree_find_insert_unique_pos_exc Prod.fst comp key s m.root .head (-1)).2 = none →
        (map.try_emplace_exc new_entry_ok comp s m key mapped).2.2 = .error .foreign) ∧
      (∀ result,
        (rbtree_find_insert_unique_pos_exc Prod.fst comp key s m.root .head (-1)).2 =
          some result → result.second ≠ 0 →
        (new_entry_ok
          (rbtree_find_insert_unique_pos_exc Prod.fst comp key s m.root .head (-1)).1
          (key, mapped)).2 = false →
        (map.try_emplace_exc new_entry_ok comp s m key mapped).2.2 = .error .foreign)) :=
  ⟨list.emplace_failure new_ok s l pos val, list.emplace_front_failure new_ok s l val,
    list.emplace_back_failure new_ok s l val,
    rbtree_multi.emplace_exc_failure get_key new_ok comp s t val,
    rbtree_multi.emplace_hint_exc_failure get_key new_ok comp s t hint val,
    map.try_emplace_exc_failure new_entry_ok comp s m key mapped⟩

theorem single_insertion_failure_leaves_container_unchanged_witness :
    list.emplace (fun (s : Nat) (_ : Nat) => (s + 1, false)) 0 (⟨[1, 2], 2, 0⟩ : list Nat) 1 7 =
        (1, ⟨[1, 2], 2, 0⟩, .error .foreign) ∧
      (rbtree_multi.emplace_exc id (fun (s : Nat) (_ : Nat) => (s + 1, true))
        (fun (s : Nat) (a b : Nat) => (s + 1, if s = 2 then none else some (decide (a < b))))
        0 (⟨.node .black (.node .red .nil 1 .nil) 2 .nil, 2, 0⟩ : rbtree_base Nat) 1).2 =
        (⟨.node .black (.node .red .nil 1 .nil) 2 .nil, 2, 0⟩, .error .foreign) :=
  have h := @single_insertion_failure_leaves_container_unchanged Nat Nat Nat Nat id
    (fun (s : Nat) (_ : Nat) => (s + 1, true)) (fun (s : Nat) _ => (s + 1, true))
    (fun (s : Nat) (a b : Nat) => (s + 1, if s = 2 then none else some (decide (a < b))))
    0 (⟨[1, 2], 2, 0⟩ : list Nat) (⟨.node .black (.node .red .nil 1 .nil) 2 .nil, 2, 0⟩ :
      rbtree_base Nat) ⟨.nil, 0, 0⟩ 1 0 1 5 6
  ⟨rfl, Prod.ext (h.2.2.2.1.1 .foreign rfl).2 (h.2.2.2.1.2 (Or.inr rfl))⟩

/-! ## The containers after the allocator check has failed -/

theorem rbtree_multi.merge_loop_exc_total {σ α κ : Type} (get_key : α → κ)
    (comp : σ → κ → κ → σ × Option Bool) (fuel : Nat) (s : σ) (self other : rbtree_base α)
    (hfuel : 0 < fuel) (hlen : other.root.in_order.length ≤ fuel) :
    ∃ r, rbtree_multi.merge_loop_exc get_key comp fuel s self other = some r ∧
      (r.2.2.2 = none ∨ r.2.2.2 = some .foreign) := by
  induction fuel generalizing s self other with
  | zero => omega
  | succ fuel ih =>
    simp only [rbtree_multi.merge_loop_exc]
    split
    · exact ⟨_, rfl, Or.inl rfl⟩
    · rename_i p hp
      split
      · exact ⟨_, rfl, Or.inr rfl⟩
      · have hu := (rbtree_base.unlink_wf ⟨other.root, other.root.in_order.length, 0⟩ 0 p hp
          rfl).2
        simp only at hu
        split
        · exact ⟨_, rfl, Or.inl rfl⟩
        · rename_i hne
          simp only [rbtree_base.end_] at hne
          exact ih _ _ _ (by omega) (by simp only; omega)

theorem rbtree_multi.merge_impl_exc_total {σ α κ : Type} (always_equal : Bool)
    (get_key : α → κ) (comp : σ → κ → κ → σ × Option Bool) (s : σ)
    (self other : rbtree_base α) (ho : other.wf) :
    ∃ r, rbtree_multi.merge_impl_exc always_equal get_key comp s self other = some r := by
  unfold rbtree_multi.merge_impl_exc
  split
  · exact ⟨_, rfl⟩
  · split
    · exact ⟨_, rfl⟩
    · unfold rbtree_base.wf at ho
      obtain ⟨r, hr, _⟩ := rbtree_multi.merge_loop_exc_total get_key comp
        other.root.in_order.length s self other (by omega) (Nat.le_refl _)
      exact ⟨r, hr⟩

/-- C16: whenever the whole-list, single-element or range `splice` of a list, `merge` of a list,
`merge` of a multi-key tree or `insert` of a node handle into a multi-key container ends with
the logic error of the allocator check, the destination and the source are the ones before the
call: the same nodes in the same order with the same `size_`, and the node handle still owns its
node.  The merge of the trees gives a result whenever the counter of the source counts its
nodes. -/
theorem allocator_check_failure_leaves_both_unchanged {σ α κ : Type} (always_equal : Bool)
    (get_key : α → κ) (comp : σ → α → α → σ × Option Bool)
    (key_comp : σ → κ → κ → σ × Option Bool) (s : σ) (self other : list α)
    (pos it first last : Nat) (t u : rbtree_base α) (nh : rbtree_node_handle α) :
    ((list.splice_impl_list always_equal self other pos).2.2 =
        some (.container .logic_error) →
      (list.splice_impl_list always_equal self other pos).1 = self ∧
        (list.splice_impl_list always_equal self other pos).2.1 = other) ∧
    ((list.splice_impl_node always_equal self other pos it).2.2 =
        some (.container .logic_error) →
      (list.splice_impl_node always_equal self other pos it).1 = self ∧
        (list.splice_impl_node always_equal self other pos it).2.1 = other) ∧
    ((list.splice_impl_range always_equal self other pos first last).2.2 =
        some (.container .logic_error) →
      (list.splice_impl_range always_equal self other pos first last).1 = self ∧
        (list.splice_impl_range always_equal self other pos first last).2.1 = other) ∧
    ((list.merge_impl always_equal comp s self other).2.2.2 =
        some (.container .logic_error) →
      (list.merge_impl always_equal comp s self other).2.1 = self ∧
        (list.merge_impl always_equal comp s self other).2.2.1 = other) ∧
    ((u.wf → ∃ r, rbtree_multi.merge_impl_exc always_equal get_key key_comp s t u = some r) ∧
      ∀ r, rbtree_multi.merge_impl_exc always_equal get_key key_comp s t u = some r →
        r.2.2.2 = some (.container .logic_error) → r.2.1 = t ∧ r.2.2.1 = u) ∧
    ((rbtree_multi.insert_node_exc always_equal get_key key_comp s t nh).2.2.2 =
        .error (.container .logic_error) →
      (rbtree_multi.insert_node_exc always_equal get_key key_comp s t nh).2.1 = t ∧
        (rbtree_multi.insert_node_exc always_equal get_key key_comp s t nh).2.2.1 = nh) := by
  refine ⟨?_, ?_, ?_, ?_, ⟨?_, ?_⟩, ?_⟩
  · unfold list.splice_impl_list
    split
    · simp
    · split
      · simp
      · simp
  · unfold list.splice_impl_node
    split
    · simp
    · simp
  · unfold list.splice_impl_range
    split
    · simp
    · split
      · simp
      · simp
  · unfold list.merge_impl
    split
    · simp
    · split
      · simp
      · simp only
        by_cases hth : (merge_impl_exc comp s self.nodes other.nodes).thrown = true
        · simp [hth]
        · simp [hth]
  · exact rbtree_multi.merge_impl_exc_total always_equal get_key key_comp s t u
  · intro r hr
    unfold rbtree_multi.merge_impl_exc at hr
    split at hr
    · simp only [Option.some.injEq] at hr
      rw [← hr]; simp
    · split at hr
      · simp only [Option.some.injEq] at hr
        rw [← hr]; simp
      · intro hle
        by_cases hz : u.root.in_order.length = 0
        · rw [hz] at hr
          simp [rbtree_multi.merge_loop_exc] at hr
        · obtain ⟨r', hr', hout⟩ := rbtree_multi.merge_loop_exc_total get_key key_comp
            u.root.in_order.length s t u (by omega) (Nat.le_refl _)
          rw [hr'] at hr
          simp only [Option.some.injEq] at hr
          rw [hr] at hout
          rcases hout with h1 | h1
          · rw [h1] at hle; exact absurd hle (by simp)
          · rw [h1] at hle; exact absurd hle (by simp)
  · unfold rbtree_multi.insert_node_exc
    split
    · simp
    · split
      · simp
      · rcases rbtree_find_insert_pos_exc get_key key_comp _ s t.root .head with ⟨s', o⟩
        cases o <;> simp

theorem allocator_check_failure_leaves_both_unchanged_witness :
    ((list.splice_impl_node false (⟨[1, 2], 2, 0⟩ : list Nat) ⟨[3], 1, 1⟩ 0 0).1 =
        ⟨[1, 2], 2, 0⟩ ∧
      (list.splice_impl_node false (⟨[1, 2], 2, 0⟩ : list Nat) ⟨[3], 1, 1⟩ 0 0).2.1 =
        ⟨[3], 1, 1⟩) ∧
    ((rbtree_multi.insert_node_exc false id (nothrow fun a b : Nat => decide (a < b)) ()
        (⟨.node .black .nil 2 .nil, 1, 0⟩ : rbtree_base Nat) ⟨some 5, 1⟩).2.1 =
        ⟨.node .black .nil 2 .nil, 1, 0⟩ ∧
      (rbtree_multi.insert_node_exc false id (nothrow fun a b : Nat => decide (a < b)) ()
        (⟨.node .black .nil 2 .nil, 1, 0⟩ : rbtree_base Nat) ⟨some 5, 1⟩).2.2.1 =
        ⟨some 5, 1⟩) :=
  have h := allocator_check_failure_leaves_both_unchanged false id
    (nothrow fun a b : Nat => decide (a < b)) (nothrow fun a b : Nat => decide (a < b)) ()
    (⟨[1, 2], 2, 0⟩ : list Nat) ⟨[3], 1, 1⟩ 0 0 0 1
    (⟨.node .black .nil 2 .nil, 1, 0⟩ : rbtree_base Nat) ⟨.nil, 0, 0⟩ ⟨some 5, 1⟩
  ⟨h.2.1 rfl, h.2.2.2.2.2 rfl⟩

/-! ## The models with exceptions when nothing throws -/

theorem merge_advance_nothrow {σ α : Type} (comp : α → α → Bool) (p : α) (s : σ)
    (src : List α) :
    merge_advance (nothrow comp) p s src =
      (s, some (src.takeWhile (fun x => comp x p), src.dropWhile (fun x => comp x p))) := by
  induction src with
  | nil => rfl
  | cons x src ih =>
    simp only [merge_advance, nothrow] at ih ⊢
    cases hc : comp x p with
    | false => simp [hc]
    | true => simp [hc, ih]

theorem merge_loop_exc_nothrow {σ α : Type} (comp : α → α → Bool) (s : σ)
    (tgt src : List α) :
    merge_loop_exc (nothrow comp) s tgt src =
      ⟨s, (merge_loop comp tgt src).1, (merge_loop comp tgt src).2, false⟩ := by
  induction tgt generalizing src with
  | nil => rfl
  | cons p tgt ih =>
    simp only [merge_loop_exc, merge_loop, merge_advance_nothrow]
    split
    · rfl
    · simp only [ih]

theorem merge_impl_exc_nothrow {σ α : Type} (comp : α → α → Bool) (s : σ)
    (tgt src : List α) :
    merge_impl_exc (nothrow comp) s tgt src =
      ⟨s, (merge_impl comp tgt src).1, (merge_impl comp tgt src).2, false⟩ := by
  unfold merge_impl_exc merge_impl
  simp only [merge_loop_exc_nothrow, Bool.false_eq_true, if_false]
  split
  · rfl
  · rfl

theorem rbtree_find_insert_pos_exc_nothrow {σ α κ : Type} (get_key : α → κ)
    (comp : κ → κ → Bool) (key : κ) (s : σ) (t : rbtree_node α) (path : rbtree_path α) :
    rbtree_find_insert_pos_exc get_key (nothrow comp) key s t path =
      (s, some (rbtree_find_insert_pos get_key comp key t path)) := by
  induction t generalizing path with
  | nil => rfl
  | node c l v r ihl ihr =>
    simp only [rbtree_find_insert_pos_exc, rbtree_find_insert_pos, nothrow] at ihl ihr ⊢
    cases hc : comp key (get_key v) with
    | false => simp [ihr]
    | true => simp [ihl]

theorem rbtree_find_insert_pos_hint_exc_nothrow {σ α κ : Type} (get_key : α → κ)
    (comp : κ → κ → Bool) (s : σ) (root : rbtree_node α) (hint : Nat) (key : κ) :
    rbtree_find_insert_pos_hint_exc get_key (nothrow comp) s root hint key =
      (s, some (rbtree_find_insert_pos_hint get_key comp root hint key)) := by
  have hfull := rbtree_find_insert_pos_exc_nothrow get_key comp key s root .head
  unfold rbtree_find_insert_pos_hint_exc rbtree_find_insert_pos_hint
  rcases hnx : root.in_order[hint]? with _ | y
  · cases hint with
    | zero =>
      simp only [hnx, hfull, Bool.and_self, if_true]
    | succ h =>
      rcases hpx : root.in_order[h]? with _ | x
      · simp only [hnx, hpx, hfull, Bool.false_and, Bool.false_eq_true, if_false]
      · simp only [hnx, hpx, hfull, not_less_exc, nothrow]
        split
        · rfl
        · rfl
  · cases hint with
    | zero =>
      simp only [hnx, hfull, not_less_exc, nothrow]
      split
      · rfl
      · rfl
    | succ h =>
      rcases hpx : root.in_order[h]? with _ | x
      · simp only [hnx, hpx, hfull, not_less_exc, nothrow, Bool.false_and, Bool.false_eq_true,
          if_false]
      · simp only [hnx, hpx, hfull, not_less_exc, nothrow]
        split
        · rfl
        · rfl

theorem rbtree_find_insert_unique_pos_exc_nothrow {σ α κ : Type} (get_key : α → κ)
    (comp : κ → κ → Bool) (key : κ) (s : σ) (t : rbtree_node α) (path : rbtree_path α)
    (side : Int) :
    rbtree_find_insert_unique_pos_exc get_key (nothrow comp) key s t path side =
      (s, some (rbtree_find_insert_unique_pos get_key comp key t path side)) := by
  induction t generalizing path side with
  | nil => rfl
  | node c l v r ihl ihr =>
    simp only [rbtree_find_insert_unique_pos_exc, rbtree_find_insert_unique_pos, nothrow]
      at ihl ihr ⊢
    cases hc : comp key (get_key v) with
    | true => simp [ihl]
    | false =>
      cases hc2 : comp (get_key v) key with
      | true => simp [ihr]
      | false => simp

theorem rbtree_multi.emplace_exc_nothrow {σ α κ : Type} (get_key : α → κ)
    (comp : κ → κ → Bool) (s : σ) (t : rbtree_base α) (val : α) :
    rbtree_multi.emplace_exc get_key (fun s _ => (s, true)) (nothrow comp) s t val =
      (s, (rbtree_multi.emplace get_key comp t val).1,
        .ok (rbtree_multi.emplace get_key comp t val).2) := by
  unfold rbtree_multi.emplace_exc rbtree_multi.emplace
  simp only [rbtree_find_insert_pos_exc_nothrow]

theorem rbtree_multi.emplace_hint_exc_nothrow {σ α κ : Type} (get_key : α → κ)
    (comp : κ → κ → Bool) (s : σ) (t : rbtree_base α) (hint : Nat) (val : α) :
    rbtree_multi.emplace_hint_exc get_key (fun s _ => (s, true)) (nothrow comp) s t hint val =
      (s, (rbtree_multi.emplace_hint get_key comp t hint val).1,
        .ok (rbtree_multi.emplace_hint get_key comp t hint val).2) := by
  unfold rbtree_multi.emplace_hint_exc rbtree_multi.emplace_hint
  simp only [rbtree_find_insert_pos_hint_exc_nothrow]

theorem map.try_emplace_exc_nothrow {σ κ τ : Type} (comp : κ → κ → Bool) (s : σ)
    (m : rbtree_base (κ × τ)) (key : κ) (mapped : τ) :
    map.try_emplace_exc (fun s _ => (s, true)) (nothrow comp) s m key mapped =
      (s, (map.try_emplace comp m key mapped).1, .ok (map.try_emplace comp m key mapped).2) := by
  unfold map.try_emplace_exc map.try_emplace_impl_exc map.try_emplace map.try_emplace_impl
  simp only [rbtree_find_insert_unique_pos_exc_nothrow]
  split
  · rfl
  · rfl

theorem rbtree_multi.insert_node_exc_nothrow {σ α κ : Type} (always_equal : Bool)
    (get_key : α → κ) (comp : κ → κ → Bool) (s : σ) (t : rbtree_base α)
    (nh : rbtree_node_handle α) :
    rbtree_multi.insert_node always_equal get_key comp t nh =
      match rbtree_multi.insert_node_exc always_equal get_key (nothrow comp) s t nh with
      | (_, t', nh', .ok it) => .ok (t', nh', it)
      | (_, _, _, .error _) => .error .logic_error := by
  unfold rbtree_multi.insert_node rbtree_multi.insert_node_exc
  split
  · rfl
  · split
    · rfl
    · simp only [rbtree_find_insert_pos_exc_nothrow]

theorem rbtree_multi_merge_loop_exc_nothrow {σ α κ : Type} (get_key : α → κ)
    (comp : κ → κ → Bool) (fuel : Nat) (s : σ) (self other : rbtree_base α) :
    rbtree_multi.merge_loop_exc get_key (nothrow comp) fuel s self other =
      (rbtree_multi.merge_loop get_key comp fuel self other).map
        (fun r => (s, r.1, r.2, none)) := by
  induction fuel generalizing self other with
  | zero => rfl
  | succ fuel ih =>
    simp only [rbtree_multi.merge_loop_exc, rbtree_multi.merge_loop,
      rbtree_find_insert_pos_exc_nothrow]
    split
    · rfl
    · split
      · rfl
      · exact ih _ _

theorem rbtree_multi_merge_impl_exc_nothrow {σ α κ : Type} (always_equal : Bool)
    (get_key : α → κ) (comp : κ → κ → Bool) (s : σ) (self other : rbtree_base α) :
    rbtree_multi.merge_impl always_equal get_key comp self other =
      (rbtree_multi.merge_impl_exc always_equal get_key (nothrow comp) s self other).map
        (fun r => match r.2.2.2 with
          | none => .ok (r.2.1, r.2.2.1)
          | some _ => .error .logic_error) := by
  unfold rbtree_multi.merge_impl rbtree_multi.merge_impl_exc
  split
  · rfl
  · split
    · rfl
    · rw [rbtree_multi_merge_loop_exc_nothrow]
      cases rbtree_multi.merge_loop get_key comp other.root.in_order.length self other with
      | none => rfl
      | some r => rfl

/-! ## What the handler of `list::sort` keeps -/

theorem dllist_values_map {α : Type} (l : List α) :
    dllist_values (l.map dllist_node.value) = l := by
  induction l with
  | nil => rfl
  | cons x l ih => simp only [List.map_cons, dllist_values, ih]

theorem dllist_values_append {α : Type} (a b : List (dllist_node α)) :
    dllist_values (a ++ b) = dllist_values a ++ dllist_values b := by
  induction a with
  | nil => rfl
  | cons x a ih =>
    cases x with
    | value v => exact congrArg (v :: ·) ih
    | tmp_list => exact ih
    | bin_lists bin => exact ih

theorem dllist_values_closed_range {α : Type} (head : dllist_node α) (chain : List α)
    (hh : ∀ v, head ≠ .value v) : dllist_values (dllist_closed_range head chain) = chain := by
  unfold dllist_closed_range dllist_is_empty
  cases chain with
  | nil =>
    simp only [List.isEmpty_nil, if_true]
    cases head with
    | value v => exact absurd rfl (hh v)
    | tmp_list => rfl
    | bin_lists bin => rfl
  | cons x chain =>
    simp only [List.isEmpty_cons, Bool.false_eq_true, if_false]
    exact dllist_values_map _

theorem sort_collect_bins_values {α : Type} (bin : Nat) (head : List (dllist_node α))
    (bins : List (List α)) :
    dllist_values (sort_collect_bins bin head bins) = dllist_values head ++ bins.flatten := by
  induction bins generalizing bin head with
  | nil => simp [sort_collect_bins]
  | cons b bins ih =>
    simp only [sort_collect_bins, ih, dllist_insert_before, List.take_length, List.drop_length,
      List.append_nil, dllist_values_append, List.flatten_cons, List.append_assoc]
    rw [dllist_values_closed_range _ _ (by intro v h; exact dllist_node.noConfusion h)]

theorem sort_collect_values {α : Type} (head tmp : List α) (bins : List (List α)) :
    dllist_values (sort_collect head tmp bins) = head ++ tmp ++ bins.flatten := by
  unfold sort_collect
  rw [sort_collect_bins_values]
  simp only [dllist_insert_before, List.length_map, List.take_length, List.drop_length,
    List.append_nil, dllist_values_append, dllist_values_map, ← List.length_map]
  rw [dllist_values_closed_range _ _ (by intro v h; exact dllist_node.noConfusion h)]
  have : List.take head.length (List.map dllist_node.value head) =
      List.map dllist_node.value head := by
    apply List.take_of_length_le
    simp
  have h2 : List.drop head.length (List.map (dllist_node.value : α → dllist_node α) head) =
      [] := by
    apply List.drop_eq_nil_of_le
    simp
  simp [this, h2, dllist_values_append, dllist_values_map, dllist_values]

theorem merge_impl_exc_src_nil {σ α : Type} (comp : σ → α → α → σ × Option Bool) (s : σ)
    (tgt src : List α) (h : (merge_impl_exc comp s tgt src).thrown = false) :
    (merge_impl_exc comp s tgt src).src = [] := by
  unfold merge_impl_exc at h ⊢
  simp only at h ⊢
  split
  · rename_i h1
    rw [if_pos h1] at h
    rw [h1] at h
    exact absurd h (by simp)
  · split
    · rename_i h2
      simpa [dllist_is_empty] using h2
    · rfl

theorem flatten_set_append_perm {α : Type} (bins : List (List α)) (i : Nat)
    (hi : i < bins.length) (y : List α) :
    ((bins.set i y).flatten ++ bins.getD i []).Perm (y ++ bins.flatten) := by
  induction bins generalizing i with
  | nil => simp at hi
  | cons b bins ih =>
    cases i with
    | zero =>
      simp only [List.set_cons_zero, List.flatten_cons, List.getD_cons_zero, List.append_assoc]
      exact List.Perm.append_left y List.perm_append_comm
    | succ i =>
      simp only [List.set_cons_succ, List.flatten_cons, List.getD_cons_succ,
        List.length_cons, List.append_assoc] at *
      refine (List.Perm.append_left b (ih i (by omega))).trans ?_
      exact List.perm_append_comm_assoc _ _ _

theorem sort_carry_exc_perm {σ α : Type} (comp : σ → α → α → σ × Option Bool) (s : σ)
    (tmp : List α) (bins : List (List α)) :
    ((sort_carry_exc comp s tmp bins).tmp_list ++
        (sort_carry_exc comp s tmp bins).bin_lists.flatten).Perm (tmp ++ bins.flatten) ∧
      (sort_carry_exc comp s tmp bins).bin_lists.length = bins.length ∧
      (sort_carry_exc comp s tmp bins).bin ≤ bins.length := by
  induction bins generalizing s tmp with
  | nil => simp [sort_carry_exc]
  | cons b bins ih =>
    unfold sort_carry_exc
    have hm := merge_impl_exc_perm comp s tmp b
    split
    · simp
    · simp only
      split
      · refine ⟨?_, by simp, by simp⟩
        simp only [List.flatten_cons, ← List.append_assoc]
        exact List.Perm.append_right _ hm
      · rename_i hth
        have hsrc := merge_impl_exc_src_nil comp s tmp b (by simpa using hth)
        obtain ⟨h1, h2, h3⟩ := ih (merge_impl_exc comp s tmp b).state
          (merge_impl_exc comp s tmp b).tgt
        rw [hsrc] at hm
        refine ⟨?_, by simp [h2], by simp only [List.length_cons]; omega⟩
        simp only [hsrc, List.flatten_cons, List.nil_append]
        refine h1.trans ?_
        rw [← List.append_assoc]
        refine List.Perm.append_right _ ?_
        simpa using hm

theorem sort_step_exc_perm {σ α : Type} (comp : σ → α → α → σ × Option Bool) (s : σ) (p : α)
    (head tmp : List α) (bins : List (List α)) :
    (sort_step_exc comp s p head tmp bins).head = head ∧
      ((sort_step_exc comp s p head tmp bins).tmp_list ++
        (sort_step_exc comp s p head tmp bins).bin_lists.flatten).Perm
        (p :: (tmp ++ bins.flatten)) ∧
      ((sort_step_exc comp s p head tmp bins).thrown = false →
        (sort_step_exc comp s p head tmp bins).tmp_list = []) := by
  have htmp : dllist_insert_before tmp tmp.length [p] = tmp ++ [p] := by
    simp [dllist_insert_before]
  obtain ⟨h1, h2, h3⟩ := sort_carry_exc_perm comp s (tmp ++ [p]) bins
  have hp : ((tmp ++ [p]) ++ bins.flatten).Perm (p :: (tmp ++ bins.flatten)) := by
    rw [List.append_assoc]
    simp
  unfold sort_step_exc
  simp only [htmp]
  split
  · exact ⟨rfl, h1.trans hp, fun h => by simp_all⟩
  · split
    · rename_i hbin
      have hmax : max_bins = 25 := rfl
      have hi : (sort_carry_exc comp s (tmp ++ [p]) bins).bin - 1 <
          (sort_carry_exc comp s (tmp ++ [p]) bins).bin_lists.length := by omega
      refine ⟨rfl, ?_, fun h => merge_impl_exc_src_nil comp _ _ _ h⟩
      simp only
      have hm := merge_impl_exc_perm comp (sort_carry_exc comp s (tmp ++ [p]) bins).state
        ((sort_carry_exc comp s (tmp ++ [p]) bins).bin_lists.getD
          ((sort_carry_exc comp s (tmp ++ [p]) bins).bin - 1) [])
        (sort_carry_exc comp s (tmp ++ [p]) bins).tmp_list
      have hs := flatten_set_append_perm (sort_carry_exc comp s (tmp ++ [p]) bins).bin_lists _
        hi (merge_impl_exc comp (sort_carry_exc comp s (tmp ++ [p]) bins).state
          ((sort_carry_exc comp s (tmp ++ [p]) bins).bin_lists.getD
            ((sort_carry_exc comp s (tmp ++ [p]) bins).bin - 1) [])
          (sort_carry_exc comp s (tmp ++ [p]) bins).tmp_list).tgt
      generalize (merge_impl_exc comp (sort_carry_exc comp s (tmp ++ [p]) bins).state
          ((sort_carry_exc comp s (tmp ++ [p]) bins).bin_lists.getD
            ((sort_carry_exc comp s (tmp ++ [p]) bins).bin - 1) [])
          (sort_carry_exc comp s (tmp ++ [p]) bins).tmp_list) = m at hm hs ⊢
      generalize (sort_carry_exc comp s (tmp ++ [p]) bins) = r at h1 hm hs ⊢
      refine List.Perm.trans ?_ (h1.trans hp)
      refine (List.perm_append_right_iff (r.bin_lists.getD (r.bin - 1) [])).mp ?_
      rw [List.append_assoc]
      refine (List.Perm.append_left m.src hs).trans ?_
      rw [← List.append_assoc]
      refine (List.Perm.append_right _ List.perm_append_comm).trans ?_
      refine (List.Perm.append_right _ hm).trans ?_
      rw [List.append_assoc, List.append_assoc]
      refine List.perm_append_comm.trans ?_
      rw [List.append_assoc]
    · rename_i hbin
      refine ⟨rfl, ?_, fun _ => rfl⟩
      simp only [dllist_make_cycle, dllist_insert_after, List.nil_append]
      generalize (sort_carry_exc comp s (tmp ++ [p]) bins) = r at h1 h2 h3 hbin ⊢
      refine List.Perm.trans ?_ (h1.trans hp)
      split
      · rename_i heq
        refine (flatten_set_perm _ _ (by simp [heq]) _ r.tmp_list
          List.perm_append_comm).trans ?_
        simp
      · rename_i hne
        exact flatten_set_perm _ _ (by omega) _ r.tmp_list List.perm_append_comm

theorem sort_loop_exc_perm {σ α : Type} (comp : σ → α → α → σ × Option Bool) (s : σ)
    (head tmp : List α) (bins : List (List α)) :
    ((sort_loop_exc comp s head tmp bins).head ++ (sort_loop_exc comp s head tmp bins).tmp_list
        ++ (sort_loop_exc comp s head tmp bins).bin_lists.flatten).Perm
        (head ++ tmp ++ bins.flatten) ∧
      ((sort_loop_exc comp s head tmp bins).thrown = false → tmp = [] →
        (sort_loop_exc comp s head tmp bins).head = [] ∧
          (sort_loop_exc comp s head tmp bins).tmp_list = []) := by
  induction head generalizing s tmp bins with
  | nil => simp [sort_loop_exc]
  | cons p head ih =>
    obtain ⟨h1, h2, h3⟩ := sort_step_exc_perm comp s p head tmp bins
    simp only [sort_loop_exc]
    split
    · rename_i hth
      refine ⟨?_, fun h => by simp_all⟩
      rw [h1, List.append_assoc, List.append_assoc]
      refine (List.Perm.append_left head h2).trans ?_
      simp
    · rename_i hth
      have hnil := h3 (by simpa using hth)
      obtain ⟨i1, i2⟩ := ih (sort_step_exc comp s p head tmp bins).state
        (sort_step_exc comp s p head tmp bins).tmp_list
        (sort_step_exc comp s p head tmp bins).bin_lists
      refine ⟨?_, fun h _ => i2 h hnil⟩
      refine i1.trans ?_
      rw [List.append_assoc, List.append_assoc]
      refine (List.Perm.append_left head h2).trans ?_
      simp

theorem sort_merge_up_exc_perm {σ α : Type} (comp : σ → α → α → σ × Option Bool) (s : σ)
    (below : List (List α)) (prev : List α) (bins : List (List α)) :
    (sort_merge_up_exc comp s below prev bins).2.1.flatten.Perm
        (below.flatten ++ prev ++ bins.flatten) ∧
      ((sort_merge_up_exc comp s below prev bins).2.2 = false →
        (sort_merge_up_exc comp s below prev bins).2.1.flatten =
          below.flatten ++ (sort_merge_up_exc comp s below prev bins).2.1.getLastD []) := by
  induction bins generalizing s below prev with
  | nil => simp [sort_merge_up_exc]
  | cons b bins ih =>
    have hm := merge_impl_exc_perm comp s b prev
    simp only [sort_merge_up_exc]
    split
    · refine ⟨?_, fun h => by simp_all⟩
      simp only [List.flatten_append, List.flatten_cons, List.append_assoc]
      refine List.Perm.append_left _ ?_
      rw [← List.append_assoc, ← List.append_assoc]
      refine List.Perm.append_right _ ?_
      exact List.perm_append_comm.trans (hm.trans List.perm_append_comm)
    · rename_i hth
      have hsrc := merge_impl_exc_src_nil comp s b prev (by simpa using hth)
      rw [hsrc] at hm ⊢
      obtain ⟨i1, i2⟩ := ih (merge_impl_exc comp s b prev).state (below ++ [[]])
        (merge_impl_exc comp s b prev).tgt
      refine ⟨?_, fun h => ?_⟩
      · refine i1.trans ?_
        simp only [List.flatten_append, List.flatten_cons, List.flatten_nil, List.append_nil,
          List.append_assoc]
        refine List.Perm.append_left _ ?_
        rw [← List.append_assoc]
        refine List.Perm.append_right _ ?_
        exact (by simpa using hm : (merge_impl_exc comp s b prev).tgt.Perm (b ++ prev)).trans
          List.perm_append_comm
      · rw [i2 h]
        simp

/-- The payloads `list::sort` leaves linked to the list, whether it returns or lets the
exception of a comparison through, are the payloads the list had, none lost and none twice
(for a list of at least two nodes; what the handler may link besides are sentinels of the
temporary chains, which `dllist_values` leaves out). -/
theorem list_sort_exc_values_perm {σ α : Type} (l : list α)
    (comp : σ → α → α → σ × Option Bool) (s : σ) :
    (dllist_values (l.sort_exc comp s).nodes).Perm l.nodes ∧
      (l.sort_exc comp s).size_ = l.size_ := by
  unfold list.sort_exc
  split
  · exact ⟨by rw [dllist_values_map], rfl⟩
  · obtain ⟨h1, h2⟩ := sort_loop_exc_perm comp s l.nodes [] []
    simp only [dllist_make_cycle]
    split
    · refine ⟨?_, rfl⟩
      rw [sort_collect_values]
      simpa using h1
    · rename_i hth
      obtain ⟨hh, ht⟩ := h2 (by simpa using hth) rfl
      rw [hh, ht] at h1
      split
      · rename_i hnil
        rw [hnil] at h1
        refine ⟨?_, rfl⟩
        simpa [dllist_values] using h1
      · rename_i b bins hcons
        rw [hcons] at h1
        obtain ⟨u1, u2⟩ := sort_merge_up_exc_perm comp (sort_loop_exc comp s l.nodes [] []).state
          [] b bins
        split
        · refine ⟨?_, rfl⟩
          rw [sort_collect_values, hh, ht]
          simp only [List.nil_append]
          refine u1.trans ?_
          simpa using h1
        · rename_i hu
          refine ⟨?_, rfl⟩
          have hfl := u2 (by simpa using hu)
          simp only [List.flatten_nil, List.nil_append] at hfl u1
          simp only [dllist_insert_before, List.take_nil, List.drop_nil, List.nil_append,
            List.append_nil]
          rw [dllist_values_closed_range _ _ (by intro v h; exact dllist_node.noConfusion h),
            ← hfl]
          refine u1.trans ?_
          simpa using h1

/-! ## `list::sort` when no comparison throws -/

theorem sort_carry_exc_nothrow {σ α : Type} (comp : α → α → Bool) (s : σ) (tmp : List α)
    (bins : List (List α)) :
    sort_carry_exc (nothrow comp) s tmp bins =
      ⟨s, (sort_carry comp tmp bins).1, (sort_carry comp tmp bins).2.1,
        (sort_carry comp tmp bins).2.2, false⟩ := by
  induction bins generalizing tmp with
  | nil => rfl
  | cons b bins ih =>
    unfold sort_carry_exc sort_carry
    split
    · rfl
    · simp only [merge_impl_exc_nothrow, Bool.false_eq_true, if_false, ih]

theorem sort_step_exc_nothrow {σ α : Type} (comp : α → α → Bool) (s : σ) (p : α)
    (head : List α) (bins : List (List α)) :
    sort_step_exc (nothrow comp) s p head [] bins =
      ⟨s, head, [], sort_step comp p bins, false⟩ := by
  unfold sort_step_exc sort_step
  simp only [sort_carry_exc_nothrow, merge_impl_exc_nothrow, merge_impl_snd, List.length_nil,
    Bool.false_eq_true, if_false, dllist_make_cycle]
  split
  · rfl
  · rfl

theorem sort_loop_exc_nothrow {σ α : Type} (comp : α → α → Bool) (s : σ) (head : List α)
    (bins : List (List α)) :
    sort_loop_exc (nothrow comp) s head [] bins =
      ⟨s, [], [], sort_loop comp head bins, false⟩ := by
  induction head generalizing bins with
  | nil => rfl
  | cons p head ih =>
    simp only [sort_loop_exc, sort_loop, sort_step_exc_nothrow, Bool.false_eq_true, if_false,
      ih]

theorem sort_merge_up_exc_nothrow {σ α : Type} (comp : α → α → Bool) (s : σ)
    (below : List (List α)) (prev : List α) (bins : List (List α)) :
    (sort_merge_up_exc (nothrow comp) s below prev bins).1 = s ∧
      (sort_merge_up_exc (nothrow comp) s below prev bins).2.2 = false ∧
      (sort_merge_up_exc (nothrow comp) s below prev bins).2.1.getLastD [] =
        sort_merge_up comp prev bins := by
  induction bins generalizing below prev with
  | nil => simp [sort_merge_up_exc, sort_merge_up]
  | cons b bins ih =>
    simp only [sort_merge_up_exc, sort_merge_up, merge_impl_exc_nothrow, Bool.false_eq_true,
      if_false]
    exact ih _ _

/-- For a list whose `size_` counts its nodes and a comparator that never throws, `list.sort_exc`
ends without an exception with the nodes of `list.sort`, all of them list nodes. -/
theorem list_sort_exc_nothrow {σ α : Type} (l : list α) (comp : α → α → Bool) (s : σ)
    (hl : l.wf) :
    l.sort_exc (nothrow comp) s = ⟨s, (l.sort comp).nodes.map .value, l.size_, false⟩ := by
  unfold list.sort_exc list.sort
  split
  · rfl
  · rename_i hsz
    have hp := sort_loop_perm comp l.nodes []
    simp only [dllist_make_cycle, sort_loop_exc_nothrow, Bool.false_eq_true, if_false]
    split
    · rfl
    · rename_i b bins hcons
      obtain ⟨u1, u2, u3⟩ := sort_merge_up_exc_nothrow comp s [] b bins
      rw [hcons] at hp
      have hne : sort_merge_up comp b bins ≠ [] := by
        intro hnil
        have h2 := ((sort_merge_up_perm comp b bins).trans
          (by simpa using hp : (b ++ bins.flatten).Perm l.nodes)).length_eq
        rw [hnil] at h2
        unfold list.wf at hl
        simp only [List.length_nil] at h2
        omega
      simp only [u2, Bool.false_eq_true, if_false, u1, u3, dllist_closed_range,
        dllist_is_empty, dllist_insert_before, List.take_nil, List.drop_nil, List.nil_append,
        List.append_nil]
      have : (sort_merge_up comp b bins).isEmpty = false := by
        cases hm : sort_merge_up comp b bins with
        | nil => exact absurd hm hne
        | cons x xs => rfl
      simp only [this, Bool.false_eq_true, if_false]

/-! ## Node handles -/

/-- C21: for every multi-key tree `C` and every empty node handle, default-constructed or
moved-from, whatever its allocator, `C.insert(std::move(handle))` and
`C.insert(hint, std::move(handle))` throw nothing, return `C.end()` and leave `C` and the handle
as they were; with a comparator that may throw no comparison is made. -/
theorem multi_insert_empty_node_handle_is_inert {σ α κ : Type} (always_equal : Bool)
    (get_key : α → κ) (comp : κ → κ → Bool) (key_comp : σ → κ → κ → σ × Option Bool) (s : σ)
    (C : rbtree_base α) (hint : Nat) (nh : rbtree_node_handle α) (hnh : nh.empty = true) :
    rbtree_multi.insert_node always_equal get_key comp C nh = .ok (C, nh, C.end_) ∧
      rbtree_multi.insert_node_hint always_equal get_key comp C hint nh =
        .ok (C, nh, C.end_) ∧
      rbtree_multi.insert_node_exc always_equal get_key key_comp s C nh =
        (s, C, nh, .ok C.end_) := by
  have hn : nh.node_ = none := by
    unfold rbtree_node_handle.empty at hnh
    cases h : nh.node_ with
    | none => rfl
    | some v => rw [h] at hnh; exact absurd hnh (by simp)
  unfold rbtree_multi.insert_node rbtree_multi.insert_node_hint rbtree_multi.insert_node_exc
  simp only [hn, and_self]

theorem multi_insert_empty_node_handle_is_inert_witness :
    rbtree_multi.insert_node false id (fun a b : Nat => decide (a < b))
        (⟨.node .black .nil 2 .nil, 1, 0⟩ : rbtree_base Nat)
        (rbtree_node_handle.default_ctor 5) =
        .ok (⟨.node .black .nil 2 .nil, 1, 0⟩, rbtree_node_handle.default_ctor 5, 1) ∧
      rbtree_multi.insert_node_hint false id (fun a b : Nat => decide (a < b))
        (⟨.node .black .nil 2 .nil, 1, 0⟩ : rbtree_base Nat) 0
        (rbtree_node_handle.move_ctor ⟨some 7, 5⟩).2 =
        .ok (⟨.node .black .nil 2 .nil, 1, 0⟩, ⟨none, 5⟩, 1) :=
  ⟨(multi_insert_empty_node_handle_is_inert false id (fun a b : Nat => decide (a < b))
      (nothrow fun a b : Nat => decide (a < b)) ()
      (⟨.node .black .nil 2 .nil, 1, 0⟩ : rbtree_base Nat) 0
      (rbtree_node_handle.default_ctor 5) rfl).1,
    (multi_insert_empty_node_handle_is_inert false id (fun a b : Nat => decide (a < b))
      (nothrow fun a b : Nat => decide (a < b)) ()
      (⟨.node .black .nil 2 .nil, 1, 0⟩ : rbtree_base Nat) 0
      (rbtree_node_handle.move_ctor ⟨some 7, 5⟩).2 rfl).2.1⟩

/-- C22: a default-constructed node handle is empty; the move constructor and the move
assignment from a handle `h` (a different object) give the target exactly the node `h` owned and
leave `h` empty, the move assignment deleting the node the target owned before; `swap` exchanges
the nodes; and for every handle `empty()` is true exactly when the conversion to `bool` is
false.  A handle holds one pointer, so it owns no node or one. -/
theorem node_handle_owns_zero_or_one_node {α : Type} (alloc : Nat)
    (self h : rbtree_node_handle α) :
    (rbtree_node_handle.default_ctor alloc : rbtree_node_handle α).empty = true ∧
      (h.move_ctor.1.node_ = h.node_ ∧ h.move_ctor.2.empty = true) ∧
      ((self.move_assign h).1.node_ = h.node_ ∧ (self.move_assign h).2.1.empty = true ∧
        (self.move_assign h).2.2 = self.node_) ∧
      ((self.swap h).1.node_ = h.node_ ∧ (self.swap h).2.node_ = self.node_) ∧
      h.empty = !h.operator_bool := by
  refine ⟨rfl, ⟨rfl, rfl⟩, ⟨rfl, rfl, rfl⟩, ⟨rfl, rfl⟩, ?_⟩
  unfold rbtree_node_handle.empty rbtree_node_handle.operator_bool
  cases h.node_ <;> rfl

/-! ## `list::merge` of sorted lists -/

theorem merge_impl_filter_equiv {α : Type} {comp : α → α → Bool} (h : strict_weak_order comp)
    (t s : List α) (ht : ordered comp t) (k : α) :
    (merge_impl comp t s).1.filter (fun x => equiv comp k x) =
      t.filter (fun x => equiv comp k x) ++ s.filter (fun x => equiv comp k x) := by
  induction t generalizing s with
  | nil => rw [merge_impl_nil_left]; simp
  | cons p t ih =>
    by_cases hne : s = []
    · subst hne
      rw [merge_impl_cons_nil]; simp
    · rw [merge_impl_cons comp p t s hne]
      have hM := ih (s.dropWhile (fun x => comp x p)) (List.Pairwise.of_cons ht)
      have hs : s.filter (fun x => equiv comp k x) =
          (s.takeWhile (fun x => comp x p)).filter (fun x => equiv comp k x) ++
            (s.dropWhile (fun x => comp x p)).filter (fun x => equiv comp k x) := by
        rw [← List.filter_append, List.takeWhile_append_dropWhile]
      rw [List.filter_append, hs]
      by_cases hrun : (s.takeWhile (fun x => comp x p)).filter (fun x => equiv comp k x) = []
      · rw [hrun, List.nil_append, List.nil_append, List.filter_cons, List.filter_cons, hM]
        split
        · simp
        · rfl
      · obtain ⟨x, hx⟩ := List.exists_mem_of_ne_nil _ hrun
        rw [List.mem_filter] at hx
        have hxp : comp x p = true := @List.mem_takeWhile_imp _ (fun x => comp x p) _ _ hx.1
        have hkx := hx.2
        simp only [equiv, Bool.and_eq_true, Bool.not_eq_true'] at hkx
        have hp : equiv comp k p = false := by
          cases hc : equiv comp k p with
          | false => rfl
          | true =>
            simp only [equiv, Bool.and_eq_true, Bool.not_eq_true'] at hc
            have := h.lt_of_lt_of_le hxp hc.1
            rw [hkx.2] at this
            exact absurd this (by simp)
        have htn : t.filter (fun x => equiv comp k x) = [] := by
          rw [List.filter_eq_nil_iff]
          intro y hy hky
          simp only [equiv, Bool.and_eq_true, Bool.not_eq_true'] at hky
          have hyp : comp y p = false := List.rel_of_pairwise_cons ht hy
          have hxy := h.lt_of_lt_of_le hxp hyp
          have := h.lt_of_lt_of_le hxy hky.1
          rw [hkx.2] at this
          exact absurd this (by simp)
        rw [List.filter_cons, List.filter_cons, hM, htn]
        simp [hp]

theorem merge_impl_sublist {α : Type} (comp : α → α → Bool) (t s : List α) :
    t.Sublist (merge_impl comp t s).1 ∧ s.Sublist (merge_impl comp t s).1 := by
  induction t generalizing s with
  | nil => rw [merge_impl_nil_left]; exact ⟨List.nil_sublist _, List.Sublist.refl _⟩
  | cons p t ih =>
    by_cases hne : s = []
    · subst hne
      rw [merge_impl_cons_nil]; exact ⟨List.Sublist.refl _, List.nil_sublist _⟩
    · rw [merge_impl_cons comp p t s hne]
      obtain ⟨h1, h2⟩ := ih (s.dropWhile (fun x => comp x p))
      constructor
      · exact (List.Sublist.cons₂ p h1).trans (List.sublist_append_right _ _)
      · have : s = s.takeWhile (fun x => comp x p) ++ s.dropWhile (fun x => comp x p) :=
          (List.takeWhile_append_dropWhile _ s).symm
        conv => lhs; rw [this]
        exact List.Sublist.append (List.Sublist.refl _) (List.Sublist.cons p h2)

/-- C23: for a strict weak ordering `comp` and two distinct lists `A` and `B` with compatible
allocators that are both sorted under `comp` (the `size_` of `B` counting its nodes),
`A.merge(B, comp)` ends without an exception, leaves `B` empty with `size()` 0 and makes
`A.size()` the sum of both sizes; `A` is then sorted and holds exactly the elements of both; the
elements of `A` keep their relative order and so do those of `B`, and for every value the
elements equivalent to it are those of `A`, in their order, followed by those of `B`. -/
theorem list_merge_sorted_is_stable {σ α : Type} (always_equal : Bool) (comp : α → α → Bool)
    (h : strict_weak_order comp) (s : σ) (A B : list α) (hB : B.wf)
    (hsa : ordered comp A.nodes) (hsb : ordered comp B.nodes)
    (halloc : always_equal = true ∨ A.alloc = B.alloc) :
    ∃ A' B', list.merge_impl always_equal (nothrow comp) s A B = (s, A', B', none) ∧
      B'.nodes = [] ∧ B'.size = 0 ∧ A'.size = A.size + B.size ∧
      ordered comp A'.nodes ∧ A'.nodes.Perm (A.nodes ++ B.nodes) ∧
      A.nodes.Sublist A'.nodes ∧ B.nodes.Sublist A'.nodes ∧
      ∀ k, A'.nodes.filter (fun x => equiv comp k x) =
        A.nodes.filter (fun x => equiv comp k x) ++
          B.nodes.filter (fun x => equiv comp k x) := by
  have hal : (!always_equal && !(A.alloc == B.alloc)) = false := by
    rcases halloc with ha | ha
    · simp [ha]
    · simp [ha]
  unfold list.wf at hB
  unfold list.merge_impl list.size
  split
  · rename_i hz
    have hnil : B.nodes = [] := by
      apply List.eq_nil_of_length_eq_zero
      omega
    refine ⟨A, B, rfl, hnil, hz, by omega, hsa, by simp [hnil], List.Sublist.refl _,
      by simp [hnil], fun k => by simp [hnil]⟩
  · simp only [hal, Bool.false_eq_true, if_false, merge_impl_exc_nothrow, merge_impl_snd]
    exact ⟨_, _, rfl, rfl, rfl, rfl, merge_impl_ordered h _ _ hsa hsb, merge_impl_perm comp _ _,
      (merge_impl_sublist comp _ _).1, (merge_impl_sublist comp _ _).2,
      fun k => merge_impl_filter_equiv h _ _ hsa k⟩

theorem list_merge_sorted_is_stable_witness :
    ∃ A' B', list.merge_impl false (nothrow less_first) ()
        (⟨[(1, "a"), (2, "b"), (2, "c")], 3, 0⟩ : list (Nat × String))
        ⟨[(0, "x"), (2, "y"), (3, "z")], 3, 0⟩ = ((), A', B', none) ∧
      B'.nodes = [] ∧ A'.size = 6 ∧
      A'.nodes.filter (fun x => equiv less_first (2, "") x) =
        [(2, "b"), (2, "c"), (2, "y")] :=
  have hswo : strict_weak_order less_first :=
    ⟨fun a => by simp [less_first],
      fun a b c h1 h2 => by simp only [less_first, decide_eq_true_eq] at *; omega,
      fun a b c h1 h2 h3 h4 => by simp only [less_first, decide_eq_false_iff_not] at *; omega⟩
  have ⟨A', B', h1, h2, _, h4, _, _, _, _, h9⟩ :=
    list_merge_sorted_is_stable false less_first hswo ()
      (⟨[(1, "a"), (2, "b"), (2, "c")], 3, 0⟩ : list (Nat × String))
      ⟨[(0, "x"), (2, "y"), (3, "z")], 3, 0⟩ rfl (by unfold ordered; decide)
      (by unfold ordered; decide) (Or.inr rfl)
  ⟨A', B', h1, h2, h4, (h9 (2, "")).trans (by decide)⟩

/-! ## `assign` of a multi-key tree -/

theorem rbtree_multi.assign_loop_step {α κ : Type} (get_key : α → κ) {comp : κ → κ → Bool}
    (h : strict_weak_order comp) (t : rbtree_base α) (tmp input : List α)
    (ht : keys_ordered get_key comp t.root.in_order) :
    keys_ordered get_key comp (rbtree_multi.assign_loop get_key comp t tmp input).1.root.in_order ∧
      (rbtree_multi.assign_loop get_key comp t tmp input).2 = input.drop tmp.length ∧
      (rbtree_multi.assign_loop get_key comp t tmp input).1.root.in_order.Perm
        (t.root.in_order ++ input.take tmp.length) ∧
      ∀ k, (rbtree_multi.assign_loop get_key comp t tmp input).1.root.in_order.filter
          (fun x => equiv comp k (get_key x)) =
        (t.root.in_order ++ input.take tmp.length).filter
          (fun x => equiv comp k (get_key x)) := by
  induction tmp generalizing t input with
  | nil => simp [rbtree_multi.assign_loop, ht]
  | cons x tmp ih =>
    cases input with
    | nil => simp [rbtree_multi.assign_loop, ht]
    | cons v input =>
      simp only [rbtree_multi.assign_loop, List.length_cons, List.drop_succ_cons,
        List.take_succ_cons]
      have hb := rbtree_find_insert_pos_hint_end_bounds get_key h t.root (get_key v) ht
      have h1 := rbtree_multi_link_step get_key h t.root _ v
        (rbtree_find_insert_pos_hint_in_order get_key comp t.root _ (get_key v)) hb.1 hb.2 ht
      have h2 := ih ⟨rbtree_insert (rbtree_find_insert_pos_hint get_key comp t.root t.end_
        (get_key v)) v, t.size_ + 1, t.alloc⟩ input h1.1
      simp only [rbtree_base.end_] at h2 ⊢
      refine ⟨h2.1, h2.2.1, ?_, ?_⟩
      · refine h2.2.2.1.trans ?_
        simpa using List.Perm.append_right (input.take tmp.length) h1.2.1
      · intro k
        rw [h2.2.2.2 k, List.filter_append, h1.2.2 k, ← List.filter_append, List.append_assoc,
          List.singleton_append]

/-- C25: for a strict weak ordering `comp`, a multi-key tree whose `size_` counts its nodes,
whatever their number, and every input range: after `assign(first, last)` `size()` is the number
of input values and the in-order traversal holds exactly the input values, none of the previous
elements, with keys that never decrease and, for every key, the values with an equivalent key in
their input order. -/
theorem multi_assign_replaces_contents {α κ : Type} (get_key : α → κ) (comp : κ → κ → Bool)
    (h : strict_weak_order comp) (t : rbtree_base α) (ht : t.wf) (input : List α) :
    (rbtree_multi.assign_impl get_key comp t input).size = input.length ∧
      keys_ordered get_key comp (rbtree_multi.assign_impl get_key comp t input).root.in_order ∧
      (rbtree_multi.assign_impl get_key comp t input).root.in_order.Perm input ∧
      ∀ k, (rbtree_multi.assign_impl get_key comp t input).root.in_order.filter
          (fun x => equiv comp k (get_key x)) =
        input.filter (fun x => equiv comp k (get_key x)) := by
  have hwf := rbtree_multi.assign_impl_wf get_key comp t input ht
  have key : keys_ordered get_key comp
        (rbtree_multi.assign_impl get_key comp t input).root.in_order ∧
      (rbtree_multi.assign_impl get_key comp t input).root.in_order.Perm input ∧
      ∀ k, (rbtree_multi.assign_impl get_key comp t input).root.in_order.filter
          (fun x => equiv comp k (get_key x)) =
        input.filter (fun x => equiv comp k (get_key x)) := by
    unfold rbtree_multi.assign_impl
    split
    · obtain ⟨h1, h2, h3, h4⟩ := rbtree_multi.assign_loop_step get_key h ⟨.nil, 0, t.alloc⟩
        t.root.in_order input List.Pairwise.nil
      obtain ⟨i1, i2, i3⟩ := rbtree_multi.insert_impl_step get_key h _
        (rbtree_multi.assign_loop get_key comp ⟨.nil, 0, t.alloc⟩ t.root.in_order input).2 h1
      simp only [rbtree_node.in_order, List.nil_append] at h3 h4
      refine ⟨i1, ?_, ?_⟩
      · refine i2.trans ?_
        rw [h2]
        refine (List.Perm.append_right _ h3).trans ?_
        rw [List.take_append_drop]
      · intro k
        rw [i3 k, List.filter_append, h4 k, h2, ← List.filter_append, List.take_append_drop]
    · rename_i hz
      have hnil : t.root.in_order = [] := by
        apply List.eq_nil_of_length_eq_zero
        unfold rbtree_base.wf at ht
        omega
      obtain ⟨i1, i2, i3⟩ := rbtree_multi.insert_impl_step get_key h t input
        (by rw [hnil]; exact List.Pairwise.nil)
      rw [hnil] at i2 i3
      exact ⟨i1, by simpa using i2, fun k => by simpa using i3 k⟩
  refine ⟨?_, key⟩
  unfold rbtree_base.wf at hwf
  unfold rbtree_base.size
  rw [hwf, key.2.1.length_eq]

theorem multi_assign_replaces_contents_witness :
    (rbtree_multi.assign_impl Prod.fst (fun a b : Nat => decide (a < b))
        (⟨.node .black (.node .red .nil (1, "a") .nil) (2, "b") .nil, 2, 7⟩ :
          rbtree_base (Nat × String)) [(5, "p"), (3, "q"), (5, "r")]).size = 3 ∧
      (rbtree_multi.assign_impl Prod.fst (fun a b : Nat => decide (a < b))
        (⟨.node .black (.node .red .nil (1, "a") .nil) (2, "b") .nil, 2, 7⟩ :
          rbtree_base (Nat × String)) [(5, "p"), (3, "q"), (5, "r")]).root.in_order =
        [(3, "q"), (5, "p"), (5, "r")] :=
  have h := multi_assign_replaces_contents Prod.fst (fun a b : Nat => decide (a < b))
    nat_lt_strict_weak_order
    (⟨.node .black (.node .red .nil (1, "a") .nil) (2, "b") .nil, 2, 7⟩ :
      rbtree_base (Nat × String)) rfl [(5, "p"), (3, "q"), (5, "r")]
  ⟨h.1, by decide⟩

/-! ## `remove`, `remove_if`, `unique` -/

theorem list.remove_if_loop_spec {α : Type} (pred : α → Bool) (nodes : List α) (size_ : Nat)
    (hsz : nodes.length ≤ size_) :
    (list.remove_if_loop pred nodes size_).1 = nodes.filter (fun x => !pred x) ∧
      (list.remove_if_loop pred nodes size_).2 + (nodes.filter pred).length = size_ := by
  induction nodes generalizing size_ with
  | nil => simp [list.remove_if_loop]
  | cons x rest ih =>
    simp only [List.length_cons] at hsz
    simp only [list.remove_if_loop]
    by_cases hp : pred x = true
    · obtain ⟨h1, h2⟩ := ih (size_ - 1) (by omega)
      simp only [hp, if_true, h1, List.filter_cons, Bool.not_true, Bool.false_eq_true, if_false,
        List.length_cons, true_and]
      omega
    · obtain ⟨h1, h2⟩ := ih size_ (by omega)
      simp only [hp, if_false, h1, List.filter_cons, Bool.not_eq_true] at *
      simp [hp, h2]

theorem list.remove_if_spec {α : Type} (l : list α) (pred : α → Bool) (hl : l.wf) :
    (l.remove_if pred).1.nodes = l.nodes.filter (fun x => !pred x) ∧
      (l.remove_if pred).2 = (l.nodes.filter pred).length ∧
      (l.remove_if pred).1.size = l.size - (l.remove_if pred).2 ∧
      (l.remove_if pred).1.size = (l.remove_if pred).1.nodes.length := by
  unfold list.wf at hl
  obtain ⟨h1, h2⟩ := list.remove_if_loop_spec pred l.nodes l.size_ (by omega)
  have h3 : (l.nodes.filter pred).length + (l.nodes.filter (fun x => !pred x)).length =
      l.nodes.length := by
    induction l.nodes with
    | nil => rfl
    | cons x rest ih =>
      simp only [List.filter_cons]
      cases pred x <;> simp <;> omega
  unfold list.remove_if list.size
  simp only [h1]
  refine ⟨trivial, ?_, ?_, ?_⟩ <;> omega

/-- While the node of `val` is not passed, the loop of `remove` is the loop of `remove_if` with
the test `x == val`: so it is for an object that is not an element of the list. -/
theorem list.remove_loop_object {α : Type} [BEq α] (v : α) (nodes : List α) (p size_ : Nat) :
    list.remove_loop v none nodes p false size_ =
      some (list.remove_if_loop (fun x => x == v) nodes size_) := by
  induction nodes generalizing p size_ with
  | nil => rfl
  | cons x rest ih =>
    simp only [list.remove_loop, list.remove_if_loop, Bool.false_eq_true, if_false]
    by_cases hx : (x == v) = true
    · simp only [hx, if_true]
      have : decide ((none : Option Nat) = some p) = false := by simp
      rw [this]
      exact ih _ _
    · simp only [hx, if_false, ih, Option.map_some', Bool.false_eq_true]

theorem list.remove_object {α : Type} [BEq α] (l : list α) (v : α) :
    l.remove (.object v) = some (l.remove_if (fun x => x == v)) := by
  unfold list.remove list.remove_if
  simp only [value_ref.read, value_ref.node, list.remove_loop_object, Option.map_some']

/-- What holds of `remove` and `remove_if`: for every list whose `size_` counts its nodes, every
`val` that refers to an object that is not an element of the list and every predicate `p`,
`remove(val)` and `remove_if(p)` leave exactly the elements that are not equal to `val` (do not
satisfy `p`), in their original order, return the number of elements equal to `val`
(satisfying `p`), and `size()` is the old size minus the returned count and counts the nodes
left. -/
theorem list.remove_object_spec {α : Type} [BEq α] (l : list α) (v : α) (p : α → Bool)
    (hl : l.wf) :
    (∃ r, l.remove (.object v) = some r ∧
      r.1.nodes = l.nodes.filter (fun x => !(x == v)) ∧
      r.2 = (l.nodes.filter (fun x => x == v)).length ∧
      r.1.size = l.size - r.2 ∧ r.1.size = r.1.nodes.length) ∧
    ((l.remove_if p).1.nodes = l.nodes.filter (fun x => !p x) ∧
      (l.remove_if p).2 = (l.nodes.filter p).length ∧
      (l.remove_if p).1.size = l.size - (l.remove_if p).2 ∧
      (l.remove_if p).1.size = (l.remove_if p).1.nodes.length) :=
  ⟨⟨_, list.remove_object l v, list.remove_if_spec l (fun x => x == v) hl⟩,
    list.remove_if_spec l p hl⟩

theorem list.remove_loop_deleted {α : Type} [BEq α] (v : α) (node : Option Nat) (x : α)
    (rest : List α) (p size_ : Nat) :
    list.remove_loop v node (x :: rest) p true size_ = none := by
  simp [list.remove_loop]

/-- The loop of `remove` for a `val` that lives in the node `q` of the list: when that node is
equal to itself and is not the last one, the loop deletes it and reads it again in the next
round. -/
theorem list.remove_loop_element {α : Type} [BEq α] (v : α) (q : Nat) (nodes : List α)
    (p size_ : Nat) (hp : p ≤ q) (hq : nodes[q - p]? = some v) (hv : (v == v) = true)
    (hlast : q - p + 1 < nodes.length) :
    list.remove_loop v (some q) nodes p false size_ = none := by
  induction nodes generalizing p size_ with
  | nil => simp at hlast
  | cons x rest ih =>
    simp only [list.remove_loop, Bool.false_eq_true, if_false]
    by_cases hpq : p = q
    · subst hpq
      simp only [Nat.sub_self, List.getElem?_cons_zero, Option.some.injEq] at hq
      subst hq
      simp only [hv, if_true, decide_True]
      cases rest with
      | nil => simp at hlast
      | cons y rest => exact list.remove_loop_deleted _ _ _ _ _ _
    · have hlt : p < q := by omega
      have hstep : q - p = (q - (p + 1)) + 1 := by omega
      rw [hstep, List.getElem?_cons_succ] at hq
      have hl2 : q - (p + 1) + 1 < rest.length := by
        simp only [List.length_cons] at hlast
        omega
      have hne : decide (some q = some p) = false := by
        simp only [Option.some.injEq, decide_eq_false_iff_not]
        omega
      by_cases hx : (x == v) = true
      · simp only [hx, if_true, hne]
        exact ih _ _ (by omega) hq hl2
      · simp only [hx, if_false, ih _ _ (by omega) hq hl2, Option.map_none', Bool.false_eq_true]

/-- With `val` an element of the list that is equal to itself and is not the last node,
`remove(val)` deletes the node of `val` and then reads `val` again. -/
theorem list.remove_element_undefined {α : Type} [BEq α] (l : list α) (q : Nat) (v : α)
    (hq : l.nodes[q]? = some v) (hv : (v == v) = true) (hlast : q + 1 < l.nodes.length) :
    l.remove (.element q) = none := by
  unfold list.remove
  simp only [value_ref.read, hq, value_ref.node]
  rw [list.remove_loop_element v q l.nodes 0 l.size_ (Nat.zero_le _) (by simpa using hq) hv
    (by simpa using hlast)]
  rfl

/-- C26: `remove(val)` with `val` an element of the list.  For the list `[1, 2, 1]` the call
`l.remove(l.front())` has no defined result: the first round finds the first node equal to
`val`, which refers to that node, and deletes it, and the second round evaluates
`get_value(p) == val` on the deleted node.  The claim gives the list `[2]` and the count 2 for
it, which is what the call gives for an object 1 outside the list, and for `l.back()`, whose
node is deleted in the last round; `remove_if` with the test `x == 1` gives it as well. -/
theorem list_remove_reads_deleted_element :
    list.remove (⟨[1, 2, 1], 3, 0⟩ : list Nat) (.element 0) = none ∧
      list.remove (⟨[1, 2, 1], 3, 0⟩ : list Nat) (.object 1) = some (⟨[2], 1, 0⟩, 2) ∧
      list.remove (⟨[1, 2, 1], 3, 0⟩ : list Nat) (.element 2) = some (⟨[2], 1, 0⟩, 2) ∧
      list.remove_if (⟨[1, 2, 1], 3, 0⟩ : list Nat) (fun x => x == 1) = (⟨[2], 1, 0⟩, 2) := by
  decide

theorem list.unique_loop_spec {α : Type} [DecidableEq α] (v0 : α) (rest : List α)
    (size_ : Nat) (hsz : rest.length < size_) :
    (∃ counts : List Nat, (∀ c ∈ counts, 0 < c) ∧
        counts.length = (v0 :: (list.unique_loop (fun a b => a == b) v0 rest size_).1).length ∧
        v0 :: rest = (List.zipWith List.replicate counts
          (v0 :: (list.unique_loop (fun a b => a == b) v0 rest size_).1)).flatten) ∧
      (v0 :: (list.unique_loop (fun a b => a == b) v0 rest size_).1).Chain' (· ≠ ·) ∧
      (list.unique_loop (fun a b => a == b) v0 rest size_).1.Sublist rest ∧
      (list.unique_loop (fun a b => a == b) v0 rest size_).2 + rest.length =
        size_ + (list.unique_loop (fun a b => a == b) v0 rest size_).1.length := by
  induction rest generalizing v0 size_ with
  | nil =>
    simp only [list.unique_loop]
    exact ⟨⟨[1], by simp, rfl, rfl⟩, List.chain'_singleton _, List.Sublist.refl _, trivial⟩
  | cons x rest ih =>
    simp only [List.length_cons] at hsz
    simp only [list.unique_loop]
    by_cases hx : v0 = x
    · subst hx
      obtain ⟨⟨counts, hc1, hc2, hc3⟩, h2, h3, h4⟩ := ih v0 (size_ - 1) (by omega)
      simp only [beq_self_eq_true, if_true]
      refine ⟨?_, h2, h3.trans (List.sublist_cons_self _ _), by
        simp only [List.length_cons]; omega⟩
      cases counts with
      | nil => simp at hc2
      | cons c cs =>
        refine ⟨(c + 1) :: cs, ?_, by simpa using hc2, ?_⟩
        · intro d hd
          rcases List.mem_cons.mp hd with rfl | hd
          · omega
          · exact hc1 d (List.mem_cons_of_mem _ hd)
        · simp only [List.zipWith_cons_cons, List.flatten_cons, List.replicate_succ,
            List.cons_append] at hc3 ⊢
          rw [← hc3]
    · obtain ⟨⟨counts, hc1, hc2, hc3⟩, h2, h3, h4⟩ := ih x size_ (by omega)
      have hne : (v0 == x) = false := by simpa using hx
      simp only [hne, Bool.false_eq_true, if_false]
      refine ⟨⟨1 :: counts, ?_, by simpa using hc2, ?_⟩, List.Chain'.cons hx h2,
        List.Sublist.cons₂ x h3, by simp only [List.length_cons]; omega⟩
      · intro d hd
        rcases List.mem_cons.mp hd with rfl | hd
        · omega
        · exact hc1 d hd
      · simp only [List.zipWith_cons_cons, List.flatten_cons, List.replicate_one,
          List.singleton_append]
        rw [← hc3]

/-- C27: for every list whose `size_` counts its nodes, `unique()` leaves a sequence from which
the original one arises by repeating every element one or more times in place, in which no two
adjacent elements are equal: the first element of every maximal run of consecutive equal
elements is kept and the others are deleted, the kept elements in their order.  It returns the
number of deleted elements, 0 for an empty list, and `size()` decreases by that count and
counts the nodes left. -/
theorem list_unique_keeps_first_of_each_run {α : Type} [DecidableEq α] (l : list α)
    (hl : l.wf) :
    (∃ counts : List Nat, (∀ c ∈ counts, 0 < c) ∧ counts.length = l.unique.1.nodes.length ∧
        l.nodes = (List.zipWith List.replicate counts l.unique.1.nodes).flatten) ∧
      l.unique.1.nodes.Chain' (· ≠ ·) ∧ l.unique.1.nodes.Sublist l.nodes ∧
      l.unique.2 = l.nodes.length - l.unique.1.nodes.length ∧
      l.unique.1.size = l.size - l.unique.2 ∧
      l.unique.1.size = l.unique.1.nodes.length ∧ (l.nodes = [] → l.unique.2 = 0) := by
  unfold list.wf at hl
  unfold list.unique list.unique_if list.size
  rcases hn : l.nodes with _ | ⟨x0, rest⟩
  · have hz : l.size_ = 0 := by rw [hl, hn]; rfl
    simp only [hz, if_true, hn]
    refine ⟨⟨[], by simp, rfl, rfl⟩, List.chain'_nil, List.Sublist.refl _, ?_, ?_, ?_, ?_⟩
    all_goals trivial
  · rw [hn] at hl
    simp only [List.length_cons] at hl
    have hz : ¬ l.size_ = 0 := by omega
    simp only [hz, if_false]
    obtain ⟨⟨counts, hc1, hc2, hc3⟩, h2, h3, h4⟩ := list.unique_loop_spec x0 rest l.size_
      (by omega)
    have hle := h3.length_le
    refine ⟨⟨counts, hc1, hc2, hc3⟩, h2, List.Sublist.cons₂ x0 h3, ?_, ?_, ?_, ?_⟩
    · simp only [List.length_cons]; omega
    · omega
    · simp only [List.length_cons]; omega
    · intro hx; exact absurd hx (by simp)

theorem list_unique_keeps_first_of_each_run_witness :
    (list.unique (⟨[1, 1, 2, 2, 2, 1, 3, 3], 8, 0⟩ : list Nat)).1.nodes = [1, 2, 1, 3] ∧
      (list.unique (⟨[1, 1, 2, 2, 2, 1, 3, 3], 8, 0⟩ : list Nat)).2 = 4 ∧
      (list.unique (⟨[1, 1, 2, 2, 2, 1, 3, 3], 8, 0⟩ : list Nat)).1.size = 4 :=
  have h := list_unique_keeps_first_of_each_run (⟨[1, 1, 2, 2, 2, 1, 3, 3], 8, 0⟩ : list Nat)
    rfl
  ⟨by decide, h.2.2.2.1.trans (by decide), h.2.2.2.2.2.1.trans (by decide)⟩

/-! ## The indices into `bin_lists` -/

theorem sort_carry_indices_bound {α : Type} (comp : α → α → Bool) (tmp : List α)
    (bins : List (List α)) (bin : Nat) :
    ∀ i ∈ sort_carry_indices comp tmp bins bin, (bin : Int) ≤ i ∧ i < bin + bins.length := by
  induction bins generalizing tmp bin with
  | nil => simp [sort_carry_indices]
  | cons b bins ih =>
    intro i hi
    simp only [sort_carry_indices] at hi
    simp only [List.length_cons, Nat.cast_add, Nat.cast_one]
    split at hi
    · simp only [List.mem_singleton] at hi
      omega
    · simp only [List.mem_cons] at hi
      rcases hi with rfl | rfl | hi
      · omega
      · omega
      · have := ih _ _ i hi
        simp only [Nat.cast_add, Nat.cast_one] at this
        omega

theorem sort_step_length {α : Type} (comp : α → α → Bool) (p : α) (bins : List (List α))
    (hb : bins.length ≤ max_bins) :
    (sort_step comp p bins).length ≤ max_bins ∧ bins.length ≤ (sort_step comp p bins).length ∧
      0 < (sort_step comp p bins).length := by
  have hlen := sort_carry_length comp (dllist_insert_before [] 0 [p]) bins
  unfold sort_step
  simp only
  split
  · rename_i hbin
    have hmax : max_bins = 25 := rfl
    simp only [List.length_set]
    omega
  · rename_i hbin
    split
    · simp only [List.length_set, List.length_append, List.length_cons, List.length_nil]
      omega
    · simp only [List.length_set]
      omega

theorem sort_step_indices_bound {α : Type} (comp : α → α → Bool) (p : α)
    (bins : List (List α)) (hb : bins.length ≤ max_bins) :
    ∀ i ∈ sort_step_indices comp p bins, 0 ≤ i ∧ i < max_bins := by
  have hlen := sort_carry_length comp (dllist_insert_before [] 0 [p]) bins
  have hmax : max_bins = 25 := rfl
  intro i hi
  unfold sort_step_indices at hi
  simp only [List.mem_append] at hi
  rcases hi with hi | hi
  · have := sort_carry_indices_bound comp _ bins 0 i hi
    simp only [Nat.cast_zero, zero_add] at this
    omega
  · split at hi
    · rename_i hbin
      simp only [List.mem_singleton] at hi
      omega
    · rename_i hbin
      simp only [List.mem_append, List.mem_singleton] at hi
      rcases hi with hi | hi
      · split at hi
        · simp only [List.mem_singleton] at hi
          omega
        · simp at hi
      · omega

theorem sort_loop_length {α : Type} (comp : α → α → Bool) (head : List α)
    (bins : List (List α)) (hb : bins.length ≤ max_bins) :
    (sort_loop comp head bins).length ≤ max_bins ∧
      (head ≠ [] → 0 < (sort_loop comp head bins).length) := by
  induction head generalizing bins with
  | nil => exact ⟨hb, fun h => absurd rfl h⟩
  | cons p head ih =>
    simp only [sort_loop]
    have hs := sort_step_length comp p bins hb
    refine ⟨(ih _ hs.1).1, fun _ => ?_⟩
    cases head with
    | nil => simpa [sort_loop] using hs.2.2
    | cons q head => exact (ih _ hs.1).2 (by simp)

theorem sort_loop_indices_bound {α : Type} (comp : α → α → Bool) (head : List α)
    (bins : List (List α)) (hb : bins.length ≤ max_bins) :
    ∀ i ∈ sort_loop_indices comp head bins, 0 ≤ i ∧ i < max_bins := by
  induction head generalizing bins with
  | nil => simp [sort_loop_indices]
  | cons p head ih =>
    intro i hi
    simp only [sort_loop_indices, List.mem_append] at hi
    rcases hi with hi | hi
    · exact sort_step_indices_bound comp p bins hb i hi
    · exact ih _ (sort_step_length comp p bins hb).1 i hi

theorem sort_merge_up_indices_bound (rounds bin : Nat) (hbin : 0 < bin) :
    ∀ i ∈ sort_merge_up_indices rounds bin, 0 ≤ i ∧ i < bin + rounds := by
  induction rounds generalizing bin with
  | zero => simp [sort_merge_up_indices]
  | succ rounds ih =>
    intro i hi
    simp only [sort_merge_up_indices, List.mem_cons] at hi
    simp only [Nat.cast_add, Nat.cast_one]
    rcases hi with rfl | rfl | hi
    · omega
    · omega
    · have := ih (bin + 1) (by omega) i hi
      simp only [Nat.cast_add, Nat.cast_one] at this
      omega

theorem sort_loop_exc_length {σ α : Type} (comp : σ → α → α → σ × Option Bool) (s : σ)
    (head tmp : List α) (bins : List (List α)) (hb : bins.length ≤ max_bins) :
    (sort_loop_exc comp s head tmp bins).bin_lists.length ≤ max_bins := by
  induction head generalizing s tmp bins with
  | nil => exact hb
  | cons p head ih =>
    have hstep : (sort_step_exc comp s p head tmp bins).bin_lists.length ≤ max_bins := by
      obtain ⟨_, h2, h3⟩ := sort_carry_exc_perm comp s
        (dllist_insert_before tmp tmp.length [p]) bins
      have hmax : max_bins = 25 := rfl
      unfold sort_step_exc
      simp only
      split
      · simp only; omega
      · split
        · simp only [List.length_set]; omega
        · split
          · simp only [List.length_set, List.length_append, List.length_cons,
              List.length_nil]
            omega
          · simp only [List.length_set]; omega
    simp only [sort_loop_exc]
    split
    · exact hstep
    · exact ih _ _ _ hstep

theorem sort_merge_up_exc_length {σ α : Type} (comp : σ → α → α → σ × Option Bool) (s : σ)
    (below : List (List α)) (prev : List α) (bins : List (List α)) :
    (sort_merge_up_exc comp s below prev bins).2.1.length = below.length + 1 + bins.length := by
  induction bins generalizing s below prev with
  | nil => simp [sort_merge_up_exc]
  | cons b bins ih =>
    simp only [sort_merge_up_exc]
    split
    · simp only [List.length_append, List.length_cons]; omega
    · rw [ih]
      simp only [List.length_append, List.length_cons, List.length_nil]
      omega

/-- C30: in `list::sort`, for a list of any size whose `size_` counts its nodes and any
comparator, every index at which `bin_lists` is accessed lies in `[0, 25)`, the indices being
computed in the integers: those of the bin loop, `bin - 1` on the overflow path, which is taken
only at `bin == 25` and so merges into bin 24, `maxbin` and `bin` when a bin is opened or
filled, those of "merge up" and `maxbin - 1` for the result; `maxbin` never exceeds 25, also
when a comparison throws, so that the handler, which visits the bins below `maxbin`, stays in
the array. -/
theorem list_sort_bin_indices_in_range {σ α : Type} (l : list α) (comp : α → α → Bool)
    (tcomp : σ → α → α → σ × Option Bool) (s : σ) (hl : l.wf) :
    (∀ i ∈ l.sort_indices comp, 0 ≤ i ∧ i < max_bins) ∧
      (∀ head, (sort_loop comp head []).length ≤ max_bins) ∧
      (∀ p bins, bins.length ≤ max_bins →
        (sort_carry comp (dllist_insert_before [] 0 [p]) bins).1 = max_bins →
        sort_step comp p bins = (sort_carry comp (dllist_insert_before [] 0 [p]) bins).2.2.set 24
          (merge_impl comp ((sort_carry comp (dllist_insert_before [] 0 [p]) bins).2.2.getD 24
            []) (sort_carry comp (dllist_insert_before [] 0 [p]) bins).2.1).1) ∧
      (∀ p bins, bins.length ≤ max_bins →
        bins.length < (sort_step comp p bins).length → bins.length < max_bins) ∧
      (sort_loop_exc tcomp s l.nodes [] []).bin_lists.length ≤ max_bins ∧
      (∀ s' b bins, (b :: bins : List (List α)).length ≤ max_bins →
        (sort_merge_up_exc tcomp s' [] b bins).2.1.length ≤ max_bins) := by
  have hmax : max_bins = 25 := rfl
  refine ⟨?_, fun head => (sort_loop_length comp head [] (by simp)).1, ?_, ?_,
    sort_loop_exc_length tcomp s l.nodes [] [] (by simp), ?_⟩
  · intro i hi
    unfold list.sort_indices at hi
    split at hi
    · simp at hi
    · rename_i hsz
      have hne : l.nodes ≠ [] := by
        intro hn
        unfold list.wf at hl
        rw [hn] at hl
        simp only [List.length_nil] at hl
        omega
      obtain ⟨h1, h2⟩ := sort_loop_length comp l.nodes [] (by simp)
      have h3 := h2 hne
      simp only [List.mem_append, List.mem_singleton] at hi
      rcases hi with (hi | hi) | hi
      · exact sort_loop_indices_bound comp l.nodes [] (by simp) i hi
      · have := sort_merge_up_indices_bound _ 1 (by omega) i hi
        simp only [Nat.cast_one] at this
        omega
      · omega
  · intro p bins hb hbin
    unfold sort_step
    simp only [hbin, if_true]
    rfl
  · intro p bins hb hgrow
    have hlen := sort_carry_length comp (dllist_insert_before [] 0 [p]) bins
    unfold sort_step at hgrow
    simp only at hgrow
    split at hgrow
    · simp only [List.length_set] at hgrow; omega
    · rename_i hbin
      split at hgrow
      · omega
      · simp only [List.length_set] at hgrow; omega
  · intro s' b bins hb
    rw [sort_merge_up_exc_length]
    simp only [List.length_cons, List.length_nil] at hb ⊢
    omega

theorem list_sort_bin_indices_in_range_witness :
    (∀ i ∈ (⟨[3, 1, 2], 3, 0⟩ : list Nat).sort_indices (fun a b => decide (a < b)),
        0 ≤ i ∧ i < max_bins) ∧
      (⟨[3, 1, 2], 3, 0⟩ : list Nat).sort_indices (fun a b => decide (a < b)) =
        [0, 0, 0, 0, 1, 1, 0, 0, 1, 0, 1] :=
  ⟨(list_sort_bin_indices_in_range (⟨[3, 1, 2], 3, 0⟩ : list Nat) (fun a b => decide (a < b))
      (nothrow fun a b : Nat => decide (a < b)) () rfl).1, by decide⟩

/-! ## `util::variant` -/

theorem variant.value_of_holding {T : variant_types} (id : Nat) (x : T.payload id)
    (hreg : T.registered id = true) (hid : id ≠ variant_id.kInvalid) :
    (⟨id, some x⟩ : variant T).value id = x := by
  have hv : (T.vtable_type id != variant_id.kInvalid) = true := by
    simp [variant_types.vtable_type, hreg, hid]
  unfold variant.value
  simp only [hv, if_true, dif_pos]

/-- C29: for a type `T` with a type identifier other than `kInvalid` whose vtable has been
filled, and every value `x` of it, kept in the storage or behind a pointer: the variant
constructed from `x` returns `x` from `value<T>()`, and so do a variant copy-constructed from
it, a variant move-constructed from it, and a copy of the latter (`auto v2 = std::move(v1);
auto v3 = v2;`); a variant that is not valid returns `T()` for every type. -/
theorem variant_value_round_trip (T : variant_types) (id : Nat) (x : T.payload id)
    (hreg : T.registered id = true) (hid : id ≠ variant_id.kInvalid) :
    (variant.of_value T id x).value id = x ∧
      (variant.of_value T id x).copy_ctor.value id = x ∧
      (variant.of_value T id x).move_ctor.1.value id = x ∧
      (variant.of_value T id x).move_ctor.1.copy_ctor.value id = x ∧
      (∀ (v : variant T) (t : Nat), v.valid = false → v.value t = T.dflt t) ∧
      ∀ t, (variant.default_ctor T).value t = T.dflt t := by
  have hv : (T.vtable_type id != variant_id.kInvalid) = true := by
    simp [variant_types.vtable_type, hreg, hid]
  have h0 := variant.value_of_holding id x hreg hid
  have e1 : variant.of_value T id x = ⟨id, some x⟩ := by
    unfold variant.of_value
    rw [if_pos hv]
  have e2 : (⟨id, some x⟩ : variant T).copy_ctor = ⟨id, some x⟩ := by
    unfold variant.copy_ctor
    simp only [hv, if_true]
  have e3 : (⟨id, some x⟩ : variant T).move_ctor.1 = ⟨id, some x⟩ := by
    unfold variant.move_ctor
    simp only [hv, if_true]
  refine ⟨?_, ?_, ?_, ?_, ?_, ?_⟩
  · rw [e1]; exact h0
  · rw [e1, e2]; exact h0
  · rw [e1, e3]; exact h0
  · rw [e1, e3, e2]; exact h0
  · intro v t hval
    unfold variant.valid at hval
    unfold variant.value
    simp only [hval, Bool.false_eq_true, if_false]
  · intro t
    unfold variant.value variant.default_ctor variant_types.vtable_type
    split
    · rfl
    · rfl

theorem variant_value_round_trip_witness :
    (variant.of_value example_types 5 "-234.57").move_ctor.1.copy_ctor.value 5 = "-234.57" ∧
      (variant.of_value example_types 5 "-234.57").move_ctor.2.value 5 = "" ∧
      (variant.default_ctor example_types).value 2 = (0 : Int) :=
  ⟨(variant_value_round_trip example_types 5 "-234.57" rfl (by decide)).2.2.2.1, rfl,
    (variant_value_round_trip example_types 5 "-234.57" rfl (by decide)).2.2.2.2.2 2⟩

/-! ## The links of a list -/

@[simp] theorem dllist_links.set_next_next (h : dllist_links) (p v x : Nat) :
    (h.set_next p v).next x = if x = p then v else h.next x := by
  simp [dllist_links.set_next, Function.update_apply]

@[simp] theorem dllist_links.set_next_prev (h : dllist_links) (p v x : Nat) :
    (h.set_next p v).prev x = h.prev x := rfl

@[simp] theorem dllist_links.set_prev_prev (h : dllist_links) (p v x : Nat) :
    (h.set_prev p v).prev x = if x = p then v else h.prev x := by
  simp [dllist_links.set_prev, Function.update_apply]

@[simp] theorem dllist_links.set_prev_next (h : dllist_links) (p v x : Nat) :
    (h.set_prev p v).next x = h.next x := rfl

theorem dllist_links.linked_congr (h h' : dllist_links) (a : Nat) (ns : List Nat) (b : Nat)
    (hn : ∀ x ∈ a :: ns, h'.next x = h.next x) (hp : ∀ x ∈ ns ++ [b], h'.prev x = h.prev x)
    (hl : h.linked a ns b) : h'.linked a ns b := by
  induction ns generalizing a with
  | nil =>
    simp only [dllist_links.linked] at hl ⊢
    rw [hn a (by simp), hp b (by simp)]
    exact hl
  | cons n ns ih =>
    simp only [dllist_links.linked] at hl ⊢
    refine ⟨by rw [hn a (by simp)]; exact hl.1, by rw [hp n (by simp)]; exact hl.2.1, ?_⟩
    exact ih n (fun x hx => hn x (List.mem_cons_of_mem _ hx))
      (fun x hx => hp x (by simp only [List.cons_append, List.mem_cons]; exact Or.inr hx))
      hl.2.2

theorem dllist_links.linked_snoc (h : dllist_links) (a : Nat) (ns : List Nat) (n b : Nat) :
    h.linked a (ns ++ [n]) b ↔ h.linked a ns n ∧ h.next n = b ∧ h.prev b = n := by
  induction ns generalizing a with
  | nil => simp only [List.nil_append, dllist_links.linked]; tauto
  | cons m ns ih =>
    show (h.next a = m ∧ h.prev m = a ∧ h.linked m (ns ++ [n]) b) ↔ _
    rw [ih m]
    simp only [dllist_links.linked]
    tauto

theorem dllist_links.linked_next_chain (h : dllist_links) (a : Nat) (ns : List Nat) (b : Nat)
    (hl : h.linked a ns b) : h.next_chain a ns b := by
  induction ns generalizing a with
  | nil => exact hl.1
  | cons n ns ih => exact ⟨hl.1, ih n hl.2.2⟩

theorem dllist_links.next_chain_congr (h h' : dllist_links) (a : Nat) (ns : List Nat) (b : Nat)
    (hn : ∀ x ∈ a :: ns, h'.next x = h.next x) (hl : h.next_chain a ns b) :
    h'.next_chain a ns b := by
  induction ns generalizing a with
  | nil =>
    simp only [dllist_links.next_chain] at hl ⊢
    rw [hn a (by simp)]
    exact hl
  | cons n ns ih =>
    simp only [dllist_links.next_chain] at hl ⊢
    exact ⟨by rw [hn a (by simp)]; exact hl.1,
      ih n (fun x hx => hn x (List.mem_cons_of_mem _ hx)) hl.2⟩

theorem dllist_links.linked_inverse (h : dllist_links) (a : Nat) (ns : List Nat) (b : Nat)
    (hl : h.linked a ns b) :
    (∀ n ∈ a :: ns, h.prev (h.next n) = n) ∧ (∀ n ∈ ns ++ [b], h.next (h.prev n) = n) := by
  induction ns generalizing a with
  | nil =>
    simp only [dllist_links.linked] at hl
    simp only [List.mem_singleton, forall_eq, List.nil_append]
    exact ⟨by rw [hl.1, hl.2], by rw [hl.2, hl.1]⟩
  | cons m ns ih =>
    simp only [dllist_links.linked] at hl
    obtain ⟨i1, i2⟩ := ih m hl.2.2
    constructor
    · intro n hn
      rcases List.mem_cons.mp hn with rfl | hn
      · rw [hl.1, hl.2.1]
      · exact i1 n hn
    · intro n hn
      simp only [List.cons_append, List.mem_cons] at hn
      rcases hn with rfl | hn
      · rw [hl.2.1, hl.1]
      · exact i2 n hn

/-- In a well-formed cycle every node `n`, the sentinel included, has `n.next.prev == n` and
`n.prev.next == n`. -/
theorem dllist_links.is_cycle.inverse {h : dllist_links} {head : Nat} {ns : List Nat}
    (hc : h.is_cycle head ns) :
    ∀ n ∈ head :: ns, h.prev (h.next n) = n ∧ h.next (h.prev n) = n := by
  obtain ⟨i1, i2⟩ := h.linked_inverse head ns head hc.2
  intro n hn
  refine ⟨i1 n hn, i2 n ?_⟩
  simp only [List.mem_cons, List.mem_append, List.mem_singleton] at hn ⊢
  tauto

theorem dllist_links.traverse_next_chain (h : dllist_links) (head p : Nat) (rest : List Nat)
    (hl : h.next_chain p rest head) (hh : head ∉ rest) :
    h.traverse head rest.length (h.next p) = rest := by
  induction rest generalizing p with
  | nil => rfl
  | cons n rest ih =>
    simp only [dllist_links.next_chain] at hl
    simp only [List.length_cons, dllist_links.traverse, hl.1]
    have hne : n ≠ head := fun e => hh (by simp [e])
    simp only [hne, if_false]
    rw [ih n hl.2 (fun e => hh (List.mem_cons_of_mem _ e))]

theorem dllist_links.is_cycle.traverse {h : dllist_links} {head : Nat} {ns : List Nat}
    (hc : h.is_cycle head ns) : h.traverse head ns.length (h.next head) = ns :=
  h.traverse_next_chain head head ns (h.linked_next_chain head ns head hc.2)
    (List.nodup_cons.mp hc.1).1

theorem dllist_links.foldl_swap_links (h : dllist_links) (c : List Nat) (hc : c.Nodup)
    (x : Nat) :
    (c.foldl dllist_links.swap_links h).next x = (if x ∈ c then h.prev x else h.next x) ∧
      (c.foldl dllist_links.swap_links h).prev x = (if x ∈ c then h.next x else h.prev x) := by
  induction c generalizing h with
  | nil => simp
  | cons p c ih =>
    obtain ⟨hp, hcn⟩ := List.nodup_cons.mp hc
    simp only [List.foldl_cons]
    obtain ⟨i1, i2⟩ := ih (h.swap_links p) hcn
    rw [i1, i2]
    by_cases hxc : x ∈ c
    · have hxp : x ≠ p := fun e => hp (e ▸ hxc)
      simp [hxc, hxp, dllist_links.swap_links]
    · by_cases hxp : x = p
      · subst hxp
        simp [hxc, dllist_links.swap_links]
      · simp [hxc, hxp, dllist_links.swap_links]

theorem list_obj.reverse_loop_spec (head : Nat) (fuel : Nat) (h : dllist_links) (p : Nat)
    (rest : List Nat) (hl : h.next_chain p rest head) (hnd : (p :: rest).Nodup)
    (hh : head ∉ rest) (hf : rest.length < fuel) :
    list_obj.reverse_loop head fuel h p =
      some ((p :: rest).foldl dllist_links.swap_links h) := by
  induction rest generalizing h p fuel with
  | nil =>
    cases fuel with
    | zero => omega
    | succ fuel =>
      simp only [dllist_links.next_chain] at hl
      simp [list_obj.reverse_loop, dllist_links.swap_links, hl]
  | cons n rest ih =>
    cases fuel with
    | zero => omega
    | succ fuel =>
      simp only [dllist_links.next_chain] at hl
      obtain ⟨hp, hcn⟩ := List.nodup_cons.mp hnd
      have hne : n ≠ head := fun e => hh (by simp [e])
      have hstep : (h.swap_links p).prev p = n := by
        simp [dllist_links.swap_links, hl.1]
      simp only [list_obj.reverse_loop, hstep, hne, if_false, List.foldl_cons]
      refine ih fuel (h.swap_links p) n ?_ hcn (fun e => hh (List.mem_cons_of_mem _ e))
        (by simp only [List.length_cons] at hf; omega)
      refine h.next_chain_congr _ n rest head ?_ hl.2
      intro x hx
      have hxp : x ≠ p := fun e => hp (e ▸ hx)
      simp [dllist_links.swap_links, hxp]

theorem dllist_links.linked_reversed (h h' : dllist_links) (a : Nat) (ns : List Nat) (b : Nat)
    (hn : ∀ x ∈ ns ++ [b], h'.next x = h.prev x) (hp : ∀ x ∈ a :: ns, h'.prev x = h.next x)
    (hl : h.linked a ns b) : h'.linked b ns.reverse a := by
  induction ns generalizing a with
  | nil =>
    simp only [dllist_links.linked, List.reverse_nil] at hl ⊢
    rw [hn b (by simp), hp a (by simp)]
    exact ⟨hl.2, hl.1⟩
  | cons n ns ih =>
    simp only [dllist_links.linked] at hl
    rw [List.reverse_cons, dllist_links.linked_snoc]
    refine ⟨ih n (fun x hx => hn x (by
        simp only [List.cons_append, List.mem_cons]; exact Or.inr hx))
      (fun x hx => hp x (List.mem_cons_of_mem _ hx)) hl.2.2, ?_, ?_⟩
    · rw [hn n (by simp)]; exact hl.2.1
    · rw [hp a (by simp)]; exact hl.1

/-- What `reverse()` does to the links: for a list with its nodes `ms` in a cycle counted by
`size_` the loop ends, every node of the cycle, the sentinel included, has its two links
exchanged, and no other link is changed; the nodes then form the cycle of `ms` read
backwards. -/
theorem list_obj.reverse_links (l : list_obj) (g : dllist_links) (ms : List Nat)
    (gc : g.is_cycle l.head_ ms) (gsz : l.size_ = ms.length) :
    ∃ g', l.reverse g = some g' ∧ g'.is_cycle l.head_ ms.reverse ∧
      ∀ x, g'.next x = (if x ∈ l.head_ :: ms then g.prev x else g.next x) ∧
        g'.prev x = (if x ∈ l.head_ :: ms then g.next x else g.prev x) := by
  unfold list_obj.reverse
  by_cases hz : l.size_ = 0
  · have hnil : ms = [] := List.eq_nil_of_length_eq_zero (by omega)
    subst hnil
    simp only [hz, if_true]
    refine ⟨g, rfl, gc, ?_⟩
    intro x
    have := gc.2
    simp only [dllist_links.linked] at this
    by_cases hx : x = l.head_
    · subst hx; simp [this.1, this.2]
    · simp [hx]
  · simp only [hz, if_false]
    have hloop := list_obj.reverse_loop_spec l.head_ (l.size_ + 1) g l.head_ ms
      (g.linked_next_chain _ _ _ gc.2) gc.1 (List.nodup_cons.mp gc.1).1 (by omega)
    have hval := g.foldl_swap_links (l.head_ :: ms) gc.1
    refine ⟨_, hloop, ⟨?_, ?_⟩, hval⟩
    · have := gc.1
      simp only [List.nodup_cons, List.mem_reverse, List.nodup_reverse] at this ⊢
      exact this
    · refine g.linked_reversed _ l.head_ ms l.head_ ?_ ?_ gc.2
      · intro x hx
        have hm : x ∈ l.head_ :: ms := by
          simp only [List.mem_append, List.mem_singleton, List.mem_cons] at hx ⊢
          tauto
        rw [(hval x).1, if_pos hm]
      · intro x hx
        rw [(hval x).2, if_pos hx]

/-- C28: for every list whose sentinel and nodes `ns` form a well-formed cycle with `size_`
counting the nodes, `reverse()` ends and leaves `size_` as it is (no statement assigns it); the
nodes then form the cycle of `ns` read backwards, so the forward traversal is the previous one
reversed, and the links of all other nodes are untouched; applying `reverse()` again gives back
the links, and with them the sequence, of before. -/
theorem list_reverse_reverses_traversal (l : list_obj) (h : dllist_links) (ns : List Nat)
    (hl : l.wf h ns) :
    ∃ h', l.reverse h = some h' ∧ l.wf h' ns.reverse ∧
      h'.traverse l.head_ l.size_ (h'.next l.head_) =
        (h.traverse l.head_ l.size_ (h.next l.head_)).reverse ∧
      (∀ x, x ∉ l.head_ :: ns → h'.next x = h.next x ∧ h'.prev x = h.prev x) ∧
      ∃ h'', l.reverse h' = some h'' ∧ h''.next = h.next ∧ h''.prev = h.prev ∧
        h''.traverse l.head_ l.size_ (h''.next l.head_) =
          h.traverse l.head_ l.size_ (h.next l.head_) := by
  obtain ⟨hc, hsz⟩ := hl
  have key := fun (g : dllist_links) (ms : List Nat) (gc : g.is_cycle l.head_ ms)
      (gsz : l.size_ = ms.length) => list_obj.reverse_links l g ms gc gsz
  obtain ⟨h', hr, hc', hv'⟩ := key h ns hc hsz
  obtain ⟨h'', hr', hc'', hv''⟩ := key h' ns.reverse hc' (by simpa using hsz)
  have hmem : ∀ x, x ∈ l.head_ :: ns.reverse ↔ x ∈ l.head_ :: ns := by
    intro x; simp
  have hnext : h''.next = h.next := by
    funext x
    rw [(hv'' x).1, (hv' x).2, (hv' x).1]
    by_cases hx : x ∈ l.head_ :: ns
    · rw [if_pos ((hmem x).mpr hx), if_pos hx]
    · rw [if_neg (fun e => hx ((hmem x).mp e)), if_neg hx]
  have hprev : h''.prev = h.prev := by
    funext x
    rw [(hv'' x).2, (hv' x).1, (hv' x).2]
    by_cases hx : x ∈ l.head_ :: ns
    · rw [if_pos ((hmem x).mpr hx), if_pos hx]
    · rw [if_neg (fun e => hx ((hmem x).mp e)), if_neg hx]
  have ht := hc.traverse
  have ht' := hc'.traverse
  rw [List.length_reverse] at ht'
  rw [← hsz] at ht ht'
  refine ⟨h', hr, ⟨hc', by simpa using hsz⟩, by rw [ht, ht'], ?_, h'', hr', hnext, hprev, ?_⟩
  · intro x hx
    rw [(hv' x).1, (hv' x).2, if_neg hx, if_neg hx]
    exact ⟨rfl, rfl⟩
  · have ht'' := hc''.traverse
    rw [List.length_reverse, List.length_reverse, ← hsz, List.reverse_reverse] at ht''
    rw [ht'', ht]

theorem list_reverse_reverses_traversal_witness :
    ∃ h', list_obj.reverse ⟨0, 3, 0⟩
        ⟨fun x => if x = 0 then 5 else if x = 5 then 7 else if x = 7 then 6 else 0,
          fun x => if x = 0 then 6 else if x = 6 then 7 else if x = 7 then 5 else 0⟩ =
        some h' ∧
      h'.traverse 0 3 (h'.next 0) = [6, 7, 5] :=
  have ⟨h', h1, _, h3, _⟩ := list_reverse_reverses_traversal ⟨0, 3, 0⟩
    ⟨fun x => if x = 0 then 5 else if x = 5 then 7 else if x = 7 then 6 else 0,
      fun x => if x = 0 then 6 else if x = 6 then 7 else if x = 7 then 5 else 0⟩ [5, 7, 6]
    ⟨⟨by decide, by simp [dllist_links.linked]⟩, rfl⟩
  ⟨h', h1, h3.trans (by decide)⟩

/-! ## `swap` at the level of the links -/

theorem dllist_links.linked_getLast (h : dllist_links) (a : Nat) (ns : List Nat) (b : Nat)
    (hl : h.linked a ns b) : (a :: ns).getLast? = some (h.prev b) := by
  induction ns generalizing a with
  | nil => simp only [dllist_links.linked] at hl; simp [hl.2]
  | cons n ns ih =>
    simp only [dllist_links.linked] at hl
    rw [List.getLast?_cons_cons]
    exact ih n hl.2.2

theorem dllist_links.linked_retarget (h h' : dllist_links) (n : Nat) (rest : List Nat)
    (a a' last : Nat) (hl : h.linked n rest a) (hnd : (n :: rest).Nodup)
    (hlast : (n :: rest).getLast? = some last) (h1 : h'.next last = a')
    (h2 : h'.prev a' = last) (hn : ∀ x ∈ n :: rest, x ≠ last → h'.next x = h.next x)
    (hp : ∀ x ∈ rest, h'.prev x = h.prev x) : h'.linked n rest a' := by
  induction rest generalizing n with
  | nil =>
    simp only [List.getLast?_singleton, Option.some.injEq] at hlast
    subst hlast
    exact ⟨h1, h2⟩
  | cons m rest ih =>
    simp only [dllist_links.linked] at hl ⊢
    rw [List.getLast?_cons_cons] at hlast
    obtain ⟨hnm, hnd'⟩ := List.nodup_cons.mp hnd
    have hlm : last ∈ m :: rest := List.mem_of_getLast?_eq_some hlast
    have hnl : n ≠ last := fun e => hnm (e ▸ hlm)
    refine ⟨by rw [hn n (by simp) hnl]; exact hl.1, by rw [hp m (by simp)]; exact hl.2.1, ?_⟩
    exact ih m hl.2.2 hnd' hlast (fun x hx => hn x (List.mem_cons_of_mem _ hx))
      (fun x hx => hp x (List.mem_cons_of_mem _ hx))

theorem dllist_links.is_cycle_retarget (h h' : dllist_links) (a a' n : Nat) (rest : List Nat)
    (hc : h.is_cycle a (n :: rest)) (ha' : a' ∉ n :: rest) (h0 : h'.next a' = n)
    (h0' : h'.prev n = a') (h1 : h'.next (h.prev a) = a') (h2 : h'.prev a' = h.prev a)
    (hn : ∀ x ∈ n :: rest, x ≠ h.prev a → h'.next x = h.next x)
    (hp : ∀ x ∈ rest, h'.prev x = h.prev x) : h'.is_cycle a' (n :: rest) := by
  obtain ⟨hnd, hl⟩ := hc
  have hlast := h.linked_getLast a (n :: rest) a hl
  rw [List.getLast?_cons_cons] at hlast
  simp only [dllist_links.linked] at hl
  refine ⟨List.nodup_cons.mpr ⟨ha', (List.nodup_cons.mp hnd).2⟩, ?_⟩
  simp only [dllist_links.linked]
  exact ⟨h0, h0', h.linked_retarget h' n rest a a' _ hl.2.2 (List.nodup_cons.mp hnd).2 hlast
    h1 h2 hn hp⟩

theorem dllist_links.is_cycle_nil (h : dllist_links) (a : Nat) :
    h.is_cycle a [] ↔ h.next a = a ∧ h.prev a = a := by
  simp [dllist_links.is_cycle, dllist_links.linked]

theorem dllist_links.is_cycle.ends {h : dllist_links} {a n : Nat} {rest : List Nat}
    (hc : h.is_cycle a (n :: rest)) :
    h.next a = n ∧ h.prev n = a ∧ h.prev a ∈ n :: rest ∧ h.next (h.prev a) = a ∧
      (rest ≠ [] → h.prev a ∈ rest) := by
  have hlast := h.linked_getLast a (n :: rest) a hc.2
  rw [List.getLast?_cons_cons] at hlast
  have hm := List.mem_of_getLast?_eq_some hlast
  have hinv := hc.inverse a (by simp)
  have := hc.2
  simp only [dllist_links.linked] at this
  refine ⟨this.1, this.2.1, hm, hinv.2, ?_⟩
  intro hne
  cases rest with
  | nil => exact absurd rfl hne
  | cons m rest =>
    rw [List.getLast?_cons_cons] at hlast
    exact List.mem_of_getLast?_eq_some hlast

theorem list_obj.steal_data_links (self other : list_obj) (h : dllist_links)
    (hz : other.size_ ≠ 0) (h1 : h.next other.head_ ≠ other.head_)
    (h2 : h.next other.head_ ≠ self.head_) (x : Nat) :
    (self.steal_data other h).1.next x =
        (if x = other.head_ then other.head_
          else if x = h.prev other.head_ then self.head_
          else if x = self.head_ then h.next other.head_ else h.next x) ∧
      (self.steal_data other h).1.prev x =
        (if x = other.head_ then other.head_
          else if x = self.head_ then h.prev other.head_
          else if x = h.next other.head_ then self.head_ else h.prev x) := by
  unfold list_obj.steal_data dllist_links.make_cycle
  simp only [hz, if_false, dllist_links.set_next_next, dllist_links.set_prev_prev,
    dllist_links.set_next_prev, dllist_links.set_prev_next, if_true, Ne.symm h1,
    Ne.symm h2, h1, h2, and_self]

theorem list_obj.swap_impl_links (self other : list_obj) (h : dllist_links)
    (hzs : self.size_ ≠ 0) (hzo : other.size_ ≠ 0) (h5 : self.head_ ≠ other.head_)
    (a1 : h.next self.head_ ≠ self.head_) (a2 : h.next self.head_ ≠ other.head_)
    (a3 : h.prev self.head_ ≠ self.head_) (a4 : h.prev self.head_ ≠ other.head_)
    (b1 : h.next other.head_ ≠ other.head_) (b2 : h.next other.head_ ≠ self.head_)
    (b3 : h.prev other.head_ ≠ other.head_) (b4 : h.prev other.head_ ≠ self.head_)
    (x : Nat) :
    (self.swap_impl other h).1.next x =
        (if x = h.prev self.head_ then h.next (h.prev other.head_)
          else if x = h.prev other.head_ then h.next (h.prev self.head_)
          else if x = other.head_ then h.next self.head_
          else if x = self.head_ then h.next other.head_ else h.next x) ∧
      (self.swap_impl other h).1.prev x =
        (if x = h.next self.head_ then h.prev (h.next other.head_)
          else if x = h.next other.head_ then h.prev (h.next self.head_)
          else if x = other.head_ then h.prev self.head_
          else if x = self.head_ then h.prev other.head_ else h.prev x) := by
  unfold list_obj.swap_impl dllist_links.swap_next dllist_links.swap_prev
  simp only [hzs, hzo, if_false, if_true, ne_eq, not_false_eq_true, dllist_links.set_next_next,
    dllist_links.set_prev_prev, dllist_links.set_next_prev, dllist_links.set_prev_next, h5,
    Ne.symm h5, a1, a2, a3, a4, b1, b2, b3, b4, Ne.symm a1, Ne.symm a2, Ne.symm a3,
    Ne.symm a4, Ne.symm b1, Ne.symm b2, Ne.symm b3, Ne.symm b4, and_self]

theorem list_obj.swap_impl_links_empty (self other : list_obj) (h : dllist_links)
    (hzs : self.size_ ≠ 0) (hzo : other.size_ = 0)
    (a4 : h.prev self.head_ ≠ other.head_) (b1 : h.next other.head_ = other.head_)
    (x : Nat) :
    (self.swap_impl other h).1.next x =
        (if x = self.head_ then self.head_
          else if x = other.head_ then h.next self.head_
          else if x = h.prev self.head_ then other.head_ else h.next x) ∧
      (self.swap_impl other h).1.prev x =
        (if x = self.head_ then self.head_
          else if x = other.head_ then h.prev self.head_
          else if x = h.next self.head_ then other.head_ else h.prev x) := by
  unfold list_obj.swap_impl dllist_links.insert_after dllist_links.make_cycle
  simp only [hzs, hzo, if_false, if_true, ne_eq, not_true_eq_false, dllist_links.set_next_next,
    dllist_links.set_prev_prev, dllist_links.set_next_prev, dllist_links.set_prev_next,
    a4, b1, Ne.symm a4, and_self]

theorem list_obj.swap_impl_spec (self other : list_obj) (h : dllist_links)
    (nsA nsB : List Nat) (hA : self.wf h nsA) (hB : other.wf h nsB)
    (hd : ∀ x ∈ self.head_ :: nsA, x ∉ other.head_ :: nsB) :
    (self.swap_impl other h).2.1.wf (self.swap_impl other h).1 nsB ∧
      (self.swap_impl other h).2.2.wf (self.swap_impl other h).1 nsA ∧
      (self.swap_impl other h).2.1.head_ = self.head_ ∧
      (self.swap_impl other h).2.2.head_ = other.head_ ∧
      (self.swap_impl other h).2.1.alloc = self.alloc ∧
      (self.swap_impl other h).2.2.alloc = other.alloc := by
  obtain ⟨hcA, hsA⟩ := hA
  obtain ⟨hcB, hsB⟩ := hB
  have hAB : self.head_ ≠ other.head_ := fun e => hd self.head_ (by simp) (by simp [e])
  have memA : ∀ x ∈ nsA, x ≠ self.head_ ∧ x ≠ other.head_ ∧ x ∉ nsB := by
    intro x hx
    have h1 := hd x (List.mem_cons_of_mem _ hx)
    simp only [List.mem_cons, not_or] at h1
    refine ⟨fun e => (List.nodup_cons.mp hcA.1).1 (e ▸ hx), h1.1, h1.2⟩
  have memB : ∀ x ∈ nsB, x ≠ other.head_ ∧ x ≠ self.head_ ∧ x ∉ nsA := by
    intro x hx
    refine ⟨fun e => (List.nodup_cons.mp hcB.1).1 (e ▸ hx), ?_, ?_⟩
    · intro e
      exact hd self.head_ (by simp) (by simp [← e, hx])
    · intro hxa
      exact hd x (List.mem_cons_of_mem _ hxa) (List.mem_cons_of_mem _ hx)
  cases nsA with
  | nil =>
    have hzs : self.size_ = 0 := hsA
    have e : self.swap_impl other h = self.steal_data other h := by
      unfold list_obj.swap_impl
      simp only [hzs, if_true]
    rw [e]
    cases nsB with
    | nil =>
      have hzo : other.size_ = 0 := hsB
      have hres : self.steal_data other h = (h, self, other) := by
        unfold list_obj.steal_data
        simp only [hzo, if_true]
      rw [hres]
      exact ⟨⟨hcA, hzs⟩, ⟨hcB, hzo⟩, rfl, rfl, rfl, rfl⟩
    | cons b1 restB =>
      have hzo : other.size_ ≠ 0 := by rw [hsB]; simp
      obtain ⟨eb1, eb2, eb3, eb4, _⟩ := hcB.ends
      have hb1 := memB b1 (by simp)
      have hbm := memB _ eb3
      have L := list_obj.steal_data_links self other h hzo (by rw [eb1]; exact hb1.1)
        (by rw [eb1]; exact hb1.2.1)
      have hres : (self.steal_data other h).2 =
          (⟨self.head_, other.size_, self.alloc⟩, ⟨other.head_, 0, other.alloc⟩) := by
        unfold list_obj.steal_data
        simp only [hzo, if_false]
      rw [hres]
      refine ⟨⟨?_, hsB⟩, ⟨?_, rfl⟩, rfl, rfl, rfl, rfl⟩
      · refine h.is_cycle_retarget _ other.head_ self.head_ b1 restB hcB
          (fun hm => (memB _ hm).2.1 rfl) ?_ ?_ ?_ ?_ ?_ ?_
        · rw [(L _).1]; simp [hAB, Ne.symm hbm.2.1, eb1]
        · rw [(L _).2]; simp [hb1.1, hb1.2.1, eb1]
        · rw [(L _).1]; simp [hbm.1]
        · rw [(L _).2]; simp [hAB]
        · intro x hx hne
          rw [(L _).1]; simp [(memB x hx).1, (memB x hx).2.1, hne]
        · intro x hx
          have hxb : x ≠ b1 := fun e =>
            (List.nodup_cons.mp (List.nodup_cons.mp hcB.1).2).1 (e ▸ hx)
          have hm := memB x (List.mem_cons_of_mem _ hx)
          rw [(L _).2]; simp [hm.1, hm.2.1, eb1, hxb]
      · rw [dllist_links.is_cycle_nil, (L _).1, (L _).2]
        simp
  | cons a1 restA =>
    have hzs : self.size_ ≠ 0 := by rw [hsA]; simp
    obtain ⟨ea1, ea2, ea3, ea4, _⟩ := hcA.ends
    have ha1 := memA a1 (by simp)
    have hak := memA _ ea3
    cases nsB with
    | nil =>
      have hzo : other.size_ = 0 := hsB
      have hBn := (h.is_cycle_nil other.head_).mp hcB
      have L := list_obj.swap_impl_links_empty self other h hzs hzo hak.2.1 hBn.1
      have hres : (self.swap_impl other h).2 =
          (⟨self.head_, 0, self.alloc⟩, ⟨other.head_, self.size_, other.alloc⟩) := by
        unfold list_obj.swap_impl
        simp only [hzs, hzo, if_false, ne_eq, not_true_eq_false]
      rw [hres]
      refine ⟨⟨?_, rfl⟩, ⟨?_, hsA⟩, rfl, rfl, rfl, rfl⟩
      · rw [dllist_links.is_cycle_nil, (L _).1, (L _).2]
        simp
      · refine h.is_cycle_retarget _ self.head_ other.head_ a1 restA hcA
          (fun hm => (memA _ hm).2.1 rfl) ?_ ?_ ?_ ?_ ?_ ?_
        · rw [(L _).1]; simp [Ne.symm hAB, ea1]
        · rw [(L _).2]; simp [ha1.1, ha1.2.1, ea1]
        · rw [(L _).1]; simp [hak.1, hak.2.1]
        · rw [(L _).2]; simp [Ne.symm hAB]
        · intro x hx hne
          rw [(L _).1]; simp [(memA x hx).1, (memA x hx).2.1, hne]
        · intro x hx
          have hxa : x ≠ a1 := fun e =>
            (List.nodup_cons.mp (List.nodup_cons.mp hcA.1).2).1 (e ▸ hx)
          have hm := memA x (List.mem_cons_of_mem _ hx)
          rw [(L _).2]; simp [hm.1, hm.2.1, ea1, hxa]
    | cons b1 restB =>
      have hzo : other.size_ ≠ 0 := by rw [hsB]; simp
      obtain ⟨eb1, eb2, eb3, eb4, _⟩ := hcB.ends
      have hb1 := memB b1 (by simp)
      have hbm := memB _ eb3
      have L := list_obj.swap_impl_links self other h hzs hzo hAB
        (by rw [ea1]; exact ha1.1) (by rw [ea1]; exact ha1.2.1) hak.1 hak.2.1
        (by rw [eb1]; exact hb1.1) (by rw [eb1]; exact hb1.2.1) hbm.1 hbm.2.1
      have hres : (self.swap_impl other h).2 =
          (⟨self.head_, other.size_, self.alloc⟩, ⟨other.head_, self.size_, other.alloc⟩) := by
        unfold list_obj.swap_impl
        simp only [hzs, hzo, if_false, ne_eq, not_false_eq_true, if_true]
      have hab : ∀ x ∈ a1 :: restA, ∀ y ∈ b1 :: restB, x ≠ y := by
        intro x hx y hy e
        exact (memA x hx).2.2 (e ▸ hy)
      rw [hres]
      refine ⟨⟨?_, hsB⟩, ⟨?_, hsA⟩, rfl, rfl, rfl, rfl⟩
      · refine h.is_cycle_retarget _ other.head_ self.head_ b1 restB hcB
          (fun hm => (memB _ hm).2.1 rfl) ?_ ?_ ?_ ?_ ?_ ?_
        · rw [(L _).1]; simp [Ne.symm hak.1, Ne.symm hbm.2.1, hAB, eb1]
        · rw [(L _).2]; simp [ea1, eb1, Ne.symm (hab a1 (by simp) b1 (by simp)), ea2]
        · rw [(L _).1]; simp [Ne.symm (hab _ ea3 _ eb3), ea4]
        · rw [(L _).2]; simp [ea1, eb1, Ne.symm ha1.1, Ne.symm hb1.2.1, hAB]
        · intro x hx hne
          rw [(L _).1]
          simp [Ne.symm (hab _ ea3 x hx), hne, (memB x hx).1, (memB x hx).2.1]
        · intro x hx
          have hxb : x ≠ b1 := fun e =>
            (List.nodup_cons.mp (List.nodup_cons.mp hcB.1).2).1 (e ▸ hx)
          have hm := memB x (List.mem_cons_of_mem _ hx)
          rw [(L _).2]
          simp [ea1, eb1, Ne.symm (hab a1 (by simp) x (List.mem_cons_of_mem _ hx)), hxb, hm.1,
            hm.2.1]
      · refine h.is_cycle_retarget _ self.head_ other.head_ a1 restA hcA
          (fun hm => (memA _ hm).2.1 rfl) ?_ ?_ ?_ ?_ ?_ ?_
        · rw [(L _).1]; simp [Ne.symm hak.2.1, Ne.symm hbm.1, ea1]
        · rw [(L _).2]; simp [ea1, eb1, eb2]
        · rw [(L _).1]; simp [eb4]
        · rw [(L _).2]; simp [ea1, eb1, Ne.symm ha1.2.1, Ne.symm hb1.1]
        · intro x hx hne
          rw [(L _).1]
          simp [hne, hab x hx _ eb3, (memA x hx).1, (memA x hx).2.1]
        · intro x hx
          have hxa : x ≠ a1 := fun e =>
            (List.nodup_cons.mp (List.nodup_cons.mp hcA.1).2).1 (e ▸ hx)
          have hm := memA x (List.mem_cons_of_mem _ hx)
          rw [(L _).2]
          simp [ea1, eb1, hxa, hab x (List.mem_cons_of_mem _ hx) b1 (by simp), hm.1, hm.2.1]

/-! ## The primitives of `util_dllist.h` on a cycle -/

theorem dllist_links.insert_before_links (h : dllist_links) (pos first last x : Nat)
    (hf : first ≠ pos) :
    (h.insert_before pos first last).next x =
        (if x = h.prev pos then first else if x = last then pos else h.next x) ∧
      (h.insert_before pos first last).prev x =
        (if x = pos then last else if x = first then h.prev pos else h.prev x) := by
  unfold dllist_links.insert_before
  simp only [dllist_links.set_next, dllist_links.set_prev, Function.update_apply, hf.symm,
    if_false, true_and]

theorem dllist_links.remove_range_links (h : dllist_links) (first last x : Nat) :
    (h.remove_range first last).1.next x = (if x = h.prev first then last else h.next x) ∧
      (h.remove_range first last).1.prev x = (if x = last then h.prev first else h.prev x) := by
  unfold dllist_links.remove_range
  simp only [dllist_links.set_next, dllist_links.set_prev, Function.update_apply, true_and]

theorem dllist_links.remove_eq_remove_range (h : dllist_links) (node : Nat)
    (hn : h.next node ≠ node) :
    (h.remove node).1 = (h.remove_range node (h.next node)).1 ∧
      (h.remove node).2 = h.next node := by
  refine ⟨?_, rfl⟩
  unfold dllist_links.remove dllist_links.remove_range
  simp only [dllist_links.set_next, dllist_links.set_prev, Function.update_apply, hn.symm,
    if_false]

theorem dllist_links.linked_append (h : dllist_links) (a : Nat) (xs : List Nat) (m : Nat)
    (ys : List Nat) (b : Nat) :
    h.linked a (xs ++ m :: ys) b ↔ h.linked a xs m ∧ h.linked m ys b := by
  induction xs generalizing a with
  | nil => simp only [List.nil_append, dllist_links.linked]; tauto
  | cons x xs ih =>
    show (h.next a = x ∧ h.prev x = a ∧ h.linked x (xs ++ m :: ys) b) ↔ _
    rw [ih x]
    simp only [dllist_links.linked]
    tauto

theorem dllist_links.linked_rotate (h : dllist_links) (a : Nat) (xs : List Nat) (m : Nat)
    (ys : List Nat) :
    h.linked a (xs ++ m :: ys) a ↔ h.linked m (ys ++ a :: xs) m := by
  rw [h.linked_append, h.linked_append]
  tauto

theorem dllist_links.linked_iff_chain (h : dllist_links) (a f : Nat) (t : List Nat) (b : Nat) :
    h.linked a (f :: t) b ↔
      h.next a = f ∧ h.prev f = a ∧ h.chain f t ∧
        h.next ((f :: t).getLast (List.cons_ne_nil f t)) = b ∧
        h.prev b = (f :: t).getLast (List.cons_ne_nil f t) := by
  induction t generalizing a f with
  | nil => simp only [dllist_links.linked, dllist_links.chain, List.getLast_singleton]; tauto
  | cons n t ih =>
    show (h.next a = f ∧ h.prev f = a ∧ h.linked f (n :: t) b) ↔ _
    rw [ih f n]
    simp only [dllist_links.chain, List.getLast_cons_cons]
    tauto

theorem dllist_links.chain_congr (h h' : dllist_links) (f : Nat) (t : List Nat)
    (hn : ∀ x ∈ (f :: t).dropLast, h'.next x = h.next x) (hp : ∀ x ∈ t, h'.prev x = h.prev x)
    (hl : h.chain f t) : h'.chain f t := by
  induction t generalizing f with
  | nil => trivial
  | cons n t ih =>
    simp only [dllist_links.chain] at hl ⊢
    refine ⟨by rw [hn f (by simp)]; exact hl.1, by rw [hp n (by simp)]; exact hl.2.1, ?_⟩
    exact ih n (fun x hx => hn x (by
        rw [List.dropLast_cons₂]; exact List.mem_cons_of_mem _ hx))
      (fun x hx => hp x (List.mem_cons_of_mem _ hx)) hl.2.2

theorem dllist_links.chain_next_chain (h : dllist_links) (f : Nat) (t : List Nat)
    (hl : h.chain f t) (b : Nat)
    (hb : h.next ((f :: t).getLast (List.cons_ne_nil f t)) = b) : h.next_chain f t b := by
  induction t generalizing f with
  | nil => simpa using hb
  | cons n t ih =>
    simp only [dllist_links.chain] at hl
    exact ⟨hl.1, ih n hl.2.2 (by simpa using hb)⟩

theorem dllist_links.count_until_next_chain (h : dllist_links) (last f : Nat) (t : List Nat)
    (hl : h.next_chain f t last) (hnd : last ∉ t) (fuel : Nat) (hf : t.length < fuel) :
    h.count_until last fuel f = some (t.length + 1) := by
  induction t generalizing f fuel with
  | nil =>
    obtain ⟨k, rfl⟩ : ∃ k, fuel = k + 1 := ⟨fuel - 1, by simp at hf; omega⟩
    simp only [dllist_links.next_chain] at hl
    simp only [dllist_links.count_until, hl, if_true, List.length_nil]
  | cons n t ih =>
    obtain ⟨k, rfl⟩ : ∃ k, fuel = k + 1 := ⟨fuel - 1, by simp at hf; omega⟩
    simp only [dllist_links.next_chain] at hl
    have hne : n ≠ last := fun e => hnd (by simp [e])
    simp only [dllist_links.count_until, hl.1, hne, if_false, List.length_cons]
    rw [ih n hl.2 (fun hm => hnd (List.mem_cons_of_mem _ hm)) k
      (by simp only [List.length_cons] at hf; omega)]
    rfl

theorem dllist_links.linked_prev_last (h : dllist_links) (a : Nat) (rest : List Nat)
    (hl : h.linked a rest a) :
    h.prev a = (a :: rest).getLast (List.cons_ne_nil a rest) := by
  cases rest with
  | nil => simpa using hl.2
  | cons n ns => exact ((h.linked_iff_chain a n ns a).mp hl).2.2.2.2

theorem dllist_links.mem_dropLast_ne_getLast (l : List Nat) (hl : l ≠ []) (hnd : l.Nodup)
    (x : Nat) (hx : x ∈ l.dropLast) : x ≠ l.getLast hl := by
  intro e
  have hd := List.dropLast_append_getLast hl
  rw [← hd] at hnd
  have := (List.nodup_append.mp hnd).2.2
  exact this hx (by simp [e])

theorem dllist_links.nil_or_snoc (l : List Nat) : l = [] ∨ ∃ l' b, l = l' ++ [b] := by
  rcases List.eq_nil_or_concat l with e | ⟨l', b, e⟩
  · exact Or.inl e
  · exact Or.inr ⟨l', b, by rw [e, List.concat_eq_append]⟩

/-- Linking a row of nodes in front of `pos` in a cycle read from `pos` on appends the row to the
cycle. -/
theorem dllist_links.linked_insert_before (h : dllist_links) (pos : Nat) (rest : List Nat)
    (f : Nat) (t : List Nat) (hc : h.linked pos rest pos) (hnd : (pos :: rest).Nodup)
    (hr : h.chain f t) (hrn : (f :: t).Nodup) (hdis : ∀ x ∈ f :: t, x ∉ pos :: rest) :
    (h.insert_before pos f ((f :: t).getLast (List.cons_ne_nil f t))).linked pos
      (rest ++ f :: t) pos := by
  have hfp : f ≠ pos := fun e => hdis f (by simp) (by simp [e])
  have L := fun x => h.insert_before_links pos f ((f :: t).getLast (List.cons_ne_nil f t)) x hfp
  have hlast : (f :: t).getLast (List.cons_ne_nil f t) ∈ f :: t := List.getLast_mem _
  have hp0 := h.linked_prev_last pos rest hc
  have hp0m : h.prev pos ∈ pos :: rest := by rw [hp0]; exact List.getLast_mem _
  have hrun : (h.insert_before pos f ((f :: t).getLast (List.cons_ne_nil f t))).linked
      (h.prev pos) (f :: t) pos := by
    rw [dllist_links.linked_iff_chain]
    refine ⟨?_, ?_, ?_, ?_, ?_⟩
    · rw [(L _).1]; simp
    · rw [(L _).2]; simp [hfp]
    · refine h.chain_congr _ f t ?_ ?_ hr
      · intro x hx
        have hxm : x ∈ f :: t := List.dropLast_subset _ hx
        have h1 : x ≠ h.prev pos := fun e => hdis x hxm (e ▸ hp0m)
        have h2 := dllist_links.mem_dropLast_ne_getLast (f :: t) (List.cons_ne_nil f t) hrn x hx
        rw [(L _).1]; simp [h1, h2]
      · intro x hx
        have h1 : x ≠ pos := fun e => hdis x (List.mem_cons_of_mem _ hx) (by simp [e])
        have h2 : x ≠ f := fun e => (List.nodup_cons.mp hrn).1 (e ▸ hx)
        rw [(L _).2]; simp [h1, h2]
    · have h1 : (f :: t).getLast (List.cons_ne_nil f t) ≠ h.prev pos :=
        fun e => hdis _ hlast (e ▸ hp0m)
      rw [(L _).1]; simp [h1]
    · rw [(L _).2]; simp
  rcases dllist_links.nil_or_snoc rest with rfl | ⟨rest', p0, rfl⟩
  · have e0 : h.prev pos = pos := by simpa using hp0
    rw [e0] at hrun
    simpa using hrun
  · rw [dllist_links.linked_snoc] at hc
    have e0 : h.prev pos = p0 := hc.2.2
    rw [e0] at hrun
    rw [List.append_assoc, List.singleton_append, dllist_links.linked_append]
    refine ⟨?_, hrun⟩
    refine h.linked_congr _ pos rest' p0 ?_ ?_ hc.1
    · intro x hx
      have hxm : x ∈ pos :: (rest' ++ [p0]) := by
        simp only [List.mem_cons, List.mem_append, List.mem_singleton] at hx ⊢; tauto
      have h1 : x ≠ h.prev pos := by
        rw [e0]
        intro e
        rw [← List.cons_append] at hnd
        exact (List.nodup_append.mp hnd).2.2 hx (by simp [e])
      have h2 : x ≠ (f :: t).getLast (List.cons_ne_nil f t) := fun e => hdis _ hlast (e ▸ hxm)
      rw [(L _).1]; simp [h1, h2]
    · intro x hx
      have hxm : x ∈ rest' ++ [p0] := by
        simp only [List.mem_append, List.mem_singleton] at hx ⊢; tauto
      have h1 : x ≠ pos := fun e => (List.nodup_cons.mp hnd).1 (e ▸ hxm)
      have h2 : x ≠ f := fun e => hdis f (by simp) (List.mem_cons_of_mem _ (e ▸ hxm))
      rw [(L _).2]; simp [h1, h2]

/-- Unlinking the row of nodes in front of `last` from a cycle read from `last` on takes the row
off the end of the cycle; the row stays linked within, and its last node still points to
`last`. -/
theorem dllist_links.linked_remove_range (h : dllist_links) (last : Nat) (rest : List Nat)
    (f : Nat) (t : List Nat) (hc : h.linked last (rest ++ f :: t) last)
    (hnd : (last :: (rest ++ f :: t)).Nodup) :
    (h.remove_range f last).1.linked last rest last ∧ (h.remove_range f last).1.chain f t ∧
      (h.remove_range f last).1.next ((f :: t).getLast (List.cons_ne_nil f t)) = last ∧
      (h.remove_range f last).2 = (f :: t).getLast (List.cons_ne_nil f t) := by
  have L := fun x => h.remove_range_links f last x
  rw [dllist_links.linked_append] at hc
  obtain ⟨hc1, hc2⟩ := hc
  have hdec : h.chain f t ∧ h.next ((f :: t).getLast (List.cons_ne_nil f t)) = last ∧
      h.prev last = (f :: t).getLast (List.cons_ne_nil f t) := by
    cases t with
    | nil => simpa [dllist_links.chain, dllist_links.linked] using hc2
    | cons n t =>
      have := (h.linked_iff_chain f n t last).mp hc2
      simp only [dllist_links.chain, List.getLast_cons_cons]
      exact ⟨⟨this.1, this.2.1, this.2.2.1⟩, this.2.2.2.1, this.2.2.2.2⟩
  have hlast : (f :: t).getLast (List.cons_ne_nil f t) ∈ f :: t := List.getLast_mem _
  have hrd : ∀ x ∈ f :: t, x ∉ last :: rest := by
    intro x hx hm
    rw [← List.cons_append] at hnd
    exact (List.nodup_append.mp hnd).2.2 hm hx
  have hp0m : h.prev f ∈ last :: rest := by
    rcases dllist_links.nil_or_snoc rest with rfl | ⟨rest', p0, rfl⟩
    · simp only [dllist_links.linked] at hc1
      simp [hc1.2]
    · rw [dllist_links.linked_snoc] at hc1
      simp [hc1.2.2]
  refine ⟨?_, ?_, ?_, ?_⟩
  · rcases dllist_links.nil_or_snoc rest with rfl | ⟨rest', p0, rfl⟩
    · simp only [dllist_links.linked] at hc1 ⊢
      rw [(L _).1, (L _).2]
      simp [hc1.2]
    · rw [dllist_links.linked_snoc] at hc1 ⊢
      refine ⟨?_, ?_, ?_⟩
      · refine h.linked_congr _ last rest' p0 ?_ ?_ hc1.1
        · intro x hx
          have h1 : x ≠ h.prev f := by
            rw [hc1.2.2]
            intro e
            have hn2 : (last :: rest' ++ [p0]).Nodup := by
              have := (List.nodup_append.mp (by rw [← List.cons_append] at hnd; exact hnd)).1
              simpa using this
            exact (List.nodup_append.mp hn2).2.2 hx (by simp [e])
          rw [(L _).1]; simp [h1]
        · intro x hx
          have hxm : x ∈ rest' ++ [p0] := by
            simp only [List.mem_append, List.mem_singleton] at hx ⊢; tauto
          have h1 : x ≠ last := by
            intro e
            have := (List.nodup_cons.mp hnd).1
            exact this (by rw [← e]; exact List.mem_append_left _ hxm)
          rw [(L _).2]; simp [h1]
      · rw [(L _).1]; simp [hc1.2.2]
      · rw [(L _).2]; simp [hc1.2.2]
  · refine h.chain_congr _ f t ?_ ?_ hdec.1
    · intro x hx
      have hxm : x ∈ f :: t := List.dropLast_subset _ hx
      have h1 : x ≠ h.prev f := fun e => hrd x hxm (e ▸ hp0m)
      rw [(L _).1]; simp [h1]
    · intro x hx
      have h1 : x ≠ last := fun e => hrd x (List.mem_cons_of_mem _ hx) (by simp [e])
      rw [(L _).2]; simp [h1]
  · have h1 : (f :: t).getLast (List.cons_ne_nil f t) ≠ h.prev f :=
      fun e => hrd _ hlast (e ▸ hp0m)
    rw [(L _).1]; simp [h1, hdec.2.1]
  · exact hdec.2.2

theorem dllist_links.nodup_insert (a r c : List Nat) (hac : (a ++ c).Nodup) (hr : r.Nodup)
    (hd : ∀ x ∈ r, x ∉ a ++ c) : (a ++ r ++ c).Nodup := by
  have hp : (a ++ r ++ c).Perm (r ++ (a ++ c)) := by
    rw [List.append_assoc]
    exact (List.perm_append_comm_assoc a r c)
  rw [hp.nodup_iff, List.nodup_append]
  exact ⟨hr, hac, fun x hx hx' => hd x hx hx'⟩

theorem dllist_links.nodup_remove (a r c : List Nat) (h : (a ++ r ++ c).Nodup) :
    (a ++ c).Nodup ∧ r.Nodup ∧ ∀ x ∈ r, x ∉ a ++ c := by
  have hp : (a ++ r ++ c).Perm (r ++ (a ++ c)) := by
    rw [List.append_assoc]
    exact (List.perm_append_comm_assoc a r c)
  rw [hp.nodup_iff, List.nodup_append] at h
  exact ⟨h.2.1, h.1, fun x hx hx' => h.2.2 hx hx'⟩

theorem dllist_links.is_cycle_frame (h h' : dllist_links) (head : Nat) (ns : List Nat)
    (hc : h.is_cycle head ns)
    (hn : ∀ x ∈ head :: ns, h'.next x = h.next x ∧ h'.prev x = h.prev x) :
    h'.is_cycle head ns := by
  refine ⟨hc.1, h.linked_congr h' head ns head (fun x hx => (hn x hx).1) ?_ hc.2⟩
  intro x hx
  refine (hn x ?_).2
  simp only [List.mem_append, List.mem_singleton, List.mem_cons] at hx ⊢
  tauto

/-- Linking a row of nodes that are not in the cycle in front of a node `pos` of a cycle (the
first node of `ys`, or the sentinel when `ys` is empty) makes the cycle with the row in that
place. -/
theorem dllist_links.is_cycle_insert_before (h : dllist_links) (head : Nat) (xs ys : List Nat)
    (f : Nat) (t : List Nat) (hc : h.is_cycle head (xs ++ ys)) (hr : h.chain f t)
    (hrn : (f :: t).Nodup) (hdis : ∀ x ∈ f :: t, x ∉ head :: (xs ++ ys)) :
    (h.insert_before (ys.headD head) f ((f :: t).getLast (List.cons_ne_nil f t))).is_cycle head
      (xs ++ f :: t ++ ys) := by
  constructor
  · have h1 := dllist_links.nodup_insert (head :: xs) (f :: t) ys hc.1 hrn hdis
    simpa using h1
  · cases ys with
    | nil =>
      have hl := hc.2
      simp only [List.append_nil, List.headD_nil] at hl hdis hc ⊢
      exact h.linked_insert_before head xs f t hl hc.1 hr hrn hdis
    | cons p ys =>
      simp only [List.headD_cons]
      have hl := (h.linked_rotate head xs p ys).mp hc.2
      have hnd : (p :: (ys ++ head :: xs)).Nodup := by
        have hp : (p :: (ys ++ head :: xs)).Perm (head :: (xs ++ p :: ys)) := by
          rw [← List.cons_append, ← List.cons_append]
          exact List.perm_append_comm
        exact hp.nodup_iff.mpr hc.1
      have hd2 : ∀ x ∈ f :: t, x ∉ p :: (ys ++ head :: xs) := by
        intro x hx hm
        refine hdis x hx ?_
        simp only [List.mem_cons, List.mem_append] at hm ⊢
        tauto
      have := h.linked_insert_before p (ys ++ head :: xs) f t hl hnd hr hrn hd2
      rw [List.append_assoc, List.cons_append] at this
      rw [dllist_links.linked_rotate]
      exact this

/-- Unlinking the nodes `f :: t` of a cycle, up to the node `last` that follows them (the first
node of `ys`, or the sentinel when `ys` is empty), leaves the cycle of the other nodes; the
unlinked nodes stay linked in a row that still points to `last`, and the returned node is the
last of them. -/
theorem dllist_links.is_cycle_remove_range (h : dllist_links) (head : Nat) (xs : List Nat)
    (f : Nat) (t ys : List Nat) (hc : h.is_cycle head (xs ++ f :: t ++ ys)) :
    (h.remove_range f (ys.headD head)).1.is_cycle head (xs ++ ys) ∧
      (h.remove_range f (ys.headD head)).1.chain f t ∧
      (h.remove_range f (ys.headD head)).1.next ((f :: t).getLast (List.cons_ne_nil f t)) =
        ys.headD head ∧
      (h.remove_range f (ys.headD head)).2 = (f :: t).getLast (List.cons_ne_nil f t) := by
  have hn := dllist_links.nodup_remove (head :: xs) (f :: t) ys hc.1
  cases ys with
  | nil =>
    have hl := hc.2
    simp only [List.append_nil, List.headD_nil] at hl hc ⊢
    obtain ⟨r1, r2, r3, r4⟩ := h.linked_remove_range head xs f t hl hc.1
    exact ⟨⟨by simpa using hn.1, r1⟩, r2, r3, r4⟩
  | cons p ys =>
    simp only [List.headD_cons]
    have hl := (h.linked_rotate head (xs ++ f :: t) p ys).mp hc.2
    have hl' : h.linked p ((ys ++ head :: xs) ++ f :: t) p := by
      rw [List.append_assoc, List.cons_append]; exact hl
    have hnd : (p :: ((ys ++ head :: xs) ++ f :: t)).Nodup := by
      have hp : (p :: ((ys ++ head :: xs) ++ f :: t)).Perm (head :: (xs ++ f :: t ++ p :: ys)) := by
        have e1 : p :: ((ys ++ head :: xs) ++ f :: t) = (p :: ys) ++ (head :: xs ++ f :: t) := by
          simp
        have e2 : head :: (xs ++ f :: t ++ p :: ys) = (head :: xs ++ f :: t) ++ (p :: ys) := by
          simp
        rw [e1, e2]
        exact List.perm_append_comm
      exact hp.nodup_iff.mpr hc.1
    obtain ⟨r1, r2, r3, r4⟩ := h.linked_remove_range p (ys ++ head :: xs) f t hl' hnd
    refine ⟨⟨by simpa using hn.1, ?_⟩, r2, r3, r4⟩
    rw [dllist_links.linked_rotate]
    exact r1

theorem dllist_links.mem_split_headD (head pos : Nat) (ms : List Nat)
    (hp : pos ∈ head :: ms) (hh : head ∉ ms) :
    ∃ a b, ms = a ++ b ∧ pos = b.headD head ∧ (pos = head → b = []) := by
  rcases List.mem_cons.mp hp with e | hm
  · exact ⟨ms, [], by simp, by simp [e], fun _ => rfl⟩
  · obtain ⟨a, b, e⟩ := List.append_of_mem hm
    refine ⟨a, pos :: b, e, by simp, ?_⟩
    intro e'
    exact absurd (e' ▸ hm) hh

theorem dllist_links.is_cycle.next_mem {h : dllist_links} {head : Nat} {ns : List Nat}
    (hc : h.is_cycle head ns) (x : Nat) (hx : x ∈ head :: ns) :
    h.next x ∈ head :: ns ∧ h.prev x ∈ head :: ns := by
  rcases List.mem_cons.mp hx with rfl | hm
  · cases ns with
    | nil =>
      have := (h.is_cycle_nil x).mp hc
      simp [this.1, this.2]
    | cons n rest =>
      obtain ⟨e1, _, e3, _⟩ := hc.ends
      exact ⟨by rw [e1]; simp, List.mem_cons_of_mem _ e3⟩
  · obtain ⟨a, b, e⟩ := List.append_of_mem hm
    subst e
    have hl := (h.linked_append head a x b head).mp hc.2
    constructor
    · cases b with
      | nil => simp [hl.2.1]
      | cons m b => simp [hl.2.1]
    · rcases dllist_links.nil_or_snoc a with rfl | ⟨a', p0, rfl⟩
      · simp [hl.1.2]
      · have := (h.linked_snoc head a' p0 x).mp hl.1
        simp [this.2.2]

theorem dllist_links.headD_mem (head : Nat) (a b : List Nat) :
    b.headD head ∈ head :: (a ++ b) := by
  cases b with
  | nil => simp
  | cons p b => simp

/-- A cycle none of whose nodes is `pos`, the node in front of it or a node of the row is left
as it is when the row is linked in front of `pos`. -/
theorem dllist_links.is_cycle_frame_insert_before (h : dllist_links) (head : Nat)
    (ns : List Nat) (pos f last : Nat) (hc : h.is_cycle head ns) (hf : f ≠ pos)
    (hn : ∀ x ∈ head :: ns, x ≠ h.prev pos ∧ x ≠ last ∧ x ≠ pos ∧ x ≠ f) :
    (h.insert_before pos f last).is_cycle head ns := by
  refine h.is_cycle_frame _ head ns hc ?_
  intro x hx
  obtain ⟨h1, h2, h3, h4⟩ := hn x hx
  rw [(h.insert_before_links pos f last x hf).1, (h.insert_before_links pos f last x hf).2]
  simp [h1, h2, h3, h4]

/-- A cycle none of whose nodes is `last` or the node in front of `f` is left as it is when the
nodes from `f` up to `last` are unlinked. -/
theorem dllist_links.is_cycle_frame_remove_range (h : dllist_links) (head : Nat)
    (ns : List Nat) (f last : Nat) (hc : h.is_cycle head ns)
    (hn : ∀ x ∈ head :: ns, x ≠ h.prev f ∧ x ≠ last) :
    (h.remove_range f last).1.is_cycle head ns := by
  refine h.is_cycle_frame _ head ns hc ?_
  intro x hx
  obtain ⟨h1, h2⟩ := hn x hx
  rw [(h.remove_range_links f last x).1, (h.remove_range_links f last x).2]
  simp [h1, h2]

theorem dllist_links.is_cycle_frame_make_cycle (h : dllist_links) (head : Nat)
    (ns : List Nat) (b : Nat) (hc : h.is_cycle head ns) (hn : b ∉ head :: ns) :
    (h.make_cycle b).is_cycle head ns := by
  refine h.is_cycle_frame _ head ns hc ?_
  intro x hx
  have hxb : x ≠ b := fun e => hn (e ▸ hx)
  simp [dllist_links.make_cycle, dllist_links.set_next, dllist_links.set_prev,
    Function.update_apply, hxb]

theorem dllist_links.is_cycle_make_cycle (h : dllist_links) (b : Nat) :
    (h.make_cycle b).is_cycle b [] := by
  rw [dllist_links.is_cycle_nil]
  simp [dllist_links.make_cycle, dllist_links.set_next, dllist_links.set_prev]

/-- Linking a row of nodes of no list in front of a node of the cycle of `A` leaves the cycle
of another list as it is. -/
theorem dllist_links.insert_run (h : dllist_links) (A B : Nat) (a b ns : List Nat) (f : Nat)
    (t : List Nat) (hA : h.is_cycle A (a ++ b)) (hB : h.is_cycle B ns)
    (hd : ∀ x ∈ A :: (a ++ b), x ∉ B :: ns) (hr : h.chain f t) (hrn : (f :: t).Nodup)
    (hrA : ∀ x ∈ f :: t, x ∉ A :: (a ++ b)) (hrB : ∀ x ∈ f :: t, x ∉ B :: ns) :
    (h.insert_before (b.headD A) f ((f :: t).getLast (List.cons_ne_nil f t))).is_cycle A
        (a ++ f :: t ++ b) ∧
      (h.insert_before (b.headD A) f ((f :: t).getLast (List.cons_ne_nil f t))).is_cycle B ns := by
  have hpos := dllist_links.headD_mem A a b
  have hfp : f ≠ b.headD A := fun e => hrA f (by simp) (e ▸ hpos)
  refine ⟨h.is_cycle_insert_before A a b f t hA hr hrn hrA, ?_⟩
  refine h.is_cycle_frame_insert_before B ns _ f _ hB hfp ?_
  intro x hx
  have hxA : x ∉ A :: (a ++ b) := fun hm => hd x hm hx
  refine ⟨?_, ?_, ?_, ?_⟩
  · exact fun e => hxA (e ▸ (hA.next_mem _ hpos).2)
  · exact fun e => hrB _ (List.getLast_mem _) (e ▸ hx)
  · exact fun e => hxA (e ▸ hpos)
  · exact fun e => hrB f (by simp) (e ▸ hx)

/-- Unlinking nodes of the cycle of `A` leaves the cycle of another list as it is. -/
theorem dllist_links.remove_run (h : dllist_links) (A B : Nat) (xs : List Nat) (f : Nat)
    (t ys ns : List Nat) (hA : h.is_cycle A (xs ++ f :: t ++ ys)) (hB : h.is_cycle B ns)
    (hd : ∀ x ∈ A :: (xs ++ f :: t ++ ys), x ∉ B :: ns) :
    (h.remove_range f (ys.headD A)).1.is_cycle A (xs ++ ys) ∧
      (h.remove_range f (ys.headD A)).1.is_cycle B ns ∧
      (h.remove_range f (ys.headD A)).1.chain f t ∧
      (h.remove_range f (ys.headD A)).1.next ((f :: t).getLast (List.cons_ne_nil f t)) =
        ys.headD A ∧
      (h.remove_range f (ys.headD A)).2 = (f :: t).getLast (List.cons_ne_nil f t) := by
  obtain ⟨r1, r2, r3, r4⟩ := h.is_cycle_remove_range A xs f t ys hA
  refine ⟨r1, ?_, r2, r3, r4⟩
  refine h.is_cycle_frame_remove_range B ns f _ hB ?_
  intro x hx
  have hxA : x ∉ A :: (xs ++ f :: t ++ ys) := fun hm => hd x hm hx
  have hfm : f ∈ A :: (xs ++ f :: t ++ ys) := by simp
  refine ⟨fun e => hxA (e ▸ (hA.next_mem f hfm).2), fun e => hxA (e ▸ ?_)⟩
  have := dllist_links.headD_mem A (xs ++ f :: t) ys
  exact this

/-- The nodes `f :: t` of the cycle of `B` are unlinked and linked in front of a node of the
cycle of `A`: they leave the one cycle and enter the other at that place. -/
theorem dllist_links.move_run (h : dllist_links) (A B : Nat) (a b xs : List Nat) (f : Nat)
    (t ys : List Nat) (hA : h.is_cycle A (a ++ b)) (hB : h.is_cycle B (xs ++ f :: t ++ ys))
    (hd : ∀ x ∈ A :: (a ++ b), x ∉ B :: (xs ++ f :: t ++ ys)) :
    ((h.remove_range f (ys.headD B)).1.insert_before (b.headD A) f
        (h.remove_range f (ys.headD B)).2).is_cycle A (a ++ f :: t ++ b) ∧
      ((h.remove_range f (ys.headD B)).1.insert_before (b.headD A) f
        (h.remove_range f (ys.headD B)).2).is_cycle B (xs ++ ys) := by
  have hd' : ∀ x ∈ B :: (xs ++ f :: t ++ ys), x ∉ A :: (a ++ b) := fun x hx hm => hd x hm hx
  obtain ⟨r1, r2, r3, _, r5⟩ := h.remove_run B A xs f t ys (a ++ b) hB hA hd'
  rw [r5]
  have hn := dllist_links.nodup_remove (B :: xs) (f :: t) ys hB.1
  have hsub : ∀ x, x ∈ B :: (xs ++ ys) → x ∈ B :: (xs ++ f :: t ++ ys) := by
    intro x hx
    simp only [List.mem_cons, List.mem_append] at hx ⊢
    tauto
  have hrun : ∀ x, x ∈ f :: t → x ∈ B :: (xs ++ f :: t ++ ys) := by
    intro x hx
    simp only [List.mem_cons, List.mem_append] at hx ⊢
    tauto
  exact (h.remove_range f (ys.headD B)).1.insert_run A B a b (xs ++ ys) f t r2 r1
    (fun x hx hm => hd x hx (hsub x hm)) r3 hn.2.1
    (fun x hx hm => hd x hm (hrun x hx)) (fun x hx => by simpa using hn.2.2 x hx)

/-- The nodes `f :: t` of the cycle of `A` are unlinked and linked again in front of another
node of this cycle; the cycle of another list is left as it is. -/
theorem dllist_links.move_run_self (h : dllist_links) (A B : Nat) (xs : List Nat) (f : Nat)
    (t ys a b ns : List Nat) (hA : h.is_cycle A (xs ++ f :: t ++ ys)) (hB : h.is_cycle B ns)
    (hd : ∀ x ∈ A :: (xs ++ f :: t ++ ys), x ∉ B :: ns) (hab : xs ++ ys = a ++ b) :
    ((h.remove_range f (ys.headD A)).1.insert_before (b.headD A) f
        (h.remove_range f (ys.headD A)).2).is_cycle A (a ++ f :: t ++ b) ∧
      ((h.remove_range f (ys.headD A)).1.insert_before (b.headD A) f
        (h.remove_range f (ys.headD A)).2).is_cycle B ns := by
  obtain ⟨r1, r2, r3, _, r5⟩ := h.remove_run A B xs f t ys ns hA hB hd
  rw [r5]
  rw [hab] at r1
  have hn := dllist_links.nodup_remove (A :: xs) (f :: t) ys hA.1
  have hmem : ∀ x, x ∈ A :: (a ++ b) → x ∈ A :: (xs ++ f :: t ++ ys) := by
    intro x hx
    rw [← hab] at hx
    simp only [List.mem_cons, List.mem_append] at hx ⊢
    tauto
  have hrun : ∀ x, x ∈ f :: t → x ∈ A :: (xs ++ f :: t ++ ys) := by
    intro x hx
    simp only [List.mem_cons, List.mem_append] at hx ⊢
    tauto
  exact (h.remove_range f (ys.headD A)).1.insert_run A B a b ns f t r1 r2
    (fun x hx => hd x (hmem x hx)) r3 hn.2.1
    (fun x hx => by rw [← hab]; simpa using hn.2.2 x hx) (fun x hx => hd x (hrun x hx))

/-! ## The operations of `util::list` keep the cycles -/

theorem dllist_links.linked_last_next (h : dllist_links) (f : Nat) (t : List Nat) (b : Nat)
    (hl : h.linked f t b) : h.next ((f :: t).getLast (List.cons_ne_nil f t)) = b := by
  induction t generalizing f with
  | nil => simpa using hl.1
  | cons n t ih =>
    rw [List.getLast_cons_cons]
    exact ih n hl.2.2

theorem dllist_links.linked_chain (h : dllist_links) (f : Nat) (t : List Nat) (b : Nat)
    (hl : h.linked f t b) : h.chain f t := by
  induction t generalizing f with
  | nil => trivial
  | cons n t ih => exact ⟨hl.1, hl.2.1, ih n hl.2.2⟩

/-- A row of nodes `f :: t` of a cycle: the node that follows the row is the `next` of its last
node and not a node of the row, and the row is walked by `next` from `f` to that node. -/
theorem dllist_links.is_cycle.run {h : dllist_links} {head : Nat} {xs : List Nat} {f : Nat}
    {t ys : List Nat} (hc : h.is_cycle head (xs ++ f :: t ++ ys)) :
    h.next ((f :: t).getLast (List.cons_ne_nil f t)) = ys.headD head ∧
      ys.headD head ∉ f :: t ∧ h.next_chain f t (ys.headD head) ∧ h.chain f t ∧
      (f :: t).Nodup := by
  have hn := dllist_links.nodup_remove (head :: xs) (f :: t) ys hc.1
  have hl : h.linked f t (ys.headD head) := by
    cases ys with
    | nil =>
      have := hc.2
      simp only [List.append_nil] at this
      exact ((h.linked_append head xs f t head).mp this).2
    | cons p ys =>
      have := ((h.linked_append head (xs ++ f :: t) p ys head).mp hc.2).1
      exact ((h.linked_append head xs f t p).mp this).2
  refine ⟨h.linked_last_next f t _ hl, ?_, h.linked_next_chain f t _ hl, h.linked_chain f t _ hl,
    hn.2.1⟩
  intro hm
  exact hn.2.2 _ hm (by simpa using dllist_links.headD_mem head xs ys)

theorem list_obj.wf_pair.symm_disjoint {self other : list_obj} {h : dllist_links}
    {nsA nsB : List Nat} (hw : self.wf_pair other h nsA nsB) :
    ∀ x ∈ other.head_ :: nsB, x ∉ self.head_ :: nsA :=
  fun x hx hm => hw.2.2 x hm hx

theorem list_obj.swap_wf (propagate : Bool) (self other : list_obj) (h : dllist_links)
    (nsA nsB : List Nat) (hw : self.wf_pair other h nsA nsB) :
    (self.swap propagate other h).2.1.wf_pair (self.swap propagate other h).2.2
      (self.swap propagate other h).1 nsB nsA := by
  obtain ⟨hA, hB, hd⟩ := hw
  have key : ∀ (s o : list_obj), s.head_ = self.head_ → o.head_ = other.head_ →
      s.size_ = self.size_ → o.size_ = other.size_ →
      (s.swap_impl o h).2.1.wf_pair (s.swap_impl o h).2.2 (s.swap_impl o h).1 nsB nsA := by
    intro s o e1 e2 e3 e4
    have hs : s.wf h nsA := ⟨by rw [e1]; exact hA.1, by rw [e3]; exact hA.2⟩
    have ho : o.wf h nsB := ⟨by rw [e2]; exact hB.1, by rw [e4]; exact hB.2⟩
    obtain ⟨r1, r2, r3, r4, _, _⟩ := list_obj.swap_impl_spec s o h nsA nsB hs ho
      (by rw [e1, e2]; exact hd)
    refine ⟨r1, r2, ?_⟩
    rw [r3, r4, e1, e2]
    intro x hx hm
    rcases List.mem_cons.mp hx with e0 | hx
    · rcases List.mem_cons.mp hm with e | hm
      · exact hd self.head_ (by simp) (by simp [← e, e0])
      · exact (List.nodup_cons.mp hA.1.1).1 (e0 ▸ hm)
    · rcases List.mem_cons.mp hm with e | hm
      · exact (List.nodup_cons.mp hB.1.1).1 (e ▸ hx)
      · exact hd x (List.mem_cons_of_mem _ hm) (List.mem_cons_of_mem _ hx)
  unfold list_obj.swap
  cases propagate with
  | false => exact key self other rfl rfl rfl rfl
  | true => exact key _ _ rfl rfl rfl rfl

theorem list_obj.reverse_wf (self other : list_obj) (h : dllist_links) (nsA nsB : List Nat)
    (hw : self.wf_pair other h nsA nsB) :
    ∃ h', self.reverse h = some h' ∧ self.wf_pair other h' nsA.reverse nsB := by
  obtain ⟨hA, hB, hd⟩ := hw
  obtain ⟨h', e, hc, hv⟩ := list_obj.reverse_links self h nsA hA.1 hA.2
  refine ⟨h', e, ⟨hc, by simpa using hA.2⟩, ⟨?_, hB.2⟩, ?_⟩
  · refine h.is_cycle_frame h' _ nsB hB.1 ?_
    intro x hx
    have hx' : x ∉ self.head_ :: nsA := fun hm => hd x hm hx
    rw [(hv x).1, (hv x).2, if_neg hx', if_neg hx']
    exact ⟨rfl, rfl⟩
  · intro x hx
    exact hd x (by simpa using hx)

theorem list_obj.splice_impl_list_wf (always_equal : Bool) (self other : list_obj)
    (h : dllist_links) (pos : Nat) (nsA nsB : List Nat) (hw : self.wf_pair other h nsA nsB)
    (hpos : pos ∈ self.head_ :: nsA) :
    ∃ nsA' nsB', (self.splice_impl_list always_equal other h pos).2.1.wf_pair
      (self.splice_impl_list always_equal other h pos).2.2.1
      (self.splice_impl_list always_equal other h pos).1 nsA' nsB' := by
  unfold list_obj.splice_impl_list
  split_ifs with h1 h2
  · exact ⟨nsA, nsB, hw⟩
  · exact ⟨nsA, nsB, hw⟩
  · obtain ⟨hA, hB, hd⟩ := hw
    cases nsB with
    | nil => exact absurd hB.2 h1
    | cons f t =>
      obtain ⟨a, b, eab, epos, _⟩ := dllist_links.mem_split_headD self.head_ pos nsA hpos
        (List.nodup_cons.mp hA.1.1).1
      subst eab
      subst epos
      have hrun := @dllist_links.is_cycle.run h other.head_ [] f t [] (by simpa using hB.1)
      have e1 : h.next other.head_ = f := hB.1.ends.1
      have e2 : h.prev other.head_ = (f :: t).getLast (List.cons_ne_nil f t) := by
        have := h.linked_prev_last other.head_ (f :: t) hB.1.2
        rw [this, List.getLast_cons_cons]
      have hrA : ∀ x ∈ f :: t, x ∉ self.head_ :: (a ++ b) :=
        fun x hx hm => hd x hm (List.mem_cons_of_mem _ hx)
      have hc := h.is_cycle_insert_before self.head_ a b f t hA.1 hrun.2.2.2.1 hrun.2.2.2.2 hrA
      have hB0 : other.head_ ∉ self.head_ :: (a ++ f :: t ++ b) := by
        intro hm
        have hm' : other.head_ ∈ self.head_ :: (a ++ b) ∨ other.head_ ∈ f :: t := by
          simp only [List.mem_cons, List.mem_append] at hm ⊢
          tauto
        rcases hm' with hm' | hm'
        · exact hd _ hm' (by simp)
        · exact (List.nodup_cons.mp hB.1.1).1 hm'
      refine ⟨a ++ f :: t ++ b, [], ⟨?_, ?_⟩, ⟨?_, rfl⟩, ?_⟩
      · simp only [e1, e2]
        exact dllist_links.is_cycle_frame_make_cycle _ _ _ _ hc hB0
      · have h3 := hA.2
        have h4 := hB.2
        simp only [List.length_append, List.length_cons] at h3 h4 ⊢
        omega
      · exact dllist_links.is_cycle_make_cycle _ _
      · intro x hx hm
        simp only [List.mem_singleton] at hm
        exact hB0 (hm ▸ hx)

theorem dllist_links.mem_insert_run (x A : Nat) (a r b : List Nat) :
    x ∈ A :: (a ++ r ++ b) ↔ x ∈ A :: (a ++ b) ∨ x ∈ r := by
  simp only [List.mem_cons, List.mem_append]
  tauto

/-- A row of nodes of `other` goes to `self`, in front of one of its nodes, and the counters
follow: the two lists stay well-formed together. -/
theorem list_obj.wf_pair_move (self other : list_obj) (h : dllist_links) (a b xs : List Nat)
    (f : Nat) (t ys : List Nat) (hw : self.wf_pair other h (a ++ b) (xs ++ f :: t ++ ys))
    (s1 s2 : Nat) (hs1 : s1 = self.size_ + (t.length + 1))
    (hs2 : s2 = other.size_ - (t.length + 1)) (last : Nat)
    (hlast : last = (f :: t).getLast (List.cons_ne_nil f t)) :
    list_obj.wf_pair ⟨self.head_, s1, self.alloc⟩ ⟨other.head_, s2, other.alloc⟩
      ((h.remove_range f (ys.headD other.head_)).1.insert_before (b.headD self.head_) f last)
      (a ++ f :: t ++ b) (xs ++ ys) := by
  obtain ⟨hA, hB, hd⟩ := hw
  have hm := h.move_run self.head_ other.head_ a b xs f t ys hA.1 hB.1 hd
  have e2 := (h.is_cycle_remove_range other.head_ xs f t ys hB.1).2.2.2
  rw [e2, ← hlast] at hm
  have hn := dllist_links.nodup_remove (other.head_ :: xs) (f :: t) ys hB.1.1
  refine ⟨⟨hm.1, ?_⟩, ⟨hm.2, ?_⟩, ?_⟩
  · have h3 := hA.2
    simp only [List.length_append, List.length_cons] at h3 ⊢
    omega
  · have h4 := hB.2
    simp only [List.length_append, List.length_cons] at h4 ⊢
    omega
  · intro x hx hx'
    have hsub : x ∈ other.head_ :: (xs ++ f :: t ++ ys) :=
      (dllist_links.mem_insert_run x _ xs (f :: t) ys).mpr (Or.inl hx')
    rcases (dllist_links.mem_insert_run x _ a (f :: t) b).mp hx with h1 | h1
    · exact hd x h1 hsub
    · exact hn.2.2 x h1 (by simpa using hx')

/-- A row of nodes of `self` goes to another place of `self`: the two lists stay well-formed
together. -/
theorem list_obj.wf_pair_move_self (self other : list_obj) (h : dllist_links)
    (xs : List Nat) (f : Nat) (t ys a b ns : List Nat)
    (hw : self.wf_pair other h (xs ++ f :: t ++ ys) ns) (hab : xs ++ ys = a ++ b) (last : Nat)
    (hlast : last = (f :: t).getLast (List.cons_ne_nil f t)) :
    self.wf_pair other
      ((h.remove_range f (ys.headD self.head_)).1.insert_before (b.headD self.head_) f last)
      (a ++ f :: t ++ b) ns := by
  obtain ⟨hA, hB, hd⟩ := hw
  have hm := h.move_run_self self.head_ other.head_ xs f t ys a b ns hA.1 hB.1 hd hab
  have e2 := (h.is_cycle_remove_range self.head_ xs f t ys hA.1).2.2.2
  rw [e2, ← hlast] at hm
  refine ⟨⟨hm.1, ?_⟩, ⟨hm.2, hB.2⟩, ?_⟩
  · have h3 := hA.2
    have h5 := congrArg List.length hab
    simp only [List.length_append, List.length_cons] at h3 h5 ⊢
    omega
  · intro x hx
    refine hd x ?_
    rcases (dllist_links.mem_insert_run x _ a (f :: t) b).mp hx with h1 | h1
    · rw [← hab] at h1
      exact (dllist_links.mem_insert_run x _ xs (f :: t) ys).mpr (Or.inl h1)
    · exact (dllist_links.mem_insert_run x _ xs (f :: t) ys).mpr (Or.inr h1)

/-- A row of nodes of no list goes to `self`, in front of one of its nodes, and the counter
follows: the two lists stay well-formed together. -/
theorem list_obj.wf_pair_insert (self other : list_obj) (h : dllist_links) (a b ns : List Nat)
    (f : Nat) (t : List Nat) (hw : self.wf_pair other h (a ++ b) ns) (hr : h.chain f t)
    (hrn : (f :: t).Nodup) (hrA : ∀ x ∈ f :: t, x ∉ self.head_ :: (a ++ b))
    (hrB : ∀ x ∈ f :: t, x ∉ other.head_ :: ns) (s1 : Nat)
    (hs1 : s1 = self.size_ + (t.length + 1)) (last : Nat)
    (hlast : last = (f :: t).getLast (List.cons_ne_nil f t)) :
    list_obj.wf_pair ⟨self.head_, s1, self.alloc⟩ other
      (h.insert_before (b.headD self.head_) f last) (a ++ f :: t ++ b) ns := by
  obtain ⟨hA, hB, hd⟩ := hw
  have hm := h.insert_run self.head_ other.head_ a b ns f t hA.1 hB.1 hd hr hrn hrA hrB
  rw [← hlast] at hm
  refine ⟨⟨hm.1, ?_⟩, ⟨hm.2, hB.2⟩, ?_⟩
  · have h3 := hA.2
    simp only [List.length_append, List.length_cons] at h3 ⊢
    omega
  · intro x hx
    rcases (dllist_links.mem_insert_run x _ a (f :: t) b).mp hx with h1 | h1
    · exact hd x h1
    · exact hrB x h1

/-- A row of nodes of `self` is unlinked and the counter follows: the two lists stay well-formed
together. -/
theorem list_obj.wf_pair_remove (self other : list_obj) (h : dllist_links) (xs : List Nat)
    (f : Nat) (t ys ns : List Nat) (hw : self.wf_pair other h (xs ++ f :: t ++ ys) ns)
    (s1 : Nat) (hs1 : s1 = self.size_ - (t.length + 1)) :
    list_obj.wf_pair ⟨self.head_, s1, self.alloc⟩ other
      (h.remove_range f (ys.headD self.head_)).1 (xs ++ ys) ns := by
  obtain ⟨hA, hB, hd⟩ := hw
  obtain ⟨r1, r2, _⟩ := h.remove_run self.head_ other.head_ xs f t ys ns hA.1 hB.1 hd
  refine ⟨⟨r1, ?_⟩, ⟨r2, hB.2⟩, ?_⟩
  · have h3 := hA.2
    simp only [List.length_append, List.length_cons] at h3 ⊢
    omega
  · intro x hx
    exact hd x ((dllist_links.mem_insert_run x _ xs (f :: t) ys).mpr (Or.inl hx))

/-- Unlinking one node of a cycle is unlinking the range from it to its `next`, which is the
node that follows it in the cycle. -/
theorem dllist_links.is_cycle.remove_node {h : dllist_links} {head : Nat} {xs : List Nat}
    {p : Nat} {ys : List Nat} (hc : h.is_cycle head (xs ++ p :: ys)) :
    (h.remove p).1 = (h.remove_range p (ys.headD head)).1 ∧ (h.remove p).2 = ys.headD head := by
  have hc' : h.is_cycle head (xs ++ p :: [] ++ ys) := by simpa using hc
  have hrun := hc'.run
  have e1 : h.next p = ys.headD head := by simpa using hrun.1
  have hne : h.next p ≠ p := by
    rw [e1]
    intro e
    exact hrun.2.1 (by rw [e]; exact List.mem_singleton.mpr rfl)
  have := h.remove_eq_remove_range p hne
  rw [e1] at this
  exact this

theorem dllist_links.ext_links (g g' : dllist_links)
    (hn : ∀ x, g.next x = g'.next x ∧ g.prev x = g'.prev x) : g = g' := by
  cases g
  cases g'
  simp only [dllist_links.mk.injEq]
  exact ⟨funext fun x => (hn x).1, funext fun x => (hn x).2⟩

/-- Linking a row after `pos` is linking it in front of the node that follows `pos`. -/
theorem dllist_links.insert_after_eq_insert_before (h : dllist_links) (pos f last : Nat)
    (hinv : h.prev (h.next pos) = pos) (hl : last ≠ pos) (hf : f ≠ h.next pos) :
    h.insert_after pos f last = h.insert_before (h.next pos) f last := by
  refine dllist_links.ext_links _ _ ?_
  intro x
  rw [(h.insert_before_links (h.next pos) f last x hf).1,
    (h.insert_before_links (h.next pos) f last x hf).2, hinv]
  unfold dllist_links.insert_after
  simp only [dllist_links.set_next, dllist_links.set_prev, Function.update_apply, hl.symm,
    if_false, true_and]

theorem list_obj.splice_impl_node_wf (always_equal : Bool) (self other : list_obj)
    (h : dllist_links) (pos it : Nat) (nsA nsB : List Nat) (hw : self.wf_pair other h nsA nsB)
    (hpos : pos ∈ self.head_ :: nsA) (hit : it ∈ nsB) :
    ∃ nsA' nsB', (self.splice_impl_node always_equal other h pos it).2.1.wf_pair
      (self.splice_impl_node always_equal other h pos it).2.2.1
      (self.splice_impl_node always_equal other h pos it).1 nsA' nsB' := by
  unfold list_obj.splice_impl_node
  split_ifs with h1
  · exact ⟨nsA, nsB, hw⟩
  · obtain ⟨xs, ys, rfl⟩ := List.append_of_mem hit
    obtain ⟨a, b, rfl, rfl, _⟩ := dllist_links.mem_split_headD self.head_ pos nsA hpos
      (List.nodup_cons.mp hw.1.1.1).1
    rw [(hw.2.1.1.remove_node).1]
    exact ⟨a ++ it :: [] ++ b, xs ++ ys,
      list_obj.wf_pair_move self other h a b xs it [] ys (by simpa using hw) _ _ rfl rfl it rfl⟩

theorem list_obj.splice_impl_node_self_wf (self other : list_obj) (h : dllist_links)
    (pos it : Nat) (nsA nsB : List Nat) (hw : self.wf_pair other h nsA nsB)
    (hpos : pos ∈ self.head_ :: nsA) (hit : it ∈ nsA) :
    ∃ nsA' nsB', (self.splice_impl_node_self h pos it).2.wf_pair other
      (self.splice_impl_node_self h pos it).1 nsA' nsB' := by
  unfold list_obj.splice_impl_node_self
  split_ifs with h1
  · exact ⟨nsA, nsB, hw⟩
  · obtain ⟨xs, ys, rfl⟩ := List.append_of_mem hit
    have hn := dllist_links.nodup_remove (self.head_ :: xs) [it] ys
      (by simpa using hw.1.1.1)
    have hpos' : pos ∈ self.head_ :: (xs ++ ys) := by
      simp only [List.mem_cons, List.mem_append] at hpos ⊢
      have : pos ≠ it := fun e => h1 e.symm
      tauto
    obtain ⟨a, b, hab, rfl, _⟩ := dllist_links.mem_split_headD self.head_ pos (xs ++ ys) hpos'
      (by
        have := List.nodup_cons.mp hn.1
        exact this.1)
    rw [(hw.1.1.remove_node).1]
    exact ⟨a ++ it :: [] ++ b, nsB,
      list_obj.wf_pair_move_self self other h xs it [] ys a b nsB (by simpa using hw) hab it rfl⟩

theorem list_obj.splice_impl_range_wf (always_equal : Bool) (self other : list_obj)
    (h : dllist_links) (pos first last : Nat) (nsA nsB : List Nat)
    (hw : self.wf_pair other h nsA nsB) (hpos : pos ∈ self.head_ :: nsA)
    (hr : first = last ∨
      ∃ xs t ys, nsB = xs ++ first :: t ++ ys ∧ last = ys.headD other.head_) :
    ∃ r, self.splice_impl_range always_equal other h pos first last = some r ∧
      ∃ nsA' nsB', r.2.1.wf_pair r.2.2.1 r.1 nsA' nsB' := by
  unfold list_obj.splice_impl_range
  split_ifs with h1 h2
  · exact ⟨_, rfl, nsA, nsB, hw⟩
  · exact ⟨_, rfl, nsA, nsB, hw⟩
  · rcases hr with e | ⟨xs, t, ys, rfl, rfl⟩
    · exact absurd e h1
    · obtain ⟨a, b, rfl, rfl, _⟩ := dllist_links.mem_split_headD self.head_ pos nsA hpos
        (List.nodup_cons.mp hw.1.1.1).1
      have hrun := hw.2.1.1.run
      have hsz := hw.2.1.2
      have hcount := h.count_until_next_chain (ys.headD other.head_) first t hrun.2.2.1
        (fun hm => hrun.2.1 (List.mem_cons_of_mem _ hm)) other.size_ (by
          rw [hsz]
          simp only [List.length_append, List.length_cons]
          omega)
      rw [hcount]
      have e2 := (h.is_cycle_remove_range other.head_ xs first t ys hw.2.1.1).2.2.2
      exact ⟨_, rfl, a ++ first :: t ++ b, xs ++ ys,
        list_obj.wf_pair_move self other h a b xs first t ys hw _ _ rfl rfl _ e2⟩

theorem list_obj.splice_impl_range_self_wf (self other : list_obj) (h : dllist_links)
    (pos first last : Nat) (nsA nsB : List Nat) (hw : self.wf_pair other h nsA nsB)
    (hr : first = last ∨ ∃ xs t ys, nsA = xs ++ first :: t ++ ys ∧
      last = ys.headD self.head_ ∧ pos ∈ self.head_ :: (xs ++ ys)) :
    ∃ nsA' nsB', (self.splice_impl_range_self h pos first last).2.wf_pair other
      (self.splice_impl_range_self h pos first last).1 nsA' nsB' := by
  unfold list_obj.splice_impl_range_self
  split_ifs with h1 h2
  · exact ⟨nsA, nsB, hw⟩
  · exact ⟨nsA, nsB, hw⟩
  · rcases hr with e | ⟨xs, t, ys, rfl, rfl, hpos⟩
    · exact absurd e h1
    · have hn := dllist_links.nodup_remove (self.head_ :: xs) (first :: t) ys hw.1.1.1
      obtain ⟨a, b, hab, rfl, _⟩ := dllist_links.mem_split_headD self.head_ pos (xs ++ ys) hpos
        (List.nodup_cons.mp hn.1).1
      have e2 := (h.is_cycle_remove_range self.head_ xs first t ys hw.1.1).2.2.2
      exact ⟨a ++ first :: t ++ b, nsB,
        list_obj.wf_pair_move_self self other h xs first t ys a b nsB hw hab _ e2⟩

theorem list_obj.emplace_cycles_wf (self other : list_obj) (h : dllist_links) (pos node : Nat)
    (nsA nsB : List Nat) (hw : self.wf_pair other h nsA nsB) (hpos : pos ∈ self.head_ :: nsA)
    (hA : node ∉ self.head_ :: nsA) (hB : node ∉ other.head_ :: nsB) :
    ∃ nsA' nsB', (self.emplace h pos node).2.1.wf_pair other (self.emplace h pos node).1
      nsA' nsB' := by
  obtain ⟨a, b, rfl, rfl, _⟩ := dllist_links.mem_split_headD self.head_ pos nsA hpos
    (List.nodup_cons.mp hw.1.1.1).1
  exact ⟨a ++ node :: [] ++ b, nsB,
    list_obj.wf_pair_insert self other h a b nsB node [] hw trivial (List.nodup_singleton _)
      (fun x hx => by rw [List.mem_singleton.mp hx]; exact hA)
      (fun x hx => by rw [List.mem_singleton.mp hx]; exact hB) _ rfl node rfl⟩

theorem list_obj.emplace_back_wf (self other : list_obj) (h : dllist_links) (node : Nat)
    (nsA nsB : List Nat) (hw : self.wf_pair other h nsA nsB)
    (hA : node ∉ self.head_ :: nsA) (hB : node ∉ other.head_ :: nsB) :
    ∃ nsA' nsB', (self.emplace_back h node).2.wf_pair other (self.emplace_back h node).1
      nsA' nsB' :=
  list_obj.emplace_cycles_wf self other h self.head_ node nsA nsB hw (by simp) hA hB

theorem list_obj.emplace_front_wf (self other : list_obj) (h : dllist_links) (node : Nat)
    (nsA nsB : List Nat) (hw : self.wf_pair other h nsA nsB)
    (hA : node ∉ self.head_ :: nsA) (hB : node ∉ other.head_ :: nsB) :
    ∃ nsA' nsB', (self.emplace_front h node).2.wf_pair other (self.emplace_front h node).1
      nsA' nsB' := by
  have hmem := hw.1.1.next_mem self.head_ (by simp)
  have e : (self.emplace_front h node).1 = (self.emplace h (h.next self.head_) node).1 := by
    unfold list_obj.emplace_front list_obj.emplace
    exact h.insert_after_eq_insert_before self.head_ node node
      (hw.1.1.inverse self.head_ (by simp)).1 (fun e => hA (by simp [e]))
      (fun e => hA (e ▸ hmem.1))
  have e' : (self.emplace_front h node).2 = (self.emplace h (h.next self.head_) node).2.1 := rfl
  rw [e, e']
  exact list_obj.emplace_cycles_wf self other h _ node nsA nsB hw hmem.1 hA hB

theorem list_obj.erase_wf (self other : list_obj) (h : dllist_links) (pos : Nat)
    (nsA nsB : List Nat) (hw : self.wf_pair other h nsA nsB) (hpos : pos ∈ nsA) :
    ∃ nsA' nsB', (self.erase h pos).2.1.wf_pair other (self.erase h pos).1 nsA' nsB' := by
  obtain ⟨xs, ys, rfl⟩ := List.append_of_mem hpos
  unfold list_obj.erase
  rw [(hw.1.1.remove_node).1]
  exact ⟨xs ++ ys, nsB,
    list_obj.wf_pair_remove self other h xs pos [] ys nsB (by simpa using hw) _ rfl⟩

theorem list_obj.pop_front_wf (self other : list_obj) (h : dllist_links) (nsA nsB : List Nat)
    (hw : self.wf_pair other h nsA nsB) (hz : self.size_ ≠ 0) :
    ∃ nsA' nsB', (self.pop_front h).2.wf_pair other (self.pop_front h).1 nsA' nsB' := by
  cases nsA with
  | nil => exact absurd hw.1.2 hz
  | cons f t =>
    have e1 : h.next self.head_ = f := hw.1.1.ends.1
    have := list_obj.erase_wf self other h f (f :: t) nsB hw (by simp)
    unfold list_obj.pop_front
    rw [e1]
    exact this

theorem list_obj.pop_back_wf (self other : list_obj) (h : dllist_links) (nsA nsB : List Nat)
    (hw : self.wf_pair other h nsA nsB) (hz : self.size_ ≠ 0) :
    ∃ nsA' nsB', (self.pop_back h).2.wf_pair other (self.pop_back h).1 nsA' nsB' := by
  cases nsA with
  | nil => exact absurd hw.1.2 hz
  | cons f t =>
    have hm : h.prev self.head_ ∈ f :: t := hw.1.1.ends.2.2.1
    have := list_obj.erase_wf self other h _ (f :: t) nsB hw hm
    unfold list_obj.pop_back
    exact this

theorem list_obj.erase_range_wf (self other : list_obj) (h : dllist_links) (first last : Nat)
    (nsA nsB : List Nat) (hw : self.wf_pair other h nsA nsB)
    (hr : first = last ∨
      ∃ xs t ys, nsA = xs ++ first :: t ++ ys ∧ last = ys.headD self.head_) :
    ∃ r, self.erase_range h first last = some r ∧
      ∃ nsA' nsB', r.2.1.wf_pair other r.1 nsA' nsB' := by
  unfold list_obj.erase_range
  split_ifs with h1
  · rcases hr with e | ⟨xs, t, ys, rfl, rfl⟩
    · exact absurd e h1
    · obtain ⟨_, _, r3, r4, _⟩ := h.remove_run self.head_ other.head_ xs first t ys nsB
        hw.1.1 hw.2.1.1 hw.2.2
      have hrun := hw.1.1.run
      have hsz := hw.1.2
      have hcount := (h.remove_range first (ys.headD self.head_)).1.count_until_next_chain
        (ys.headD self.head_) first t (dllist_links.chain_next_chain _ first t r3 _ r4)
        (fun hm => hrun.2.1 (List.mem_cons_of_mem _ hm)) self.size_ (by
          rw [hsz]
          simp only [List.length_append, List.length_cons]
          omega)
      unfold list_obj.erase_impl
      simp only [hcount, Option.map_some']
      exact ⟨_, rfl, xs ++ ys, nsB,
        list_obj.wf_pair_remove self other h xs first t ys nsB hw _ rfl⟩
  · exact ⟨_, rfl, nsA, nsB, hw⟩

theorem list_obj.clear_wf (self other : list_obj) (h : dllist_links) (nsA nsB : List Nat)
    (hw : self.wf_pair other h nsA nsB) :
    ∃ nsA' nsB', (self.clear h).2.wf_pair other (self.clear h).1 nsA' nsB' := by
  unfold list_obj.clear list_obj.tidy
  refine ⟨[], nsB, ⟨dllist_links.is_cycle_make_cycle _ _, rfl⟩, ⟨?_, hw.2.1.2⟩, ?_⟩
  · exact dllist_links.is_cycle_frame_make_cycle _ _ _ _ hw.2.1.1
      (fun hm => hw.2.2 self.head_ (by simp) hm)
  · intro x hx
    exact hw.2.2 x (by
      rw [List.mem_singleton.mp hx]
      exact List.mem_cons_self _ _)

/-- Every call of `list_link_op` whose arguments are as the call requires ends and leaves the
two lists well-formed together. -/
theorem list_link_op.apply_keeps_wf_pair (op : list_link_op) (self other : list_obj)
    (h : dllist_links) (nsA nsB : List Nat) (hw : self.wf_pair other h nsA nsB)
    (hpre : op.pre self other nsA nsB) :
    ∃ r, op.apply self other h = some r ∧ ∃ nsA' nsB', r.2.1.wf_pair r.2.2.1 r.1 nsA' nsB' := by
  cases op with
  | swap propagate => exact ⟨_, rfl, nsB, nsA, list_obj.swap_wf propagate self other h nsA nsB hw⟩
  | reverse =>
    obtain ⟨h', e, hw'⟩ := list_obj.reverse_wf self other h nsA nsB hw
    exact ⟨(h', self, other, none), by simp [list_link_op.apply, e], nsA.reverse, nsB, hw'⟩
  | splice always_equal pos =>
    exact ⟨_, rfl, list_obj.splice_impl_list_wf always_equal self other h pos nsA nsB hw hpre⟩
  | splice_node always_equal pos it =>
    exact ⟨_, rfl,
      list_obj.splice_impl_node_wf always_equal self other h pos it nsA nsB hw hpre.1 hpre.2⟩
  | splice_range always_equal pos first last =>
    exact list_obj.splice_impl_range_wf always_equal self other h pos first last nsA nsB hw
      hpre.1 hpre.2
  | splice_node_self pos it =>
    exact ⟨_, rfl,
      list_obj.splice_impl_node_self_wf self other h pos it nsA nsB hw hpre.1 hpre.2⟩
  | splice_range_self pos first last =>
    exact ⟨_, rfl, list_obj.splice_impl_range_self_wf self other h pos first last nsA nsB hw hpre⟩
  | emplace pos node =>
    exact ⟨_, rfl, list_obj.emplace_cycles_wf self other h pos node nsA nsB hw hpre.1 hpre.2.1 hpre.2.2⟩
  | emplace_front node =>
    exact ⟨_, rfl, list_obj.emplace_front_wf self other h node nsA nsB hw hpre.1 hpre.2⟩
  | emplace_back node =>
    exact ⟨_, rfl, list_obj.emplace_back_wf self other h node nsA nsB hw hpre.1 hpre.2⟩
  | pop_front => exact ⟨_, rfl, list_obj.pop_front_wf self other h nsA nsB hw hpre⟩
  | pop_back => exact ⟨_, rfl, list_obj.pop_back_wf self other h nsA nsB hw hpre⟩
  | erase pos => exact ⟨_, rfl, list_obj.erase_wf self other h pos nsA nsB hw hpre⟩
  | erase_range first last =>
    obtain ⟨r, e, hw'⟩ := list_obj.erase_range_wf self other h first last nsA nsB hw hpre
    exact ⟨(r.1, r.2.1, other, none), by simp [list_link_op.apply, e], hw'⟩
  | clear => exact ⟨_, rfl, list_obj.clear_wf self other h nsA nsB hw⟩

/-! ## The loops of `util::list` keep `size_` in step with the nodes -/

theorem list.foldl_pred_length {α : Type} (run : List α) (size_ : Nat) :
    run.foldl (fun size_ _ => size_ - 1) size_ = size_ - run.length := by
  induction run generalizing size_ with
  | nil => rfl
  | cons x run ih =>
    simp only [List.foldl_cons, List.length_cons, ih]
    omega

theorem list.erase_impl_wf {α : Type} (l : list α) (first last : Nat) (hl : l.wf)
    (h1 : first ≤ last) (h2 : last ≤ l.nodes.length) :
    (l.erase_impl first last).wf ∧
      (l.erase_impl first last).nodes = l.nodes.take first ++ l.nodes.drop last := by
  unfold list.wf at hl
  unfold list.erase_impl list.wf dllist_remove
  simp only [list.foldl_pred_length, List.length_drop, List.length_take, List.length_append,
    and_true]
  omega

theorem list.resize_seek_spec (size_ fuel sz p : Nat) (h1 : sz < size_)
    (h2 : size_ - sz ≤ fuel) :
    list.resize_seek size_ fuel sz p = some (p - (size_ - sz - 1)) := by
  induction fuel generalizing sz p with
  | zero => omega
  | succ fuel ih =>
    simp only [list.resize_seek]
    by_cases h3 : sz + 1 < size_
    · rw [if_pos h3, ih (sz + 1) (p - 1) h3 (by omega)]
      congr 1
      omega
    · rw [if_neg h3]
      congr 1
      omega

theorem list.insert_loop_wf {σ α : Type} (new_ok : σ → α → σ × Bool) (s : σ) (l : list α)
    (pos : Nat) (input : List α) (hl : l.wf) (hpos : pos ≤ l.nodes.length) :
    (list.insert_loop new_ok s l pos input).2.1.wf := by
  obtain ⟨h1, h2, _, _⟩ := list.insert_loop_spec new_ok s l pos input hpos
  unfold list.wf at hl ⊢
  rw [h1, h2]
  simp only [List.length_append, List.length_take, List.length_drop]
  omega

theorem list.insert_impl_size_wf {σ α : Type} (new_ok : σ → α → σ × Bool) (s : σ) (l : list α)
    (pos : Nat) (input : List α) (hl : l.wf) (hpos : pos ≤ l.nodes.length) :
    (list.insert_impl new_ok s l pos input).2.1.wf := by
  have := list.insert_loop_wf new_ok s l pos input hl hpos
  unfold list.insert_impl
  rcases hr : list.insert_loop new_ok s l pos input with ⟨s', l', e⟩
  rw [hr] at this
  cases e <;> exact this

theorem list.insert_const_wf {σ α : Type} (new_ok : σ → α → σ × Bool) (s : σ) (l : list α)
    (pos sz : Nat) (val : α) (hl : l.wf) (hpos : pos ≤ l.nodes.length) :
    (list.insert_const new_ok s l pos sz val).2.1.wf := by
  have := list.insert_loop_wf new_ok s l pos (List.replicate sz val) hl hpos
  unfold list.insert_const
  rcases hr : list.insert_loop new_ok s l pos (List.replicate sz val) with ⟨s', l', e⟩
  rw [hr] at this
  cases e <;> exact this

theorem list.insert_default_wf {σ α : Type} (new_ok : σ → α → σ × Bool) (s : σ) (l : list α)
    (pos sz : Nat) (dflt : α) (hl : l.wf) (hpos : pos ≤ l.nodes.length) :
    (list.insert_default new_ok s l pos sz dflt).2.1.wf :=
  list.insert_const_wf new_ok s l pos sz dflt hl hpos

theorem list.resize_wf {σ α : Type} (new_ok : σ → α → σ × Bool) (s : σ) (l : list α)
    (sz : Nat) (dflt : α) (hl : l.wf) :
    ∃ r, list.resize new_ok s l sz dflt = some r ∧ r.2.1.wf := by
  unfold list.resize
  split_ifs with h1
  · rw [list.resize_seek_spec l.size_ l.size_ sz _ h1 (by omega)]
    refine ⟨_, rfl, (list.erase_impl_wf l _ _ hl ?_ (le_refl _)).1⟩
    omega
  · have := list.insert_default_wf new_ok s l l.nodes.length (sz - l.size_) dflt hl (le_refl _)
    rcases hr : list.insert_default new_ok s l l.nodes.length (sz - l.size_) dflt with
      ⟨s', l', e⟩
    rw [hr] at this
    cases e <;> exact ⟨_, rfl, this⟩

theorem list.resize_val_wf {σ α : Type} (new_ok : σ → α → σ × Bool) (s : σ) (l : list α)
    (sz : Nat) (val : α) (hl : l.wf) :
    ∃ r, list.resize_val new_ok s l sz val = some r ∧ r.2.1.wf := by
  unfold list.resize_val
  split_ifs with h1
  · rw [list.resize_seek_spec l.size_ l.size_ sz _ h1 (by omega)]
    refine ⟨_, rfl, (list.erase_impl_wf l _ _ hl ?_ (le_refl _)).1⟩
    omega
  · have := list.insert_const_wf new_ok s l l.nodes.length (sz - l.size_) val hl (le_refl _)
    rcases hr : list.insert_const new_ok s l l.nodes.length (sz - l.size_) val with
      ⟨s', l', e⟩
    rw [hr] at this
    cases e <;> exact ⟨_, rfl, this⟩

theorem list.assign_walk_length {α : Type} (nodes input : List α) :
    (list.assign_walk nodes input).1.length + (list.assign_walk nodes input).2.1.length =
      nodes.length := by
  induction nodes generalizing input with
  | nil => simp [list.assign_walk]
  | cons n ns ih =>
    cases input with
    | nil => simp [list.assign_walk]
    | cons v input =>
      simp only [list.assign_walk, List.length_cons]
      have := ih input
      omega

theorem list.assign_impl_true_wf {σ α : Type} (new_ok : σ → α → σ × Bool) (s : σ)
    (l : list α) (input : List α) (hl : l.wf) : (l.assign_impl_true new_ok s input).2.1.wf := by
  have hlen := list.assign_walk_length l.nodes input
  have hl1 : (⟨(list.assign_walk l.nodes input).1 ++ (list.assign_walk l.nodes input).2.1,
      l.size_, l.alloc⟩ : list α).wf := by
    unfold list.wf at hl ⊢
    simp only [List.length_append]
    omega
  unfold list.assign_impl_true
  simp only
  split_ifs with h1
  · refine (list.erase_impl_wf _ _ _ hl1 ?_ (le_refl _)).1
    simp only [List.length_append]
    omega
  · have := list.insert_impl_size_wf new_ok s _ _ (list.assign_walk l.nodes input).2.2 hl1
      (le_refl _)
    rcases hr : list.insert_impl new_ok s
      (⟨(list.assign_walk l.nodes input).1 ++ (list.assign_walk l.nodes input).2.1,
        l.size_, l.alloc⟩ : list α)
      ((list.assign_walk l.nodes input).1 ++ (list.assign_walk l.nodes input).2.1).length
      (list.assign_walk l.nodes input).2.2 with ⟨s', l', e⟩
    rw [hr] at this
    cases e <;> exact this

theorem list.assign_reconstruct_wf {σ α : Type} (new_ok : σ → α → σ × Bool) (s : σ)
    (l : list α) (tmp input : List α) (hl : l.wf) :
    (list.assign_reconstruct new_ok s l tmp input).2.1.wf := by
  induction tmp generalizing s l input with
  | nil => exact hl
  | cons n tmp ih =>
    cases input with
    | nil => exact hl
    | cons v input =>
      simp only [list.assign_reconstruct]
      rcases hn : new_ok s v with ⟨s', b⟩
      cases b with
      | false => exact hl
      | true =>
        refine ih s' _ input ?_
        unfold list.wf at hl ⊢
        simp only [dllist_insert_before, List.length_append, List.length_take,
          List.length_drop, List.length_cons, List.length_nil]
        omega

theorem list.tidy_wf {α : Type} (l : list α) : l.tidy.wf := rfl

theorem list.assign_impl_false_wf {σ α : Type} (new_ok : σ → α → σ × Bool) (s : σ)
    (l : list α) (input : List α) : (l.assign_impl_false new_ok s input).2.1.wf := by
  have h1 := list.assign_reconstruct_wf new_ok s l.tidy l.nodes input l.tidy_wf
  unfold list.assign_impl_false
  rcases hr : list.assign_reconstruct new_ok s l.tidy l.nodes input with ⟨s', l', rest, e⟩
  rw [hr] at h1
  cases e with
  | some e => exact h1
  | none =>
    have := list.insert_impl_size_wf new_ok s' l' l'.nodes.length rest h1 (le_refl _)
    simp only
    rcases hr2 : list.insert_impl new_ok s' l' l'.nodes.length rest with ⟨s'', l'', e⟩
    rw [hr2] at this
    cases e <;> exact this

theorem list.unique_loop_size {α : Type} (pred : α → α → Bool) (v0 : α) (rest : List α)
    (size_ : Nat) (hsz : rest.length ≤ size_) :
    (list.unique_loop pred v0 rest size_).2 + rest.length =
      size_ + (list.unique_loop pred v0 rest size_).1.length := by
  induction rest generalizing v0 size_ with
  | nil => simp [list.unique_loop]
  | cons x rest ih =>
    simp only [List.length_cons] at hsz
    simp only [list.unique_loop]
    split_ifs with hp
    · have := ih v0 (size_ - 1) (by omega)
      simp only [List.length_cons]
      omega
    · have := ih x size_ (by omega)
      simp only [List.length_cons]
      omega

theorem list.unique_if_wf {α : Type} (l : list α) (pred : α → α → Bool) (hl : l.wf) :
    (l.unique_if pred).1.wf := by
  unfold list.wf at hl
  unfold list.unique_if
  split_ifs with hz
  · exact hl
  · rcases hn : l.nodes with _ | ⟨x0, rest⟩
    · exact hl
    · rw [hn] at hl
      simp only [List.length_cons] at hl
      have := list.unique_loop_size pred x0 rest l.size_ (by omega)
      unfold list.wf
      simp only [List.length_cons]
      omega

theorem list.merge_impl_size_wf {σ α : Type} (always_equal : Bool)
    (comp : σ → α → α → σ × Option Bool) (s : σ) (A B : list α) (hA : A.wf) (hB : B.wf) :
    (list.merge_impl always_equal comp s A B).2.1.wf ∧
      (list.merge_impl always_equal comp s A B).2.2.1.wf := by
  unfold list.wf at hA hB
  unfold list.merge_impl
  have hlen := (merge_impl_exc_perm comp s A.nodes B.nodes).length_eq
  simp only [List.length_append] at hlen
  split
  · exact ⟨hA, hB⟩
  · split
    · exact ⟨hA, hB⟩
    · simp only
      split
      · unfold list.wf
        simp only
        omega
      · rename_i hth
        have hsrc := merge_impl_exc_src_nil comp s A.nodes B.nodes (by simpa using hth)
        rw [hsrc] at hlen
        simp only [List.length_nil] at hlen
        unfold list.wf
        simp only [hsrc, List.length_nil, and_true]
        omega

theorem list.sort_wf {α : Type} (l : list α) (comp : α → α → Bool) (hl : l.wf) :
    (l.sort comp).wf := by
  have hp := (list_sort_nodes_perm comp l).length_eq
  have hs : (l.sort comp).size_ = l.size_ := by
    unfold list.sort
    split
    · rfl
    · split <;> rfl
  unfold list.wf at hl ⊢
  omega

/-- Every call of `list_op` whose arguments are as the call requires ends and leaves the counter
of each list equal to the number of its nodes, also when it throws. -/
theorem list_op.apply_keeps_wf {σ α : Type} [BEq α] (op : list_op α)
    (new_ok : σ → α → σ × Bool) (s : σ) (self other : list α) (hA : self.wf) (hB : other.wf)
    (hpre : op.pre self) :
    ∃ r, op.apply new_ok s self other = some r ∧ r.2.1.wf ∧ r.2.2.1.wf := by
  cases op with
  | insert_count pos count val =>
    have := list.insert_const_wf new_ok s self pos count val hA hpre
    simp only [list_op.apply, list.insert_count]
    rcases hr : list.insert_const new_ok s self pos count val with ⟨s', l', e⟩
    rw [hr] at this
    cases e <;> exact ⟨_, rfl, this, hB⟩
  | insert_range pos input =>
    have := list.insert_impl_size_wf new_ok s self pos input hA hpre
    simp only [list_op.apply, list.insert_range]
    rcases hr : list.insert_impl new_ok s self pos input with ⟨s', l', e⟩
    rw [hr] at this
    cases e <;> exact ⟨_, rfl, this, hB⟩
  | resize sz dflt =>
    obtain ⟨r, e, hw⟩ := list.resize_wf new_ok s self sz dflt hA
    exact ⟨(r.1, r.2.1, other, r.2.2), by simp [list_op.apply, e], hw, hB⟩
  | resize_val sz val =>
    obtain ⟨r, e, hw⟩ := list.resize_val_wf new_ok s self sz val hA
    exact ⟨(r.1, r.2.1, other, r.2.2), by simp [list_op.apply, e], hw, hB⟩
  | assign_count assignable sz val =>
    refine ⟨_, rfl, ?_, hB⟩
    unfold list.assign_count
    cases assignable
    · exact list.assign_impl_false_wf new_ok s self _
    · exact list.assign_impl_true_wf new_ok s self _ hA
  | assign_range assignable input =>
    refine ⟨_, rfl, ?_, hB⟩
    unfold list.assign_range
    cases assignable
    · exact list.assign_impl_false_wf new_ok s self _
    · exact list.assign_impl_true_wf new_ok s self _ hA
  | remove val =>
    refine ⟨(s, (self.remove_if (fun x => x == val)).1, other, none), ?_,
      (list.remove_if_spec self (fun x => x == val) hA).2.2.2, hB⟩
    simp only [list_op.apply, list.remove_object, Option.map_some']
  | remove_if pred => exact ⟨_, rfl, (list.remove_if_spec self pred hA).2.2.2, hB⟩
  | unique => exact ⟨_, rfl, list.unique_if_wf self _ hA, hB⟩
  | unique_if pred => exact ⟨_, rfl, list.unique_if_wf self pred hA, hB⟩
  | merge always_equal comp =>
    exact ⟨_, rfl, list.merge_impl_size_wf always_equal (nothrow comp) s self other hA hB⟩
  | sort comp => exact ⟨_, rfl, list.sort_wf self comp hA, hB⟩

/-- C24: every mutating operation of `list` that completes normally keeps the list well-formed.
At the level of the links (`swap`, `reverse`, the three `splice` overloads between two lists and
within one, `emplace`/`insert` of one value, `push_front`/`emplace_front`,
`push_back`/`emplace_back`, `pop_front`, `pop_back`, both `erase` overloads and `clear`): when
two lists that are different objects each have their nodes in a cycle with their sentinel,
counted by `size_`, and the arguments are as the call requires, the call ends, and afterwards
each list again has its nodes in a cycle with its sentinel in which every node `n`, the sentinel
included, has `n.next.prev == n` and `n.prev.next == n`, the walk from `head_.next` to the
sentinel passes exactly these nodes, and `size_` is their number.  For the operations that work
in a loop (`insert` of a count or a range, both `resize`, `assign`, `remove`, `remove_if`,
`unique`, `merge`, `sort`), with the nodes of a list as a sequence: the call ends and `size_` of
each list is the number of its nodes afterwards. -/
theorem list_mutating_operations_keep_well_formedness {σ α : Type} [BEq α] (op : list_link_op)
    (self other : list_obj) (h : dllist_links) (nsA nsB : List Nat)
    (hw : self.wf_pair other h nsA nsB) (hpre : op.pre self other nsA nsB) (op' : list_op α)
    (new_ok : σ → α → σ × Bool) (s : σ) (l m : list α) (hl : l.wf) (hm : m.wf)
    (hpre' : op'.pre l) :
    (∃ r, op.apply self other h = some r ∧ ∃ nsA' nsB',
        r.2.1.wf_pair r.2.2.1 r.1 nsA' nsB' ∧
        (∀ n ∈ r.2.1.head_ :: nsA', r.1.prev (r.1.next n) = n ∧ r.1.next (r.1.prev n) = n) ∧
        (∀ n ∈ r.2.2.1.head_ :: nsB', r.1.prev (r.1.next n) = n ∧ r.1.next (r.1.prev n) = n) ∧
        r.1.traverse r.2.1.head_ r.2.1.size_ (r.1.next r.2.1.head_) = nsA' ∧
        r.1.traverse r.2.2.1.head_ r.2.2.1.size_ (r.1.next r.2.2.1.head_) = nsB' ∧
        r.2.1.size_ = nsA'.length ∧ r.2.2.1.size_ = nsB'.length) ∧
      ∃ r', op'.apply new_ok s l m = some r' ∧ r'.2.1.size_ = r'.2.1.nodes.length ∧
        r'.2.2.1.size_ = r'.2.2.1.nodes.length := by
  constructor
  · obtain ⟨r, e, nsA', nsB', hw'⟩ := op.apply_keeps_wf_pair self other h nsA nsB hw hpre
    refine ⟨r, e, nsA', nsB', hw', hw'.1.1.inverse, hw'.2.1.1.inverse, ?_, ?_, hw'.1.2,
      hw'.2.1.2⟩
    · rw [hw'.1.2]; exact hw'.1.1.traverse
    · rw [hw'.2.1.2]; exact hw'.2.1.1.traverse
  · exact op'.apply_keeps_wf new_ok s l m hl hm hpre'

theorem list_mutating_operations_keep_well_formedness_witness :
    (∃ r, (list_link_op.splice_range true 2 11 13).apply ⟨0, 2, 0⟩ ⟨10, 3, 0⟩
          ⟨fun x => if x = 0 then 1 else if x = 1 then 2 else if x = 2 then 0
              else if x = 10 then 11 else if x = 11 then 12 else if x = 12 then 13 else 10,
            fun x => if x = 0 then 2 else if x = 1 then 0 else if x = 2 then 1
              else if x = 10 then 13 else if x = 11 then 10 else if x = 12 then 11
              else 12⟩ = some r ∧
        ∃ nsA' nsB', r.2.1.wf_pair r.2.2.1 r.1 nsA' nsB' ∧
        (∀ n ∈ r.2.1.head_ :: nsA', r.1.prev (r.1.next n) = n ∧ r.1.next (r.1.prev n) = n) ∧
        (∀ n ∈ r.2.2.1.head_ :: nsB', r.1.prev (r.1.next n) = n ∧ r.1.next (r.1.prev n) = n) ∧
        r.1.traverse r.2.1.head_ r.2.1.size_ (r.1.next r.2.1.head_) = nsA' ∧
        r.1.traverse r.2.2.1.head_ r.2.2.1.size_ (r.1.next r.2.2.1.head_) = nsB' ∧
        r.2.1.size_ = nsA'.length ∧ r.2.2.1.size_ = nsB'.length) ∧
      ∃ r', (list_op.resize_val 1 7).apply (fun (s : Unit) (_ : Nat) => (s, true)) ()
          ⟨[4, 5, 6], 3, 0⟩ ⟨[], 0, 0⟩ = some r' ∧
        r'.2.1.size_ = r'.2.1.nodes.length ∧ r'.2.2.1.size_ = r'.2.2.1.nodes.length :=
  @list_mutating_operations_keep_well_formedness Unit Nat _ (.splice_range true 2 11 13)
    ⟨0, 2, 0⟩ ⟨10, 3, 0⟩ _ [1, 2] [11, 12, 13]
    ⟨⟨⟨by decide, by simp [dllist_links.linked]⟩, rfl⟩,
      ⟨⟨by decide, by simp [dllist_links.linked]⟩, rfl⟩, by decide⟩
    ⟨by decide, Or.inr ⟨[], [12], [13], rfl, rfl⟩⟩
    (.resize_val 1 7) (fun s _ => (s, true)) () ⟨[4, 5, 6], 3, 0⟩ ⟨[], 0, 0⟩ rfl rfl trivial

/-! ## `list::resize` -/

theorem batch_made_all {σ α : Type} (new_ok : σ → α → σ × Bool)
    (hok : ∀ s v, (new_ok s v).2 = true) (s : σ) (input : List α) :
    batch_made new_ok s input = input := by
  induction input generalizing s with
  | nil => rfl
  | cons v input ih =>
    simp only [batch_made]
    rcases hn : new_ok s v with ⟨s', b⟩
    have := hok s v
    rw [hn] at this
    simp only at this
    subst this
    simp only [ih]

theorem list.resize_eq_resize_val {σ α : Type} (new_ok : σ → α → σ × Bool) (s : σ)
    (l : list α) (sz : Nat) (dflt : α) :
    list.resize new_ok s l sz dflt = list.resize_val new_ok s l sz dflt := rfl

theorem list.resize_val_spec {σ α : Type} (new_ok : σ → α → σ × Bool) (s : σ) (l : list α)
    (sz : Nat) (val : α) (hl : l.wf) :
    ∃ r, list.resize_val new_ok s l sz val = some r ∧
      (r.2.2 = none → r.2.1.size = sz ∧
        r.2.1.nodes = if sz < l.size then l.nodes.take sz
          else l.nodes ++ List.replicate (sz - l.size) val) ∧
      ((sz < l.size ∨ ∀ s v, (new_ok s v).2 = true) → r.2.2 = none) := by
  unfold list.wf at hl
  unfold list.resize_val list.size
  split_ifs with h1
  · rw [list.resize_seek_spec l.size_ l.size_ sz _ h1 (by omega)]
    have hp : l.nodes.length - 1 - (l.size_ - sz - 1) = sz := by omega
    rw [hp]
    obtain ⟨e1, e2⟩ := list.erase_impl_wf l sz l.nodes.length hl (by omega) (le_refl _)
    refine ⟨_, rfl, fun _ => ⟨?_, ?_⟩, fun _ => rfl⟩
    · show (l.erase_impl sz l.nodes.length).size_ = sz
      rw [e1, e2]
      simp only [List.drop_length, List.append_nil, List.length_take]
      omega
    · show (l.erase_impl sz l.nodes.length).nodes = _
      rw [e2]
      simp
  · obtain ⟨i1, i2, _, i4⟩ := list.insert_loop_spec new_ok s l l.nodes.length
      (List.replicate (sz - l.size_) val) (le_refl _)
    unfold list.insert_const
    rcases hr : list.insert_loop new_ok s l l.nodes.length (List.replicate (sz - l.size_) val)
      with ⟨s', l', e⟩
    rw [hr] at i1 i2 i4
    simp only at i1 i2 i4
    cases e with
    | none =>
      refine ⟨_, rfl, fun _ => ?_, fun _ => rfl⟩
      rcases i4 with ⟨_, hb⟩ | ⟨hc, _⟩
      · rw [hb] at i1 i2
        simp only [List.take_length, List.drop_length, List.append_nil,
          List.length_replicate] at i1 i2
        exact ⟨by show l'.size_ = sz; omega, i1⟩
      · exact absurd hc (by simp)
    | some e =>
      refine ⟨_, rfl, fun hc => absurd hc (by simp), ?_⟩
      intro hok
      rcases hok with hlt | hok
      · exact absurd hlt h1
      · rcases i4 with ⟨hc, _⟩ | ⟨_, hlt⟩
        · exact absurd hc (by simp)
        · rw [batch_made_all new_ok hok] at hlt
          exact absurd hlt (lt_irrefl _)

/-- C36: for every list of size `n` whose `size_` counts its nodes and every target size `s`, a
call of `resize(s)` or `resize(s, value)` ends; when it returns normally `size()` is `s` and the
list is the first `s` elements of the old one in their order if `s < n`, and the old list
followed by `s - n` value-initialised elements (copies of `value`) otherwise; it does return
normally when `s < n`, and when no allocation or construction of a node throws. -/
theorem list_resize_truncates_or_pads {σ α : Type} (new_ok : σ → α → σ × Bool) (s : σ)
    (l : list α) (sz : Nat) (dflt val : α) (hl : l.wf) :
    (∃ r, list.resize new_ok s l sz dflt = some r ∧
      (r.2.2 = none → r.2.1.size = sz ∧
        r.2.1.nodes = if sz < l.size then l.nodes.take sz
          else l.nodes ++ List.replicate (sz - l.size) dflt) ∧
      ((sz < l.size ∨ ∀ s v, (new_ok s v).2 = true) → r.2.2 = none)) ∧
    ∃ r, list.resize_val new_ok s l sz val = some r ∧
      (r.2.2 = none → r.2.1.size = sz ∧
        r.2.1.nodes = if sz < l.size then l.nodes.take sz
          else l.nodes ++ List.replicate (sz - l.size) val) ∧
      ((sz < l.size ∨ ∀ s v, (new_ok s v).2 = true) → r.2.2 = none) := by
  refine ⟨?_, list.resize_val_spec new_ok s l sz val hl⟩
  rw [list.resize_eq_resize_val]
  exact list.resize_val_spec new_ok s l sz dflt hl

theorem list_resize_truncates_or_pads_witness :
    ∃ r, list.resize (fun (s : Unit) (_ : Nat) => (s, true)) () ⟨[4, 5, 6], 3, 0⟩ 5 0 = some r ∧
      r.2.2 = none ∧ r.2.1.size = 5 ∧ r.2.1.nodes = [4, 5, 6, 0, 0] :=
  have ⟨r, e, hs, hn⟩ := (list_resize_truncates_or_pads (fun (s : Unit) (_ : Nat) => (s, true))
    () (⟨[4, 5, 6], 3, 0⟩ : list Nat) 5 0 7 rfl).1
  ⟨r, e, hn (Or.inr fun _ _ => rfl), (hs (hn (Or.inr fun _ _ => rfl))).1,
    (hs (hn (Or.inr fun _ _ => rfl))).2.trans (by decide)⟩

/-! ## `util::xml_parser` -/

/-- C37: what `parse_special_character` does with numeric references, the `'&'` having been
read.  For `#65;` it returns `true` with `code == 50`, not 65: the byte after `'#'` is read for
the comparison with `'x'` and never used as a digit, and every round of the loop multiplies
`code` by 10 before it looks at the byte, the `';'` included.  For the same reasons `#5;` is
refused (no digit is counted) and `#065;` gives 650.  For `#x41;` it returns `false`: the hex
loop shifts `code` once more at the `';'` (`0x410`) and is followed by the decimal loop, which
reads on after the `';'`; with a second `';'` there, `#x41;;`, the call returns `true` with
`code == 10400`. -/
theorem xml_numeric_reference_gives_wrong_code :
    xml_parser_t.parse_special_character ⟨bytes "#65;", true⟩ 0 = (true, 50, ⟨[], true⟩) ∧
      (xml_parser_t.parse_special_character ⟨bytes "#5;", true⟩ 0).1 = false ∧
      xml_parser_t.parse_special_character ⟨bytes "#065;", true⟩ 0 = (true, 650, ⟨[], true⟩) ∧
      xml_parser_t.parse_special_character ⟨bytes "#x41;", true⟩ 0 =
        (false, 10400, ⟨[], false⟩) ∧
      xml_parser_t.parse_special_character ⟨bytes "#x41;<", true⟩ 0 =
        (false, 10400, ⟨[], true⟩) ∧
      xml_parser_t.parse_special_character ⟨bytes "#x41;;", true⟩ 0 =
        (true, 10400, ⟨[], true⟩) := by
  decide

/-- C38: what `try_parse_name` takes for a name.  The table `_is_name_char` holds every byte
from 0 to 46, among them tab, line feed, space and `'"'`: the constructor of `symb_table_t`
reads the leading `'-'` of `"---.:_0-9a-zA-Z"` as a range that starts at `prev_ch == '\0'`.
So after `<`, in `<a b="c">`, the call with `first == 'a'` returns `true` with the name `a b`
and leaves `="c">` unread; `'='`, `'/'` and `'>'` do end a name, and the table of the first
character holds `':'`, `'_'` and the letters only. -/
theorem xml_name_runs_over_spaces :
    (∀ ch, ch ≤ 46 → is_name_char ch = true) ∧
      is_name_char 61 = false ∧ is_name_char 47 = false ∧ is_name_char 62 = false ∧
      (∀ ch, ch < 256 → (is_name_first_char ch = true ↔
        ch = 58 ∨ ch = 95 ∨ (65 ≤ ch ∧ ch ≤ 90) ∨ (97 ≤ ch ∧ ch ≤ 122))) ∧
      xml_parser_t.try_parse_name ⟨bytes " b=\"c\">", true⟩ 97 [] =
        (true, bytes "a b", ⟨bytes "=\"c\">", true⟩) := by
  set_option maxRecDepth 8000 in decide

/-- C39: what `skip_up_to` takes for the end.  With `sub == "-->"` and the input
` a - b -> c -->` (the body of a comment after `<!--`) the call returns `true` after the `'>'`
of `->` and leaves ` c -->` unread: a byte that is not `*it` does not set `it` back to the
start of `sub`, so the bytes of `sub` are found one by one with other bytes in between.  For
the same reason the call returns `true` on `-x->`, which does not contain `-->`. -/
theorem xml_skip_up_to_accepts_scattered_terminator :
    xml_parser_t.skip_up_to ⟨bytes " a - b -> c -->", true⟩ 1 (bytes "-->") =
        (true, ⟨bytes " c -->", true⟩, 1) ∧
      xml_parser_t.skip_up_to ⟨bytes "-x->", true⟩ 1 (bytes "-->") = (true, ⟨[], true⟩, 1) := by
  decide

/-! ## The comparison operators of `util::variant` -/

theorem variant.operator_lt_same {T : variant_types} (O : variant_order T) (id : Nat)
    (d e : Option (T.payload id)) :
    (⟨id, d⟩ : variant T).operator_lt O ⟨id, e⟩ =
      (T.vtable_type id != variant_id.kInvalid && O.vtable_less id d e) := by
  unfold variant.operator_lt
  simp only [dif_pos]

theorem variant.operator_eq_same {T : variant_types} (O : variant_order T) (id : Nat)
    (d e : Option (T.payload id)) :
    (⟨id, d⟩ : variant T).operator_eq O ⟨id, e⟩ =
      (T.vtable_type id == variant_id.kInvalid || O.vtable_equals id d e) := by
  unfold variant.operator_eq
  simp only [dif_pos]

/-- The claim of C40 fails for variants of different stored types: for the variant holding the
`int` 1 and the variant holding the string `"a"`, `a <= b` and `a >= b` hold although none of
`a < b`, `a > b` and `a == b` does. -/
theorem variant_le_without_lt_or_eq :
    ¬ (((variant.of_value example_types 2 (1 : Int)).operator_le example_order
          (variant.of_value example_types 5 "a") = true ↔
        ((variant.of_value example_types 2 (1 : Int)).operator_lt example_order
            (variant.of_value example_types 5 "a") = true ∨
          (variant.of_value example_types 2 (1 : Int)).operator_eq example_order
            (variant.of_value example_types 5 "a") = true)) ∧
      ((variant.of_value example_types 2 (1 : Int)).operator_ge example_order
          (variant.of_value example_types 5 "a") = true ↔
        ((variant.of_value example_types 2 (1 : Int)).operator_gt example_order
            (variant.of_value example_types 5 "a") = true ∨
          (variant.of_value example_types 2 (1 : Int)).operator_eq example_order
            (variant.of_value example_types 5 "a") = true))) := by
  decide

/-- C40, amended: `a <= b` is `!(b < a)` and `a >= b` is `!(a < b)`.  For two variants of the
same stored type that both hold a value, where exactly one of `x < y`, `x == y` and `y < x`
holds for the values `x` and `y` held, and for two invalid variants of one type, the operators
are consistent: `a <= b` holds exactly when `a < b` or `a == b` does, and `a >= b` exactly when
`a > b` or `a == b` does.  For two variants of different stored types `a <= b` and `a >= b`
both hold, while `a < b`, `a > b` and `a == b` do not. -/
theorem variant_comparisons_consistent_within_a_type {T : variant_types} (O : variant_order T)
    (id : Nat) (x y : T.payload id) (hreg : T.vtable_type id ≠ variant_id.kInvalid)
    (htri : (O.less id x y = true ∧ O.equals id x y = false ∧ O.less id y x = false) ∨
      (O.less id x y = false ∧ O.equals id x y = true ∧ O.less id y x = false) ∨
      (O.less id x y = false ∧ O.equals id x y = false ∧ O.less id y x = true))
    (t : Nat) (d e : Option (T.payload t)) (hinv : T.vtable_type t = variant_id.kInvalid)
    (a b : variant T) (hab : a.vtable_ ≠ b.vtable_) :
    (((⟨id, some x⟩ : variant T).operator_le O ⟨id, some y⟩ = true ↔
        ((⟨id, some x⟩ : variant T).operator_lt O ⟨id, some y⟩ = true ∨
          (⟨id, some x⟩ : variant T).operator_eq O ⟨id, some y⟩ = true)) ∧
      ((⟨id, some x⟩ : variant T).operator_ge O ⟨id, some y⟩ = true ↔
        ((⟨id, some x⟩ : variant T).operator_gt O ⟨id, some y⟩ = true ∨
          (⟨id, some x⟩ : variant T).operator_eq O ⟨id, some y⟩ = true))) ∧
    (((⟨t, d⟩ : variant T).operator_le O ⟨t, e⟩ = true ↔
        ((⟨t, d⟩ : variant T).operator_lt O ⟨t, e⟩ = true ∨
          (⟨t, d⟩ : variant T).operator_eq O ⟨t, e⟩ = true)) ∧
      ((⟨t, d⟩ : variant T).operator_ge O ⟨t, e⟩ = true ↔
        ((⟨t, d⟩ : variant T).operator_gt O ⟨t, e⟩ = true ∨
          (⟨t, d⟩ : variant T).operator_eq O ⟨t, e⟩ = true))) ∧
    (a.operator_le O b = true ∧ a.operator_ge O b = true ∧ a.operator_lt O b = false ∧
      a.operator_gt O b = false ∧ a.operator_eq O b = false) ∧
    a.operator_le O b = !b.operator_lt O a ∧ a.operator_ge O b = !a.operator_lt O b := by
  have hv : (T.vtable_type id != variant_id.kInvalid) = true := by simpa using hreg
  have hv' : (T.vtable_type id == variant_id.kInvalid) = false := by simpa using hreg
  have hi : (T.vtable_type t != variant_id.kInvalid) = false := by simp [hinv]
  have hi' : (T.vtable_type t == variant_id.kInvalid) = true := by simp [hinv]
  refine ⟨?_, ?_, ?_, rfl, rfl⟩
  · unfold variant.operator_le variant.operator_ge variant.operator_gt
    simp only [variant.operator_lt_same, variant.operator_eq_same, hv, hv',
      variant_order.vtable_less, variant_order.vtable_equals, Bool.true_and, Bool.false_or]
    rcases htri with ⟨h1, h2, h3⟩ | ⟨h1, h2, h3⟩ | ⟨h1, h2, h3⟩ <;> simp [h1, h2, h3]
  · unfold variant.operator_le variant.operator_ge variant.operator_gt
    simp only [variant.operator_lt_same, variant.operator_eq_same, hi, hi', Bool.false_and,
      Bool.true_or, Bool.not_false, or_true, and_self]
  · have hba : b.vtable_ ≠ a.vtable_ := fun e => hab e.symm
    unfold variant.operator_le variant.operator_ge variant.operator_gt variant.operator_lt
      variant.operator_eq
    simp only [dif_neg hab, dif_neg hba, Bool.not_false, and_self]

theorem variant_comparisons_consistent_within_a_type_witness :
    (((⟨2, some (1 : Int)⟩ : variant example_types).operator_le example_order ⟨2, some (2 : Int)⟩ =
          true ↔
        ((⟨2, some (1 : Int)⟩ : variant example_types).operator_lt example_order ⟨2, some (2 : Int)⟩ =
            true ∨
          (⟨2, some (1 : Int)⟩ : variant example_types).operator_eq example_order
            ⟨2, some (2 : Int)⟩ = true))) ∧
      (variant.default_ctor example_types).operator_le example_order
        (variant.default_ctor example_types) = true :=
  have h := variant_comparisons_consistent_within_a_type example_order 2 (1 : Int) (2 : Int)
    (by decide) (Or.inl (by decide)) 0 none none (by decide)
    (variant.of_value example_types 2 (1 : Int)) (variant.of_value example_types 5 "a")
    (by decide)
  ⟨h.1.1, h.2.1.1.mpr (Or.inr (by decide))⟩

/-! ## Searches in sorted ranges (`util_algorithm.h`) -/

theorem partition_point_exists {α : Type} (p : α → Bool) (R : α → α → Prop) (r : List α)
    (hr : r.Pairwise R) (hmono : ∀ a b, R a b → p b = true → p a = true) :
    ∃ n, partition_point p r n := by
  induction r with
  | nil => exact ⟨0, le_refl _, fun i x h => by simp at h⟩
  | cons a r ih =>
    obtain ⟨ha, hr'⟩ := List.pairwise_cons.mp hr
    obtain ⟨n, hn, hp⟩ := ih hr'
    by_cases hpa : p a = true
    · refine ⟨n + 1, by simp only [List.length_cons]; omega, ?_⟩
      intro i x hx
      cases i with
      | zero =>
        simp only [List.getElem?_cons_zero, Option.some.injEq] at hx
        subst hx
        simp [hpa]
      | succ i =>
        simp only [List.getElem?_cons_succ] at hx
        rw [hp i x hx]
        omega
    · refine ⟨0, Nat.zero_le _, ?_⟩
      intro i x hx
      simp only [Nat.not_lt_zero, iff_false]
      cases i with
      | zero =>
        simp only [List.getElem?_cons_zero, Option.some.injEq] at hx
        subst hx
        exact hpa
      | succ i =>
        simp only [List.getElem?_cons_succ] at hx
        intro hpx
        exact hpa (hmono a x (ha x (List.getElem?_mem hx)) hpx)

theorem partition_point_unique {α : Type} (p : α → Bool) (r : List α) (n m : Nat)
    (hn : partition_point p r n) (hm : partition_point p r m) : n = m := by
  by_contra hne
  rcases Nat.lt_or_gt_of_ne hne with h | h
  · have hlt : n < r.length := by have := hm.1; omega
    have hx := List.getElem?_eq_getElem hlt
    have h1 := (hm.2 n _ hx).mpr h
    have h2 := (hn.2 n _ hx).mp h1
    omega
  · have hlt : m < r.length := by have := hn.1; omega
    have hx := List.getElem?_eq_getElem hlt
    have h1 := (hn.2 m _ hx).mpr h
    have h2 := (hm.2 m _ hx).mp h1
    omega

theorem lower_bound_loop_spec {α κ : Type} (fn : α → κ) (lt : κ → κ → Bool) (r : List α)
    (k : κ) (n : Nat) (hn : partition_point (fun x => lt (fn x) k) r n) (fuel first count : Nat)
    (h1 : first ≤ n) (h2 : n ≤ first + count) (h3 : first + count ≤ r.length)
    (h4 : count < fuel) :
    lower_bound_loop fn lt r k fuel first count = some n := by
  induction fuel generalizing first count with
  | zero => omega
  | succ fuel ih =>
    simp only [lower_bound_loop]
    by_cases hc : 0 < count
    · have hmid : first + count / 2 < r.length := by omega
      have hx := List.getElem?_eq_getElem hmid
      simp only [hc, if_true, hx]
      have hp := hn.2 _ _ hx
      simp only at hp
      by_cases hlt : lt (fn r[first + count / 2]) k = true
      · rw [if_pos hlt]
        have := hp.mp hlt
        exact ih _ _ (by omega) (by omega) (by omega) (by omega)
      · rw [if_neg hlt]
        have : ¬ first + count / 2 < n := fun h => hlt (hp.mpr h)
        exact ih _ _ h1 (by omega) (by omega) (by omega)
    · simp only [hc, if_false]
      congr 1
      omega

theorem upper_bound_loop_spec {α κ : Type} (fn : α → κ) (lt : κ → κ → Bool) (r : List α)
    (k : κ) (n : Nat) (hn : partition_point (fun x => !lt k (fn x)) r n)
    (fuel first count : Nat) (h1 : first ≤ n) (h2 : n ≤ first + count)
    (h3 : first + count ≤ r.length) (h4 : count < fuel) :
    upper_bound_loop fn lt r k fuel first count = some n := by
  induction fuel generalizing first count with
  | zero => omega
  | succ fuel ih =>
    simp only [upper_bound_loop]
    by_cases hc : 0 < count
    · have hmid : first + count / 2 < r.length := by omega
      have hx := List.getElem?_eq_getElem hmid
      simp only [hc, if_true, hx]
      have hp := hn.2 _ _ hx
      simp only at hp
      by_cases hlt : (!lt k (fn r[first + count / 2])) = true
      · rw [if_pos hlt]
        have := hp.mp hlt
        exact ih _ _ (by omega) (by omega) (by omega) (by omega)
      · rw [if_neg hlt]
        have : ¬ first + count / 2 < n := fun h => hlt (hp.mpr h)
        exact ih _ _ h1 (by omega) (by omega) (by omega)
    · simp only [hc, if_false]
      congr 1
      omega

theorem equal_range_loop_spec {α κ : Type} (fn : α → κ) (lt : κ → κ → Bool) (r : List α)
    (k : κ) (lo hi : Nat) (hlo : partition_point (fun x => lt (fn x) k) r lo)
    (hhi : partition_point (fun x => !lt k (fn x)) r hi) (fuel first count : Nat)
    (h1 : first ≤ lo) (h2 : hi ≤ first + count) (h3 : first + count ≤ r.length)
    (h4 : count < fuel) (h5 : lo ≤ hi) :
    equal_range_loop fn lt r k fuel first count = some (lo, hi) := by
  induction fuel generalizing first count with
  | zero => omega
  | succ fuel ih =>
    simp only [equal_range_loop]
    by_cases hc : 0 < count
    · have hmid : first + count / 2 < r.length := by omega
      have hx := List.getElem?_eq_getElem hmid
      simp only [hc, if_true, hx]
      have hp := hlo.2 _ _ hx
      have hq := hhi.2 _ _ hx
      simp only at hp hq
      by_cases hlt : lt (fn r[first + count / 2]) k = true
      · rw [if_pos hlt]
        have := hp.mp hlt
        exact ih _ _ (by omega) (by omega) (by omega) (by omega)
      · rw [if_neg hlt]
        have hge : ¬ first + count / 2 < lo := fun h => hlt (hp.mpr h)
        by_cases hgt : lt k (fn r[first + count / 2]) = true
        · rw [if_pos hgt]
          have : ¬ first + count / 2 < hi := fun h => by
            have := hq.mpr h
            simp [hgt] at this
          exact ih _ _ h1 (by omega) (by omega) (by omega)
        · rw [if_neg hgt]
          have hm : first + count / 2 < hi := hq.mp (by simpa using hgt)
          rw [lower_bound_loop_spec fn lt r k lo hlo _ first (count / 2) h1 (by omega)
            (by omega) (by omega),
            upper_bound_loop_spec fn lt r k hi hhi _ (first + count / 2 + 1)
              (count - (count / 2 + 1)) (by omega) (by omega) (by omega) (by omega)]
    · simp only [hc, if_false]
      congr 1
      have : first = lo := by omega
      have : first = hi := by omega
      simp only [Prod.mk.injEq]
      omega

theorem sorted_lower_partition {α κ : Type} (fn : α → κ) {lt : κ → κ → Bool}
    (h : strict_weak_order lt) (r : List α) (hs : keys_ordered fn lt r) (k : κ) :
    ∃ n, partition_point (fun x => lt (fn x) k) r n :=
  partition_point_exists _ _ r hs (fun _ _ hab hb => h.lt_of_le_of_lt hab hb)

theorem sorted_upper_partition {α κ : Type} (fn : α → κ) {lt : κ → κ → Bool}
    (h : strict_weak_order lt) (r : List α) (hs : keys_ordered fn lt r) (k : κ) :
    ∃ n, partition_point (fun x => !lt k (fn x)) r n := by
  refine partition_point_exists _ _ r hs ?_
  intro a b hab hb
  simp only [Bool.not_eq_true'] at hb ⊢
  cases hka : lt k (fn a) with
  | false => rfl
  | true =>
    have := h.lt_of_lt_of_le hka hab
    rw [this] at hb
    exact absurd hb (by simp)

theorem partition_lower_le_upper {α κ : Type} (fn : α → κ) {lt : κ → κ → Bool}
    (h : strict_weak_order lt) (r : List α) (k : κ) (lo hi : Nat)
    (hlo : partition_point (fun x => lt (fn x) k) r lo)
    (hhi : partition_point (fun x => !lt k (fn x)) r hi) : lo ≤ hi := by
  by_contra hlt
  have hl : hi < r.length := by have := hlo.1; omega
  have hx := List.getElem?_eq_getElem hl
  have h1 := (hlo.2 hi _ hx).mpr (by omega)
  have h2 : (!lt k (fn r[hi])) = true := by
    simp only at h1
    simp [h.asymm h1]
  have := (hhi.2 hi _ hx).mp h2
  omega

theorem lower_bound_spec {α κ : Type} (fn : α → κ) (lt : κ → κ → Bool) (r : List α) (k : κ)
    (n : Nat) (hn : partition_point (fun x => lt (fn x) k) r n) :
    lower_bound fn lt r k = some n :=
  lower_bound_loop_spec fn lt r k n hn _ 0 r.length (Nat.zero_le _) (by have := hn.1; omega)
    (by omega) (by omega)

theorem upper_bound_spec {α κ : Type} (fn : α → κ) (lt : κ → κ → Bool) (r : List α) (k : κ)
    (n : Nat) (hn : partition_point (fun x => !lt k (fn x)) r n) :
    upper_bound fn lt r k = some n :=
  upper_bound_loop_spec fn lt r k n hn _ 0 r.length (Nat.zero_le _) (by have := hn.1; omega)
    (by omega) (by omega)

/-- C32: for a strict weak ordering `<` of the keys, every random-access range whose keys never
decrease and every key `k`, `lower_bound`, `upper_bound` and `equal_range` all end, and
`equal_range(r, k, fn)` returns exactly the pair of the iterators that `lower_bound(r, k, fn)`
and `upper_bound(r, k, fn)` return. -/
theorem equal_range_is_lower_and_upper_bound {α κ : Type} (fn : α → κ) (lt : κ → κ → Bool)
    (h : strict_weak_order lt) (r : List α) (hs : keys_ordered fn lt r) (k : κ) :
    ∃ lo hi, lower_bound fn lt r k = some lo ∧ upper_bound fn lt r k = some hi ∧
      equal_range fn lt r k = some (lo, hi) := by
  obtain ⟨lo, hlo⟩ := sorted_lower_partition fn h r hs k
  obtain ⟨hi, hhi⟩ := sorted_upper_partition fn h r hs k
  refine ⟨lo, hi, lower_bound_spec fn lt r k lo hlo, upper_bound_spec fn lt r k hi hhi, ?_⟩
  exact equal_range_loop_spec fn lt r k lo hi hlo hhi _ 0 r.length (Nat.zero_le _)
    (by have := hhi.1; omega) (by omega) (by omega)
    (partition_lower_le_upper fn h r k lo hi hlo hhi)

theorem equal_range_is_lower_and_upper_bound_witness :
    ∃ lo hi, lower_bound id (fun a b : Nat => decide (a < b)) [1, 2, 2, 2, 5, 7] 2 = some lo ∧
      upper_bound id (fun a b : Nat => decide (a < b)) [1, 2, 2, 2, 5, 7] 2 = some hi ∧
      equal_range id (fun a b : Nat => decide (a < b)) [1, 2, 2, 2, 5, 7] 2 = some (lo, hi) :=
  equal_range_is_lower_and_upper_bound id (fun a b : Nat => decide (a < b))
    nat_lt_strict_weak_order [1, 2, 2, 2, 5, 7] (by unfold keys_ordered; decide) 2

theorem binary_find_spec {α κ : Type} (fn : α → κ) (lt : κ → κ → Bool)
    (h : strict_weak_order lt) (r : List α) (hs : keys_ordered fn lt r) (k : κ) (n : Nat)
    (hn : partition_point (fun x => lt (fn x) k) r n) :
    ∃ b, binary_find fn lt r k = some (n, b) ∧
      (b = true ↔ ∃ x ∈ r, equiv lt (fn x) k = true) ∧
      (b = true → ∃ x, r[n]? = some x ∧ equiv lt (fn x) k = true) := by
  unfold binary_find
  rw [lower_bound_spec fn lt r k n hn]
  simp only
  by_cases hend : n = r.length
  · rw [if_neg (by simpa using hend)]
    refine ⟨false, rfl, ?_, fun hc => absurd hc (by simp)⟩
    simp only [Bool.false_eq_true, false_iff, not_exists, not_and]
    intro x hx
    obtain ⟨i, hi⟩ := List.mem_iff_getElem?.mp hx
    have hlt : i < r.length := (List.getElem?_eq_some.mp hi).1
    have := (hn.2 i x hi).mpr (by omega)
    simp only at this
    simp [equiv, this]
  · have hlt : n < r.length := by have := hn.1; omega
    have hx := List.getElem?_eq_getElem hlt
    rw [if_pos hend, hx]
    have hnl : lt (fn r[n]) k = false := by
      cases hc : lt (fn r[n]) k with
      | false => rfl
      | true => exact absurd ((hn.2 n _ hx).mp hc) (lt_irrefl _)
    refine ⟨_, rfl, ?_, ?_⟩
    · constructor
      · intro hb
        exact ⟨r[n], List.getElem_mem _, by simpa [equiv, hnl] using hb⟩
      · rintro ⟨x, hxm, hxe⟩
        obtain ⟨i, hi⟩ := List.mem_iff_getElem?.mp hxm
        simp only [equiv, Bool.and_eq_true, Bool.not_eq_true'] at hxe
        have hin : ¬ i < n := fun hlt' => by
          have := (hn.2 i x hi).mpr hlt'
          simp only at this
          rw [this] at hxe
          exact absurd hxe.1 (by simp)
        simp only [Bool.not_eq_true']
        rcases Nat.eq_or_lt_of_le (Nat.le_of_not_lt hin) with e | hlt'
        · subst e
          rw [hx] at hi
          simp only [Option.some.injEq] at hi
          rw [hi]
          exact hxe.2
        · have hle : lt (fn x) (fn r[n]) = false := by
            have hp := List.pairwise_iff_getElem.mp hs n i hlt
              (List.getElem?_eq_some.mp hi).1 hlt'
            rw [(List.getElem?_eq_some.mp hi).2] at hp
            exact hp
          cases hc : lt k (fn r[n]) with
          | false => rfl
          | true =>
            have := h.lt_of_lt_of_le hc hle
            rw [this] at hxe
            exact absurd hxe.2 (by simp)
    · intro hb
      exact ⟨r[n], rfl, by simpa [equiv, hnl] using hb⟩

/-- C33: for a strict weak ordering `<` of the keys, every random-access range whose keys never
decrease and every key `k`, `lower_bound` returns the position `i` such that exactly the
elements in front of `i` have a key less than `k`; `binary_find` returns that position with a
flag that is true exactly when the range has an element whose key is equivalent to `k`, the
element at `i` then being such an element, and `binary_contains` returns the flag. -/
theorem lower_bound_and_binary_find_on_sorted_range {α κ : Type} (fn : α → κ)
    (lt : κ → κ → Bool) (h : strict_weak_order lt) (r : List α) (hs : keys_ordered fn lt r)
    (k : κ) :
    ∃ i b, lower_bound fn lt r k = some i ∧ i ≤ r.length ∧
      (∀ j x, r[j]? = some x → (lt (fn x) k = true ↔ j < i)) ∧
      binary_find fn lt r k = some (i, b) ∧ binary_contains fn lt r k = some b ∧
      (b = true ↔ ∃ x ∈ r, equiv lt (fn x) k = true) ∧
      (b = true → ∃ x, r[i]? = some x ∧ equiv lt (fn x) k = true) := by
  obtain ⟨n, hn⟩ := sorted_lower_partition fn h r hs k
  obtain ⟨b, hb, h1, h2⟩ := binary_find_spec fn lt h r hs k n hn
  refine ⟨n, b, lower_bound_spec fn lt r k n hn, hn.1, hn.2, hb, ?_, h1, h2⟩
  unfold binary_contains
  rw [hb]
  rfl

theorem lower_bound_and_binary_find_on_sorted_range_witness :
    ∃ i b, lower_bound id (fun a b : Nat => decide (a < b)) [1, 2, 2, 5, 7] 5 = some i ∧
      i ≤ 5 ∧ binary_find id (fun a b : Nat => decide (a < b)) [1, 2, 2, 5, 7] 5 =
        some (i, b) ∧ (b = true ↔ ∃ x ∈ [1, 2, 2, 5, 7],
          equiv (fun a b : Nat => decide (a < b)) x 5 = true) :=
  have ⟨i, b, h1, h2, _, h4, _, h6, _⟩ := lower_bound_and_binary_find_on_sorted_range id
    (fun a b : Nat => decide (a < b)) nat_lt_strict_weak_order [1, 2, 2, 5, 7]
    (by unfold keys_ordered; decide) 5
  ⟨i, b, h1, h2, h4, h6⟩

theorem keys_increasing_insert_at {α κ : Type} (fn : α → κ) {lt : κ → κ → Bool}
    (cont : List α) (hc : keys_increasing fn lt cont) (v : α) (n : Nat)
    (hn : partition_point (fun x => lt (fn x) (fn v)) cont n)
    (hne : ¬ ∃ x ∈ cont, equiv lt (fn x) (fn v) = true) :
    keys_increasing fn lt (cont.take n ++ v :: cont.drop n) := by
  unfold keys_increasing at hc ⊢
  have hsplit : cont.take n ++ cont.drop n = cont := List.take_append_drop n cont
  have hc' := hc
  rw [← hsplit, List.pairwise_append] at hc'
  rw [List.pairwise_append, List.pairwise_cons]
  refine ⟨hc'.1, ⟨?_, hc'.2.1⟩, ?_⟩
  · intro b hb
    obtain ⟨j, hj⟩ := List.mem_iff_getElem?.mp hb
    rw [List.getElem?_drop] at hj
    have hnl : lt (fn b) (fn v) = false := by
      cases hlt : lt (fn b) (fn v) with
      | false => rfl
      | true =>
        have := (hn.2 _ b hj).mp hlt
        omega
    cases hvb : lt (fn v) (fn b) with
    | true => rfl
    | false =>
      exact absurd ⟨b, List.getElem?_mem hj, by simp [equiv, hnl, hvb]⟩ hne
  · intro a ha b hb
    have hav : lt (fn a) (fn v) = true := by
      obtain ⟨i, hi⟩ := List.mem_iff_getElem?.mp ha
      rw [List.getElem?_take] at hi
      split at hi
      · exact (hn.2 i a hi).mpr (by assumption)
      · exact absurd hi (by simp)
    rcases List.mem_cons.mp hb with e | hb'
    · rw [e]; exact hav
    · exact hc'.2.2 a ha b hb'

/-- C34: for a strict weak ordering `<` of the keys, every sequence container `c` whose keys
strictly increase and every value `v`, `binary_insert_unique(c, v)` ends.  If `c` holds an
element with a key equivalent to `fn(v)`, it returns the position of that element with `false`
and leaves `c` as it is; otherwise it returns the position of `v` with `true`, `c` is the old
container with `v` put in at that position, `c.size()` is one more, and the keys of `c`
strictly increase as before. -/
theorem binary_insert_unique_keeps_keys_increasing {α κ : Type} (fn : α → κ)
    (lt : κ → κ → Bool) (h : strict_weak_order lt) (cont : List α)
    (hc : keys_increasing fn lt cont) (v : α) :
    ∃ it, it ≤ cont.length ∧
      ((∃ x ∈ cont, equiv lt (fn x) (fn v) = true) →
        binary_insert_unique fn lt cont v = some (cont, it, false) ∧
          ∃ x, cont[it]? = some x ∧ equiv lt (fn x) (fn v) = true) ∧
      ((¬ ∃ x ∈ cont, equiv lt (fn x) (fn v) = true) →
        ∃ c2, binary_insert_unique fn lt cont v = some (c2, it, true) ∧
          c2 = cont.take it ++ v :: cont.drop it ∧ c2[it]? = some v ∧
          c2.length = cont.length + 1 ∧ keys_increasing fn lt c2) := by
  have hs := keys_increasing_ordered fn h cont hc
  obtain ⟨n, hn⟩ := sorted_lower_partition fn h cont hs (fn v)
  obtain ⟨b, hb, h1, h2⟩ := binary_find_spec fn lt h cont hs (fn v) n hn
  refine ⟨n, hn.1, ?_, ?_⟩
  · intro hex
    have hbt : b = true := h1.mpr hex
    subst hbt
    refine ⟨?_, h2 rfl⟩
    unfold binary_insert_unique binary_emplace_unique
    rw [hb]
    rfl
  · intro hne
    have hbf : b = false := by
      cases b with
      | false => rfl
      | true => exact absurd (h1.mp rfl) hne
    subst hbf
    refine ⟨cont.take n ++ v :: cont.drop n, ?_, rfl, ?_, ?_,
      keys_increasing_insert_at fn cont hc v n hn hne⟩
    · unfold binary_insert_unique binary_emplace_unique
      rw [hb]
      rfl
    · rw [List.getElem?_append_right (by simp [List.length_take, hn.1])]
      simp [List.length_take, Nat.min_eq_left hn.1]
    · have := hn.1
      simp only [List.length_append, List.length_take, List.length_cons, List.length_drop]
      omega

theorem binary_insert_unique_keeps_keys_increasing_witness :
    ∃ it, it ≤ 4 ∧
      ∃ c2, binary_insert_unique id (fun a b : Nat => decide (a < b)) [1, 2, 5, 7] 6 =
          some (c2, it, true) ∧ c2[it]? = some 6 ∧ c2.length = 5 ∧
        keys_increasing id (fun a b : Nat => decide (a < b)) c2 :=
  have ⟨it, h1, _, h3⟩ := binary_insert_unique_keeps_keys_increasing id
    (fun a b : Nat => decide (a < b)) nat_lt_strict_weak_order [1, 2, 5, 7]
    (by unfold keys_increasing; decide) 6
  have ⟨c2, e, _, h5, h6, h7⟩ := h3 (by decide)
  ⟨it, h1, c2, e, h5, h6, h7⟩

/-! ## `map::insert_or_assign` -/

theorem keys_increasing_equiv_unique {α κ : Type} (get_key : α → κ) {comp : κ → κ → Bool}
    (h : strict_weak_order comp) (l : List α) (hl : keys_increasing get_key comp l) (key : κ)
    (i j : Nat) (a b : α) (hi : l[i]? = some a) (hj : l[j]? = some b)
    (ha : equiv comp key (get_key a) = true) (hb : equiv comp key (get_key b) = true) :
    i = j := by
  simp only [equiv, Bool.and_eq_true, Bool.not_eq_true'] at ha hb
  have key_lt : ∀ (i j : Nat) (a b : α), l[i]? = some a → l[j]? = some b →
      comp key (get_key a) = false → comp (get_key a) key = false →
      comp key (get_key b) = false → i < j → False := by
    intro i j a b hi hj ha1 ha2 hb1 hij
    obtain ⟨hil, hia⟩ := List.getElem?_eq_some.mp hi
    obtain ⟨hjl, hjb⟩ := List.getElem?_eq_some.mp hj
    have hab := List.pairwise_iff_getElem.mp hl i j hil hjl hij
    rw [hia, hjb] at hab
    have := h.lt_of_lt_of_le hab hb1
    rw [ha2] at this
    exact absurd this (by simp)
  by_contra hne
  rcases Nat.lt_or_gt_of_ne hne with hij | hij
  · exact key_lt i j a b hi hj ha.1 ha.2 hb.1 hij
  · exact key_lt j i b a hj hi hb.1 hb.2 ha.1 hij

/-- In a tree with strictly increasing keys `find(key)` gives the iterator of the one entry with
a key equivalent to `key`. -/
theorem rbtree_base.find_at {α κ : Type} (get_key : α → κ) {comp : κ → κ → Bool}
    (h : strict_weak_order comp) (t : rbtree_base α)
    (ht : keys_increasing get_key comp t.root.in_order) (key : κ) (i : Nat) (e : α)
    (hi : t.root.in_order[i]? = some e) (he : equiv comp key (get_key e) = true) :
    t.find get_key comp key = i := by
  obtain ⟨p, hp⟩ := rbtree_find_present get_key h key t.root ht ⟨e, List.getElem?_mem hi, he⟩
  have hs := rbtree_find_spec get_key comp key t.root .head p hp
  simp only [rbtree_path.before, rbtree_path.after, List.nil_append, List.append_nil] at hs
  have hfind : t.find get_key comp key = p.iterator := by
    simp [rbtree_base.find, hp]
  have hdec : t.root.in_order =
      (p.path.before ++ p.left.in_order) ++ p.value :: (p.right.in_order ++ p.path.after) := by
    rw [← hs.1]; simp
  have hat : t.root.in_order[p.iterator]? = some p.value := by
    rw [hdec]
    have : p.iterator = (p.path.before ++ p.left.in_order).length := by
      simp [rbtree_cursor.iterator]
    rw [this]
    exact getElem?_append_cons_length _ _ _
  rw [hfind]
  exact keys_increasing_equiv_unique get_key h _ ht key _ _ _ _ hat hi
    (by simp [equiv, hs.2.1, hs.2.2]) he

theorem equiv_symm {α : Type} (comp : α → α → Bool) (a b : α) :
    equiv comp a b = equiv comp b a := by
  unfold equiv
  cases comp a b <;> cases comp b a <;> rfl

theorem map.try_emplace_impl_spec {κ τ : Type} (comp : κ → κ → Bool)
    (h : strict_weak_order comp) (m : rbtree_base (κ × τ))
    (hinc : keys_increasing Prod.fst comp m.root.in_order) (key : κ) (mapped : τ) :
    ((∃ e ∈ m.root.in_order, equiv comp e.1 key = true) →
      ∃ it e, map.try_emplace_impl comp m key mapped = (m, (it, false)) ∧
        m.root.in_order[it]? = some e ∧ equiv comp e.1 key = true) ∧
    ((∀ e ∈ m.root.in_order, equiv comp e.1 key = false) →
      ∃ m2 it, map.try_emplace_impl comp m key mapped = (m2, (it, true)) ∧
        m2.root.in_order[it]? = some (key, mapped) ∧
        m2.root.in_order.eraseIdx it = m.root.in_order ∧ m2.size = m.size + 1) := by
  have hio := rbtree_find_insert_unique_pos_in_order Prod.fst comp key m.root .head (-1)
  simp only [rbtree_path.before, rbtree_path.after, List.nil_append, List.append_nil] at hio
  have hfound := rbtree_unique_pos_found_iff Prod.fst h key m.root hinc
  have hbounds := rbtree_find_insert_unique_pos_bounds Prod.fst h key m.root .head (-1) hinc
    (by decide) (by simp [rbtree_path.before]) (by simp [rbtree_path.after])
  constructor
  · rintro ⟨e, he, heq⟩
    have h0 : (rbtree_find_insert_unique_pos Prod.fst comp key m.root .head (-1)).second = 0 :=
      hfound.mpr (List.any_eq_true.mpr ⟨e, he, heq⟩)
    rcases hbounds with ⟨_, c, l, v, r, hn, h1, h2⟩ | ⟨hne, _⟩
    · refine ⟨(rbtree_find_insert_unique_pos Prod.fst comp key m.root .head (-1)).iterator, v,
        ?_, ?_, by simp [equiv, h1, h2]⟩
      · unfold map.try_emplace_impl
        simp only [h0, if_true]
      · unfold rbtree_unique_pos.iterator
        rw [hn]
        simp only
        rw [← hio, hn]
        simp only [rbtree_node.in_order, List.append_assoc]
        rw [← List.append_assoc, ← List.length_append]
        exact getElem?_append_cons_length _ _ _
    · exact absurd h0 hne
  · intro hnone
    have hne : ¬ (rbtree_find_insert_unique_pos Prod.fst comp key m.root .head (-1)).second =
        0 := by
      intro h0
      obtain ⟨x, hx, heq⟩ := List.any_eq_true.mp (hfound.mp h0)
      rw [hnone x hx] at heq
      exact absurd heq (by simp)
    rcases hbounds with ⟨h0, _⟩ | ⟨_, hnil, _, _⟩
    · exact absurd h0 hne
    · rw [hnil] at hio
      simp only [rbtree_node.in_order, List.append_nil] at hio
      have hnew := rbtree_base.link_new_element m _ (key, mapped) hio
      refine ⟨⟨rbtree_insert (rbtree_find_insert_unique_pos Prod.fst comp key m.root .head
        (-1)).first (key, mapped), m.size_ + 1, m.alloc⟩,
        (rbtree_find_insert_unique_pos Prod.fst comp key m.root .head (-1)).first.before.length,
        ?_, hnew.1, hnew.2, rfl⟩
      unfold map.try_emplace_impl
      simp only [hne, if_false]

/-- C35: for a strict weak ordering `comp`, every map `m` with strictly increasing keys, every
key `k` and value `v`: after `m.insert_or_assign(k, v)` the iterator returned is the one that
`find(k)` gives, and its entry has a key equivalent to `k` and the mapped value `v`; the flag
returned is true exactly when `m` held no key equivalent to `k`; in that case `size()` has grown
by one and the other entries are those of before in their order; otherwise `size()` is
unchanged and the entries are those of before, with their keys, but for the mapped value of
the entry found. -/
theorem map_insert_or_assign_sets_mapped_value {κ τ : Type} (comp : κ → κ → Bool)
    (h : strict_weak_order comp) (m : rbtree_base (κ × τ))
    (hinc : keys_increasing Prod.fst comp m.root.in_order) (k : κ) (v : τ) :
    ∃ m2 it flag k2, map.insert_or_assign comp m k v = (m2, (it, flag)) ∧
      m2.find Prod.fst comp k = it ∧ m2.root.in_order[it]? = some (k2, v) ∧
      equiv comp k2 k = true ∧ map.read m2 it = some v ∧
      (flag = true ↔ ∀ e ∈ m.root.in_order, equiv comp e.1 k = false) ∧
      (flag = true → m2.size = m.size + 1 ∧ m2.root.in_order.eraseIdx it = m.root.in_order) ∧
      (flag = false → m2.size = m.size ∧ ∃ old, m.root.in_order[it]? = some (k2, old) ∧
        m2.root.in_order = m.root.in_order.set it (k2, v)) := by
  obtain ⟨hpres, habs⟩ := map.try_emplace_impl_spec comp h m hinc k v
  by_cases hex : ∃ e ∈ m.root.in_order, equiv comp e.1 k = true
  · obtain ⟨it, e, hr, hat, heq⟩ := hpres hex
    have hlt : it < m.root.in_order.length := (List.getElem?_eq_some.mp hat).1
    obtain ⟨A, x, B, hdec, hAl, hmod⟩ :=
      rbtree_node.modify_at_in_order (fun e : κ × τ => (e.1, v)) m.root it hlt
    have hxe : x = e := by
      rw [hdec, ← hAl, getElem?_append_cons_length] at hat
      exact Option.some.inj hat
    subst hxe
    have hin : (map.write m it v).root.in_order = A ++ (x.1, v) :: B := hmod
    have hat2 : (map.write m it v).root.in_order[it]? = some (x.1, v) := by
      rw [hin, ← hAl]
      exact getElem?_append_cons_length _ _ _
    have hinc2 : keys_increasing Prod.fst comp (map.write m it v).root.in_order := by
      unfold keys_increasing at hinc ⊢
      rw [hin]
      rw [hdec] at hinc
      simp only [List.pairwise_append, List.pairwise_cons, List.mem_cons, forall_eq_or_imp]
        at hinc ⊢
      exact hinc
    refine ⟨map.write m it v, it, false, x.1, ?_, ?_, hat2, heq, ?_, ?_, ?_, ?_⟩
    · unfold map.insert_or_assign
      simp only [hr, Bool.not_false, if_true]
    · exact rbtree_base.find_at Prod.fst h _ hinc2 k it (x.1, v) hat2
        (by rw [equiv_symm]; exact heq)
    · unfold map.read
      rw [hat2]
      rfl
    · simp only [Bool.false_eq_true, false_iff, not_forall]
      obtain ⟨e, he, hee⟩ := hex
      exact ⟨e, he, by simp [hee]⟩
    · intro hc
      exact absurd hc (by simp)
    · intro _
      refine ⟨rfl, x.2, ?_, ?_⟩
      · rw [hdec, ← hAl, getElem?_append_cons_length]
      · rw [hin, hdec, ← hAl]
        simp
  · have hnone : ∀ e ∈ m.root.in_order, equiv comp e.1 k = false := by
      intro e he
      cases hc : equiv comp e.1 k with
      | false => rfl
      | true => exact absurd ⟨e, he, hc⟩ hex
    obtain ⟨m2, it, hr, hat, her, hsz⟩ := habs hnone
    have hinc2 : keys_increasing Prod.fst comp m2.root.in_order := by
      have := map.try_emplace_increasing h m k v hinc
      unfold map.try_emplace at this
      rw [hr] at this
      exact this
    refine ⟨m2, it, true, k, ?_, ?_, hat, by simp [equiv, h.irrefl], ?_, ?_, ?_, ?_⟩
    · unfold map.insert_or_assign
      simp only [hr, Bool.not_true, Bool.false_eq_true, if_false]
    · exact rbtree_base.find_at Prod.fst h _ hinc2 k it (k, v) hat (by simp [equiv, h.irrefl])
    · unfold map.read
      rw [hat]
      rfl
    · simp only [true_iff]
      exact hnone
    · intro _
      exact ⟨hsz, her⟩
    · intro hc
      exact absurd hc (by simp)

theorem map_insert_or_assign_sets_mapped_value_witness :
    ∃ m2 it flag k2, map.insert_or_assign (fun a b : Nat => decide (a < b))
        (⟨.node .black (.node .red .nil (1, "a") .nil) (2, "b") .nil, 2, 0⟩ :
          rbtree_base (Nat × String)) 2 "z" = (m2, (it, flag)) ∧
      m2.find Prod.fst (fun a b : Nat => decide (a < b)) 2 = it ∧
      m2.root.in_order[it]? = some (k2, "z") ∧ map.read m2 it = some "z" :=
  have ⟨m2, it, flag, k2, h1, h2, h3, _, h5, _⟩ := map_insert_or_assign_sets_mapped_value
    (fun a b : Nat => decide (a < b)) nat_lt_strict_weak_order
    (⟨.node .black (.node .red .nil (1, "a") .nil) (2, "b") .nil, 2, 0⟩ :
      rbtree_base (Nat × String)) (by unfold keys_increasing; decide) 2 "z"
  ⟨m2, it, flag, k2, h1, h2, h3, h5⟩

/-! ## The bins of `list::sort` as a binary counter -/

theorem sort_rounds_eq {α : Type} (comp : α → α → Bool) (k : Nat) (head : List α)
    (bins : List (List α)) :
    sort_rounds comp k head bins = (head.drop k, sort_loop comp (head.take k) bins) := by
  induction k generalizing head bins with
  | zero => simp [sort_rounds, sort_loop]
  | succ k ih =>
    cases head with
    | nil => simp [sort_rounds, sort_loop]
    | cons p head => simp [sort_rounds, sort_loop, ih]

/-- The whole `while` loop of `list::sort` is the run of as many rounds as the list is long. -/
theorem sort_rounds_all {α : Type} (comp : α → α → Bool) (head : List α)
    (bins : List (List α)) :
    sort_rounds comp head.length head bins = ([], sort_loop comp head bins) := by
  rw [sort_rounds_eq]
  simp

theorem sort_rounds_succ {α : Type} (comp : α → α → Bool) (k : Nat) (head : List α)
    (bins : List (List α)) (hk : k < head.length) :
    (sort_rounds comp (k + 1) head bins).2 =
      sort_step comp (head.get ⟨k, hk⟩) (sort_rounds comp k head bins).2 := by
  induction k generalizing head bins with
  | zero =>
    cases head with
    | nil => exact absurd hk (by simp)
    | cons p head => simp [sort_rounds]
  | succ k ih =>
    cases head with
    | nil => exact absurd hk (by simp)
    | cons p head =>
      have hk2 : k < head.length := by simpa using hk
      have := ih head (sort_step comp p bins) hk2
      simp only [sort_rounds] at this ⊢
      rw [this]
      rfl

theorem bin_counter_lt {α : Type} (j k : Nat) (bins : List (List α))
    (h : bin_counter j k bins) : k < 2 ^ bins.length := by
  induction bins generalizing j k with
  | nil =>
    simp only [bin_counter] at h
    simp [h]
  | cons b bins ih =>
    simp only [bin_counter] at h
    have := ih _ _ h.2
    simp only [List.length_cons, pow_succ]
    omega

theorem bin_counter_testBit {α : Type} (j k : Nat) (bins : List (List α))
    (h : bin_counter j k bins) (i : Nat) :
    (bins.getD i []).length = if k.testBit i then 2 ^ (j + i) else 0 := by
  induction bins generalizing j k i with
  | nil =>
    simp only [bin_counter] at h
    simp [h]
  | cons b bins ih =>
    simp only [bin_counter] at h
    cases i with
    | zero =>
      simp only [List.getD_cons_zero, Nat.testBit_zero, Nat.add_zero, h.1]
      rcases Nat.mod_two_eq_zero_or_one k with h0 | h1
      · simp [h0]
      · simp [h1]
    | succ i =>
      simp only [List.getD_cons_succ, Nat.testBit_succ]
      rw [ih _ _ h.2 i]
      have : j + 1 + i = j + (i + 1) := by omega
      rw [this]

theorem sort_carry_full {α : Type} (comp : α → α → Bool) (j k : Nat) (tmp : List α)
    (bins : List (List α)) (h : bin_counter j k bins)
    (hfull : (sort_carry comp tmp bins).1 = bins.length) : k + 1 = 2 ^ bins.length := by
  induction bins generalizing j k tmp with
  | nil =>
    simp only [bin_counter] at h
    simp [h]
  | cons b bins ih =>
    simp only [bin_counter] at h
    unfold sort_carry at hfull
    split at hfull
    · simp at hfull
    · rename_i hb
      simp only [List.length_cons, Nat.add_right_cancel_iff] at hfull
      have hrec := ih _ _ _ h.2 hfull
      have hb2 : b.length ≠ 0 := by
        intro h0
        exact hb (by simp [dllist_is_empty, List.length_eq_zero.mp h0])
      have hk1 : k % 2 = 1 := by
        rcases Nat.mod_two_eq_zero_or_one k with h0 | h1
        · rw [h.1, h0] at hb2
          exact absurd (by simp) hb2
        · exact h1
      simp only [List.length_cons, pow_succ]
      omega

/-- Filing a run of `2 ^ j` elements into bins that hold the digits of `k` from bin `j` on
leaves the digits of `k + 1`. -/
theorem sort_carry_counter {α : Type} (comp : α → α → Bool) (j k : Nat) (tmp : List α)
    (bins : List (List α)) (h : bin_counter j k bins) (ht : tmp.length = 2 ^ j) :
    bin_counter j (k + 1)
      ((if (sort_carry comp tmp bins).1 = (sort_carry comp tmp bins).2.2.length
          then (sort_carry comp tmp bins).2.2 ++ [dllist_make_cycle []]
          else (sort_carry comp tmp bins).2.2).set (sort_carry comp tmp bins).1
        (dllist_insert_after
          ((if (sort_carry comp tmp bins).1 = (sort_carry comp tmp bins).2.2.length
            then (sort_carry comp tmp bins).2.2 ++ [dllist_make_cycle []]
            else (sort_carry comp tmp bins).2.2).getD (sort_carry comp tmp bins).1 [])
          (sort_carry comp tmp bins).2.1)) := by
  induction bins generalizing j k tmp with
  | nil =>
    simp only [bin_counter] at h
    subst h
    simp [sort_carry, dllist_make_cycle, dllist_insert_after, bin_counter, ht]
  | cons b bins ih =>
    simp only [bin_counter] at h
    unfold sort_carry
    split
    · rename_i hb
      have hb0 : b = [] := by simpa [dllist_is_empty] using hb
      subst hb0
      have hk0 : k % 2 = 0 := by
        rcases Nat.mod_two_eq_zero_or_one k with h0 | h1
        · exact h0
        · have := h.1
          rw [h1] at this
          have hp := Nat.two_pow_pos j
          simp only [List.length_nil, Nat.one_mul] at this
          omega
      have e1 : (k + 1) % 2 = 1 := by omega
      have e2 : (k + 1) / 2 = k / 2 := by omega
      simp [dllist_insert_after, bin_counter, ht, e1, e2, h.2]
    · rename_i hb
      have hb2 : b.length ≠ 0 := by
        intro h0
        exact hb (by simp [dllist_is_empty, List.length_eq_zero.mp h0])
      have hk1 : k % 2 = 1 := by
        rcases Nat.mod_two_eq_zero_or_one k with h0 | h1
        · rw [h.1, h0] at hb2
          exact absurd (by simp) hb2
        · exact h1
      have e1 : (k + 1) % 2 = 0 := by omega
      have e2 : (k + 1) / 2 = k / 2 + 1 := by omega
      have hm : (merge_impl comp tmp b).1.length = 2 ^ (j + 1) := by
        rw [(merge_impl_perm comp tmp b).length_eq, List.length_append, ht, h.1, hk1, pow_succ]
        omega
      have hrec := ih (j + 1) (k / 2) (merge_impl comp tmp b).1 h.2 hm
      simp only [List.length_cons, Nat.add_right_cancel_iff, List.set_cons_succ,
        List.getD_cons_succ, bin_counter, e1, e2, merge_impl_snd, List.length_nil, Nat.zero_mul,
        true_and]
      split
      · rename_i hc
        simp only [hc, if_true] at hrec
        refine ⟨by simp [e1], ?_⟩
        rw [e2]
        simpa [hc] using hrec
      · rename_i hc
        simp only [hc, if_false] at hrec
        refine ⟨by simp [e1], ?_⟩
        rw [e2]
        simpa [hc] using hrec

theorem sort_step_counter {α : Type} (comp : α → α → Bool) (p : α) (k : Nat)
    (bins : List (List α)) (h : bin_counter 0 k bins) (hlen : bins.length ≤ max_bins)
    (hk : k + 1 < 2 ^ max_bins) : bin_counter 0 (k + 1) (sort_step comp p bins) := by
  have hne : ¬ (sort_carry comp [p] bins).1 = max_bins := by
    intro hc
    have hl := sort_carry_length comp [p] bins
    have hfull : (sort_carry comp [p] bins).1 = bins.length := by omega
    have := sort_carry_full comp 0 k [p] bins h hfull
    rw [← hfull, hc] at this
    omega
  have := sort_carry_counter comp 0 k [p] bins h (by simp)
  unfold sort_step
  simp only [dllist_insert_before, List.take_nil, List.drop_nil, List.nil_append,
    List.append_nil, hne, if_false]
  exact this

theorem sort_rounds_counter {α : Type} (comp : α → α → Bool) (k : Nat) (head : List α)
    (hk : k ≤ head.length) (hk2 : k < 2 ^ max_bins) :
    bin_counter 0 k (sort_rounds comp k head []).2 ∧
      (sort_rounds comp k head []).2.length ≤ max_bins := by
  induction k with
  | zero => simp [sort_rounds, bin_counter]
  | succ k ih =>
    have hlt : k < head.length := hk
    obtain ⟨hc, hl⟩ := ih (by omega) (by omega)
    rw [sort_rounds_succ comp k head [] hlt]
    exact ⟨sort_step_counter comp _ k _ hc hl hk2, (sort_step_length comp _ _ hl).1⟩

/-- C31: in `list::sort` with a strict weak ordering `comp`, after `k` elements have been pulled
from the list and filed, for `k` up to the length of the list and below `2 ^ 25` (so for every
`k` below `2 ^ 24`): the list left is the original one without its first `k` elements, at most
25 bins are in use, bit `i` of `k` is set exactly when bin `i` is in use and non-empty, a
non-empty bin `i` holds exactly `2 ^ i` elements, every bin is sorted under `comp`, and the bins
together with the list left hold exactly the original elements. -/
theorem list_sort_bins_form_binary_counter {α : Type} (comp : α → α → Bool)
    (h : strict_weak_order comp) (l : list α) (k : Nat) (hk : k ≤ l.nodes.length)
    (hk2 : k < 2 ^ 25) :
    (sort_rounds comp k l.nodes []).1 = l.nodes.drop k ∧
      (sort_rounds comp k l.nodes []).2.length ≤ max_bins ∧
      (∀ i, k.testBit i = true ↔
        ∃ b, (sort_rounds comp k l.nodes []).2[i]? = some b ∧ b ≠ []) ∧
      (∀ i b, (sort_rounds comp k l.nodes []).2[i]? = some b → b ≠ [] → b.length = 2 ^ i) ∧
      bins_ordered comp (sort_rounds comp k l.nodes []).2 ∧
      ((sort_rounds comp k l.nodes []).2.flatten ++ (sort_rounds comp k l.nodes []).1).Perm
        l.nodes := by
  obtain ⟨hc, hl⟩ := sort_rounds_counter comp k l.nodes hk hk2
  have hbit := bin_counter_testBit 0 k _ hc
  have hget : ∀ i b, (sort_rounds comp k l.nodes []).2[i]? = some b →
      (sort_rounds comp k l.nodes []).2.getD i [] = b := by
    intro i b hb
    simp [List.getD_eq_getElem?_getD, hb]
  refine ⟨by rw [sort_rounds_eq], hl, ?_, ?_, ?_, ?_⟩
  · intro i
    have hi := hbit i
    constructor
    · intro ht
      rw [ht] at hi
      simp only [if_true, Nat.zero_add] at hi
      cases hb : (sort_rounds comp k l.nodes []).2[i]? with
      | none =>
        have hp := Nat.two_pow_pos i
        simp only [List.getD_eq_getElem?_getD, hb, Option.getD_none, List.length_nil] at hi
        omega
      | some b =>
        refine ⟨b, rfl, ?_⟩
        rw [hget i b hb] at hi
        intro hnil
        have hp := Nat.two_pow_pos i
        rw [hnil, List.length_nil] at hi
        omega
    · rintro ⟨b, hb, hne⟩
      rw [hget i b hb] at hi
      cases ht : k.testBit i with
      | true => rfl
      | false =>
        rw [ht] at hi
        simp only [Bool.false_eq_true, if_false] at hi
        exact absurd (List.length_eq_zero.mp hi) hne
  · intro i b hb hne
    have hi := hbit i
    rw [hget i b hb] at hi
    cases ht : k.testBit i with
    | true =>
      rw [ht] at hi
      simpa using hi
    | false =>
      rw [ht] at hi
      simp only [Bool.false_eq_true, if_false] at hi
      exact absurd (List.length_eq_zero.mp hi) hne
  · rw [sort_rounds_eq]
    exact sort_loop_ordered h _ _ (by intro b hb; simp at hb)
  · rw [sort_rounds_eq]
    have := sort_loop_perm comp (l.nodes.take k) []
    simp only [List.flatten_nil, List.append_nil] at this
    refine (List.Perm.append_right _ this).trans ?_
    rw [List.take_append_drop]

theorem list_sort_bins_form_binary_counter_witness :
    (sort_rounds (fun a b : Nat => decide (a < b)) 3 [5, 3, 8, 1, 9, 2] []).1 = [1, 9, 2] ∧
      (∀ i, Nat.testBit 3 i = true ↔
        ∃ b, (sort_rounds (fun a b : Nat => decide (a < b)) 3 [5, 3, 8, 1, 9, 2] []).2[i]? =
          some b ∧ b ≠ []) ∧
      sort_rounds (fun a b : Nat => decide (a < b)) 3 [5, 3, 8, 1, 9, 2] [] =
        ([1, 9, 2], [[8], [3, 5]]) :=
  have h := list_sort_bins_form_binary_counter (fun a b : Nat => decide (a < b))
    nat_lt_strict_weak_order ⟨[5, 3, 8, 1, 9, 2], 6, 0⟩ 3 (by decide) (by decide)
  ⟨h.1, h.2.2.1, by decide⟩

end util
